import Mathlib

/-!
# Shallow embedding of the BGV evaluator (`bgv/evaluator.go`)

The definitions follow the Go source function by function.  Machine words are natural
numbers; every `uint64` addition and subtraction that could leave the word range is
wrapped explicitly with `add64` / `sub64`.  Ciphertexts live in a store addressed by
references, so that an output may be the same object as an input.  A Go `error` is part
of the value a call returns; panics and loop fuel are kept apart in the `Outcome` type.
-/

namespace Bgv

/-! ## Outcomes of a Go call -/

/-- Result of running a Go function: a normal return (an `error` result is part of the
returned value), a `panic`, or the loop budget of the model running out. -/
inductive Outcome (α : Type) where
  | ok : α → Outcome α
  | panic : String → Outcome α
  | outOfFuel : Outcome α
deriving DecidableEq, Repr

/-! ## Machine arithmetic -/

/-- The number of values of a `uint64`. -/
def word : Nat := 18446744073709551616

/-- Go `x + y` on `uint64`. -/
def add64 (x y : Nat) : Nat := (x + y) % word

/-- Go `x - y` on `uint64` (two's complement wrap-around). -/
def sub64 (x y : Nat) : Nat := (x % word + word - y % word) % word

/-- Modelled from the spec: `ring.BRed` is not part of the sources at hand; the spec
describes it as the Barrett-style modular multiplication, `x*y mod q`. -/
def BRed (x y q : Nat) : Nat := (x * y) % q

/-- Modelled from the spec: `ring.CRed` is not part of the sources at hand; it is the
conditional reduction of a value below `2q` into `[0, q)`. -/
def CRed (a q : Nat) : Nat := if a ≥ q then sub64 a q else a

/-- Modelled from the spec: `ring.ModExp` is not part of the sources at hand; it is the
modular exponentiation `x^e mod p`. -/
def ModExp (x e p : Nat) : Nat := (x ^ e) % p

/-- Modelled from the spec: `utils.GCD` is not part of the sources at hand; it is the
greatest common divisor of two words. -/
def GCD (a b : Nat) : Nat := Nat.gcd a b

/-- Source `center(x, thalf, t)`. -/
def center (x thalf t : Nat) : Nat :=
  if x ≥ thalf then sub64 t x else x

/-! ## Scale matching -/

/-- Local variables of `matchScalesBinary` that are live across loop iterations. -/
structure MatchState where
  a : Nat
  b : Nat
  A : Nat
  B : Nat
  r0 : Nat
  r1 : Nat
  e : Nat
deriving DecidableEq, Repr

/-- One execution of the body of `for A != 0 { ... }` in `matchScalesBinary`. -/
def matchStep (t : Nat) (s : MatchState) : MatchState :=
  let tHalf := t / 2
  let q := s.a / s.A
  let a1 := s.A
  let A1 := s.a % s.A
  let b1 := s.B
  let B1 := CRed (sub64 (add64 t s.b) (BRed s.B q t)) t
  if A1 ≠ 0 ∧ GCD A1 t = 1 then
    let tmp := add64 (center A1 tHalf t) (center B1 tHalf t)
    if tmp < s.e then
      { a := a1, b := b1, A := A1, B := B1, r0 := A1, r1 := B1, e := tmp }
    else
      { a := a1, b := b1, A := A1, B := B1, r0 := s.r0, r1 := s.r1, e := s.e }
  else
    { a := a1, b := b1, A := A1, B := B1, r0 := s.r0, r1 := s.r1, e := s.e }

/-- The loop `for A != 0 { ... }`, with an explicit iteration budget: `none` means the
budget ran out before `A` reached zero. -/
def matchLoop (t : Nat) : Nat → MatchState → Option MatchState
  | 0, _ => none
  | fuel + 1, s => if s.A = 0 then some s else matchLoop t fuel (matchStep t s)

/-- The state with which `matchScalesBinary` enters its loop. The named results `r0`,
`r1` hold Go's zero value. -/
def matchInit (t scale0 scale1 : Nat) : MatchState :=
  let tHalf := t / 2
  let A := BRed (ModExp scale0 (sub64 t 2) t) scale1 t
  { a := t, b := 0, A := A, B := 1, r0 := 0, r1 := 0, e := add64 (center A tHalf t) 1 }

/-- Source `matchScalesBinary(scale0, scale1)` for plaintext modulus `t`, run with loop
budget `fuel`. -/
def matchScalesBinaryFuel (fuel t scale0 scale1 : Nat) : Outcome (Nat × Nat × Nat) :=
  if GCD scale0 t ≠ 1 then
    .panic "cannot matchScalesBinary: invalid ciphertext scale: gcd(scale, t) != 1"
  else
    match matchLoop t fuel (matchInit t scale0 scale1) with
    | none => .outOfFuel
    | some s => .ok (s.r0, s.r1, s.e)

/-- Source `matchScalesBinary(scale0, scale1)`; the remainder `A` is below `t` and drops
at every iteration, so `t + 1` iterations always suffice (`matchLoop_terminates`). -/
def matchScalesBinary (t scale0 scale1 : Nat) : Outcome (Nat × Nat × Nat) :=
  matchScalesBinaryFuel (t + 1) t scale0 scale1

/-- The invariant of the loop: `b`, `B` stay reduced, `a = b*A0` and `A = B*A0` modulo
`t`, and the recorded pair is either Go's zero value or a coprime pair on the same
line. -/
structure MatchInv (t A0 : Nat) (s : MatchState) : Prop where
  hb : s.b < t
  hB : s.B < t
  ha : s.b * A0 ≡ s.a [MOD t]
  hA : s.B * A0 ≡ s.A [MOD t]
  hr : (s.r0 = 0 ∧ s.r1 = 0) ∨
    (s.r0 ≠ 0 ∧ Nat.gcd s.r0 t = 1 ∧ s.r1 < t ∧ s.r1 * A0 ≡ s.r0 [MOD t])

/-! ## Data model -/

/-- A `ring.Poly`: `Coeffs[i][j]` is coefficient `j` modulo the `i`-th prime of the chain. -/
abbrev Poly := List (List Nat)

/-- Source `rlwe.MetaData`: the plaintext scale (a value modulo `T`) and the two
representation flags. -/
structure MetaData where
  PlaintextScale : Nat
  IsNTT : Bool
  IsMontgomery : Bool
deriving DecidableEq, Repr

/-- A `rlwe.Ciphertext` (an `OperandQ`): its polynomials and its metadata. -/
structure Ciphertext where
  Value : List Poly
  MetaData : MetaData
deriving DecidableEq, Repr

/-- The part of `bgv.Parameters` the evaluator reads: the chain `Q` of `RingQ`, the
plaintext modulus `T` of `RingT`, the ring degree, and the auxiliary chain `QMul` of
`RingQMul`. -/
structure Parameters where
  Q : List Nat
  T : Nat
  N : Nat
  QMul : List Nat
deriving DecidableEq, Repr

/-- Ciphertexts are handled through pointers; a reference is an address. -/
abbrev Ref := Nat

/-- The store of ciphertexts the pointers of a call refer to. -/
abbrev Heap := Ref → Ciphertext

/-- Assignment through a pointer. -/
def Heap.set (h : Heap) (r : Ref) (c : Ciphertext) : Heap :=
  fun x => if x = r then c else h x

/-- The `i`-th prime of the chain `Q`. -/
def modulusAt (Q : List Nat) (i : Nat) : Nat := Q.getD i 1

/-- Modelled from the spec: `ring.Poly.Level` is not part of the sources at hand; a level
is the index of the last residue row, as in `Plaintext.Level` (`len(Coeffs) - 1`). -/
def Poly.Level (p : Poly) : Nat := p.length - 1

/-- Modelled from the spec: `ring.NewPoly` is not part of the sources at hand; it is the
zero polynomial with `level + 1` residue rows of `N` coefficients. -/
def NewPoly (N level : Nat) : Poly := List.replicate (level + 1) (List.replicate N 0)

/-- Modelled from the spec: `ring.Poly.Resize` is not part of the sources at hand; it
truncates the residue rows to the first `level + 1`, or appends zero rows up to them. -/
def Poly.Resize (level : Nat) (p : Poly) : Poly :=
  if p.Level > level then p.take (level + 1)
  else if level > p.Level then
    p ++ List.replicate (level - p.Level) (List.replicate (p.headD []).length 0)
  else p

/-- Modelled from the spec: `OperandQ.Degree` is not part of the sources at hand; the
degree is the number of polynomials minus one. -/
def Ciphertext.Degree (ct : Ciphertext) : Nat := ct.Value.length - 1

/-- Modelled from the spec: `OperandQ.Level` is not part of the sources at hand; the level
of a ciphertext is the level of its first polynomial. -/
def Ciphertext.Level (ct : Ciphertext) : Nat := (ct.Value.headD []).Level

/-- Modelled from the spec: `OperandQ.Resize(degree, level)` is not part of the sources at
hand; it brings every polynomial to `level` when the level differs, then drops the
polynomials above `degree` or appends zero polynomials up to `degree`. -/
def Ciphertext.Resize (degree level : Nat) (ct : Ciphertext) : Ciphertext :=
  let vals := if ct.Level ≠ level then ct.Value.map (Poly.Resize level) else ct.Value
  let N := ((ct.Value.headD []).headD []).length
  let vals2 :=
    if vals.length - 1 > degree then vals.take (degree + 1)
    else if vals.length - 1 < degree then
      vals ++ List.replicate (degree - (vals.length - 1)) (NewPoly N level)
    else vals
  { ct with Value := vals2 }

/-! ## Scale arithmetic -/

/-- Modelled from the spec: `Parameters.NewScale` is not part of the sources at hand; it
wraps a word as a scale of the plaintext ring. -/
def NewScale (x : Nat) : Nat := x

/-- Modelled from the spec: `Scale.Mul` is not part of the sources at hand; the spec
gives `Multiply(s1, s2)` as the product in `Z/TZ`. -/
def ScaleMul (T s1 s2 : Nat) : Nat := (s1 * s2) % T

/-- Modelled from the spec: the modular inverse behind `Scale.Div` is not part of the
sources at hand; it is the residue `x < T` with `s*x = 1` in `Z/TZ`, when there is one. -/
def modInverse (T s : Nat) : Option Nat :=
  (List.range T).find? (fun x => (s * x) % T == 1 % T)

/-- Modelled from the spec: `Scale.Div` is not part of the sources at hand; the spec
gives `Divide(s1, s2)` as multiplication by the modular inverse, failing when
`gcd(s2, T) ≠ 1`. -/
def ScaleDiv (T s1 s2 : Nat) : Option Nat :=
  if Nat.gcd s2 T ≠ 1 then none
  else (modInverse T s2).map (fun i => (s1 * i) % T)

/-! ## Ring backend -/

/-- Applies `f i row` to the rows of a polynomial, `i` counting from `start`. -/
def mapRows (f : Nat → List Nat → List Nat) : Nat → Poly → Poly
  | _, [] => []
  | i, row :: rest => f i row :: mapRows f (i + 1) rest

/-- Modelled from the spec: `ring.Ring.MulScalar` is not part of the sources at hand; at
level `level` it writes `p1 * scalar` residue-wise into the first `level + 1` rows of
`p2`. -/
def MulScalar (Q : List Nat) (level : Nat) (p1 : Poly) (scalar : Nat) (p2 : Poly) : Poly :=
  mapRows (fun i row2 =>
    if i ≤ level then (p1.getD i []).map (fun x => (x * scalar) % modulusAt Q i)
    else row2) 0 p2

/-- The primitives of the ring backend and of the key-switching layer that the
evaluator consumes without reimplementing them. -/
structure Backend where
  /-- The call `ringQ.AtLevel(level).DivRoundByLastModulusNTT(p1, buff, p2)`: the new
  content of `p2`. -/
  DivRoundByLastModulusNTT : List Nat → Nat → Poly → Poly → Poly
  /-- The call `GadgetProduct(level, c2, rlk, tmpCt)`: the two polynomials of `tmpCt`. -/
  GadgetProduct : Nat → Poly → Poly × Poly
  /-- The forward transform of one residue row modulo the given prime (`NTT`, `NTTLazy`). -/
  NTT : Nat → List Nat → List Nat
  /-- The inverse transform of one residue row modulo the given prime (`INTT`,
  `INTTLazy`). -/
  INTT : Nat → List Nat → List Nat
  /-- The call `basisExtenderQ1toQ2.ModUpQtoP(levelQ, levelP, polQ, polP)`: row `k` of
  `polP` after it, from the chains `Q`, `QMul`, the two levels and `polQ`. -/
  ModUpQtoP : List Nat → List Nat → Nat → Nat → Poly → Nat → List Nat
  /-- The call `MulScale(params, a, b, level, invariant)`. -/
  MulScale : Parameters → Nat → Nat → Nat → Bool → Nat
  /-- The call `Encoder.Encode(values, pt)`: the new polynomial of `pt`, from the values,
  the metadata and level of `pt` and its polynomial; `none` is an encoding error. -/
  Encode : List Nat → MetaData → Nat → Poly → Option Poly
  /-- The table `tInvModQ` of the encoder: one big integer per level. -/
  tInvModQ : List Nat

/-! ## `MatchScalesAndLevel` -/

/-- The two statements `for _, el := range ct.Value { ringQ.MulScalar(el, r, el) }`,
`ct.Resize(ct.Degree(), level)` and the scale update of `MatchScalesAndLevel`. -/
def scaleAndResize (p : Parameters) (level r : Nat) (ct : Ciphertext) : Ciphertext :=
  let ct1 : Ciphertext := { ct with Value := ct.Value.map (fun el => MulScalar p.Q level el r el) }
  let ct2 := ct1.Resize ct1.Degree level
  { ct2 with MetaData :=
      { ct2.MetaData with
        PlaintextScale := ScaleMul p.T ct2.MetaData.PlaintextScale (NewScale r) } }

/-- Source `MatchScalesAndLevel(ct0, ct1)`. -/
def MatchScalesAndLevel (p : Parameters) (ct0 ct1 : Ref) (h : Heap) : Outcome Heap :=
  match matchScalesBinary p.T (h ct0).MetaData.PlaintextScale
      (h ct1).MetaData.PlaintextScale with
  | .ok (r0, r1, _) =>
    let level := min (h ct0).Level (h ct1).Level
    let h1 := h.set ct0 (scaleAndResize p level r0 (h ct0))
    .ok (h1.set ct1 (scaleAndResize p level r1 (h1 ct1)))
  | .panic m => .panic m
  | .outOfFuel => .outOfFuel

/-! ## `Rescale` -/

/-- The loop `for i := range ctOut.Value { DivRoundByLastModulusNTT(ctIn.Value[i], _,
ctOut.Value[i]) }`: `none` when `ctIn.Value[i]` is out of range. -/
def rescaleLoop (be : Backend) (Q : List Nat) (level : Nat) :
    List Poly → List Poly → Option (List Poly)
  | _, [] => some []
  | [], _ :: _ => none
  | pin :: ins, pout :: outs =>
    (rescaleLoop be Q level ins outs).map
      (fun rest => be.DivRoundByLastModulusNTT Q level pin pout :: rest)

/-- Source `Rescale`, the statements after the loop, on the divided polynomials `vals`:
`ctOut.Resize(ctOut.Degree(), level-1)` and `ctOut.MetaData = ctIn.MetaData`. -/
def rescaleStore (vals : List Poly) (level : Nat) (ctIn ctOut : Ref) (h : Heap) : Heap :=
  let h1 := h.set ctOut { h ctOut with Value := vals }
  let h2 := h1.set ctOut ((h1 ctOut).Resize (h1 ctOut).Degree (level - 1))
  h2.set ctOut { h2 ctOut with MetaData := (h2 ctIn).MetaData }

/-- Source `Rescale(ctIn, ctOut)`: the store at the return and the returned `err`
(`none` is Go's `nil`). -/
def Rescale (be : Backend) (p : Parameters) (ctIn ctOut : Ref) (h : Heap) :
    Outcome (Heap × Option String) :=
  if (h ctIn).Level = 0 then
    .ok (h, some "cannot rescale: ctIn already at level 0")
  else if (h ctOut).Level < (h ctIn).Level - 1 then
    .ok (h, some "cannot rescale: ctOut.Level() < ctIn.Level()-1")
  else
    let level := (h ctIn).Level
    match rescaleLoop be p.Q level (h ctIn).Value (h ctOut).Value with
    | none => .panic "index out of range"
    | some vals =>
      let h3 := rescaleStore vals level ctIn ctOut h
      match ScaleDiv p.T (h3 ctIn).MetaData.PlaintextScale
          (NewScale (modulusAt p.Q level)) with
      | none => .panic "invalid scale"
      | some s =>
        .ok (h3.set ctOut { h3 ctOut with
          MetaData := { (h3 ctOut).MetaData with PlaintextScale := s } }, none)

/-! ## Montgomery arithmetic of the ring backend -/

/-- Modelled from the spec: the Montgomery constant `2^-64 mod q` is not part of the
sources at hand; for an odd modulus the inverse of 2 is `(q+1)/2`, whose 64th power it
is. -/
def invWord (q : Nat) : Nat := ModExp ((q + 1) / 2) 64 q

/-- Modelled from the spec: `ring.MRed` is not part of the sources at hand; it is the
Montgomery product `x*y*2^-64 mod q`. -/
def MRed (x y q : Nat) : Nat := (x * y * invWord q) % q

/-- Modelled from the spec: `ring.MForm` is not part of the sources at hand; it is the
switch to the Montgomery domain, `x*2^64 mod q`. -/
def MForm (x q : Nat) : Nat := (x * word) % q

/-- Residue row `i` of a polynomial. -/
def rowAt (p : Poly) (i : Nat) : List Nat := p.getD i []

/-- Coefficient `j` of residue row `i` of a polynomial. -/
def coeff (p : Poly) (i j : Nat) : Nat := (rowAt p i).getD j 0

/-- A level-scoped ring operation: rows `0..level` of the destination are replaced by the
computed rows, the rows above are left as they are. -/
def writeRows (level : Nat) (newRow : Nat → List Nat) (dest : Poly) : Poly :=
  mapRows (fun i old => if i ≤ level then newRow i else old) 0 dest

/-- Modelled from the spec: `ring.Ring.MulRNSScalarMontgomery` is not part of the sources
at hand; at level `level` it writes the Montgomery product of `p1` with the RNS scalar
into `p2`. -/
def MulRNSScalarMontgomery (Q : List Nat) (level : Nat) (p1 : Poly) (scalar : List Nat)
    (p2 : Poly) : Poly :=
  writeRows level
    (fun i => (rowAt p1 i).map (fun x => MRed x (scalar.getD i 0) (modulusAt Q i))) p2

/-- Modelled from the spec: `ring.Ring.MulCoeffsMontgomery` is not part of the sources at
hand; at level `level` it writes the coefficient-wise Montgomery product of `p1` and `p2`
into `p3`. -/
def MulCoeffsMontgomery (Q : List Nat) (level : Nat) (p1 p2 p3 : Poly) : Poly :=
  writeRows level
    (fun i => List.zipWith (fun x y => MRed x y (modulusAt Q i)) (rowAt p1 i) (rowAt p2 i)) p3

/-- Modelled from the spec: `ring.Ring.MulCoeffsMontgomeryThenAdd` is not part of the
sources at hand; at level `level` it adds the coefficient-wise Montgomery product of `p1`
and `p2` to `p3`, reducing conditionally. -/
def MulCoeffsMontgomeryThenAdd (Q : List Nat) (level : Nat) (p1 p2 p3 : Poly) : Poly :=
  writeRows level
    (fun i => List.zipWith (fun z m => CRed (add64 z m) (modulusAt Q i)) (rowAt p3 i)
      (List.zipWith (fun x y => MRed x y (modulusAt Q i)) (rowAt p1 i) (rowAt p2 i))) p3

/-- Modelled from the spec: `ring.Ring.Add` is not part of the sources at hand; at level
`level` it writes the coefficient-wise sum of `p1` and `p2` into `p3`, reducing
conditionally. -/
def RingAdd (Q : List Nat) (level : Nat) (p1 p2 p3 : Poly) : Poly :=
  writeRows level
    (fun i => List.zipWith (fun x y => CRed (add64 x y) (modulusAt Q i)) (rowAt p1 i)
      (rowAt p2 i)) p3

/-! ## The evaluator and standard tensoring -/

/-- The evaluator: its parameters, the external primitives it calls, and whether its key
set holds a relinearization key. -/
structure Evaluator where
  parameters : Parameters
  backend : Backend
  hasRelinearizationKey : Bool

/-- Source `newEvaluatorPrecomp`, field `tMontgomery`: `T * 2^64 mod q_i`, put in
Montgomery form, for every prime of the chain. -/
def tMontgomery (p : Parameters) : List Nat :=
  p.Q.map (fun q => MForm ((p.T * word) % q) q)

/-- A scratch polynomial `eval.buffQ[i]`: allocated once over the whole chain. -/
def buffQ (p : Parameters) : Poly := NewPoly p.N (p.Q.length - 1)

/-- The polynomial `ct.Value[k]`. -/
def getPoly (ct : Ciphertext) (k : Nat) : Poly := ct.Value.getD k []

/-- The store after writing the polynomial `Value[k]` of the ciphertext at `r`. -/
def setPoly (h : Heap) (r : Ref) (k : Nat) (v : Poly) : Heap :=
  h.set r { h r with Value := (h r).Value.set k v }

/-- Modelled from the spec: `rlwe.Evaluator.CheckBinary` is not part of the sources at
hand; the spec makes an insufficient output capacity a fatal precondition violation, and
the working level the minimum of the levels. The result is `(degree, level)`. -/
def CheckBinary (op0 op1 opOut : Ciphertext) (opOutMinDegree : Nat) : Outcome (Nat × Nat) :=
  if opOut.Degree < opOutMinDegree then .panic "opOut.Degree() degree is too small"
  else .ok (max (max op0.Degree op1.Degree) opOut.Degree,
    min (min op0.Level op1.Level) opOut.Level)

/-- Source `DropLevel(ctIn, levels)`. -/
def DropLevel (ctIn : Ref) (levels : Nat) (h : Heap) : Heap :=
  h.set ctIn ((h ctIn).Resize (h ctIn).Degree ((h ctIn).Level - levels))

/-- The relinearization tail shared by the tensoring functions: fetch the key, run the
gadget product on `c2`, add its two polynomials to `op2.Value[0]` and `op2.Value[1]`. -/
def relinearizeInto (ev : Evaluator) (level : Nat) (c2 : Poly) (op2 : Ref) (h : Heap) :
    Outcome Heap :=
  if ev.hasRelinearizationKey = false then .panic "cannot relinearize"
  else
    let tmpCt := ev.backend.GadgetProduct level c2
    let Q := ev.parameters.Q
    let h1 := setPoly h op2 0 (RingAdd Q level (getPoly (h op2) 0) tmpCt.1 (getPoly (h op2) 0))
    .ok (setPoly h1 op2 1 (RingAdd Q level (getPoly (h1 op2) 1) tmpCt.2 (getPoly (h1 op2) 1)))

/-- Source `tensorStandard`, case ciphertext (x) ciphertext, from the choice of `tmp0`,
`tmp1` on: the multiplication by `tMontgomery`, the three products, and the
relinearization when requested. `c0`, `c1` are `op2.Value[0]`, `op2.Value[1]`; `c2` is
`op2.Value[2]`, or the buffer `buffQ[2]` when relinearizing. -/
def tensorStandardProducts (ev : Evaluator) (level : Nat) (op0 op1 : Ref) (relin : Bool)
    (op2 : Ref) (h1 : Heap) : Outcome Heap :=
  let Q := ev.parameters.Q
  let tM := tMontgomery ev.parameters
  -- avoid overwriting if the second input is the output
  let tmp0 := if op1 = op2 then op1 else op0
  let tmp1 := if op1 = op2 then op0 else op1
  let c00 := MulRNSScalarMontgomery Q level (getPoly (h1 tmp0) 0) tM (buffQ ev.parameters)
  let c01 := MulRNSScalarMontgomery Q level (getPoly (h1 tmp0) 1) tM (buffQ ev.parameters)
  let h2 := setPoly h1 op2 0
    (MulCoeffsMontgomery Q level c00 (getPoly (h1 tmp1) 0) (getPoly (h1 op2) 0))
  let c2dest := if relin then buffQ ev.parameters else getPoly (h2 op2) 2
  let c2 := MulCoeffsMontgomery Q level c01 (getPoly (h2 tmp1) 1) c2dest
  let h3 := if relin then h2 else setPoly h2 op2 2 c2
  let h4 := setPoly h3 op2 1
    (MulCoeffsMontgomery Q level c00 (getPoly (h3 tmp1) 1) (getPoly (h3 op2) 1))
  let h5 :=
    if op0 = op1 then
      setPoly h4 op2 1 (RingAdd Q level (getPoly (h4 op2) 1) (getPoly (h4 op2) 1)
        (getPoly (h4 op2) 1))
    else
      setPoly h4 op2 1 (MulCoeffsMontgomeryThenAdd Q level c01 (getPoly (h4 tmp1) 0)
        (getPoly (h4 op2) 1))
  if relin then relinearizeInto ev level c2 op2 h5 else .ok h5

/-- Source `tensorStandard`, statement `if op2.Degree() < 2 { op2.Resize(2, op2.Level()) }`
of the branch without relinearization. -/
def resizeToDegree2 (relin : Bool) (op2 : Ref) (h : Heap) : Heap :=
  if relin = false ∧ (h op2).Degree < 2 then h.set op2 ((h op2).Resize 2 (h op2).Level)
  else h

/-- Source `tensorStandard`, case ciphertext (x) ciphertext (both operands of degree 1):
without relinearization the output is first resized to degree 2 when it is smaller. -/
def tensorStandardCt (ev : Evaluator) (level : Nat) (op0 op1 : Ref) (relin : Bool)
    (op2 : Ref) (h : Heap) : Outcome Heap :=
  tensorStandardProducts ev level op0 op1 relin op2 (resizeToDegree2 relin op2 h)

/-- The loop `for i := range op2.Value { MulCoeffsMontgomery(op0.Value[i], c00,
op2.Value[i]) }` of the plaintext case, over the indices still to visit. -/
def tensorStandardPtLoop (Q : List Nat) (level : Nat) (c00 : Poly) (op0 op2 : Ref) :
    List Nat → Heap → Outcome Heap
  | [], h => .ok h
  | i :: rest, h =>
    if i < (h op0).Value.length then
      tensorStandardPtLoop Q level c00 op0 op2 rest
        (setPoly h op2 i (MulCoeffsMontgomery Q level (getPoly (h op0) i) c00
          (getPoly (h op2) i)))
    else .panic "index out of range"

/-- Source `tensorStandard`, case plaintext (x) ciphertext or ciphertext (x) plaintext. -/
def tensorStandardPt (ev : Evaluator) (level : Nat) (op0 op1 op2 : Ref) (h : Heap) :
    Outcome Heap :=
  let Q := ev.parameters.Q
  let h1 := if (h op2).Degree < (h op0).Degree then
      h.set op2 ((h op2).Resize (h op0).Degree level) else h
  let c00 := MulRNSScalarMontgomery Q level (getPoly (h1 op1) 0) (tMontgomery ev.parameters)
    (buffQ ev.parameters)
  tensorStandardPtLoop Q level c00 op0 op2 (List.range (h1 op2).Value.length) h1

/-- Source `tensorStandard`, statement
`if op2.Level() > level { eval.DropLevel(op2, op2.Level()-level) }`. -/
def dropToLevel (level : Nat) (op2 : Ref) (h : Heap) : Heap :=
  if (h op2).Level > level then DropLevel op2 ((h op2).Level - level) h else h

/-- Source `tensorStandard`, statements `op2.MetaData = op0.MetaData` and
`op2.PlaintextScale = op0.PlaintextScale.Mul(op1.PlaintextScale)`, in this order, each
reading the store as the previous one left it. -/
def setOutputMetaData (T : Nat) (op0 op1 op2 : Ref) (h1 : Heap) : Heap :=
  let h2 := h1.set op2 { h1 op2 with MetaData := (h1 op0).MetaData }
  h2.set op2 { h2 op2 with MetaData :=
    { (h2 op2).MetaData with
      PlaintextScale := ScaleMul T (h2 op0).MetaData.PlaintextScale
        (h2 op1).MetaData.PlaintextScale } }

/-- Source `tensorStandard(op0, op1, relin, op2)`. -/
def tensorStandard (ev : Evaluator) (op0 op1 : Ref) (relin : Bool) (op2 : Ref) (h : Heap) :
    Outcome Heap :=
  match CheckBinary (h op0) (h op1) (h op2) (max (h op0).Degree (h op1).Degree) with
  | .panic m => .panic m
  | .outOfFuel => .outOfFuel
  | .ok (_, level) =>
    let h1 := dropToLevel level op2 h
    if (h1 op0).Degree + (h1 op1).Degree > 2 then
      .panic "cannot MulRelin: input elements total degree cannot be larger than 2"
    else
      let h3 := setOutputMetaData ev.parameters.T op0 op1 op2 h1
      if (h3 op0).Degree = 1 ∧ (h3 op1).Degree = 1 then
        tensorStandardCt ev level op0 op1 relin op2 h3
      else
        tensorStandardPt ev level op0 op1 op2 h3

/-- Source `Mul(op0, op1, op2)` for an `rlwe.Operand` second argument (the pointer
`op1.El()`). -/
def Mul (ev : Evaluator) (op0 op1 op2 : Ref) (h : Heap) : Outcome Heap :=
  tensorStandard ev op0 op1 false op2 h

/-- Source `MulRelin(op0, op1, op2)` for an `rlwe.Operand` second argument (the pointer
`op1.El()`). -/
def MulRelin (ev : Evaluator) (op0 op1 op2 : Ref) (h : Heap) : Outcome Heap :=
  tensorStandard ev op0 op1 true op2 h

/-- What `tensorStandard` does to the polynomials of its output before the products of
the ciphertext (x) ciphertext case without relinearization: the level is dropped to the
working level, then the degree is raised to 2 when it is smaller. -/
def prepareOutput (level : Nat) (ct : Ciphertext) : Ciphertext :=
  let ctA := if ct.Level > level then ct.Resize ct.Degree (ct.Level - (ct.Level - level))
    else ct
  if ctA.Degree < 2 then ctA.Resize 2 ctA.Level else ctA

/-- The invariant of the data model: a ciphertext has at least one polynomial, all its
polynomials have `Level + 1` residue rows, and every row has `N` coefficients. -/
def Ciphertext.WF (N : Nat) (ct : Ciphertext) : Prop :=
  ct.Value ≠ [] ∧ ∀ pl ∈ ct.Value, pl.length = ct.Level + 1 ∧ ∀ row ∈ pl, row.length = N

instance (N : Nat) (ct : Ciphertext) : Decidable (ct.WF N) := by
  unfold Ciphertext.WF; infer_instance

/-! ## Operands of the polymorphic operations -/

/-- The second argument `op1 interface{}` of the arithmetic operations, as the type
switches of the source tell its cases apart. -/
inductive Operand where
  /-- An `rlwe.Operand` (a ciphertext or a plaintext), through the pointer `op1.El()`. -/
  | operand : Ref → Operand
  /-- A `uint64` scalar. -/
  | scalar : Nat → Operand
  /-- A `[]uint64` vector of values. -/
  | vector : List Nat → Operand

/-- Modelled from the spec: `rlwe.Evaluator.CheckUnary` is not part of the sources at
hand; like `CheckBinary` it yields the largest degree and the smallest level, here of
the input and the output. -/
def CheckUnary (op0 opOut : Ciphertext) : Nat × Nat :=
  (max op0.Degree opOut.Degree, min op0.Level opOut.Level)

/-- A loop `for i ... { f(a.Value[i], b.Value[i], dst.Value[i]) }` over the given indices:
every step reads polynomial `i` of `a`, `b` and `dst` in the store as the previous steps
left it and writes polynomial `i` of `dst`; an index outside one of the three `Value`
slices is a panic. -/
def polyLoop2 (f : Poly → Poly → Poly → Poly) (a b dst : Ref) :
    List Nat → Heap → Outcome Heap
  | [], h => .ok h
  | i :: rest, h =>
    if i < (h a).Value.length ∧ i < (h b).Value.length ∧ i < (h dst).Value.length then
      polyLoop2 f a b dst rest
        (setPoly h dst i (f (getPoly (h a) i) (getPoly (h b) i) (getPoly (h dst) i)))
    else .panic "index out of range"

/-- A loop `for i ... { f(src.Value[i], dst.Value[i]) }` over the given indices. -/
def polyLoop (f : Poly → Poly → Poly) (src dst : Ref) (is : List Nat) (h : Heap) :
    Outcome Heap :=
  polyLoop2 (fun p1 _ p3 => f p1 p3) src src dst is h

/-- An address above all the given ones: where a newly allocated object is placed. -/
def freshRef (rs : List Ref) : Ref := rs.foldr max 0 + 1

/-- Modelled from the spec: `NewCiphertext(params, degree, level)` is not part of the
sources at hand; the spec has constructors create a ciphertext at a given level and
degree: `degree + 1` zero polynomials at `level`, here with the unit scale, in NTT
form. -/
def NewCiphertext (p : Parameters) (degree level : Nat) : Ciphertext :=
  { Value := List.replicate (degree + 1) (NewPoly p.N level),
    MetaData := { PlaintextScale := NewScale 1, IsNTT := true, IsMontgomery := false } }

/-- The statements shared by the `[]uint64` cases: `NewPlaintextAtLevelFromPoly(level,
eval.buffQ[0])` (source `rlwe/plaintext.go`), the assignment of the metadata `md`, and
`Encoder.Encode(values, pt)`, whose error is turned into a panic. The result is
`pt.El()`. -/
def newPlaintextFromBuffer (ev : Evaluator) (level : Nat) (md : MetaData)
    (values : List Nat) : Outcome Ciphertext :=
  if (buffQ ev.parameters).length < level + 1 then
    .panic "cannot NewPlaintextAtLevelFromPoly: provided ring.Poly level is too small"
  else
    match ev.backend.Encode values md level ((buffQ ev.parameters).take (level + 1)) with
    | none => .panic "cannot encode"
    | some v => .ok { Value := [v], MetaData := md }

/-- Runs `f` on a plaintext operand that none of the pointers `op0`, `op2` refers to: the
object `pt.El()` is placed at a fresh address for the call and dropped after it. -/
def withPlaintext (pt : Ciphertext) (op0 op2 : Ref) (f : Ref → Heap → Outcome Heap)
    (h : Heap) : Outcome Heap :=
  let r := freshRef [op0, op2]
  match f r (h.set r pt) with
  | .ok h1 => .ok (h1.set r (h r))
  | .panic m => .panic m
  | .outOfFuel => .outOfFuel

/-- Source `Mul(op0, op1, op2)`, case `uint64`. -/
def MulUint64 (ev : Evaluator) (op0 : Ref) (op1 : Nat) (op2 : Ref) (h : Heap) :
    Outcome Heap :=
  let level := (CheckUnary (h op0) (h op2)).2
  match polyLoop (fun p1 p2 => MulScalar ev.parameters.Q level p1 op1 p2) op0 op2
      (List.range ((h op0).Degree + 1)) h with
  | .ok h1 => .ok (h1.set op2 { h1 op2 with MetaData := (h1 op0).MetaData })
  | .panic m => .panic m
  | .outOfFuel => .outOfFuel

/-- Source `Mul(op0, op1, op2)` with its type switch; the case `rlwe.Operand` is `Mul`
above. -/
def MulAny (ev : Evaluator) (op0 : Ref) (op1 : Operand) (op2 : Ref) (h : Heap) :
    Outcome Heap :=
  match op1 with
  | .operand r => Mul ev op0 r op2 h
  | .scalar c => MulUint64 ev op0 c op2 h
  | .vector values =>
    let level := min (h op0).Level (h op2).Level
    let h1 := h.set op2 ((h op2).Resize (h op0).Degree level)
    match newPlaintextFromBuffer ev level
        { (h1 op0).MetaData with PlaintextScale := NewScale 1 } values with
    | .ok pt => withPlaintext pt op0 op2 (fun r hh => Mul ev op0 r op2 hh) h1
    | .panic m => .panic m
    | .outOfFuel => .outOfFuel

/-- Source `MulRelin(op0, op1, op2)` with its type switch; the case `rlwe.Operand` is
`MulRelin` above. -/
def MulRelinAny (ev : Evaluator) (op0 : Ref) (op1 : Operand) (op2 : Ref) (h : Heap) :
    Outcome Heap :=
  match op1 with
  | .operand r => MulRelin ev op0 r op2 h
  | .scalar c => MulAny ev op0 (.scalar c) op2 h
  | .vector values => MulAny ev op0 (.vector values) op2 h

/-! ## Invariant tensoring -/

/-- The halving loop behind `BitLen`, with a budget of iterations. -/
def bitLenLoop : Nat → Nat → Nat
  | 0, _ => 0
  | fuel + 1, n => if n = 0 then 0 else bitLenLoop fuel (n / 2) + 1

/-- Modelled from the spec: `big.Int.BitLen` is not part of the sources at hand; it is the
number of binary digits of a natural number (0 for 0). `LogN()` of a ring degree `N`, a
power of two, is `BitLen N - 1`. -/
def BitLen (n : Nat) : Nat := bitLenLoop n n

/-- Source `newEvaluatorPrecomp`, entry `levelQMul[level]`:
`int(math.Ceil(float64(Q.BitLen()+parameters.LogN())/61.0)) - 1` for the product `Q` of
the first `level + 1` primes of the chain. -/
def levelQMul (p : Parameters) (level : Nat) : Nat :=
  (BitLen ((p.Q.take (level + 1)).prod) + (BitLen p.N - 1) + 60) / 61 - 1

/-- A scratch polynomial `eval.buffQMul[i]`: allocated once over the whole auxiliary
chain. -/
def buffQMul (p : Parameters) : Poly := NewPoly p.N (p.QMul.length - 1)

/-- The ring method `NTT(p1, p2)` (and `NTTLazy`) at level `level` of the chain `Q`. -/
def RingNTT (be : Backend) (Q : List Nat) (level : Nat) (p1 p2 : Poly) : Poly :=
  writeRows level (fun i => be.NTT (modulusAt Q i) (rowAt p1 i)) p2

/-- The ring method `INTT(p1, p2)` (and `INTTLazy`) at level `level` of the chain `Q`. -/
def RingINTT (be : Backend) (Q : List Nat) (level : Nat) (p1 p2 : Poly) : Poly :=
  writeRows level (fun i => be.INTT (modulusAt Q i) (rowAt p1 i)) p2

/-- Modelled from the spec: the ring method `MForm(p1, p2)` is not part of the sources at
hand; it is the Montgomery-form conversion of the rows up to `level`. -/
def RingMForm (Q : List Nat) (level : Nat) (p1 p2 : Poly) : Poly :=
  writeRows level (fun i => (rowAt p1 i).map (fun x => MForm x (modulusAt Q i))) p2

/-- Modelled from the spec: `ring.Ring.AddLazy` is not part of the sources at hand; it is
the coefficient-wise sum without the final reduction. -/
def RingAddLazy (level : Nat) (p1 p2 p3 : Poly) : Poly :=
  writeRows level (fun i => List.zipWith add64 (rowAt p1 i) (rowAt p2 i)) p3

/-- Modelled from the spec: `ring.Ring.MulCoeffsMontgomeryThenAddLazy` is not part of the
sources at hand; it adds the coefficient-wise Montgomery product of `p1` and `p2` to `p3`
without the final reduction. -/
def MulCoeffsMontgomeryThenAddLazy (Q : List Nat) (level : Nat) (p1 p2 p3 : Poly) : Poly :=
  writeRows level
    (fun i => List.zipWith add64 (rowAt p3 i)
      (List.zipWith (fun x y => MRed x y (modulusAt Q i)) (rowAt p1 i) (rowAt p2 i))) p3

/-- The call `basisExtenderQ1toQ2.ModUpQtoP(levelQ, levelP, polQ, polP)`. -/
def ModUpQtoP (be : Backend) (Q P : List Nat) (levelQ levelP : Nat) (polQ polP : Poly) :
    Poly :=
  writeRows levelP (fun k => be.ModUpQtoP Q P levelQ levelP polQ k) polP

/-- The first `level + 1` primes of a chain. -/
def chain (Q : List Nat) (level : Nat) : List Nat := Q.take (level + 1)

/-- The residues of coefficient `j` of a polynomial in its rows `0..level`. -/
def residuesAt (p : Poly) (level j : Nat) : List Nat :=
  (List.range (level + 1)).map (fun i => coeff p i j)

/-- The natural number below the product of the prime moduli `ms` that has the residues
`rs`, rebuilt one modulus at a time: the number `x` for the later moduli, of product `M`,
is corrected by the multiple of `M` that gives the residue `r` modulo the first modulus
`m`. -/
def crt : List Nat → List Nat → Nat
  | [], _ => 0
  | _ :: _, [] => 0
  | m :: ms, r :: rs =>
    let x := crt ms rs
    let M := ms.prod
    x + M * (((r % m + m - x % m) * ModExp (M % m) (m - 2) m) % m)

/-- The representative of `x` modulo `M` that lies between `-M/2` and `M/2`. -/
def centered (x M : Nat) : Int :=
  if M < 2 * (x % M) then ((x % M : Nat) : Int) - (M : Int) else ((x % M : Nat) : Int)

/-- The integer nearest to `x / Q`. -/
def divRound (x : Int) (Q : Nat) : Int := (2 * x + (Q : Int)) / (2 * (Q : Int))

/-- Modelled from the spec: `BasisExtender.ModDownQPtoP` is not part of the sources at
hand; the spec gives `ModDown` as the exact division by the first chain's product with
centered rounding: every coefficient, a centered integer known by its residues in `Q` and
`QMul`, is divided by the product of `Q` and rounded, and the quotient is written in the
basis `QMul`. -/
def ModDownQPtoP (Q P : List Nat) (levelQ levelP : Nat) (p1Q p1P p2P : Poly) : Poly :=
  let mQ := chain Q levelQ
  let mP := chain P levelP
  writeRows levelP (fun k => (List.range (rowAt p1P k).length).map (fun j =>
    let x := centered (crt (mQ ++ mP) (residuesAt p1Q levelQ j ++ residuesAt p1P levelP j))
      (mQ.prod * mP.prod)
    (divRound x mQ.prod % ((modulusAt P k : Nat) : Int)).toNat)) p2P

/-- Modelled from the spec: `BasisExtender.ModUpPtoQ` is not part of the sources at hand;
the source comments it as centering the polynomial in the basis `QMul` and extending it
to the basis `Q`: every coefficient, a centered integer known by its residues in `QMul`,
is written in the basis `Q`. -/
def ModUpPtoQ (Q P : List Nat) (levelP levelQ : Nat) (p1P p2Q : Poly) : Poly :=
  let mP := chain P levelP
  writeRows levelQ (fun i => (List.range (rowAt p2Q i).length).map (fun j =>
    (centered (crt mP (residuesAt p1P levelP j)) mP.prod
      % ((modulusAt Q i : Nat) : Int)).toNat)) p2Q

/-- Source `quantize(level, levelQMul, c2Q1, c2Q2)`: the new contents of `c2Q1` and of
`c2Q2`. -/
def quantize (ev : Evaluator) (level lQMul : Nat) (c2Q1 c2Q2 : Poly) : Poly × Poly :=
  let p := ev.parameters
  let a1 := RingINTT ev.backend p.Q level c2Q1 c2Q1
  let a2 := RingINTT ev.backend p.QMul lQMul c2Q2 c2Q2
  -- extends the basis Q of ct(x) to the basis P and divides by Q
  let b2 := ModDownQPtoP p.Q p.QMul level lQMul a1 a2 a2
  -- centers ct(x)P and extends it to the basis Q
  let b1 := ModUpPtoQ p.Q p.QMul lQMul level b2 a1
  -- (ct(x)/Q)*T
  let d1 := MulScalar p.Q level b1 p.T b1
  (RingNTT ev.backend p.Q level d1 d1, b2)

/-- Source `modUpAndNTT(level, levelQMul, ctQ0, ctQ1)` on the polynomials of `ctQ0` and
the buffers of `ctQ1`: the new contents of the buffers. A polynomial of `ctQ0` without a
buffer in `ctQ1` is an index out of range. -/
def modUpAndNTT (ev : Evaluator) (level lQMul : Nat) :
    List Poly → List Poly → Outcome (List Poly)
  | [], bufs => .ok bufs
  | _ :: _, [] => .panic "index out of range"
  | v :: vs, b :: bs =>
    let p := ev.parameters
    let t := RingINTT ev.backend p.Q level v (buffQ p)
    let u := ModUpQtoP ev.backend p.Q p.QMul level lQMul t b
    let w := RingNTT ev.backend p.QMul lQMul u u
    match modUpAndNTT ev level lQMul vs bs with
    | .ok r => .ok (w :: r)
    | .panic m => .panic m
    | .outOfFuel => .outOfFuel

/-- Source `tensoreLowDeg`: `ct2Q0` is made of `ctOut.Value[0]`, `ctOut.Value[1]` and of
`c2`, which is `ctOut.Value[2]`, or the buffer `buffQ[2]` when relinearizing; `ct2Q1` is
the same buffers as `ct0Q1`. The result is the store, the content of `c2`, and the
buffers of `ct2Q1`. -/
def tensoreLowDeg (ev : Evaluator) (level lQMul : Nat) (ct0Q0 ct1Q0 : Ref) (relin : Bool)
    (ctOut : Ref) (ct0Q1 ct1Q1 : List Poly) (h : Heap) : Heap × Poly × List Poly :=
  let p := ev.parameters
  let c00 := RingMForm p.Q level (getPoly (h ct0Q0) 0) (buffQ p)
  let c01 := RingMForm p.Q level (getPoly (h ct0Q0) 1) (buffQ p)
  let c00M := RingMForm p.QMul lQMul (ct0Q1.getD 0 []) (buffQMul p)
  let c01M := RingMForm p.QMul lQMul (ct0Q1.getD 1 []) (buffQMul p)
  -- the operand read by the products: `ct0Q0` itself in the squaring case
  let rd := if ct0Q0 = ct1Q0 then ct0Q0 else ct1Q0
  let rdM := if ct0Q0 = ct1Q0 then ct0Q1 else ct1Q1
  let h1 := setPoly h ctOut 0
    (MulCoeffsMontgomery p.Q level c00 (getPoly (h rd) 0) (getPoly (h ctOut) 0))
  let c2dest := if relin then buffQ p else getPoly (h1 ctOut) 2
  let c2 := MulCoeffsMontgomery p.Q level c01 (getPoly (h1 rd) 1) c2dest
  let h2 := if relin then h1 else setPoly h1 ctOut 2 c2
  let h3 := setPoly h2 ctOut 1
    (MulCoeffsMontgomery p.Q level c00 (getPoly (h2 rd) 1) (getPoly (h2 ctOut) 1))
  let h4 :=
    if ct0Q0 = ct1Q0 then
      setPoly h3 ctOut 1 (RingAddLazy level (getPoly (h3 ctOut) 1) (getPoly (h3 ctOut) 1)
        (getPoly (h3 ctOut) 1))
    else
      setPoly h3 ctOut 1 (MulCoeffsMontgomeryThenAddLazy p.Q level c01 (getPoly (h3 rd) 0)
        (getPoly (h3 ctOut) 1))
  -- the same products in the auxiliary chain, written over the buffers of `ct0Q1`
  let m0 := MulCoeffsMontgomery p.QMul lQMul c00M (rdM.getD 0 []) (ct0Q1.getD 0 [])
  let b1 := (ct0Q1.set 0 m0)
  let rdM1 := if ct0Q0 = ct1Q0 then b1 else ct1Q1
  let m2 := MulCoeffsMontgomery p.QMul lQMul c01M (rdM1.getD 1 []) (b1.getD 2 [])
  let b2 := b1.set 2 m2
  let rdM2 := if ct0Q0 = ct1Q0 then b2 else ct1Q1
  let m1 := MulCoeffsMontgomery p.QMul lQMul c00M (rdM2.getD 1 []) (b2.getD 1 [])
  let m1s :=
    if ct0Q0 = ct1Q0 then RingAddLazy lQMul m1 m1 m1
    else MulCoeffsMontgomeryThenAddLazy p.QMul lQMul c01M (ct1Q1.getD 0 []) m1
  (h4, c2, b2.set 1 m1s)

/-- Source `tensorInvariant(ct0, ct1, relin, ctOut)`. -/
def tensorInvariant (ev : Evaluator) (ct0 ct1 : Ref) (relin : Bool) (ctOut : Ref)
    (h : Heap) : Outcome Heap :=
  let p := ev.parameters
  let level := min (min (h ct0).Level (h ct1).Level) (h ctOut).Level
  -- `eval.levelQMul[level]`: the table has one entry per prime of the chain
  if p.Q.length ≤ level then .panic "index out of range"
  else
    let lQMul := levelQMul p level
    let h1 := h.set ctOut ((h ctOut).Resize (h ctOut).Degree level)
    -- avoid overwriting if the second input is the output
    let tmp0Q0 := if ct1 = ctOut then ct1 else ct0
    let tmp1Q0 := if ct1 = ctOut then ct0 else ct1
    match modUpAndNTT ev level lQMul (h1 tmp0Q0).Value (List.replicate 3 (buffQMul p)) with
    | .panic m => .panic m
    | .outOfFuel => .outOfFuel
    | .ok tmp0Q1 =>
      match (if tmp0Q0 ≠ tmp1Q0 then
          modUpAndNTT ev level lQMul (h1 tmp1Q0).Value (List.replicate 2 (buffQMul p))
        else .ok (List.replicate 2 (buffQMul p))) with
      | .panic m => .panic m
      | .outOfFuel => .outOfFuel
      | .ok tmp1Q1 =>
        let h2 := resizeToDegree2 relin ctOut h1
        -- `ctOut.Value[1]`, `ct0Q0.Value[1]` and `ct1Q0.Value[1]` are indexed
        if (h2 ctOut).Degree < 1 ∨ (h2 tmp0Q0).Degree < 1 ∨ (h2 tmp1Q0).Degree < 1 then
          .panic "index out of range"
        else
          let t := tensoreLowDeg ev level lQMul tmp0Q0 tmp1Q0 relin ctOut tmp0Q1 tmp1Q1 h2
          let q0 := quantize ev level lQMul (getPoly (t.1 ctOut) 0) (t.2.2.getD 0 [])
          let h4 := setPoly t.1 ctOut 0 q0.1
          let q1 := quantize ev level lQMul (getPoly (h4 ctOut) 1) (t.2.2.getD 1 [])
          let h5 := setPoly h4 ctOut 1 q1.1
          let q2 := quantize ev level lQMul t.2.1 (t.2.2.getD 2 [])
          let h6 := if relin then h5 else setPoly h5 ctOut 2 q2.1
          match (if relin then relinearizeInto ev level q2.1 ctOut h6 else .ok h6) with
          | .panic m => .panic m
          | .outOfFuel => .outOfFuel
          | .ok h7 =>
            let h8 := h7.set ctOut { h7 ctOut with MetaData := (h7 ct0).MetaData }
            .ok (h8.set ctOut { h8 ctOut with MetaData :=
              { (h8 ctOut).MetaData with
                PlaintextScale := ev.backend.MulScale p (h8 ct0).MetaData.PlaintextScale
                  (h8 tmp1Q0).MetaData.PlaintextScale (h8 ctOut).Level true } })

/-- Source `MulInvariant(op0, op1, op2)`, case `rlwe.Operand`: the switch on
`op1.Degree()`. -/
def MulInvariantOperand (ev : Evaluator) (op0 op1 op2 : Ref) (h : Heap) : Outcome Heap :=
  if (h op1).Degree = 0 then tensorStandard ev op0 op1 false op2 h
  else tensorInvariant ev op0 op1 false op2 h

/-- Source `MulInvariant(op0, op1, op2)`. -/
def MulInvariant (ev : Evaluator) (op0 : Ref) (op1 : Operand) (op2 : Ref) (h : Heap) :
    Outcome Heap :=
  match op1 with
  | .operand r => MulInvariantOperand ev op0 r op2 h
  | .vector values =>
    let level := min (h op0).Level (h op2).Level
    let h1 := h.set op2 ((h op2).Resize (h op0).Degree level)
    match newPlaintextFromBuffer ev level
        { (h1 op0).MetaData with PlaintextScale := NewScale 1 } values with
    | .ok pt => withPlaintext pt op0 op2 (fun r hh => MulInvariantOperand ev op0 r op2 hh) h1
    | .panic m => .panic m
    | .outOfFuel => .outOfFuel
  | .scalar c => MulAny ev op0 (.scalar c) op2 h

/-- Source `MulRelinInvariant(op0, op1, op2)`, case `rlwe.Operand`: the switch on
`op1.Degree()`. -/
def MulRelinInvariantOperand (ev : Evaluator) (op0 op1 op2 : Ref) (h : Heap) :
    Outcome Heap :=
  if (h op1).Degree = 0 then tensorStandard ev op0 op1 true op2 h
  else tensorInvariant ev op0 op1 true op2 h

/-- Source `MulRelinInvariant(op0, op1, op2)`. -/
def MulRelinInvariant (ev : Evaluator) (op0 : Ref) (op1 : Operand) (op2 : Ref) (h : Heap) :
    Outcome Heap :=
  match op1 with
  | .operand r => MulRelinInvariantOperand ev op0 r op2 h
  | .vector values =>
    let level := min (h op0).Level (h op2).Level
    let h1 := h.set op2 ((h op2).Resize (h op0).Degree level)
    match newPlaintextFromBuffer ev level
        { (h1 op0).MetaData with PlaintextScale := NewScale 1 } values with
    | .ok pt =>
      withPlaintext pt op0 op2 (fun r hh => MulRelinInvariantOperand ev op0 r op2 hh) h1
    | .panic m => .panic m
    | .outOfFuel => .outOfFuel
  | .scalar c => MulAny ev op0 (.scalar c) op2 h

/-- The ciphertext a `...New` operation returns: the one at the address of the output
after the call. -/
def resultAt (op2 : Ref) : Outcome Heap → Outcome Ciphertext
  | .ok h1 => .ok (h1 op2)
  | .panic m => .panic m
  | .outOfFuel => .outOfFuel

/-- Source `MulInvariantNew(op0, op1)`: the output is allocated at a fresh address. -/
def MulInvariantNew (ev : Evaluator) (op0 : Ref) (op1 : Operand) (h : Heap) :
    Outcome Ciphertext :=
  match op1 with
  | .operand r =>
    let op2 := freshRef [op0, r]
    resultAt op2 (MulInvariant ev op0 op1 op2
      (h.set op2 (NewCiphertext ev.parameters ((h op0).Degree + (h r).Degree)
        (min (h op0).Level (h r).Level))))
  | _ =>
    let op2 := freshRef [op0]
    resultAt op2 (MulInvariant ev op0 op1 op2
      (h.set op2 (NewCiphertext ev.parameters (h op0).Degree (h op0).Level)))

/-- Source `MulRelinInvariantNew(op0, op1)`: the output is allocated at a fresh address. -/
def MulRelinInvariantNew (ev : Evaluator) (op0 : Ref) (op1 : Operand) (h : Heap) :
    Outcome Ciphertext :=
  match op1 with
  | .operand r =>
    let op2 := freshRef [op0, r]
    resultAt op2 (MulRelinInvariant ev op0 op1 op2
      (h.set op2 (NewCiphertext ev.parameters 1 (min (h op0).Level (h r).Level))))
  | _ =>
    let op2 := freshRef [op0]
    resultAt op2 (MulRelinInvariant ev op0 op1 op2
      (h.set op2 (NewCiphertext ev.parameters (h op0).Degree (h op0).Level)))

/-! ## Addition and subtraction -/

/-- Sequencing of two steps of a Go function: the second runs on the result of the first
unless the first panicked. -/
def Outcome.bind {α β : Type} (o : Outcome α) (f : α → Outcome β) : Outcome β :=
  match o with
  | .ok a => f a
  | .panic m => .panic m
  | .outOfFuel => .outOfFuel

/-- Modelled from the spec: `ring.BRedAdd` is not part of the sources at hand; it is the
Barrett reduction of a word, `x mod q`. -/
def BRedAdd (x q : Nat) : Nat := x % q

/-- Modelled from the spec: `ring.Ring.Sub` is not part of the sources at hand; at level
`level` it writes the coefficient-wise difference of `p1` and `p2` into `p3`, reducing
conditionally. -/
def RingSub (Q : List Nat) (level : Nat) (p1 p2 p3 : Poly) : Poly :=
  writeRows level
    (fun i => List.zipWith (fun x y => CRed (sub64 (add64 x (modulusAt Q i)) y) (modulusAt Q i))
      (rowAt p1 i) (rowAt p2 i)) p3

/-- Modelled from the spec: `ring.Ring.MulScalarThenAdd` is not part of the sources at
hand; at level `level` it adds `p1 * scalar` to `p2`. -/
def MulScalarThenAdd (Q : List Nat) (level : Nat) (p1 : Poly) (scalar : Nat) (p2 : Poly) :
    Poly :=
  writeRows level
    (fun i => List.zipWith
      (fun z x => CRed (add64 z ((x * scalar) % modulusAt Q i)) (modulusAt Q i))
      (rowAt p2 i) (rowAt p1 i)) p2

/-- Modelled from the spec: `ring.Ring.MulScalarThenSub` is not part of the sources at
hand; at level `level` it subtracts `p1 * scalar` from `p2`. -/
def MulScalarThenSub (Q : List Nat) (level : Nat) (p1 : Poly) (scalar : Nat) (p2 : Poly) :
    Poly :=
  writeRows level
    (fun i => List.zipWith
      (fun z x => CRed (sub64 (add64 z (modulusAt Q i)) ((x * scalar) % modulusAt Q i))
        (modulusAt Q i))
      (rowAt p2 i) (rowAt p1 i)) p2

/-- Modelled from the spec: `ring.Ring.AddScalarBigint` is not part of the sources at hand;
at level `level` it adds the big integer `scalar`, reduced modulo each prime, to every
coefficient of `p1` and writes the result into `p2`. -/
def AddScalarBigint (Q : List Nat) (level : Nat) (p1 : Poly) (scalar : Nat) (p2 : Poly) :
    Poly :=
  writeRows level
    (fun i => (rowAt p1 i).map
      (fun x => CRed (add64 x (scalar % modulusAt Q i)) (modulusAt Q i))) p2

/-- Modelled from the spec: `ring.Poly.Copy` (and `ring.Copy`) is not part of the sources
at hand; it copies the coefficients of `src` over those of `dst`, row by row as far as
both have rows. -/
def CopyPoly (src dst : Poly) : Poly :=
  mapRows (fun i old => if i < src.length then src.getD i [] else old) 0 dst

/-- Modelled from the spec: `ring.Poly.Zero` is not part of the sources at hand; it sets
every coefficient to zero. -/
def ZeroPoly (p : Poly) : Poly := p.map (fun row => row.map (fun _ => 0))

/-- Source `evaluateInPlace(level, el0, el1, elOut, evaluate)`. The call
`rlwe.GetSmallestLargest`, which is not part of the sources at hand, is modelled from its
use: the operand of smaller degree first, the operands in their order when the degrees
agree. -/
def evaluateInPlace (level : Nat) (el0 el1 elOut : Ref)
    (evaluate : Poly → Poly → Poly → Poly) (h : Heap) : Outcome Heap :=
  let smallest := if (h el0).Degree > (h el1).Degree then el1 else el0
  let largest := if (h el0).Degree > (h el1).Degree then el0 else el1
  let h1 := h.set elOut ((h elOut).Resize (max (h el0).Degree (h el1).Degree) level)
  (polyLoop2 evaluate el0 el1 elOut (List.range ((h1 smallest).Degree + 1)) h1).bind
    fun h2 =>
      -- if the input degrees differ, the remaining polynomials are copied on the receiver
      (if largest ≠ elOut then
        polyLoop CopyPoly largest elOut
          (List.range' ((h2 smallest).Degree + 1)
            ((h2 largest).Degree - (h2 smallest).Degree)) h2
      else .ok h2).bind
        fun h3 => .ok (h3.set elOut { h3 elOut with MetaData := (h3 el0).MetaData })

/-- Source `matchScaleThenEvaluateInPlace(level, el0, el1, elOut, evaluate)`. -/
def matchScaleThenEvaluateInPlace (ev : Evaluator) (level : Nat) (el0 el1 elOut : Ref)
    (evaluate : Poly → Nat → Poly → Poly) (h : Heap) : Outcome Heap :=
  let p := ev.parameters
  let h1 := h.set elOut ((h elOut).Resize (max (h el0).Degree (h el1).Degree) level)
  (matchScalesBinary p.T (h1 el0).MetaData.PlaintextScale
      (h1 el1).MetaData.PlaintextScale).bind
    fun r =>
      -- for i := range el0.Value
      (polyLoop (fun p1 p2 => MulScalar p.Q level p1 r.1 p2) el0 elOut
          (List.range (h1 el0).Value.length) h1).bind
        fun h2 =>
          -- for i := el0.Degree(); i < elOut.Degree(); i++
          (polyLoop (fun _ p2 => ZeroPoly p2) elOut elOut
              (List.range' (h2 el0).Degree ((h2 elOut).Degree - (h2 el0).Degree)) h2).bind
            fun h3 =>
              -- for i := range el1.Value
              (polyLoop (fun p1 p2 => evaluate p1 r.2.1 p2) el1 elOut
                  (List.range (h3 el1).Value.length) h3).bind
                fun h4 =>
                  let h5 := h4.set elOut { h4 elOut with MetaData := (h4 el0).MetaData }
                  .ok (h5.set elOut { h5 elOut with MetaData :=
                    { (h5 elOut).MetaData with
                      PlaintextScale := ScaleMul p.T (h5 el0).MetaData.PlaintextScale
                        (NewScale r.1) } })

/-- Source `Add(op0, op1, op2)`, case `uint64`. -/
def AddUint64 (ev : Evaluator) (op0 : Ref) (op1 : Nat) (op2 : Ref) (h : Heap) :
    Outcome Heap :=
  let p := ev.parameters
  let level := (CheckUnary (h op0) (h op2)).2
  let h1 := h.set op2 ((h op2).Resize (h op0).Degree level)
  let c :=
    if (h1 op0).MetaData.PlaintextScale ≠ NewScale 1 then
      BRed op1 (h1 op0).MetaData.PlaintextScale p.T
    else BRedAdd op1 p.T
  -- `eval.tInvModQ[level]`
  if ev.backend.tInvModQ.length ≤ level then .panic "index out of range"
  else
    -- scales the scalar to the scale of op0
    let op1Big := c * ev.backend.tInvModQ.getD level 0
    let h2 := setPoly h1 op2 0
      (AddScalarBigint p.Q level (getPoly (h1 op0) 0) op1Big (getPoly (h1 op2) 0))
    if op0 ≠ op2 then
      (polyLoop CopyPoly op0 op2 (List.range' 1 (h2 op0).Degree) h2).bind
        fun h3 => .ok (h3.set op2 { h3 op2 with MetaData := (h3 op0).MetaData })
    else .ok h2

/-- Source `Add(op0, op1, op2)`. -/
def Add (ev : Evaluator) (op0 : Ref) (op1 : Operand) (op2 : Ref) (h : Heap) :
    Outcome Heap :=
  match op1 with
  | .operand r =>
    (CheckBinary (h op0) (h r) (h op2) (max (h op0).Degree (h r).Degree)).bind
      fun dl =>
        if (h op0).MetaData.PlaintextScale = (h r).MetaData.PlaintextScale then
          evaluateInPlace dl.2 op0 r op2 (RingAdd ev.parameters.Q dl.2) h
        else
          matchScaleThenEvaluateInPlace ev dl.2 op0 r op2
            (MulScalarThenAdd ev.parameters.Q dl.2) h
  | .scalar c => AddUint64 ev op0 c op2 h
  | .vector values =>
    let level := min (h op0).Level (h op2).Level
    let h1 := h.set op2 ((h op2).Resize (h op0).Degree level)
    (newPlaintextFromBuffer ev level (h1 op0).MetaData values).bind
      fun pt => withPlaintext pt op0 op2
        (fun r hh => evaluateInPlace level op0 r op2 (RingAdd ev.parameters.Q level) hh) h1

/-- Source `Sub(op0, op1, op2)`. -/
def Sub (ev : Evaluator) (op0 : Ref) (op1 : Operand) (op2 : Ref) (h : Heap) :
    Outcome Heap :=
  match op1 with
  | .operand r =>
    (CheckBinary (h op0) (h r) (h op2) (max (h op0).Degree (h r).Degree)).bind
      fun dl =>
        if (h op0).MetaData.PlaintextScale = (h r).MetaData.PlaintextScale then
          evaluateInPlace dl.2 op0 r op2 (RingSub ev.parameters.Q dl.2) h
        else
          matchScaleThenEvaluateInPlace ev dl.2 op0 r op2
            (MulScalarThenSub ev.parameters.Q dl.2) h
  | .scalar c => Add ev op0 (.scalar (sub64 ev.parameters.T (c % ev.parameters.T))) op2 h
  | .vector values =>
    let level := min (h op0).Level (h op2).Level
    let h1 := h.set op2 ((h op2).Resize (h op0).Degree level)
    (newPlaintextFromBuffer ev level (h1 op0).MetaData values).bind
      fun pt => withPlaintext pt op0 op2
        (fun r hh => evaluateInPlace level op0 r op2 (RingSub ev.parameters.Q level) hh) h1

/-! ## Multiplication with accumulation -/

/-- Source `mulRelinThenAdd`, the statements
`if targetScale := BRed(op0.scale, op1.scale, T); op2.scale != targetScale { ... }`: the
multiplier `r0` of the product and the store with `op2` multiplied by `r1`. -/
def matchAccumulator (ev : Evaluator) (level : Nat) (op0 op1 op2 : Ref) (h : Heap) :
    Outcome (Nat × Heap) :=
  let p := ev.parameters
  let targetScale := BRed (h op0).MetaData.PlaintextScale (h op1).MetaData.PlaintextScale p.T
  if (h op2).MetaData.PlaintextScale ≠ NewScale targetScale then
    (matchScalesBinary p.T targetScale (h op2).MetaData.PlaintextScale).bind
      fun r =>
        (polyLoop (fun p1 _ => MulScalar p.Q level p1 r.2.1 p1) op2 op2
            (List.range (h op2).Value.length) h).bind
          fun h1 =>
            .ok (r.1, h1.set op2 { h1 op2 with MetaData :=
              { (h1 op2).MetaData with
                PlaintextScale := ScaleMul p.T (h1 op2).MetaData.PlaintextScale
                  (NewScale r.2.1) } })
  else .ok (1, h)

/-- Source `mulRelinThenAdd`, case ciphertext (x) ciphertext. -/
def mulRelinThenAddCt (ev : Evaluator) (level : Nat) (op0 op1 : Ref) (relin : Bool)
    (op2 : Ref) (h : Heap) : Outcome Heap :=
  let p := ev.parameters
  let h1 := h.set op2 ((h op2).Resize (if relin then 1 else 2) level)
  (matchAccumulator ev level op0 op1 op2 h1).bind
    fun rh =>
      let r0 := rh.1
      let h2 := rh.2
      -- multiply by T * 2^{64} * 2^{64}
      let c00 := MulRNSScalarMontgomery p.Q level (getPoly (h2 op0) 0) (tMontgomery p) (buffQ p)
      let c01 := MulRNSScalarMontgomery p.Q level (getPoly (h2 op0) 1) (tMontgomery p) (buffQ p)
      -- scales the input to the output scale
      let c00s := if r0 ≠ 1 then MulScalar p.Q level c00 r0 c00 else c00
      let c01s := if r0 ≠ 1 then MulScalar p.Q level c01 r0 c01 else c01
      let h3 := setPoly h2 op2 0
        (MulCoeffsMontgomeryThenAdd p.Q level c00s (getPoly (h2 op1) 0) (getPoly (h2 op2) 0))
      let h4 := setPoly h3 op2 1
        (MulCoeffsMontgomeryThenAdd p.Q level c00s (getPoly (h3 op1) 1) (getPoly (h3 op2) 1))
      let h5 := setPoly h4 op2 1
        (MulCoeffsMontgomeryThenAdd p.Q level c01s (getPoly (h4 op1) 0) (getPoly (h4 op2) 1))
      if relin then
        if ev.hasRelinearizationKey = false then .panic "cannot relinearize"
        else
          relinearizeInto ev level
            (MulCoeffsMontgomery p.Q level c01s (getPoly (h5 op1) 1) (buffQ p)) op2 h5
      else
        .ok (setPoly h5 op2 2
          (MulCoeffsMontgomeryThenAdd p.Q level c01s (getPoly (h5 op1) 1) (getPoly (h5 op2) 2)))

/-- Source `mulRelinThenAdd`, case plaintext (x) ciphertext or ciphertext (x) plaintext. -/
def mulRelinThenAddPt (ev : Evaluator) (level : Nat) (op0 op1 op2 : Ref) (h : Heap) :
    Outcome Heap :=
  let p := ev.parameters
  let h1 := if (h op2).Degree < (h op0).Degree then
      h.set op2 ((h op2).Resize (h op0).Degree level) else h
  let c00 := MulRNSScalarMontgomery p.Q level (getPoly (h1 op1) 0) (tMontgomery p) (buffQ p)
  (matchAccumulator ev level op0 op1 op2 h1).bind
    fun rh =>
      let c00s := if rh.1 ≠ 1 then MulScalar p.Q level c00 rh.1 c00 else c00
      polyLoop (fun p1 p2 => MulCoeffsMontgomeryThenAdd p.Q level p1 c00s p2) op0 op2
        (List.range (rh.2 op0).Value.length) rh.2

/-- Source `mulRelinThenAdd(op0, op1, relin, op2)`. -/
def mulRelinThenAdd (ev : Evaluator) (op0 op1 : Ref) (relin : Bool) (op2 : Ref) (h : Heap) :
    Outcome Heap :=
  (CheckBinary (h op0) (h op1) (h op2) (max (h op0).Degree (h op1).Degree)).bind
    fun dl =>
      if op0 = op2 ∨ op1 = op2 then
        .panic "cannot MulRelinThenAdd: op2 must be different from op0 and op1"
      else if (h op0).Degree = 1 ∧ (h op1).Degree = 1 then
        mulRelinThenAddCt ev dl.2 op0 op1 relin op2 h
      else mulRelinThenAddPt ev dl.2 op0 op1 op2 h

/-- Source `MulThenAdd(op0, op1, op2)`, the scalar `op1` after the statement
`op1 *= (op0.PlaintextScale / op2.PlaintextScale)` of the cases `uint64` and `[]uint64`:
the ratio is `ModExp(op0.scale, T-2, T) * op2.scale`. -/
def scaleRatio (T s0 s2 : Nat) : Nat := BRed (ModExp s0 (sub64 T 2) T) s2 T

/-- Source `MulThenAdd(op0, op1, op2)`. -/
def MulThenAdd (ev : Evaluator) (op0 : Ref) (op1 : Operand) (op2 : Ref) (h : Heap) :
    Outcome Heap :=
  let p := ev.parameters
  match op1 with
  | .operand r => mulRelinThenAdd ev op0 r false op2 h
  | .scalar c =>
    let level := min (h op0).Level (h op2).Level
    let c1 :=
      if (h op0).MetaData.PlaintextScale ≠ (h op2).MetaData.PlaintextScale then
        BRed (scaleRatio p.T (h op0).MetaData.PlaintextScale (h op2).MetaData.PlaintextScale)
          c p.T
      else c
    polyLoop (fun p1 p2 => MulScalarThenAdd p.Q level p1 c1 p2) op0 op2
      (List.range ((h op0).Degree + 1)) h
  | .vector values =>
    let level := min (h op0).Level (h op2).Level
    let h1 := h.set op2 ((h op2).Resize (h op2).Degree level)
    let scale :=
      if (h1 op0).MetaData.PlaintextScale ≠ (h1 op2).MetaData.PlaintextScale then
        NewScale (scaleRatio p.T (h1 op0).MetaData.PlaintextScale
          (h1 op2).MetaData.PlaintextScale)
      else NewScale 1
    (newPlaintextFromBuffer ev level { (h1 op0).MetaData with PlaintextScale := scale }
        values).bind
      fun pt => withPlaintext pt op0 op2
        (fun r hh => mulRelinThenAdd ev op0 r false op2 hh) h1

/-- Source `MulRelinThenAdd(op0, op1, op2)`. -/
def MulRelinThenAdd (ev : Evaluator) (op0 op1 op2 : Ref) (h : Heap) : Outcome Heap :=
  mulRelinThenAdd ev op0 op1 true op2 h

/-- The coefficients of a ciphertext are reduced: in every row `i` up to `level` of every
polynomial they are below the prime `q_i`. -/
def Ciphertext.Reduced (Q : List Nat) (level : Nat) (ct : Ciphertext) : Prop :=
  ∀ pl ∈ ct.Value, ∀ i, i ≤ level → ∀ x ∈ rowAt pl i, x < modulusAt Q i

instance (Q : List Nat) (level : Nat) (ct : Ciphertext) : Decidable (ct.Reduced Q level) := by
  unfold Ciphertext.Reduced; infer_instance

/-! ## Copies of the evaluator -/

/-- Modelled from the spec: `rlwe.Evaluator` is not part of the sources at hand; of the
generic evaluator the copies below only need its identity (the address of the object) and
the key set it refers to, which the spec lets copies share or swap. -/
structure RlweEvaluator where
  addr : Nat
  evk : Nat
deriving DecidableEq, Repr

/-- Source `bgv.Evaluator`, the struct itself: its four embedded pointers, each the
address of the object it points to (for `*rlwe.Evaluator`, the object), `none` for Go's
`nil`. -/
structure EvaluatorFields where
  evaluatorBase : Option Nat
  evaluatorBuffers : Option Nat
  Evaluator : Option RlweEvaluator
  Encoder : Option Nat
deriving DecidableEq, Repr

/-- Source `NewEvaluator(parameters, evk)`: the four components are allocated one after the
other; `next` is the first address not in use, and the second result is the first address
not in use afterwards. -/
def NewEvaluator (evk next : Nat) : EvaluatorFields × Nat :=
  ({ evaluatorBase := some next,
     evaluatorBuffers := some (next + 1),
     Evaluator := some { addr := next + 2, evk := evk },
     Encoder := some (next + 3) }, next + 4)

/-- Modelled from the spec: `rlwe.Evaluator.ShallowCopy` is not part of the sources at
hand; it allocates a new generic evaluator that refers to the same keys. -/
def RlweEvaluator.ShallowCopy (e : RlweEvaluator) (next : Nat) : RlweEvaluator :=
  { addr := next, evk := e.evk }

/-- Modelled from the spec: `rlwe.Evaluator.WithKey` is not part of the sources at hand; it
allocates a new generic evaluator that refers to the supplied key set. -/
def RlweEvaluator.WithKey (_e : RlweEvaluator) (evk next : Nat) : RlweEvaluator :=
  { addr := next, evk := evk }

/-- Source `ShallowCopy()`: a struct literal with three of the four fields; the field
`Encoder`, which the literal leaves out, holds Go's zero value `nil`. -/
def ShallowCopy (eval : EvaluatorFields) (next : Nat) : EvaluatorFields × Nat :=
  ({ evaluatorBase := eval.evaluatorBase,
     Evaluator := eval.Evaluator.map (fun e => e.ShallowCopy next),
     evaluatorBuffers := some (next + 1),
     Encoder := none }, next + 2)

/-- Source `WithKey(evk)`: a struct literal with three of the four fields, the buffers
being those of the receiver; the field `Encoder` is left out here too. -/
def WithKey (eval : EvaluatorFields) (evk next : Nat) : EvaluatorFields × Nat :=
  ({ evaluatorBase := eval.evaluatorBase,
     Evaluator := eval.Evaluator.map (fun e => e.WithKey evk next),
     evaluatorBuffers := eval.evaluatorBuffers,
     Encoder := none }, next + 1)

/-- An operation whose `[]uint64` case calls `eval.Encoder.Encode(op1, pt)`, run through a
given `*bgv.Evaluator` value: with a `nil` encoder the call is a nil pointer dereference;
otherwise the operation runs as `run`. -/
def throughEncoder (eval : EvaluatorFields) (run : Outcome Heap) : Outcome Heap :=
  match eval.Encoder with
  | some _ => run
  | none => .panic "invalid memory address or nil pointer dereference"

/-! ## The precomputed table `levelQMul` -/

/-- Source `newEvaluatorPrecomp`: the quantity `Q.BitLen() + parameters.LogN()` at the given
level, of which `levelQMul[level]` is the quotient by 61, rounded up, minus one. -/
def precompBits (p : Parameters) (level : Nat) : Nat :=
  BitLen ((p.Q.take (level + 1)).prod) + (BitLen p.N - 1)

/-- Square-and-multiply evaluation of `x^e mod p`, one binary digit of `e` per unit of
budget: the means to check the primality of a concrete modulus. -/
def powModLoop : Nat → Nat → Nat → Nat → Nat
  | 0, _, _, p => 1 % p
  | fuel + 1, x, e, p =>
    if e = 0 then 1 % p
    else
      let half := powModLoop fuel ((x * x) % p) (e / 2) p
      if e % 2 = 1 then (x * half) % p else half

/-! ## Multiplication by a scalar with accumulation, and dropping levels -/

/-- Source `MulScalarThenAdd(ctIn, scalar, ctOut)`, the statement
`scalar *= (ctOut.PlaintextScale / ctIn.PlaintextScale)`: the scalar that the loop
multiplies into `ctIn`. -/
def rescaledScalar (T sIn sOut scalar : Nat) : Nat :=
  if sIn ≠ sOut then
    let ratio := ModExp sIn (sub64 T 2) T
    let ratio1 := BRed ratio sOut T
    BRed ratio1 scalar T
  else scalar

/-- Source `MulScalarThenAdd(ctIn, scalar, ctOut)` of the evaluator. -/
def Evaluator.MulScalarThenAdd (ev : Evaluator) (ctIn : Ref) (scalar : Nat) (ctOut : Ref)
    (h : Heap) : Outcome Heap :=
  let p := ev.parameters
  let level := min (h ctIn).Level (h ctOut).Level
  let scalar1 := rescaledScalar p.T (h ctIn).MetaData.PlaintextScale
    (h ctOut).MetaData.PlaintextScale scalar
  -- for i := 0; i < ctIn.Degree()+1; i++
  polyLoop (fun p1 p2 => Bgv.MulScalarThenAdd p.Q level p1 scalar1 p2) ctIn ctOut
    (List.range ((h ctIn).Degree + 1)) h

/-- Modelled from the spec: `Ciphertext.CopyNew` is not part of the sources at hand; it is
a deep copy, a new object with the same polynomials and metadata. -/
def Ciphertext.CopyNew (ct : Ciphertext) : Ciphertext := ct

/-- Source `DropLevelNew(ctIn, levels)`: the copy is placed at a fresh address, which is
returned with the store. -/
def DropLevelNew (ctIn : Ref) (levels : Nat) (h : Heap) : Ref × Heap :=
  let ctOut := freshRef [ctIn]
  (ctOut, DropLevel ctOut levels (h.set ctOut (h ctIn).CopyNew))

/-! ## Serialization -/

/-- The serialization methods of an object embedded in a struct (`Scale` in `MetaData`,
`EvaluationKey` in `GaloisKey`), which the code at hand calls without defining them. A byte
slice is a list of natural numbers below 256. -/
structure Codec (K : Type) where
  /-- The call `MarshalBinarySize()`. -/
  MarshalBinarySize : K → Nat
  /-- The call `MarshalBinaryInPlace(data)`: the returned count and error, and the content
  of `data` after the call. -/
  MarshalBinaryInPlace : K → List Nat → (Nat × Option String) × List Nat
  /-- The call `UnmarshalBinaryInPlace(data)`: the returned count and error, and the
  receiver after the call. -/
  UnmarshalBinaryInPlace : K → List Nat → (Nat × Option String) × K

/-- The statement `data[i] = b`. -/
def writeByte (data : List Nat) (i b : Nat) : Outcome (List Nat) :=
  if i < data.length then .ok (data.set i b) else .panic "index out of range"

/-- The expression `data[i]`. -/
def readByte (data : List Nat) (i : Nat) : Outcome Nat :=
  if i < data.length then .ok (data.getD i 0) else .panic "index out of range"

/-- Source `MetaData.Equal(other)`; `Scale.Cmp`, which is not part of the sources at hand,
compares the two scale values. -/
def MetaData.Equal (m other : MetaData) : Bool :=
  decide (m.PlaintextScale = other.PlaintextScale) && (m.IsNTT == other.IsNTT)
    && (m.IsMontgomery == other.IsMontgomery)

/-- Source `MetaData.MarshalBinarySize()`. -/
def MetaData.MarshalBinarySize (sc : Codec Nat) (m : MetaData) : Nat :=
  2 + sc.MarshalBinarySize m.PlaintextScale

/-- Source `MetaData.MarshalBinaryInPlace(data)`: the returned count and error, and the
content of `data` after the call. A flag that is false leaves its byte as it was. -/
def MetaData.MarshalBinaryInPlace (sc : Codec Nat) (m : MetaData) (data : List Nat) :
    Outcome ((Nat × Option String) × List Nat) :=
  if data.length < m.MarshalBinarySize sc then
    .ok ((0, some "cannot write: len(data) is too small"), data)
  else
    let r := sc.MarshalBinaryInPlace m.PlaintextScale data
    match r.1.2 with
    | some err => .ok ((0, some err), r.2)
    | none =>
      let ptr := r.1.1
      (if m.IsNTT then writeByte r.2 ptr 1 else .ok r.2).bind fun d1 =>
        (if m.IsMontgomery then writeByte d1 (ptr + 1) 1 else .ok d1).bind fun d2 =>
          .ok ((ptr + 1 + 1, none), d2)

/-- Source `MetaData.MarshalBinary()`: the new slice and the error. -/
def MetaData.MarshalBinary (sc : Codec Nat) (m : MetaData) :
    Outcome (List Nat × Option String) :=
  (m.MarshalBinaryInPlace sc (List.replicate (m.MarshalBinarySize sc) 0)).bind
    fun r => .ok (r.2, r.1.2)

/-- Source `MetaData.UnmarshalBinaryInPlace(data)`: the returned count and error, and the
receiver after the call. -/
def MetaData.UnmarshalBinaryInPlace (sc : Codec Nat) (m : MetaData) (data : List Nat) :
    Outcome ((Nat × Option String) × MetaData) :=
  if data.length < m.MarshalBinarySize sc then
    .ok ((0, some "canoot read: len(data) is too small"), m)
  else
    let r := sc.UnmarshalBinaryInPlace m.PlaintextScale data
    let m1 : MetaData := { m with PlaintextScale := r.2 }
    match r.1.2 with
    | some err => .ok ((r.1.1, some err), m1)
    | none =>
      let ptr := r.1.1
      (readByte data ptr).bind fun b1 =>
        (readByte data (ptr + 1)).bind fun b2 =>
          .ok ((ptr + 1 + 1, none),
            { PlaintextScale := r.2, IsNTT := decide (b1 = 1), IsMontgomery := decide (b2 = 1) })

/-- Source `MetaData.UnmarshalBinary(data)`: the returned error, and the receiver after the
call. -/
def MetaData.UnmarshalBinary (sc : Codec Nat) (m : MetaData) (data : List Nat) :
    Outcome (Option String × MetaData) :=
  (m.UnmarshalBinaryInPlace sc data).bind fun r => .ok (r.1.2, r.2)

/-- A receiver before decoding: Go's zero value of `MetaData`. -/
def NewMetaData : MetaData := { PlaintextScale := 0, IsNTT := false, IsMontgomery := false }

/-- The eight bytes of a `uint64`, least significant first. -/
def leBytes (v : Nat) : List Nat := (List.range 8).map (fun i => (v / 256 ^ i) % 256)

/-- The call `binary.LittleEndian.PutUint64(data[ptr:], v)`, for `ptr + 8 ≤ len(data)`. -/
def PutUint64 (data : List Nat) (ptr v : Nat) : List Nat :=
  data.take ptr ++ leBytes v ++ data.drop (ptr + 8)

/-- The call `binary.LittleEndian.Uint64(data[ptr:])`, for `ptr + 8 ≤ len(data)`. -/
def Uint64 (data : List Nat) (ptr : Nat) : Nat :=
  ((data.drop ptr).take 8).foldr (fun b acc => b + 256 * acc) 0

/-- Source `rlwe.GaloisKey`, over the type `K` of the embedded `EvaluationKey`. -/
structure GaloisKey (K : Type) where
  GaloisElement : Nat
  NthRoot : Nat
  EvaluationKey : K

/-- Source `GaloisKey.MarshalBinarySize()`. -/
def GaloisKey.MarshalBinarySize {K : Type} (c : Codec K) (gk : GaloisKey K) : Nat :=
  c.MarshalBinarySize gk.EvaluationKey + 16

/-- Source `GaloisKey.MarshalBinaryInPlace(data)`: the returned count and error, and the
content of `data` after the call. -/
def GaloisKey.MarshalBinaryInPlace {K : Type} (c : Codec K) (gk : GaloisKey K)
    (data : List Nat) : (Nat × Option String) × List Nat :=
  if data.length < 16 then ((0, some "cannot write: len(data) < 16"), data)
  else
    let d1 := PutUint64 data 0 gk.GaloisElement
    let d2 := PutUint64 d1 8 gk.NthRoot
    -- return gk.EvaluationKey.MarshalBinaryInPlace(data[ptr:])
    let r := c.MarshalBinaryInPlace gk.EvaluationKey (d2.drop 16)
    (r.1, d2.take 16 ++ r.2)

/-- Source `GaloisKey.UnmarshalBinaryInPlace(data)`: the returned count and error, and the
receiver after the call. -/
def GaloisKey.UnmarshalBinaryInPlace {K : Type} (c : Codec K) (gk : GaloisKey K)
    (data : List Nat) : (Nat × Option String) × GaloisKey K :=
  if data.length < 16 then ((0, some "cannot read: len(data) < 16"), gk)
  else
    let r := c.UnmarshalBinaryInPlace gk.EvaluationKey (data.drop 16)
    let gk1 : GaloisKey K :=
      { GaloisElement := Uint64 data 0, NthRoot := Uint64 data 8, EvaluationKey := r.2 }
    match r.1.2 with
    | some err => ((16, some err), gk1)
    | none => ((16 + r.1.1, none), gk1)

/-! ## Diagonals of a permutation -/

/-- Source `PermutationMapping[T]`: the indices are Go `int`s, of which the model holds the
non-negative ones (a negative `To` is an index out of range). -/
structure PermutationMapping (α : Type) where
  From : Nat
  To : Nat
  Scaling : α

/-- Source `Diagonals[T]`, a `map[int][]T`: the slice stored under each key, if any. -/
abbrev Diagonals (α : Type) := Nat → Option (List α)

/-- Source `GetDiagonals`, the index of the diagonal of one mapping:
`(slots + From - To) & (slots - 1)`. -/
def diagIndex (slots From To : Nat) : Nat := (slots + From - To) &&& (slots - 1)

/-- Source `GetDiagonals`, the body of the loop over the mappings: the diagonal is
allocated with `slots` zero values if the map does not hold it, and its entry `To` is
written; a `To` outside the slice is a panic (and then the value of the index, which is
negative in Go whenever `To > slots + From`, does not matter). -/
def getDiagonalsStep {α : Type} (slots : Nat) (zero : α) (diagonals : Diagonals α)
    (pm : PermutationMapping α) : Outcome (Diagonals α) :=
  let k := diagIndex slots pm.From pm.To
  let row := (diagonals k).getD (List.replicate slots zero)
  if pm.To < row.length then
    .ok (fun x => if x = k then some (row.set pm.To pm.Scaling) else diagonals x)
  else .panic "index out of range"

/-- The loop `for _, pm := range p` of `GetDiagonals`. -/
def getDiagonalsLoop {α : Type} (slots : Nat) (zero : α) :
    List (PermutationMapping α) → Diagonals α → Outcome (Diagonals α)
  | [], d => .ok d
  | pm :: rest, d =>
    (getDiagonalsStep slots zero d pm).bind (getDiagonalsLoop slots zero rest)

/-- Source `Permutation.GetDiagonals(logSlots)`, with `zero` the zero value of `T`. The
shift `1 << logSlots` leaves the range of a positive `int` from `logSlots = 63` on, and
then the first allocation `make([]T, slots)` or the first write panics. -/
def GetDiagonals {α : Type} (p : List (PermutationMapping α)) (logSlots : Nat) (zero : α) :
    Outcome (Diagonals α) :=
  match p with
  | [] => .ok (fun _ => none)
  | _ :: _ =>
    if 63 ≤ logSlots then .panic "makeslice: len out of range"
    else getDiagonalsLoop (2 ^ logSlots) zero p (fun _ => none)

/-! ## Goldschmidt division -/

/-- Source `GoldschmidtDivisionNew`, one pass of the loop `for i := 1; i < iters; i++` on the
values `(a, b)` that the two ciphertexts encrypt, in exact rational arithmetic:
`MulRelin(b, b, b)`, `tmp := MulRelinNew(a, b)`, `Add(a, tmp, a)`. Rescaling, `SetScale`
and bootstrapping leave the encrypted values as they are. -/
def goldschmidtStep (ab : ℚ × ℚ) : ℚ × ℚ :=
  let b := ab.2 * ab.2
  let tmp := ab.1 * b
  (ab.1 + tmp, b)

/-- The loop of `GoldschmidtDivisionNew`, run `k` times. -/
def goldschmidtLoop : Nat → ℚ × ℚ → ℚ × ℚ
  | 0, ab => ab
  | k + 1, ab => goldschmidtLoop k (goldschmidtStep ab)

/-- Source `GoldschmidtDivisionNew(ct, minValue, logPrec, btp)` on the value `x` that `ct`
encrypts, in exact rational arithmetic, for the number `iters` of iterations the function
has estimated from `minValue` and `logPrec`: `a := MulNew(ct, -1)`, `b := a.CopyNew()`,
`Add(a, 2, a)`, `Add(b, 1, b)`, then the loop, which starts at `i := 1` and so runs
`iters - 1` times. -/
def GoldschmidtDivisionNew (x : ℚ) (iters : Nat) : ℚ :=
  let a := x * (-1)
  let b := a
  (goldschmidtLoop (iters - 1) (a + 2, b + 1)).1

/-! ## Evaluation of a linear transformation in the clear -/

/-- Source `Diagonals[T]`, a `map[int][]T`, as `Evaluate` reads it: the list of its
entries, a signed diagonal index with its slice. A Go map holds a key once. -/
abbrev DiagonalEntries (α : Type) := List (Int × List α)

/-- The map access `m[k]`: the slice stored under `k`, `none` when the key is absent. -/
def DiagonalEntries.get {α : Type} (m : DiagonalEntries α) (k : Int) : Option (List α) :=
  m.lookup k

/-- Modelled from the spec: `utils.RotateSlice(s, k)` is not part of the sources at hand;
it returns `s` rotated by `k` positions to the left, `k` being taken modulo the length:
entry `x` of the result is entry `(x + k) mod len(s)` of `s`. -/
def RotateSlice {α : Type} (s : List α) (k : Int) : List α :=
  s.rotate (k % (s.length : Int)).toNat

/-- The argument `newVec` of `Evaluate` as the callers give it: `make([]T, size)`. -/
def newVec {α : Type} [Semiring α] (size : Nat) : List α := List.replicate size 0

/-- The argument `add` of `Evaluate`, `c = a + b`, as component-wise addition: the new
content of `c`. -/
def addVec {α : Type} [Semiring α] (a b _c : List α) : List α := List.zipWith (· + ·) a b

/-- The argument `muladd` of `Evaluate`, `c = c + a * b`, as component-wise
multiply-accumulate: the new content of `c`. -/
def muladdVec {α : Type} [Semiring α] (a b c : List α) : List α :=
  List.zipWith (· + ·) c (List.zipWith (· * ·) a b)

/-- Source `Evaluate`, the statements `v, ok := m[j+i]; if !ok { v = m[j+i-slots] }`: a
key that is in neither place yields the `nil` slice. -/
def diagonalAt {α : Type} (m : DiagonalEntries α) (slots : Nat) (k : Int) : List α :=
  match m.get k with
  | some v => v
  | none => (m.get (k - (slots : Int))).getD []

/-- Source `Evaluate`, the loop `for _, i := range index[j]` over the baby steps still to
visit: the content of `tmp`. -/
def evaluateBabySteps {α : Type} (m : DiagonalEntries α) (vector : List α)
    (muladd : List α → List α → List α → List α) (slots j : Nat) (rot : Int) :
    List Nat → List α → List α
  | [], tmp => tmp
  | i :: rest, tmp =>
    let v := diagonalAt m slots ((j : Int) + (i : Int))
    evaluateBabySteps m vector muladd slots j rot rest
      (muladd (RotateSlice vector i) (RotateSlice v rot) tmp)

/-- Source `Evaluate`, the loop `for j := range index` over the giant steps still to
visit: the content of `res`. -/
def evaluateGiantSteps {α : Type} (m : DiagonalEntries α) (vector : List α)
    (newVec : Nat → List α) (add muladd : List α → List α → List α → List α)
    (slots : Nat) : List (Nat × List Nat) → List α → List α
  | [], res => res
  | (j, babySteps) :: rest, res =>
    let rot := Int.land (-(j : Int)) ((slots : Int) - 1)
    let tmp := evaluateBabySteps m vector muladd slots j rot babySteps (newVec slots)
    evaluateGiantSteps m vector newVec add muladd slots rest
      (add res (RotateSlice tmp j) res)

/-- Source `Diagonals.Evaluate(vector, newVec, add, muladd)`. The map `index` returned by
`he.BSGSIndex(keys, slots, N1)`, which is not part of the sources at hand, is taken as the
list of its entries in the order the loop visits them: a giant step `j` with its baby
steps `i`, both non-negative, one pair `(j, i)` with `j + i = k mod slots` for every key
`k` of the map. -/
def Diagonals.Evaluate {α : Type} (m : DiagonalEntries α) (vector : List α)
    (newVec : Nat → List α) (add muladd : List α → List α → List α → List α)
    (index : List (Nat × List Nat)) : List α :=
  let slots := vector.length
  evaluateGiantSteps m vector newVec add muladd slots index (newVec slots)

/-- The sums `j + i` of the pairs of giant and baby steps of an index map. -/
def indexSums (index : List (Nat × List Nat)) : List Nat :=
  index.flatMap (fun ji => ji.2.map (fun i => ji.1 + i))

/-- The diagonals of `GetDiagonals`, whose keys are below `slots`, as the entries of the
map. -/
def Diagonals.entries {α : Type} (d : Diagonals α) (slots : Nat) : DiagonalEntries α :=
  (List.range slots).filterMap (fun k => (d k).map (fun s => ((k : Int), s)))

/-! ## The merge schedule of the homomorphic DFT -/

/-- Source `HomomorphicDFTMatrixLiteral.Depth(actual)`: the number of entries of `Levels`,
or their sum. -/
def Depth (Levels : List Nat) (actual : Bool) : Nat :=
  if actual then Levels.length else Levels.sum

/-- The expression `int(math.Ceil(float64(level) / float64(maxDepth-i)))` for a
non-negative `level` and a positive divisor: the quotient rounded up (the quotient of two
small integers is rounded to a float that lies on the same side of every integer). -/
def ceilDiv (a b : Nat) : Nat := (a + b - 1) / b

/-- Source `computeBootstrappingDFTIndexMap` and `GenMatrices`, the loop
`for i := 0; i < maxDepth; i++` that fills `merge`, over the indices still to visit: the
running `level` and the slice. `Encode` writes entry `i`, `Decode` entry
`len(merge)-i-1`. -/
def mergeLoop (encode : Bool) (maxDepth : Nat) : List Nat → Nat → List Nat → Nat × List Nat
  | [], level, merge => (level, merge)
  | i :: rest, level, merge =>
    let depth := ceilDiv level (maxDepth - i)
    let merge1 := if encode then merge.set i depth else merge.set (merge.length - i - 1) depth
    mergeLoop encode maxDepth rest (level - depth) merge1

/-- The slice `merge` after its loop, with the value of `level` the loop ends with. -/
def computeMerge (encode : Bool) (logSlots maxDepth : Nat) : Nat × List Nat :=
  mergeLoop encode maxDepth (List.range maxDepth) logSlots (List.replicate maxDepth 0)

/-- The second loop, `level = logSlots; for i ... { ...; level -= merge[i] }`: the value of
`level` it ends with, as a Go `int`. -/
def runningLevel (logSlots : Nat) (merge : List Nat) : Int :=
  merge.foldl (fun (level : Int) (d : Nat) => level - (d : Int)) (logSlots : Int)

/-! ## Concrete inputs -/

/-- A small parameter set: two primes in the chain `Q`, ring degree 2, plaintext
modulus `T`. -/
def exParams (T : Nat) : Parameters := { Q := [193, 257], T := T, N := 2, QMul := [241] }

/-- A degree-1 ciphertext at level 1 with the given scale, in NTT form. -/
def exCt (scale : Nat) : Ciphertext :=
  { Value := [[[1, 2], [3, 4]], [[5, 6], [7, 8]]],
    MetaData := { PlaintextScale := scale, IsNTT := true, IsMontgomery := false } }

/-- A store with a ciphertext of scale `s0` at address 0 and ciphertexts of scale `s1`
everywhere else. -/
def exHeap (s0 s1 : Nat) : Heap := fun r => if r = 0 then exCt s0 else exCt s1

/-- A degree-1 ciphertext at level 0 with the given scale. -/
def exCt0 (scale : Nat) : Ciphertext :=
  { Value := [[[1, 2]], [[5, 6]]],
    MetaData := { PlaintextScale := scale, IsNTT := true, IsMontgomery := false } }

/-- A stand-in for the external primitives in concrete runs: the division writes the rows
of its input below the last one, the gadget product returns its input twice, the
transforms leave a row as it is, the basis extension reduces the first row of its input,
the scale of an invariant product is the product of the scales, the encoder writes the
values into every row, and the table `tInvModQ` holds 1 at every level. -/
def exBackend : Backend :=
  { DivRoundByLastModulusNTT := fun _ level p1 p2 =>
      mapRows (fun i row2 => if i < level then p1.getD i [] else row2) 0 p2
    GadgetProduct := fun _ c2 => (c2, c2)
    NTT := fun _ row => row
    INTT := fun _ row => row
    ModUpQtoP := fun _ P _ _ polQ k => (polQ.getD 0 []).map (fun x => x % P.getD k 1)
    MulScale := fun p a b _ _ => (a * b) % p.T
    Encode := fun values _ level pol =>
      some (mapRows (fun i old => if i ≤ level then values else old) 0 pol)
    tInvModQ := [1, 1] }

/-- An evaluator over the small parameter set, with a relinearization key. -/
def exEval (T : Nat) : Evaluator :=
  { parameters := exParams T, backend := exBackend, hasRelinearizationKey := true }

/-- A degree-2 ciphertext at level 1 with the given scale. -/
def exCt2 (scale : Nat) : Ciphertext :=
  { Value := [[[1, 2], [3, 4]], [[5, 6], [7, 8]], [[9, 10], [11, 12]]],
    MetaData := { PlaintextScale := scale, IsNTT := true, IsMontgomery := false } }

/-- A store with degree-1 ciphertexts of scales `s0`, `s1` at addresses 0 and 1 and a
degree-2 ciphertext of scale 1 everywhere else. -/
def exHeap2 (s0 s1 : Nat) : Heap :=
  fun r => if r = 0 then exCt s0 else if r = 1 then exCt s1 else exCt2 1

/-- A degree-0 operand (a plaintext) at level 1 with the given scale. -/
def exPt (scale : Nat) : Ciphertext :=
  { Value := [[[2, 3], [4, 5]]],
    MetaData := { PlaintextScale := scale, IsNTT := true, IsMontgomery := false } }

/-- A store with a degree-2 ciphertext of scale `s0` at address 0, a plaintext of scale
`s1` at address 1 and degree-2 ciphertexts of scale 1 everywhere else. -/
def exHeapPt (s0 s1 : Nat) : Heap :=
  fun r => if r = 0 then exCt2 s0 else if r = 1 then exPt s1 else exCt2 1

/-- A degree-2 ciphertext at level 1 with the given scale, with other coefficients than
`exCt2`. -/
def exCtB (scale : Nat) : Ciphertext :=
  { Value := [[[10, 20], [30, 40]], [[50, 60], [70, 80]], [[90, 100], [110, 120]]],
    MetaData := { PlaintextScale := scale, IsNTT := true, IsMontgomery := false } }

/-- A store with a degree-1 ciphertext of scale `s0` at address 0, a degree-2 ciphertext of
scale `s1` at address 1 and degree-2 ciphertexts of scale 1 everywhere else. -/
def exHeapAdd (s0 s1 : Nat) : Heap :=
  fun r => if r = 0 then exCt s0 else if r = 1 then exCtB s1 else exCt2 1

/-- A store with degree-1 ciphertexts of scales `s0`, `s1` at addresses 0 and 1 and a
degree-2 ciphertext of scale `s2` everywhere else. -/
def exHeap3 (s0 s1 s2 : Nat) : Heap :=
  fun r => if r = 0 then exCt s0 else if r = 1 then exCt s1 else exCt2 s2

/-- A parameter set of realistic size: the 47-bit prime `9*2^43 + 1` as chain `Q`, ring
degree `2^14`, plaintext modulus 65537, and the 61-bit primes `2^61 - 2^21 + 1` and
`27*2^56 + 1` as chain `QMul`. -/
def exParams61 : Parameters :=
  { Q := [79164837199873], T := 65537, N := 16384,
    QMul := [2305843009211596801, 1945555039024054273] }

/-- The struct `NewEvaluator` returns when the addresses from 0 on are free, for the key
set 7. -/
def exEvaluatorFields : EvaluatorFields := (NewEvaluator 7 0).1

/-- A stand-in for the serialization of a scale in concrete runs: the eight bytes of the
value. -/
def exScaleCodec : Codec Nat :=
  { MarshalBinarySize := fun _ => 8
    MarshalBinaryInPlace := fun s data =>
      if data.length < 8 then ((0, some "cannot write: len(data) is too small"), data)
      else ((8, none), PutUint64 data 0 s)
    UnmarshalBinaryInPlace := fun s0 data =>
      if data.length < 8 then ((0, some "cannot read: len(data) is too small"), s0)
      else ((8, none), Uint64 data 0) }

/-- Metadata with scale 3, in NTT form. -/
def exMeta : MetaData := { PlaintextScale := 3, IsNTT := true, IsMontgomery := false }

/-- A stand-in for the serialization of an evaluation key in concrete runs: the key is its
own sequence of bytes, and decoding takes all the bytes there are. -/
def exKeyCodec : Codec (List Nat) :=
  { MarshalBinarySize := fun k => k.length
    MarshalBinaryInPlace := fun k data =>
      if data.length < k.length then ((0, some "cannot write: len(data) is too small"), data)
      else ((k.length, none), k ++ data.drop k.length)
    UnmarshalBinaryInPlace := fun _ data => ((data.length, none), data) }

/-- A Galois key with Galois element 5, `NthRoot` 16, and a three-byte evaluation key. -/
def exGaloisKey : GaloisKey (List Nat) :=
  { GaloisElement := 5, NthRoot := 16, EvaluationKey := [7, 8, 9] }

/-- The permutation of the doc comment of `Permutation`: `[a, b, c, d]` is sent to
`[1b, 2c, 3d, 4a]`. -/
def exPermutation : List (PermutationMapping Nat) :=
  [{ From := 0, To := 3, Scaling := 4 }, { From := 1, To := 0, Scaling := 1 },
   { From := 2, To := 1, Scaling := 2 }, { From := 3, To := 2, Scaling := 3 }]

/-- A degree-1 ciphertext at level 1 with the given scale, with other coefficients than
`exCt`. -/
def exCtOther (scale : Nat) : Ciphertext :=
  { Value := [[[10, 20], [30, 40]], [[50, 60], [70, 80]]],
    MetaData := { PlaintextScale := scale, IsNTT := true, IsMontgomery := false } }

/-- A degree-2 ciphertext at level 1 with the given scale, all of whose polynomials are
zero. -/
def exCtZero (scale : Nat) : Ciphertext :=
  { Value := [[[0, 0], [0, 0]], [[0, 0], [0, 0]], [[0, 0], [0, 0]]],
    MetaData := { PlaintextScale := scale, IsNTT := true, IsMontgomery := false } }

/-- A store with degree-1 ciphertexts of scales 3 and 5 at addresses 0 and 1 and a zero
accumulator of degree 2 and scale `3 * 5` everywhere else. -/
def exHeapAcc : Heap :=
  fun r => if r = 0 then exCt 3 else if r = 1 then exCtOther 5 else exCtZero 15

/-- A metadata with both flags false, as a plaintext outside the NTT domain has it. -/
def exMetaPlain : MetaData := { PlaintextScale := 3, IsNTT := false, IsMontgomery := false }

/-- A map on 4 slots that holds the keys 1 and -3, the same diagonal modulo 4. -/
def exCollidingDiagonals : DiagonalEntries Int :=
  [(1, [1, 0, 0, 0]), (-3, [10, 0, 0, 0])]

/-- A map on 4 slots with the diagonals 1, -1 and 2. -/
def exDiagonals : DiagonalEntries Int :=
  [(1, [1, 1, 1, 1]), (-1, [10, 10, 10, 10]), (2, [100, 100, 100, 100])]

/-! ## Word arithmetic lemmas -/

theorem add64_eq {x y : Nat} (h : x + y < word) : add64 x y = x + y := by
  unfold add64; exact Nat.mod_eq_of_lt h

theorem sub64_eq {x y : Nat} (hx : x < word) (hyx : y ≤ x) : sub64 x y = x - y := by
  unfold sub64
  have hy : y < word := lt_of_le_of_lt hyx hx
  rw [Nat.mod_eq_of_lt hx, Nat.mod_eq_of_lt hy]
  have : x + word - y = (x - y) + word := by omega
  rw [this, Nat.add_mod_right]
  exact Nat.mod_eq_of_lt (by omega)

theorem CRed_lt {v t : Nat} (hv : v < 2 * t) (hw : v < word) : CRed v t < t := by
  unfold CRed
  split
  · rename_i h
    rw [sub64_eq hw h]; omega
  · omega

theorem CRed_modEq {v t : Nat} (hw : v < word) : CRed v t ≡ v [MOD t] := by
  unfold CRed
  split
  · rename_i h
    rw [sub64_eq hw h]
    have hv : (v - t + t) % t = (v - t) % t := Nat.add_mod_right _ _
    have hvt : v - t + t = v := Nat.sub_add_cancel h
    rw [hvt] at hv
    exact hv.symm
  · exact Nat.ModEq.refl _

/-! ## The loop of `matchScalesBinary` -/

theorem matchStep_A (t : Nat) (s : MatchState) : (matchStep t s).A = s.a % s.A := by
  unfold matchStep; simp only; split_ifs <;> rfl

theorem matchStep_a (t : Nat) (s : MatchState) : (matchStep t s).a = s.A := by
  unfold matchStep; simp only; split_ifs <;> rfl

theorem matchStep_b (t : Nat) (s : MatchState) : (matchStep t s).b = s.B := by
  unfold matchStep; simp only; split_ifs <;> rfl

theorem matchStep_B (t : Nat) (s : MatchState) :
    (matchStep t s).B = CRed (sub64 (add64 t s.b) (BRed s.B (s.a / s.A) t)) t := by
  unfold matchStep; simp only; split_ifs <;> rfl

/-- Every candidate the loop records is the current pair `(A, B)` with `A` coprime to
`t`; otherwise the recorded pair is kept. -/
theorem matchStep_r (t : Nat) (s : MatchState) :
    ((matchStep t s).r0 = s.r0 ∧ (matchStep t s).r1 = s.r1) ∨
    ((matchStep t s).r0 = (matchStep t s).A ∧ (matchStep t s).r1 = (matchStep t s).B ∧
      (matchStep t s).A ≠ 0 ∧ Nat.gcd (matchStep t s).A t = 1) := by
  unfold matchStep; simp only
  split_ifs with h1 h2
  · right; exact ⟨rfl, rfl, h1.1, h1.2⟩
  · left; exact ⟨rfl, rfl⟩
  · left; exact ⟨rfl, rfl⟩

theorem matchStep_B_spec {t : Nat} (ht : 2 * t ≤ word) (s : MatchState) (hb : s.b < t) :
    (matchStep t s).B < t ∧
      (matchStep t s).B + BRed s.B (s.a / s.A) t ≡ s.b [MOD t] := by
  rw [matchStep_B]
  have hx : BRed s.B (s.a / s.A) t < t := Nat.mod_lt _ (by omega)
  have h1 : add64 t s.b = t + s.b := add64_eq (by omega)
  have h2 : sub64 (add64 t s.b) (BRed s.B (s.a / s.A) t)
      = t + s.b - BRed s.B (s.a / s.A) t := by
    rw [h1]; exact sub64_eq (by omega) (by omega)
  rw [h2]
  refine ⟨CRed_lt (by omega) (by omega), ?_⟩
  have h3 := CRed_modEq (v := t + s.b - BRed s.B (s.a / s.A) t) (t := t) (by omega)
  have h4 : t + s.b - BRed s.B (s.a / s.A) t + BRed s.B (s.a / s.A) t = t + s.b := by omega
  calc CRed (t + s.b - BRed s.B (s.a / s.A) t) t + BRed s.B (s.a / s.A) t
      ≡ t + s.b - BRed s.B (s.a / s.A) t + BRed s.B (s.a / s.A) t [MOD t] :=
        Nat.ModEq.add_right _ h3
    _ = t + s.b := h4
    _ ≡ s.b [MOD t] := by
        have := Nat.ModEq.add_right s.b (Nat.modEq_zero_iff_dvd.mpr (dvd_refl t))
        rwa [Nat.zero_add] at this

theorem matchStep_inv {t A0 : Nat} (ht : 2 * t ≤ word) {s : MatchState}
    (inv : MatchInv t A0 s) : MatchInv t A0 (matchStep t s) := by
  obtain ⟨hB1, hB2⟩ := matchStep_B_spec ht s inv.hb
  have hAnew : (matchStep t s).B * A0 ≡ (matchStep t s).A [MOD t] := by
    rw [matchStep_A]
    set q := s.a / s.A with hq
    set x := BRed s.B q t with hx
    -- x * A0 ≡ q * A
    have hxA : x * A0 ≡ s.A * q [MOD t] := by
      have h1 : x ≡ s.B * q [MOD t] := Nat.mod_modEq _ _
      calc x * A0 ≡ s.B * q * A0 [MOD t] := Nat.ModEq.mul_right _ h1
        _ = s.B * A0 * q := by ring
        _ ≡ s.A * q [MOD t] := Nat.ModEq.mul_right _ inv.hA
    have hsum : (matchStep t s).B * A0 + s.A * q ≡ s.a % s.A + s.A * q [MOD t] := by
      calc (matchStep t s).B * A0 + s.A * q
          ≡ (matchStep t s).B * A0 + x * A0 [MOD t] := Nat.ModEq.add_left _ hxA.symm
        _ = ((matchStep t s).B + x) * A0 := by ring
        _ ≡ s.b * A0 [MOD t] := Nat.ModEq.mul_right _ hB2
        _ ≡ s.a [MOD t] := inv.ha
        _ = s.a % s.A + s.A * q := by rw [hq]; exact (Nat.mod_add_div s.a s.A).symm
    exact Nat.ModEq.add_right_cancel' _ hsum
  refine ⟨?_, hB1, ?_, hAnew, ?_⟩
  · rw [matchStep_b]; exact inv.hB
  · rw [matchStep_b, matchStep_a]; exact inv.hA
  · rcases matchStep_r t s with ⟨e0, e1⟩ | ⟨e0, e1, hne, hg⟩
    · rw [e0, e1]; exact inv.hr
    · right
      rw [e0, e1]
      exact ⟨hne, hg, hB1, hAnew⟩

/-- The loop returns: `A` drops at every iteration, so a budget above `A` is enough, and
the state it returns satisfies the invariant with `A = 0`. -/
theorem matchLoop_terminates {t A0 : Nat} (ht : 2 * t ≤ word) :
    ∀ (fuel : Nat) (s : MatchState), s.A < fuel → MatchInv t A0 s →
      ∃ r, matchLoop t fuel s = some r ∧ MatchInv t A0 r ∧ r.A = 0 := by
  intro fuel
  induction fuel with
  | zero => intro s h; omega
  | succ n ih =>
    intro s h inv
    unfold matchLoop
    by_cases hA : s.A = 0
    · exact ⟨s, by simp [hA], inv, hA⟩
    · simp only [hA, if_false]
      apply ih _ _ (matchStep_inv ht inv)
      rw [matchStep_A]
      have : s.a % s.A < s.A := Nat.mod_lt _ (Nat.pos_of_ne_zero hA)
      omega

theorem matchInit_inv {t : Nat} (ht : 2 ≤ t) (s0 s1 : Nat) :
    MatchInv t (matchInit t s0 s1).A (matchInit t s0 s1) := by
  refine ⟨?_, ?_, ?_, ?_, ?_⟩
  · show 0 < t; omega
  · show 1 < t; omega
  · show 0 * _ ≡ t [MOD t]
    rw [Nat.zero_mul]
    exact (Nat.modEq_zero_iff_dvd.mpr (dvd_refl t)).symm
  · show 1 * _ ≡ _ [MOD t]
    rw [Nat.one_mul]
  · left; exact ⟨rfl, rfl⟩

theorem matchInit_A_lt {t : Nat} (ht : 2 ≤ t) (s0 s1 : Nat) : (matchInit t s0 s1).A < t :=
  Nat.mod_lt _ (by omega)

/-- What `matchScalesBinary` returns for any modulus `2 ≤ t < 2^63`: it returns, and the
pair is either the zero pair or a pair coprime to `t` with `r0 = r1 * A0` modulo `t`,
where `A0` is the value the iteration starts from. -/
theorem matchScalesBinary_spec {t : Nat} (ht : 2 ≤ t) (hw : 2 * t ≤ word) (s0 s1 : Nat)
    (hg : Nat.gcd s0 t = 1) :
    ∃ r0 r1 e, matchScalesBinary t s0 s1 = .ok (r0, r1, e) ∧
      ((r0 = 0 ∧ r1 = 0) ∨
        (r0 ≠ 0 ∧ Nat.gcd r0 t = 1 ∧ Nat.gcd r1 t = 1 ∧ r1 < t ∧
          r1 * (matchInit t s0 s1).A ≡ r0 [MOD t])) := by
  obtain ⟨r, hr, inv, -⟩ := matchLoop_terminates hw (t + 1) (matchInit t s0 s1)
    (by have := matchInit_A_lt ht s0 s1; omega) (matchInit_inv ht s0 s1)
  refine ⟨r.r0, r.r1, r.e, ?_, ?_⟩
  · unfold matchScalesBinary matchScalesBinaryFuel
    simp [GCD, hg, hr]
  · rcases inv.hr with h | ⟨h1, h2, h3, h4⟩
    · left; exact h
    · right
      refine ⟨h1, h2, ?_, h3, h4⟩
      have hc : Nat.gcd (r.r1 * (matchInit t s0 s1).A) t = 1 := by
        rw [Nat.ModEq.gcd_eq h4]; exact h2
      exact Nat.Coprime.coprime_mul_right hc

/-- For a prime modulus the iteration starts from the ratio `s1 / s0`:
`s0 * A0 = s1` modulo `t`. -/
theorem matchInit_ratio {t : Nat} (hp : t.Prime) (hw : t < word) (s0 s1 : Nat)
    (hg : Nat.gcd s0 t = 1) : s0 * (matchInit t s0 s1).A ≡ s1 [MOD t] := by
  have ht : 2 ≤ t := hp.two_le
  have he : sub64 t 2 = t - 2 := sub64_eq hw ht
  have hA : (matchInit t s0 s1).A = BRed (ModExp s0 (t - 2) t) s1 t := by
    show BRed (ModExp s0 (sub64 t 2) t) s1 t = _
    rw [he]
  rw [hA]
  have hf : s0 ^ (t - 1) ≡ 1 [MOD t] := by
    have := Nat.ModEq.pow_totient (show Nat.Coprime s0 t from hg)
    rwa [Nat.totient_prime hp] at this
  have h1 : ModExp s0 (t - 2) t ≡ s0 ^ (t - 2) [MOD t] := Nat.mod_modEq _ _
  have h2 : BRed (ModExp s0 (t - 2) t) s1 t ≡ s0 ^ (t - 2) * s1 [MOD t] :=
    (Nat.mod_modEq _ _).trans (Nat.ModEq.mul_right _ h1)
  calc s0 * BRed (ModExp s0 (t - 2) t) s1 t
      ≡ s0 * (s0 ^ (t - 2) * s1) [MOD t] := Nat.ModEq.mul_left _ h2
    _ = s0 ^ (t - 2 + 1) * s1 := by ring
    _ = s0 ^ (t - 1) * s1 := by
        have : t - 2 + 1 = t - 1 := by omega
        rw [this]
    _ ≡ 1 * s1 [MOD t] := Nat.ModEq.mul_right _ hf
    _ = s1 := Nat.one_mul _

theorem word_of_lt {T : Nat} (h : T < 2 ^ 63) : 2 * T ≤ word := by
  unfold word; omega

/-- For a prime modulus below `2^63` the pair returned by `matchScalesBinary` equalizes
the two scales, and it is either the zero pair or a pair of units. -/
theorem matchScalesBinary_prime_spec {T : Nat} (hp : T.Prime) (hw : T < 2 ^ 63)
    (s0 s1 : Nat) (hg : Nat.gcd s0 T = 1) :
    ∃ r0 r1 e, matchScalesBinary T s0 s1 = .ok (r0, r1, e) ∧
      s0 * r0 ≡ s1 * r1 [MOD T] ∧
      ((r0 = 0 ∧ r1 = 0) ∨ (r0 ≠ 0 ∧ Nat.gcd r0 T = 1 ∧ Nat.gcd r1 T = 1)) := by
  have hw2 := word_of_lt hw
  obtain ⟨r0, r1, e, hres, hcase⟩ := matchScalesBinary_spec hp.two_le hw2 s0 s1 hg
  refine ⟨r0, r1, e, hres, ?_, ?_⟩
  · rcases hcase with ⟨h0, h1⟩ | ⟨-, -, -, -, hA⟩
    · rw [h0, h1, Nat.mul_zero, Nat.mul_zero]
    · have hratio := matchInit_ratio hp (by unfold word; omega) s0 s1 hg
      calc s0 * r0 ≡ s0 * (r1 * (matchInit T s0 s1).A) [MOD T] := Nat.ModEq.mul_left _ hA.symm
        _ = s0 * (matchInit T s0 s1).A * r1 := by ring
        _ ≡ s1 * r1 [MOD T] := Nat.ModEq.mul_right _ hratio
  · rcases hcase with h | ⟨h1, h2, h3, -, -⟩
    · left; exact h
    · right; exact ⟨h1, h2, h3⟩

theorem coprime_of_pos_lt_prime {T s : Nat} (hp : T.Prime) (h1 : 1 ≤ s) (h2 : s < T) :
    Nat.gcd s T = 1 :=
  (Nat.coprime_of_lt_prime (by omega) h2 hp).symm

/-! ## Shape of resized ciphertexts -/

theorem mapRows_length (f : Nat → List Nat → List Nat) :
    ∀ (i : Nat) (p : Poly), (mapRows f i p).length = p.length := by
  intro i p
  induction p generalizing i with
  | nil => rfl
  | cons row rest ih => simp [mapRows, ih]

theorem MulScalar_length (Q : List Nat) (level : Nat) (p1 : Poly) (c : Nat) (p2 : Poly) :
    (MulScalar Q level p1 c p2).length = p2.length :=
  mapRows_length _ _ _

theorem Poly.Resize_level {level : Nat} {p : Poly} (h : level ≤ p.Level) :
    (Poly.Resize level p).Level = level := by
  unfold Poly.Resize
  unfold Poly.Level at *
  split_ifs with h1 h2
  · rw [List.length_take]; omega
  · omega
  · omega

theorem Ciphertext.Resize_metaData (d l : Nat) (ct : Ciphertext) :
    (ct.Resize d l).MetaData = ct.MetaData := rfl

theorem Ciphertext.Resize_degree_self (l : Nat) (ct : Ciphertext) :
    (ct.Resize ct.Degree l).Degree = ct.Degree := by
  unfold Ciphertext.Resize Ciphertext.Degree
  simp only
  split_ifs <;> simp_all

theorem Ciphertext.Resize_level_eq {l : Nat} (d : Nat) {ct : Ciphertext}
    (h : l ≤ ct.Level) : (ct.Resize d l).Level = l := by
  unfold Ciphertext.Resize
  rcases hv : ct.Value with _ | ⟨p0, rest⟩
  · -- no polynomial at all: the level is read as 0
    have h0 : ct.Level = 0 := by simp [Ciphertext.Level, hv, Poly.Level]
    have hl : l = 0 := by omega
    subst hl
    simp only [Ciphertext.Level, hv, List.headD_nil, Poly.Level, List.length_nil, ne_eq,
      not_true_eq_false, if_false, Nat.zero_sub, Nat.not_lt_zero, Nat.sub_zero,
      List.nil_append]
    split_ifs with h1
    · cases d with
      | zero => omega
      | succ n => simp [List.replicate, NewPoly]
    · rfl
  · have hL : ct.Level = p0.Level := by simp [Ciphertext.Level, hv]
    rw [hL] at h
    by_cases hne : p0.Level = l
    · simp only [Ciphertext.Level, hv, List.headD_cons, hne, ne_eq, not_true_eq_false,
        if_false]
      split_ifs
      · simp [List.take, hne]
      · simp [hne]
      · simp [hne]
    · simp only [Ciphertext.Level, hv, List.headD_cons, ne_eq, hne, not_false_eq_true,
        if_true, List.map_cons]
      have := Poly.Resize_level h
      split_ifs
      · simp [List.take, this]
      · simp [this]
      · simp [this]

theorem scaleAndResize_scale (p : Parameters) (level r : Nat) (ct : Ciphertext) :
    (scaleAndResize p level r ct).MetaData.PlaintextScale
      = (ct.MetaData.PlaintextScale * r) % p.T := rfl

theorem scaleAndResize_flags (p : Parameters) (level r : Nat) (ct : Ciphertext) :
    (scaleAndResize p level r ct).MetaData.IsNTT = ct.MetaData.IsNTT ∧
    (scaleAndResize p level r ct).MetaData.IsMontgomery = ct.MetaData.IsMontgomery :=
  ⟨rfl, rfl⟩

theorem scaleAndResize_degree (p : Parameters) (level r : Nat) (ct : Ciphertext) :
    (scaleAndResize p level r ct).Degree = ct.Degree := by
  unfold scaleAndResize
  simp only
  show (Ciphertext.Resize _ level _).Degree = _
  rw [Ciphertext.Resize_degree_self]
  simp [Ciphertext.Degree]

theorem scaleAndResize_level (p : Parameters) {level : Nat} (r : Nat) {ct : Ciphertext}
    (h : level ≤ ct.Level) : (scaleAndResize p level r ct).Level = level := by
  unfold scaleAndResize
  simp only
  show (Ciphertext.Resize _ level _).Level = level
  apply Ciphertext.Resize_level_eq
  rcases hv : ct.Value with _ | ⟨p0, rest⟩
  · simp [Ciphertext.Level, hv, Poly.Level] at h ⊢
    exact h
  · simp only [Ciphertext.Level, hv, List.map_cons, List.headD_cons, Poly.Level,
      MulScalar_length] at h ⊢
    exact h

theorem matchLoop_mono (t : Nat) :
    ∀ (n m : Nat) (s r : MatchState), matchLoop t n s = some r → n ≤ m →
      matchLoop t m s = some r := by
  intro n
  induction n with
  | zero => intro m s r h; simp [matchLoop] at h
  | succ k ih =>
    intro m s r h hle
    cases m with
    | zero => omega
    | succ j =>
      unfold matchLoop at h ⊢
      by_cases hA : s.A = 0
      · simpa [hA] using h
      · simp only [hA, if_false] at h ⊢
        exact ih j _ _ h (by omega)

/-! ## Reading and writing polynomials through the store -/

theorem Heap.set_same (h : Heap) (r : Ref) (c : Ciphertext) : (h.set r c) r = c := by
  simp [Heap.set]

theorem Heap.set_other (h : Heap) {r x : Ref} (c : Ciphertext) (hx : x ≠ r) :
    (h.set r c) x = h x := by
  simp [Heap.set, hx]

theorem setPoly_other (h : Heap) {r x : Ref} (k : Nat) (v : Poly) (hx : x ≠ r) :
    (setPoly h r k v) x = h x := by
  simp [setPoly, Heap.set, hx]

theorem setPoly_metaData (h : Heap) (r x : Ref) (k : Nat) (v : Poly) :
    ((setPoly h r k v) x).MetaData = (h x).MetaData := by
  by_cases hx : x = r
  · subst hx; simp [setPoly, Heap.set]
  · rw [setPoly_other h k v hx]

theorem setPoly_length (h : Heap) (r x : Ref) (k : Nat) (v : Poly) :
    ((setPoly h r k v) x).Value.length = (h x).Value.length := by
  by_cases hx : x = r
  · subst hx; simp [setPoly, Heap.set]
  · rw [setPoly_other h k v hx]

theorem getPoly_setPoly_same (h : Heap) (r : Ref) {k : Nat} (v : Poly)
    (hk : k < (h r).Value.length) : getPoly ((setPoly h r k v) r) k = v := by
  simp [getPoly, setPoly, Heap.set, List.getD_eq_getElem, hk]

theorem getPoly_setPoly_ne (h : Heap) (r : Ref) {k m : Nat} (v : Poly) (hkm : k ≠ m) :
    getPoly ((setPoly h r k v) r) m = getPoly (h r) m := by
  simp only [getPoly, setPoly, Heap.set, if_true]
  by_cases hm : m < (h r).Value.length
  · rw [List.getD_eq_getElem _ _ (by simpa using hm), List.getD_eq_getElem _ _ hm]
    exact List.getElem_set_ne hkm _
  · rw [List.getD_eq_default _ _ (by simpa using hm), List.getD_eq_default _ _ (by omega)]

/-! ## `Rescale` -/

theorem modInverse_spec {T s i : Nat} (h : modInverse T s = some i) :
    i < T ∧ (s * i) % T = 1 % T := by
  unfold modInverse at h
  have h1 := List.find?_some h
  have h2 := List.mem_of_find?_eq_some h
  exact ⟨List.mem_range.mp h2, by simpa using h1⟩

theorem rescaleLoop_head (be : Backend) (Q : List Nat) (level : Nat)
    (hbe : ∀ Q l p1 p2, (be.DivRoundByLastModulusNTT Q l p1 p2).length = p2.length) :
    ∀ (ins outs vals : List Poly), rescaleLoop be Q level ins outs = some vals →
      vals.length = outs.length ∧ (vals.headD []).length = (outs.headD []).length := by
  intro ins outs
  induction outs generalizing ins with
  | nil => intro vals h; simp [rescaleLoop] at h; subst h; simp
  | cons pout outs ih =>
    intro vals h
    cases ins with
    | nil => simp [rescaleLoop] at h
    | cons pin ins =>
      simp only [rescaleLoop, Option.map_eq_some'] at h
      obtain ⟨rest, hrest, rfl⟩ := h
      have := ih ins rest hrest
      simp [this.1, hbe]

/-- After the loop, the resize and the metadata assignment, the metadata of `ctIn` is
still the one it had at the call, also when `ctOut` is `ctIn`. -/
theorem rescaleStore_metaData_in (vals : List Poly) (level : Nat) (ctIn ctOut : Ref)
    (h : Heap) : (rescaleStore vals level ctIn ctOut h ctIn).MetaData = (h ctIn).MetaData := by
  by_cases e : ctIn = ctOut
  · subst e; simp [rescaleStore, Heap.set, Ciphertext.Resize_metaData]
  · simp [rescaleStore, Heap.set, e]

theorem rescaleStore_out (vals : List Poly) (level : Nat) (ctIn ctOut : Ref) (h : Heap) :
    (rescaleStore vals level ctIn ctOut h ctOut).MetaData = (h ctIn).MetaData ∧
    (rescaleStore vals level ctIn ctOut h ctOut).Value
      = (Ciphertext.Resize (Ciphertext.Degree { h ctOut with Value := vals }) (level - 1)
          { h ctOut with Value := vals }).Value := by
  by_cases e : ctIn = ctOut
  · subst e; simp [rescaleStore, Heap.set, Ciphertext.Resize_metaData]
  · simp [rescaleStore, Heap.set, e]

/-! ## Montgomery arithmetic -/

theorem invWord_spec {q : Nat} (hq : q % 2 = 1) : invWord q * word ≡ 1 [MOD q] := by
  unfold invWord ModExp
  have hw : word = 2 ^ 64 := by unfold word; norm_num
  have h2 : (q + 1) / 2 * 2 = q + 1 := by omega
  have h1 : q + 1 ≡ 1 [MOD q] := by
    have := Nat.ModEq.add_right 1 (Nat.modEq_zero_iff_dvd.mpr (dvd_refl q))
    rwa [Nat.zero_add] at this
  calc ((q + 1) / 2) ^ 64 % q * word
      ≡ ((q + 1) / 2) ^ 64 * word [MOD q] := Nat.ModEq.mul_right _ (Nat.mod_modEq _ _)
    _ = ((q + 1) / 2 * 2) ^ 64 := by rw [hw, mul_pow]
    _ = (q + 1) ^ 64 := by rw [h2]
    _ ≡ 1 ^ 64 [MOD q] := Nat.ModEq.pow _ h1
    _ = 1 := one_pow _

/-- A common factor `2^64` cancels modulo an odd modulus. -/
theorem modEq_of_mul_word {q u v : Nat} (hq : q % 2 = 1)
    (h : u * word ≡ v * word [MOD q]) : u ≡ v [MOD q] := by
  have hi := invWord_spec hq
  have h1 : u * word * invWord q ≡ v * word * invWord q [MOD q] := Nat.ModEq.mul_right _ h
  have hu : u * word * invWord q ≡ u [MOD q] := by
    calc u * word * invWord q = u * (invWord q * word) := by ring
      _ ≡ u * 1 [MOD q] := Nat.ModEq.mul_left _ hi
      _ = u := Nat.mul_one _
  have hv : v * word * invWord q ≡ v [MOD q] := by
    calc v * word * invWord q = v * (invWord q * word) := by ring
      _ ≡ v * 1 [MOD q] := Nat.ModEq.mul_left _ hi
      _ = v := Nat.mul_one _
  exact hu.symm.trans (h1.trans hv)

/-- The Montgomery product is `x*y*2^-64`: multiplied back by `2^64` it is `x*y`. -/
theorem MRed_spec {q : Nat} (hq : q % 2 = 1) (x y : Nat) :
    MRed x y q * word ≡ x * y [MOD q] := by
  unfold MRed
  calc x * y * invWord q % q * word
      ≡ x * y * invWord q * word [MOD q] := Nat.ModEq.mul_right _ (Nat.mod_modEq _ _)
    _ = x * y * (invWord q * word) := by ring
    _ ≡ x * y * 1 [MOD q] := Nat.ModEq.mul_left _ (invWord_spec hq)
    _ = x * y := Nat.mul_one _

theorem MRed_lt {q : Nat} (hq : 0 < q) (x y : Nat) : MRed x y q < q := Nat.mod_lt _ hq

theorem MRed_zero_left (y q : Nat) : MRed 0 y q = 0 := by simp [MRed]

/-- The entry of `tMontgomery` for the prime `q` is `T * 2^128` modulo `q`. -/
theorem tMontgomery_entry (T q : Nat) :
    MForm ((T * word) % q) q ≡ T * word * word [MOD q] := by
  unfold MForm
  exact (Nat.mod_modEq _ _).trans (Nat.ModEq.mul_right _ (Nat.mod_modEq _ _))

/-- Multiplying by the `tMontgomery` entry multiplies by `T` and enters the Montgomery
domain: the result is `x * T * 2^64`. -/
theorem MRed_tMontgomery {q : Nat} (hq : q % 2 = 1) (T x : Nat) :
    MRed x (MForm ((T * word) % q) q) q ≡ x * T * word [MOD q] := by
  apply modEq_of_mul_word hq
  calc MRed x (MForm ((T * word) % q) q) q * word
      ≡ x * MForm ((T * word) % q) q [MOD q] := MRed_spec hq _ _
    _ ≡ x * (T * word * word) [MOD q] := Nat.ModEq.mul_left _ (tMontgomery_entry T q)
    _ = x * T * word * word := by ring

/-- One product of the tensoring: the Montgomery factors cancel and one factor `T`
remains. -/
theorem MRed_tensor {q : Nat} (hq : q % 2 = 1) (T x y : Nat) :
    MRed (MRed x (MForm ((T * word) % q) q) q) y q ≡ T * x * y [MOD q] := by
  apply modEq_of_mul_word hq
  calc MRed (MRed x (MForm ((T * word) % q) q) q) y q * word
      ≡ MRed x (MForm ((T * word) % q) q) q * y [MOD q] := MRed_spec hq _ _
    _ ≡ x * T * word * y [MOD q] := Nat.ModEq.mul_right _ (MRed_tMontgomery hq T x)
    _ = T * x * y * word := by ring

/-- The accumulation `c1 = c00*y1 + c01*y0` of the tensoring. -/
theorem CRed_add_tensor {q : Nat} (hq : q % 2 = 1) (hq63 : q < 2 ^ 63) (T x0 x1 y0 y1 : Nat) :
    CRed (add64 (MRed (MRed x0 (MForm ((T * word) % q) q) q) y1 q)
      (MRed (MRed x1 (MForm ((T * word) % q) q) q) y0 q)) q
      ≡ T * (x0 * y1 + x1 * y0) [MOD q] := by
  have hpos : 0 < q := by omega
  have hz := MRed_lt hpos (MRed x0 (MForm ((T * word) % q) q) q) y1
  have hm := MRed_lt hpos (MRed x1 (MForm ((T * word) % q) q) q) y0
  have hsum : MRed (MRed x0 (MForm ((T * word) % q) q) q) y1 q
      + MRed (MRed x1 (MForm ((T * word) % q) q) q) y0 q < word := by
    have hqq : q + q ≤ word := by unfold word; omega
    omega
  rw [add64_eq hsum]
  calc CRed (MRed (MRed x0 (MForm ((T * word) % q) q) q) y1 q
        + MRed (MRed x1 (MForm ((T * word) % q) q) q) y0 q) q
      ≡ MRed (MRed x0 (MForm ((T * word) % q) q) q) y1 q
        + MRed (MRed x1 (MForm ((T * word) % q) q) q) y0 q [MOD q] := CRed_modEq hsum
    _ ≡ T * x0 * y1 + T * x1 * y0 [MOD q] :=
        Nat.ModEq.add (MRed_tensor hq T x0 y1) (MRed_tensor hq T x1 y0)
    _ = T * (x0 * y1 + x1 * y0) := by ring

/-! ## Rows and coefficients of the written polynomials -/

theorem mapRows_getD (f : Nat → List Nat → List Nat) :
    ∀ (p : Poly) (s i : Nat), i < p.length →
      (mapRows f s p).getD i [] = f (s + i) (p.getD i []) := by
  intro p
  induction p with
  | nil => intro s i h; simp at h
  | cons row rest ih =>
    intro s i h
    cases i with
    | zero => simp [mapRows]
    | succ k =>
      simp only [mapRows, List.getD_cons_succ]
      rw [ih (s + 1) k (by simpa using h)]
      congr 1
      omega

theorem writeRows_length (level : Nat) (f : Nat → List Nat) (dest : Poly) :
    (writeRows level f dest).length = dest.length := mapRows_length _ _ _

theorem rowAt_writeRows {level : Nat} (f : Nat → List Nat) {dest : Poly} {i : Nat}
    (hi : i ≤ level) (hd : i < dest.length) : rowAt (writeRows level f dest) i = f i := by
  unfold rowAt writeRows
  rw [mapRows_getD _ _ _ _ hd]
  simp [hi]

theorem getD_map_zero (g : Nat → Nat) (hg : g 0 = 0) (l : List Nat) (j : Nat) :
    (l.map g).getD j 0 = g (l.getD j 0) := by
  induction l generalizing j with
  | nil => simp [hg]
  | cons x xs ih =>
    cases j with
    | zero => simp
    | succ k => simpa using ih k

theorem getD_zipWith_zero (f : Nat → Nat → Nat) (hf : f 0 0 = 0) :
    ∀ (l1 l2 : List Nat), l1.length = l2.length → ∀ j,
      (List.zipWith f l1 l2).getD j 0 = f (l1.getD j 0) (l2.getD j 0) := by
  intro l1
  induction l1 with
  | nil =>
    intro l2 hl j
    have : l2 = [] := List.length_eq_zero.mp hl.symm
    subst this; simp [hf]
  | cons x xs ih =>
    intro l2 hl j
    cases l2 with
    | nil => simp at hl
    | cons y ys =>
      cases j with
      | zero => simp
      | succ k => simpa using ih ys (by simpa using hl) k

theorem buffQ_length (p : Parameters) : (buffQ p).length = p.Q.length - 1 + 1 := by
  simp [buffQ, NewPoly]

theorem tMontgomery_getD (p : Parameters) {i : Nat} (hi : i < p.Q.length) :
    (tMontgomery p).getD i 0 = MForm ((p.T * word) % modulusAt p.Q i) (modulusAt p.Q i) := by
  unfold tMontgomery modulusAt
  rw [List.getD_eq_getElem _ _ (by simpa using hi), List.getD_eq_getElem _ _ hi]
  simp

/-- Row `i` of the first operand after `MulRNSScalarMontgomery` by `tMontgomery`. -/
theorem rowAt_mulT (p : Parameters) {level i : Nat} (x : Poly) (hi : i ≤ level)
    (hQ : i < p.Q.length) :
    rowAt (MulRNSScalarMontgomery p.Q level x (tMontgomery p) (buffQ p)) i
      = (rowAt x i).map (fun v =>
          MRed v (MForm ((p.T * word) % modulusAt p.Q i) (modulusAt p.Q i)) (modulusAt p.Q i)) := by
  unfold MulRNSScalarMontgomery
  rw [rowAt_writeRows _ hi (by rw [buffQ_length]; omega), tMontgomery_getD p hQ]

/-- The three polynomials written by the products of the standard tensoring, coefficient
by coefficient: with `x = (x0, x1)` the operand multiplied by `tMontgomery` and
`y = (y0, y1)` the other one, they are `T*x0*y0`, `T*(x0*y1 + x1*y0)` and `T*x1*y1`
modulo the `i`-th prime. -/
theorem tensor_coeffs (p : Parameters) (level N : Nat) (x0 x1 y0 y1 d0 d1 d2 : Poly)
    (i j : Nat) (hi : i ≤ level) (hQ : i < p.Q.length)
    (hd0 : i < d0.length) (hd1 : i < d1.length) (hd2 : i < d2.length)
    (hodd : modulusAt p.Q i % 2 = 1) (h63 : modulusAt p.Q i < 2 ^ 63)
    (hx0 : (rowAt x0 i).length = N) (hx1 : (rowAt x1 i).length = N)
    (hy0 : (rowAt y0 i).length = N) (hy1 : (rowAt y1 i).length = N) :
    coeff (MulCoeffsMontgomery p.Q level
        (MulRNSScalarMontgomery p.Q level x0 (tMontgomery p) (buffQ p)) y0 d0) i j
      ≡ p.T * coeff x0 i j * coeff y0 i j [MOD modulusAt p.Q i] ∧
    coeff (MulCoeffsMontgomeryThenAdd p.Q level
        (MulRNSScalarMontgomery p.Q level x1 (tMontgomery p) (buffQ p)) y0
        (MulCoeffsMontgomery p.Q level
          (MulRNSScalarMontgomery p.Q level x0 (tMontgomery p) (buffQ p)) y1 d1)) i j
      ≡ p.T * (coeff x0 i j * coeff y1 i j + coeff x1 i j * coeff y0 i j)
        [MOD modulusAt p.Q i] ∧
    coeff (MulCoeffsMontgomery p.Q level
        (MulRNSScalarMontgomery p.Q level x1 (tMontgomery p) (buffQ p)) y1 d2) i j
      ≡ p.T * coeff x1 i j * coeff y1 i j [MOD modulusAt p.Q i] := by
  have hpos : 0 < modulusAt p.Q i := by omega
  have hcz : CRed (add64 0 0) (modulusAt p.Q i) = 0 := by
    simp [CRed, add64, Nat.not_le.mpr hpos]
  have hprod : ∀ (x y d : Poly), i < d.length → (rowAt x i).length = N →
      (rowAt y i).length = N →
      rowAt (MulCoeffsMontgomery p.Q level
        (MulRNSScalarMontgomery p.Q level x (tMontgomery p) (buffQ p)) y d) i
        = List.zipWith (fun u v => MRed u v (modulusAt p.Q i))
            ((rowAt x i).map (fun v =>
              MRed v (MForm ((p.T * word) % modulusAt p.Q i) (modulusAt p.Q i))
                (modulusAt p.Q i))) (rowAt y i) := by
    intro x y d hd _ _
    unfold MulCoeffsMontgomery
    rw [rowAt_writeRows _ hi hd, rowAt_mulT p x hi hQ]
  have hcoef : ∀ (x y d : Poly), i < d.length → (rowAt x i).length = N →
      (rowAt y i).length = N →
      coeff (MulCoeffsMontgomery p.Q level
        (MulRNSScalarMontgomery p.Q level x (tMontgomery p) (buffQ p)) y d) i j
        = MRed (MRed (coeff x i j)
            (MForm ((p.T * word) % modulusAt p.Q i) (modulusAt p.Q i)) (modulusAt p.Q i))
            (coeff y i j) (modulusAt p.Q i) := by
    intro x y d hd hx hy
    unfold coeff
    rw [hprod x y d hd hx hy,
      getD_zipWith_zero (fun u v => MRed u v (modulusAt p.Q i)) (MRed_zero_left _ _) _ _
        (by simp [hx, hy]),
      getD_map_zero (fun v => MRed v (MForm ((p.T * word) % modulusAt p.Q i)
        (modulusAt p.Q i)) (modulusAt p.Q i)) (MRed_zero_left _ _)]
  refine ⟨?_, ?_, ?_⟩
  · rw [hcoef x0 y0 d0 hd0 hx0 hy0]
    exact MRed_tensor hodd _ _ _
  · have hlen1 : (MulCoeffsMontgomery p.Q level
        (MulRNSScalarMontgomery p.Q level x0 (tMontgomery p) (buffQ p)) y1 d1).length
        = d1.length := writeRows_length _ _ _
    unfold coeff
    unfold MulCoeffsMontgomeryThenAdd
    rw [rowAt_writeRows _ hi (by rw [hlen1]; exact hd1), rowAt_mulT p x1 hi hQ,
      hprod x0 y1 d1 hd1 hx0 hy1]
    rw [getD_zipWith_zero (fun z m => CRed (add64 z m) (modulusAt p.Q i)) hcz _ _
        (by simp [hx0, hx1, hy0, hy1]),
      getD_zipWith_zero (fun u v => MRed u v (modulusAt p.Q i)) (MRed_zero_left _ _) _ _
        (by simp [hx0, hy1]),
      getD_zipWith_zero (fun u v => MRed u v (modulusAt p.Q i)) (MRed_zero_left _ _) _ _
        (by simp [hx1, hy0]),
      getD_map_zero (fun v => MRed v (MForm ((p.T * word) % modulusAt p.Q i)
        (modulusAt p.Q i)) (modulusAt p.Q i)) (MRed_zero_left _ _),
      getD_map_zero (fun v => MRed v (MForm ((p.T * word) % modulusAt p.Q i)
        (modulusAt p.Q i)) (modulusAt p.Q i)) (MRed_zero_left _ _)]
    exact CRed_add_tensor hodd h63 _ _ _ _ _
  · rw [hcoef x1 y1 d2 hd2 hx1 hy1]
    exact MRed_tensor hodd _ _ _

/-- Without relinearization and on two distinct operands, the products leave in
`op2.Value[0..2]` the three polynomials computed from the operand `x` (the one multiplied
by `tMontgomery`: `op1` when it is the output, `op0` otherwise) and the other operand
`y`, both as they are in the store the products start from. -/
theorem tensorStandardProducts_noRelin (ev : Evaluator) (level : Nat) (op0 op1 op2 : Ref)
    (h1 : Heap) (hne : op0 ≠ op1) (hlen : 3 ≤ (h1 op2).Value.length)
    (x y : Ref) (hx : x = if op1 = op2 then op1 else op0)
    (hy : y = if op1 = op2 then op0 else op1) :
    ∃ h5, tensorStandardProducts ev level op0 op1 false op2 h1 = .ok h5 ∧
      (h5 op2).MetaData = (h1 op2).MetaData ∧
      (h5 op2).Value.length = (h1 op2).Value.length ∧
      getPoly (h5 op2) 0 = MulCoeffsMontgomery ev.parameters.Q level
        (MulRNSScalarMontgomery ev.parameters.Q level (getPoly (h1 x) 0)
          (tMontgomery ev.parameters) (buffQ ev.parameters))
        (getPoly (h1 y) 0) (getPoly (h1 op2) 0) ∧
      getPoly (h5 op2) 1 = MulCoeffsMontgomeryThenAdd ev.parameters.Q level
        (MulRNSScalarMontgomery ev.parameters.Q level (getPoly (h1 x) 1)
          (tMontgomery ev.parameters) (buffQ ev.parameters))
        (getPoly (h1 y) 0)
        (MulCoeffsMontgomery ev.parameters.Q level
          (MulRNSScalarMontgomery ev.parameters.Q level (getPoly (h1 x) 0)
            (tMontgomery ev.parameters) (buffQ ev.parameters))
          (getPoly (h1 y) 1) (getPoly (h1 op2) 1)) ∧
      getPoly (h5 op2) 2 = MulCoeffsMontgomery ev.parameters.Q level
        (MulRNSScalarMontgomery ev.parameters.Q level (getPoly (h1 x) 1)
          (tMontgomery ev.parameters) (buffQ ev.parameters))
        (getPoly (h1 y) 1) (getPoly (h1 op2) 2) := by
  have hy2 : y ≠ op2 := by
    rw [hy]
    by_cases e : op1 = op2
    · simp only [e, if_true]; rw [← e]; exact hne
    · simp only [e, if_false]; exact e
  subst hx
  subst hy
  unfold tensorStandardProducts
  simp only [hne, if_false, Bool.false_eq_true]
  refine ⟨_, rfl, ?_, ?_, ?_, ?_, ?_⟩
  · simp only [setPoly_metaData]
  · simp only [setPoly_length]
  · rw [getPoly_setPoly_ne _ _ _ (by decide), getPoly_setPoly_ne _ _ _ (by decide),
      getPoly_setPoly_ne _ _ _ (by decide), getPoly_setPoly_same _ _ _ (by omega)]
  · rw [getPoly_setPoly_same _ _ _ (by simp only [setPoly_length]; omega)]
    rw [getPoly_setPoly_same _ _ _ (by simp only [setPoly_length]; omega)]
    simp only [setPoly_other _ _ _ hy2]
    rw [getPoly_setPoly_ne _ _ _ (by decide), getPoly_setPoly_ne _ _ _ (by decide)]
  · rw [getPoly_setPoly_ne _ _ _ (by decide), getPoly_setPoly_ne _ _ _ (by decide),
      getPoly_setPoly_same _ _ _ (by simp only [setPoly_length]; omega)]
    rw [getPoly_setPoly_ne _ _ _ (by decide)]
    simp only [setPoly_other _ _ _ hy2]

theorem Ciphertext.Resize_degree_same (l : Nat) (ct : Ciphertext) :
    (ct.Resize ct.Degree l).Value.length = ct.Value.length := by
  have h := Ciphertext.Resize_degree_self l ct
  unfold Ciphertext.Resize at h ⊢
  unfold Ciphertext.Degree at h ⊢
  simp only at h ⊢
  split_ifs <;> simp_all

theorem Ciphertext.Resize_value_congr {c1 c2 : Ciphertext} (hv : c1.Value = c2.Value)
    (d l : Nat) : (c1.Resize d l).Value = (c2.Resize d l).Value := by
  unfold Ciphertext.Resize Ciphertext.Level
  simp only [hv]

theorem dropToLevel_other (level : Nat) {op2 r : Ref} (h : Heap) (hr : r ≠ op2) :
    dropToLevel level op2 h r = h r := by
  unfold dropToLevel
  split_ifs
  · simp [DropLevel, Heap.set, hr]
  · rfl

theorem dropToLevel_same (level : Nat) (op2 : Ref) (h : Heap) :
    dropToLevel level op2 h op2 = (if (h op2).Level > level
      then (h op2).Resize (h op2).Degree ((h op2).Level - ((h op2).Level - level))
      else h op2) := by
  unfold dropToLevel
  split_ifs
  · simp [DropLevel, Heap.set]
  · rfl

theorem dropToLevel_length (level : Nat) (op2 r : Ref) (h : Heap) :
    (dropToLevel level op2 h r).Value.length = (h r).Value.length := by
  by_cases hr : r = op2
  · subst hr
    rw [dropToLevel_same]
    split_ifs
    · exact Ciphertext.Resize_degree_same _ _
    · rfl
  · rw [dropToLevel_other level h hr]

theorem dropToLevel_metaData (level : Nat) (op2 r : Ref) (h : Heap) :
    (dropToLevel level op2 h r).MetaData = (h r).MetaData := by
  by_cases hr : r = op2
  · subst hr
    rw [dropToLevel_same]
    split_ifs <;> rfl
  · rw [dropToLevel_other level h hr]

theorem setOutputMetaData_other (T : Nat) (op0 op1 : Ref) {op2 r : Ref} (h : Heap)
    (hr : r ≠ op2) : setOutputMetaData T op0 op1 op2 h r = h r := by
  simp [setOutputMetaData, Heap.set, hr]

theorem setOutputMetaData_value (T : Nat) (op0 op1 op2 r : Ref) (h : Heap) :
    (setOutputMetaData T op0 op1 op2 h r).Value = (h r).Value := by
  by_cases hr : r = op2
  · subst hr; simp [setOutputMetaData, Heap.set]
  · rw [setOutputMetaData_other T op0 op1 h hr]

/-- The scale `tensorStandard` gives its output: the second factor is read after
`op2.MetaData = op0.MetaData`, so it is the scale of `op0` when `op1` is the output. -/
theorem setOutputMetaData_scale (T : Nat) (op0 op1 op2 : Ref) (h : Heap) :
    (setOutputMetaData T op0 op1 op2 h op2).MetaData.PlaintextScale
      = ScaleMul T (h op0).MetaData.PlaintextScale
          (if op1 = op2 then (h op0).MetaData.PlaintextScale
            else (h op1).MetaData.PlaintextScale) := by
  by_cases e1 : op1 = op2
  · by_cases e0 : op0 = op2
    · simp [setOutputMetaData, Heap.set, e0, e1]
    · simp [setOutputMetaData, Heap.set, e0, e1]
  · by_cases e0 : op0 = op2
    · simp [setOutputMetaData, Heap.set, e0, e1]
    · simp [setOutputMetaData, Heap.set, e0, e1]

theorem resizeToDegree2_other (relin : Bool) {op2 r : Ref} (h : Heap) (hr : r ≠ op2) :
    resizeToDegree2 relin op2 h r = h r := by
  unfold resizeToDegree2
  split_ifs
  · simp [Heap.set, hr]
  · rfl

theorem resizeToDegree2_metaData (relin : Bool) (op2 r : Ref) (h : Heap) :
    (resizeToDegree2 relin op2 h r).MetaData = (h r).MetaData := by
  unfold resizeToDegree2
  split_ifs
  · by_cases hr : r = op2
    · subst hr; simp [Heap.set, Ciphertext.Resize_metaData]
    · simp [Heap.set, hr]
  · rfl

/-- `tensorStandard` without relinearization on two degree-1 operands: the checks pass,
and the products run at the level `min(level op0, level op1, level op2)` on a store that
differs from the initial one only at `op2`, whose polynomials have been prepared and
whose scale has been set. -/
theorem tensorStandard_noRelin_eq (ev : Evaluator) (op0 op1 op2 : Ref) (h : Heap)
    (hd0 : (h op0).Degree = 1) (hd1 : (h op1).Degree = 1) (hd2 : 1 ≤ (h op2).Degree) :
    ∃ hD, tensorStandard ev op0 op1 false op2 h
        = tensorStandardProducts ev (min (min (h op0).Level (h op1).Level) (h op2).Level)
            op0 op1 false op2 hD ∧
      (∀ r, r ≠ op2 → hD r = h r) ∧
      (hD op2).Value
        = (prepareOutput (min (min (h op0).Level (h op1).Level) (h op2).Level) (h op2)).Value ∧
      (hD op2).MetaData.PlaintextScale = ScaleMul ev.parameters.T
        (h op0).MetaData.PlaintextScale
        (if op1 = op2 then (h op0).MetaData.PlaintextScale
          else (h op1).MetaData.PlaintextScale) := by
  have hcheck : CheckBinary (h op0) (h op1) (h op2) (max (h op0).Degree (h op1).Degree)
      = .ok (max (max (h op0).Degree (h op1).Degree) (h op2).Degree,
          min (min (h op0).Level (h op1).Level) (h op2).Level) := by
    unfold CheckBinary
    rw [if_neg (by rw [hd0, hd1]; simp only [max_self]; omega)]
  have hdegA : ∀ r, (dropToLevel (min (min (h op0).Level (h op1).Level) (h op2).Level)
      op2 h r).Degree = (h r).Degree := by
    intro r; unfold Ciphertext.Degree; rw [dropToLevel_length]
  have hdegC : ∀ r, (setOutputMetaData ev.parameters.T op0 op1 op2
      (dropToLevel (min (min (h op0).Level (h op1).Level) (h op2).Level) op2 h) r).Degree
      = (h r).Degree := by
    intro r
    have := hdegA r
    unfold Ciphertext.Degree at this ⊢
    rw [setOutputMetaData_value]; exact this
  unfold tensorStandard
  rw [hcheck]
  simp only []
  rw [if_neg (by rw [hdegA, hdegA, hd0, hd1]; decide)]
  rw [if_pos ⟨by rw [hdegC, hd0], by rw [hdegC, hd1]⟩]
  unfold tensorStandardCt
  refine ⟨_, rfl, ?_, ?_, ?_⟩
  · intro r hr
    rw [resizeToDegree2_other _ _ hr, setOutputMetaData_other _ _ _ _ hr,
      dropToLevel_other _ _ hr]
  · unfold resizeToDegree2 prepareOutput
    simp only [true_and]
    rw [← dropToLevel_same]
    have hv := setOutputMetaData_value ev.parameters.T op0 op1 op2 op2
      (dropToLevel (min (min (h op0).Level (h op1).Level) (h op2).Level) op2 h)
    have hdeg : (setOutputMetaData ev.parameters.T op0 op1 op2
        (dropToLevel (min (min (h op0).Level (h op1).Level) (h op2).Level) op2 h) op2).Degree
        = (dropToLevel (min (min (h op0).Level (h op1).Level) (h op2).Level) op2 h op2).Degree :=
      congrArg (fun v => List.length v - 1) hv
    have hlev : (setOutputMetaData ev.parameters.T op0 op1 op2
        (dropToLevel (min (min (h op0).Level (h op1).Level) (h op2).Level) op2 h) op2).Level
        = (dropToLevel (min (min (h op0).Level (h op1).Level) (h op2).Level) op2 h op2).Level :=
      congrArg (fun v => Poly.Level (List.headD v [])) hv
    rw [hdeg, hlev]
    split_ifs
    · rw [Heap.set_same]
      exact Ciphertext.Resize_value_congr hv _ _
    · exact hv
  · rw [resizeToDegree2_metaData, setOutputMetaData_scale, dropToLevel_metaData,
      dropToLevel_metaData]

/-! ## The output of `tensorStandard` before the products -/

theorem rowAt_take {p : Poly} {n i : Nat} (hi : i < n) : rowAt (p.take n) i = rowAt p i := by
  unfold rowAt
  rw [List.getD_eq_getElem?_getD, List.getD_eq_getElem?_getD, List.getElem?_take_of_lt hi]

theorem Ciphertext.WF_level {N : Nat} {ct : Ciphertext} (hwf : ct.WF N) {pl : Poly}
    (hpl : pl ∈ ct.Value) : pl.Level = ct.Level := by
  have := (hwf.2 pl hpl).1
  unfold Poly.Level; omega

/-- Dropping a well-formed ciphertext to a level below its own truncates each of its
polynomials to the first `level + 1` rows. -/
theorem Ciphertext.Resize_drop_value {N level : Nat} {ct : Ciphertext} (hwf : ct.WF N)
    (hl : level < ct.Level) :
    (ct.Resize ct.Degree level).Value = ct.Value.map (fun pl => pl.take (level + 1)) := by
  have hmap : ct.Value.map (Poly.Resize level) = ct.Value.map (fun pl => pl.take (level + 1)) := by
    apply List.map_congr_left
    intro pl hpl
    unfold Poly.Resize
    rw [if_pos (by rw [Ciphertext.WF_level hwf hpl]; exact hl)]
  unfold Ciphertext.Resize
  simp only [ne_eq, Nat.ne_of_gt hl, not_false_eq_true, if_true]
  rw [hmap]
  unfold Ciphertext.Degree
  simp only [List.length_map, gt_iff_lt, lt_self_iff_false, if_false]

/-- The first step of the preparation, on a well-formed output: the number of polynomials
is kept, every polynomial has `level + 1` rows, and the rows up to `level` are kept. -/
theorem dropPart_spec {N level : Nat} {ct : Ciphertext} (hwf : ct.WF N)
    (hl : level ≤ ct.Level) :
    (if ct.Level > level then ct.Resize ct.Degree (ct.Level - (ct.Level - level))
      else ct).Value.length = ct.Value.length ∧
    (∀ pl ∈ (if ct.Level > level then ct.Resize ct.Degree (ct.Level - (ct.Level - level))
      else ct).Value, pl.length = level + 1) ∧
    (∀ k i, i ≤ level →
      rowAt (getPoly (if ct.Level > level
        then ct.Resize ct.Degree (ct.Level - (ct.Level - level)) else ct) k) i
        = rowAt (getPoly ct k) i) := by
  by_cases c : ct.Level > level
  · have hsub : ct.Level - (ct.Level - level) = level := by omega
    rw [if_pos c, hsub]
    have hval := Ciphertext.Resize_drop_value hwf c
    refine ⟨by rw [hval]; simp, ?_, ?_⟩
    · intro pl hpl
      rw [hval] at hpl
      obtain ⟨pl0, hpl0, rfl⟩ := List.mem_map.mp hpl
      have := (hwf.2 pl0 hpl0).1
      rw [List.length_take]; omega
    · intro k i hi
      unfold getPoly
      rw [hval]
      by_cases hk : k < ct.Value.length
      · rw [List.getD_eq_getElem _ _ (by simpa using hk), List.getD_eq_getElem _ _ hk,
          List.getElem_map]
        exact rowAt_take (by omega)
      · rw [List.getD_eq_default _ _ (by simpa using hk), List.getD_eq_default _ _ (by omega)]
  · have heq : ct.Level = level := by omega
    rw [if_neg c]
    refine ⟨rfl, ?_, fun _ _ _ => rfl⟩
    intro pl hpl
    rw [(hwf.2 pl hpl).1, heq]

/-- The output as the products find it, when it was well formed with at least two
polynomials: it has at least three polynomials, the first three have more than `level`
rows, and the rows up to `level` of the polynomials it had are kept. -/
theorem prepareOutput_spec {N level : Nat} {ct : Ciphertext} (hwf : ct.WF N)
    (hl : level ≤ ct.Level) (hdeg : 2 ≤ ct.Value.length) :
    3 ≤ (prepareOutput level ct).Value.length ∧
    (∀ k, k < 3 → level < (getPoly (prepareOutput level ct) k).length) ∧
    (∀ k i, k < ct.Value.length → i ≤ level →
      rowAt (getPoly (prepareOutput level ct) k) i = rowAt (getPoly ct k) i) := by
  obtain ⟨hlen, hrows, hkeep⟩ := dropPart_spec hwf hl
  unfold prepareOutput
  simp only
  generalize hA : (if ct.Level > level then ct.Resize ct.Degree (ct.Level - (ct.Level - level))
      else ct) = ctA at hlen hrows hkeep
  have hAlen : 2 ≤ ctA.Value.length := by omega
  have hAlevel : ctA.Level = level := by
    unfold Ciphertext.Level Poly.Level
    rcases hv : ctA.Value with _ | ⟨p0, rest⟩
    · rw [hv] at hAlen; simp at hAlen
    · have := hrows p0 (by rw [hv]; simp)
      simp [this]
  by_cases c : ctA.Degree < 2
  · have hlen2 : ctA.Value.length = 2 := by unfold Ciphertext.Degree at c; omega
    have hval : (ctA.Resize 2 ctA.Level).Value
        = ctA.Value ++ [NewPoly ((ctA.Value.headD []).headD []).length ctA.Level] := by
      unfold Ciphertext.Resize
      simp only [ne_eq, not_true_eq_false, if_false, hlen2]
      rfl
    rw [if_pos c]
    refine ⟨by rw [hval]; simp [hlen2], ?_, ?_⟩
    · intro k hk
      unfold getPoly
      rw [hval]
      by_cases hk2 : k < ctA.Value.length
      · rw [List.getD_append _ _ _ _ hk2, List.getD_eq_getElem _ _ hk2]
        rw [hrows _ (List.getElem_mem hk2)]; omega
      · have hk3 : k = 2 := by omega
        subst hk3
        rw [List.getD_eq_getElem _ _ (by simp [hlen2])]
        rw [List.getElem_append_right (by omega)]
        simp [NewPoly, hAlevel]
    · intro k i hk hi
      rw [← hkeep k i hi]
      unfold getPoly
      rw [hval, List.getD_append _ _ _ _ (by omega)]
  · rw [if_neg c]
    unfold Ciphertext.Degree at c
    refine ⟨by omega, ?_, ?_⟩
    · intro k hk
      unfold getPoly
      rw [List.getD_eq_getElem _ _ (by omega)]
      rw [hrows _ (List.getElem_mem _)]; omega
    · intro k i _ hi
      exact hkeep k i hi
/-- In a well-formed ciphertext every row up to the level of every polynomial has `N`
coefficients. -/
theorem Ciphertext.WF_row {N : Nat} {ct : Ciphertext} (hwf : ct.WF N) {k i : Nat}
    (hk : k < ct.Value.length) (hi : i ≤ ct.Level) :
    (rowAt (getPoly ct k) i).length = N := by
  unfold getPoly
  rw [List.getD_eq_getElem _ _ hk]
  have hmem := List.getElem_mem hk
  obtain ⟨hlen, hrow⟩ := hwf.2 _ hmem
  unfold rowAt
  rw [List.getD_eq_getElem _ _ (by omega)]
  exact hrow _ (List.getElem_mem _)

theorem coeff_congr {p1 p2 : Poly} {i : Nat} (h : rowAt p1 i = rowAt p2 i) (j : Nat) :
    coeff p1 i j = coeff p2 i j := by
  unfold coeff; rw [h]

/-! ## Degree checks of `tensorStandard` -/

/-- With a degree-0 second operand `tensorStandard` takes the plaintext branch, which does
not read `relin`. -/
theorem tensorStandard_degree_zero_relin (ev : Evaluator) (op0 op1 op2 : Ref) (h : Heap)
    (hd : (h op1).Degree = 0) :
    tensorStandard ev op0 op1 true op2 h = tensorStandard ev op0 op1 false op2 h := by
  unfold tensorStandard
  cases hc : CheckBinary (h op0) (h op1) (h op2) (max (h op0).Degree (h op1).Degree) with
  | panic m => rfl
  | outOfFuel => rfl
  | ok v =>
    obtain ⟨d, level⟩ := v
    simp only
    have hdeg : (setOutputMetaData ev.parameters.T op0 op1 op2
        (dropToLevel level op2 h) op1).Degree = 0 := by
      unfold Ciphertext.Degree at hd ⊢
      rw [setOutputMetaData_value, dropToLevel_length]
      exact hd
    have hne : ¬ ((setOutputMetaData ev.parameters.T op0 op1 op2
        (dropToLevel level op2 h) op0).Degree = 1 ∧
        (setOutputMetaData ev.parameters.T op0 op1 op2
        (dropToLevel level op2 h) op1).Degree = 1) := by
      rw [hdeg]; simp
    rw [if_neg hne, if_neg hne]

/-- `tensorStandard` panics when the degrees of its operands add up to more than 2. -/
theorem tensorStandard_total_degree (ev : Evaluator) (op0 op1 : Ref) (relin : Bool)
    (op2 : Ref) (h : Heap) (hd : 2 < (h op0).Degree + (h op1).Degree) :
    ∃ m, tensorStandard ev op0 op1 relin op2 h = .panic m := by
  unfold tensorStandard
  cases hc : CheckBinary (h op0) (h op1) (h op2) (max (h op0).Degree (h op1).Degree) with
  | panic m => exact ⟨m, rfl⟩
  | outOfFuel => simp [CheckBinary] at hc; split at hc <;> simp at hc
  | ok v =>
    obtain ⟨d, level⟩ := v
    simp only
    have h0 : (dropToLevel level op2 h op0).Degree = (h op0).Degree := by
      unfold Ciphertext.Degree; rw [dropToLevel_length]
    have h1 : (dropToLevel level op2 h op1).Degree = (h op1).Degree := by
      unfold Ciphertext.Degree; rw [dropToLevel_length]
    rw [h0, h1, if_pos hd]
    exact ⟨_, rfl⟩

/-! ## Levels through invariant tensoring -/

theorem setPoly_level_zero (h : Heap) (r x : Ref) (v : Poly)
    (hv : v.length = (getPoly (h r) 0).length) :
    ((setPoly h r 0 v) x).Level = (h x).Level := by
  by_cases hx : x = r
  · subst hx
    simp only [setPoly, Heap.set, if_true, Ciphertext.Level]
    rcases hval : (h x).Value with _ | ⟨p0, rest⟩
    · simp
    · simp only [getPoly, hval, List.getD_cons_zero] at hv
      simp [Poly.Level, hv]
  · rw [setPoly_other h 0 v hx]

theorem setPoly_level_succ (h : Heap) (r x : Ref) {k : Nat} (v : Poly) (hk : k ≠ 0) :
    ((setPoly h r k v) x).Level = (h x).Level := by
  by_cases hx : x = r
  · subst hx
    simp only [setPoly, Heap.set, if_true, Ciphertext.Level]
    rcases hval : (h x).Value with _ | ⟨p0, rest⟩
    · simp
    · cases k with
      | zero => exact absurd rfl hk
      | succ n => simp
  · rw [setPoly_other h k v hx]

theorem Heap.set_metaData_level (h : Heap) (r x : Ref) (m : MetaData) :
    ((h.set r { h r with MetaData := m }) x).Level = (h x).Level := by
  by_cases hx : x = r
  · subst hx; simp [Heap.set, Ciphertext.Level]
  · simp [Heap.set, hx]

theorem quantize_fst_length (ev : Evaluator) (level lQMul : Nat) (c2Q1 c2Q2 : Poly) :
    (quantize ev level lQMul c2Q1 c2Q2).1.length = c2Q1.length := by
  simp only [quantize, RingNTT, RingINTT, ModUpPtoQ, writeRows_length, MulScalar_length]

theorem modUpAndNTT_ok (ev : Evaluator) (level lQMul : Nat) :
    ∀ (vs bufs : List Poly), vs.length ≤ bufs.length →
      ∃ r, modUpAndNTT ev level lQMul vs bufs = .ok r := by
  intro vs
  induction vs with
  | nil => intro bufs _; exact ⟨bufs, rfl⟩
  | cons v vs ih =>
    intro bufs hle
    cases bufs with
    | nil => simp at hle
    | cons b bs =>
      obtain ⟨r, hr⟩ := ih bs (by simpa using hle)
      simp only [modUpAndNTT, hr]
      exact ⟨_, rfl⟩

theorem relinearizeInto_level (ev : Evaluator) (level : Nat) (c2 : Poly) (op2 : Ref)
    (h : Heap) (hkey : ev.hasRelinearizationKey = true) :
    ∃ h1, relinearizeInto ev level c2 op2 h = .ok h1 ∧ ∀ x, (h1 x).Level = (h x).Level := by
  unfold relinearizeInto
  simp only [hkey, Bool.true_eq_false, if_false]
  refine ⟨_, rfl, ?_⟩
  intro x
  rw [setPoly_level_succ _ _ _ _ (by decide), setPoly_level_zero]
  unfold RingAdd
  rw [writeRows_length]

theorem tensoreLowDeg_level (ev : Evaluator) (level lQMul : Nat) (ct0Q0 ct1Q0 : Ref)
    (relin : Bool) (ctOut : Ref) (ct0Q1 ct1Q1 : List Poly) (h : Heap) (x : Ref) :
    ((tensoreLowDeg ev level lQMul ct0Q0 ct1Q0 relin ctOut ct0Q1 ct1Q1 h).1 x).Level
      = (h x).Level := by
  unfold tensoreLowDeg
  simp only
  have h1 : ∀ (c a : Poly) (y : Ref), ((setPoly h ctOut 0 (MulCoeffsMontgomery
      ev.parameters.Q level c a (getPoly (h ctOut) 0))) y).Level = (h y).Level := by
    intro c a y
    apply setPoly_level_zero
    unfold MulCoeffsMontgomery
    rw [writeRows_length]
  split_ifs <;>
    simp only [setPoly_level_succ _ _ _ _ (show (1 : Nat) ≠ 0 by decide),
      setPoly_level_succ _ _ _ _ (show (2 : Nat) ≠ 0 by decide), h1]


theorem resizeSelf_length (h : Heap) (r x : Ref) (l : Nat) :
    ((h.set r ((h r).Resize (h r).Degree l)) x).Value.length = (h x).Value.length := by
  by_cases hx : x = r
  · subst hx; rw [Heap.set_same]; exact Ciphertext.Resize_degree_same _ _
  · rw [Heap.set_other _ _ hx]

theorem resizeToDegree2_level (relin : Bool) (op2 x : Ref) (h : Heap) :
    (resizeToDegree2 relin op2 h x).Level = (h x).Level := by
  unfold resizeToDegree2
  split_ifs
  · by_cases hx : x = op2
    · subst hx; rw [Heap.set_same]; exact Ciphertext.Resize_level_eq 2 le_rfl
    · rw [Heap.set_other _ _ hx]
  · rfl

theorem Ciphertext.Resize_two_degree (ct : Ciphertext) (hd : ct.Degree < 2) :
    1 ≤ (ct.Resize 2 ct.Level).Degree := by
  unfold Ciphertext.Resize Ciphertext.Degree at *
  simp only [ne_eq, not_true_eq_false, if_false]
  split_ifs with c1
  · omega
  · simp only [List.length_append, List.length_replicate]; omega

theorem resizeToDegree2_degree_pos (relin : Bool) (op2 x : Ref) (h : Heap)
    (hx : 1 ≤ (h x).Degree) : 1 ≤ (resizeToDegree2 relin op2 h x).Degree := by
  unfold resizeToDegree2
  split_ifs with c
  · by_cases e : x = op2
    · subst e; rw [Heap.set_same]; exact Ciphertext.Resize_two_degree _ c.2
    · rw [Heap.set_other _ _ e]; exact hx
  · exact hx

theorem resizeToDegree2_noRelin_degree (op2 : Ref) (h : Heap) :
    1 ≤ (resizeToDegree2 false op2 h op2).Degree := by
  unfold resizeToDegree2
  split_ifs with c
  · rw [Heap.set_same]; exact Ciphertext.Resize_two_degree _ c.2
  · simp only [true_and, not_lt] at c; omega

/-- `tensorInvariant` on two degree-1 operands returns, with its output at the level
`min(level ct0, level ct1, level ctOut)`. -/
theorem tensorInvariant_level (ev : Evaluator) (ct0 ct1 : Ref) (relin : Bool) (ctOut : Ref)
    (h : Heap) (hd0 : (h ct0).Degree = 1) (hd1 : (h ct1).Degree = 1)
    (hdo : relin = true → 1 ≤ (h ctOut).Degree)
    (hkey : relin = true → ev.hasRelinearizationKey = true)
    (hQ : min (min (h ct0).Level (h ct1).Level) (h ctOut).Level < ev.parameters.Q.length) :
    ∃ h1, tensorInvariant ev ct0 ct1 relin ctOut h = .ok h1 ∧
      (h1 ctOut).Level = min (min (h ct0).Level (h ct1).Level) (h ctOut).Level := by
  unfold tensorInvariant
  simp only [if_neg (not_le.2 hQ)]
  generalize hlv : min (min (h ct0).Level (h ct1).Level) (h ctOut).Level = level at *
  generalize hh1 : h.set ctOut ((h ctOut).Resize (h ctOut).Degree level) = h1
  have hlen1 : ∀ x, (h1 x).Value.length = (h x).Value.length := by
    intro x; rw [← hh1]; exact resizeSelf_length h ctOut x level
  have hdeg1 : ∀ x, (h1 x).Degree = (h x).Degree := by
    intro x; unfold Ciphertext.Degree; rw [hlen1]
  have hlev1 : (h1 ctOut).Level = level := by
    rw [← hh1, Heap.set_same]
    exact Ciphertext.Resize_level_eq _ (by rw [← hlv]; exact min_le_right _ _)
  have hl0 : (h ct0).Value.length = 2 := by unfold Ciphertext.Degree at hd0; omega
  have hl1 : (h ct1).Value.length = 2 := by unfold Ciphertext.Degree at hd1; omega
  obtain ⟨tmp0Q1, e0⟩ := modUpAndNTT_ok ev level (levelQMul ev.parameters level)
    (h1 (if ct1 = ctOut then ct1 else ct0)).Value (List.replicate 3 (buffQMul ev.parameters))
    (by rw [hlen1]; split_ifs <;> simp [hl0, hl1])
  obtain ⟨tmp1Q1, e1⟩ : ∃ r, (if (if ct1 = ctOut then ct1 else ct0)
        ≠ (if ct1 = ctOut then ct0 else ct1) then
      modUpAndNTT ev level (levelQMul ev.parameters level)
        (h1 (if ct1 = ctOut then ct0 else ct1)).Value
        (List.replicate 2 (buffQMul ev.parameters))
      else .ok (List.replicate 2 (buffQMul ev.parameters))) = .ok r := by
    by_cases c : (if ct1 = ctOut then ct1 else ct0) ≠ (if ct1 = ctOut then ct0 else ct1)
    · rw [if_pos c]
      exact modUpAndNTT_ok ev level _ _ _ (by rw [hlen1]; split_ifs <;> simp [hl0, hl1])
    · rw [if_neg c]; exact ⟨_, rfl⟩
  simp only [e0, e1]
  generalize hh2 : resizeToDegree2 relin ctOut h1 = h2
  have hlev2 : (h2 ctOut).Level = level := by
    rw [← hh2, resizeToDegree2_level]; exact hlev1
  have hdeg2 : ∀ x, 1 ≤ (h x).Degree → 1 ≤ (h2 x).Degree := by
    intro x hx; rw [← hh2]
    exact resizeToDegree2_degree_pos relin ctOut x h1 (by rw [hdeg1]; exact hx)
  have hdo2 : 1 ≤ (h2 ctOut).Degree := by
    cases relin with
    | true => exact hdeg2 ctOut (hdo rfl)
    | false => rw [← hh2]; exact resizeToDegree2_noRelin_degree ctOut h1
  have hchk : ¬ ((h2 ctOut).Degree < 1 ∨ (h2 (if ct1 = ctOut then ct1 else ct0)).Degree < 1 ∨
      (h2 (if ct1 = ctOut then ct0 else ct1)).Degree < 1) := by
    have a0 := hdeg2 ct0 (by omega)
    have a1 := hdeg2 ct1 (by omega)
    split_ifs <;> omega
  rw [if_neg hchk]
  cases relin with
  | false =>
    simp only [Bool.false_eq_true, if_false]
    refine ⟨_, rfl, ?_⟩
    rw [Heap.set_metaData_level, Heap.set_metaData_level,
      setPoly_level_succ _ _ _ _ (by decide), setPoly_level_succ _ _ _ _ (by decide),
      setPoly_level_zero _ _ _ _ (quantize_fst_length _ _ _ _ _), tensoreLowDeg_level]
    exact hlev2
  | true =>
    simp only [if_true]
    obtain ⟨h7, e7, hl7⟩ := relinearizeInto_level ev level
      (quantize ev level (levelQMul ev.parameters level)
        (tensoreLowDeg ev level (levelQMul ev.parameters level)
          (if ct1 = ctOut then ct1 else ct0) (if ct1 = ctOut then ct0 else ct1) true ctOut
          tmp0Q1 tmp1Q1 h2).2.1
        ((tensoreLowDeg ev level (levelQMul ev.parameters level)
          (if ct1 = ctOut then ct1 else ct0) (if ct1 = ctOut then ct0 else ct1) true ctOut
          tmp0Q1 tmp1Q1 h2).2.2.getD 2 [])).1 ctOut
      (setPoly (setPoly (tensoreLowDeg ev level (levelQMul ev.parameters level)
          (if ct1 = ctOut then ct1 else ct0) (if ct1 = ctOut then ct0 else ct1) true ctOut
          tmp0Q1 tmp1Q1 h2).1 ctOut 0 _) ctOut 1 _) (hkey rfl)
    rw [e7]
    refine ⟨_, rfl, ?_⟩
    rw [Heap.set_metaData_level, Heap.set_metaData_level, hl7,
      setPoly_level_succ _ _ _ _ (by decide),
      setPoly_level_zero _ _ _ _ (quantize_fst_length _ _ _ _ _), tensoreLowDeg_level]
    exact hlev2


theorem freshRef_ne (a b : Nat) : freshRef [a, b] ≠ a ∧ freshRef [a, b] ≠ b := by
  have e : freshRef [a, b] = max a (max b 0) + 1 := rfl
  rw [e]
  have h1 : a ≤ max a (max b 0) := le_max_left a (max b 0)
  have h2 : b ≤ max a (max b 0) := le_trans (le_max_left b 0) (le_max_right a _)
  constructor
  · exact Nat.ne_of_gt (Nat.lt_succ_of_le h1)
  · exact Nat.ne_of_gt (Nat.lt_succ_of_le h2)

theorem NewCiphertext_level (p : Parameters) (d l : Nat) : (NewCiphertext p d l).Level = l := by
  simp [NewCiphertext, Ciphertext.Level, Poly.Level, NewPoly, List.replicate_succ]

theorem NewCiphertext_degree (p : Parameters) (d l : Nat) : (NewCiphertext p d l).Degree = d := by
  simp [NewCiphertext, Ciphertext.Degree]

/-! ## Quantization -/

/-- Fermat: for a prime `m` not dividing `a`, `a^(m-2)` is the inverse of `a`. -/
theorem ModExp_inverse {m a : Nat} (hp : m.Prime) (ha : Nat.Coprime a m) :
    a * ModExp a (m - 2) m ≡ 1 [MOD m] := by
  have ht : 2 ≤ m := hp.two_le
  have hf : a ^ (m - 1) ≡ 1 [MOD m] := by
    have := Nat.ModEq.pow_totient ha
    rwa [Nat.totient_prime hp] at this
  calc a * ModExp a (m - 2) m
      ≡ a * a ^ (m - 2) [MOD m] := Nat.ModEq.mul_left _ (Nat.mod_modEq _ _)
    _ = a ^ (m - 2 + 1) := by ring
    _ = a ^ (m - 1) := by
        have : m - 2 + 1 = m - 1 := by omega
        rw [this]
    _ ≡ 1 [MOD m] := hf

theorem prime_coprime_prod {m : Nat} (hp : m.Prime) :
    ∀ (ms : List Nat), (∀ x ∈ ms, x.Prime) → m ∉ ms → Nat.Coprime m ms.prod := by
  intro ms
  induction ms with
  | nil => intro _ _; simp
  | cons x xs ih =>
    intro hpr hnot
    rw [List.prod_cons]
    apply Nat.Coprime.mul_right
    · rw [Nat.coprime_primes hp (hpr x (List.mem_cons_self _ _))]
      intro e; exact hnot (by rw [e]; exact List.mem_cons_self _ _)
    · exact ih (fun y hy => hpr y (List.mem_cons_of_mem _ hy))
        (fun hm => hnot (List.mem_cons_of_mem _ hm))

theorem prod_pos_of_prime : ∀ (ms : List Nat), (∀ x ∈ ms, x.Prime) → 0 < ms.prod := by
  intro ms
  induction ms with
  | nil => intro _; simp
  | cons x xs ih =>
    intro hpr
    rw [List.prod_cons]
    exact Nat.mul_pos (hpr x (List.mem_cons_self _ _)).pos
      (ih (fun y hy => hpr y (List.mem_cons_of_mem _ hy)))

/-- The reconstruction is the Chinese remainder of the residues: for distinct primes it
gives back every natural number below their product. -/
theorem crt_spec : ∀ (ms : List Nat), (∀ x ∈ ms, x.Prime) → ms.Nodup → ∀ X : Nat,
    crt ms (ms.map (fun m => X % m)) = X % ms.prod := by
  intro ms
  induction ms with
  | nil => intro _ _ X; simp [crt, Nat.mod_one]
  | cons m ms ih =>
    intro hpr hnd X
    have hm : m.Prime := hpr m (List.mem_cons_self _ _)
    have hpr' : ∀ x ∈ ms, x.Prime := fun y hy => hpr y (List.mem_cons_of_mem _ hy)
    have hnot : m ∉ ms := (List.nodup_cons.1 hnd).1
    have hnd' : ms.Nodup := (List.nodup_cons.1 hnd).2
    have hcop : Nat.Coprime m ms.prod := prime_coprime_prod hm ms hpr' hnot
    have hMpos : 0 < ms.prod := prod_pos_of_prime ms hpr'
    have hmpos : 0 < m := hm.pos
    simp only [List.map_cons, crt, ih hpr' hnd' X, List.prod_cons, Nat.mod_mod]
    generalize hM : ms.prod = M at *
    set x := X % M with hx
    set inv := ModExp (M % m) (m - 2) m with hinv
    set t := ((X % m + m - x % m) * inv) % m with ht
    have hxlt : x < M := Nat.mod_lt _ hMpos
    have htlt : t < m := Nat.mod_lt _ hmpos
    -- the inverse of `M` modulo `m`
    have hi : M * inv ≡ 1 [MOD m] := by
      have h1 : Nat.Coprime (M % m) m := by
        have hg : Nat.gcd (M % m) m = Nat.gcd m M := (Nat.gcd_rec m M).symm
        unfold Nat.Coprime
        rw [hg]
        exact hcop
      have := ModExp_inverse hm h1
      exact (Nat.ModEq.mul_right _ (Nat.mod_modEq M m).symm).trans this
    -- modulo `m`
    have e1 : x + M * t ≡ X [MOD m] := by
      have hxm : x % m ≤ m := (Nat.mod_lt _ hmpos).le
      have h2 : M * t ≡ X % m + m - x % m [MOD m] := by
        calc M * t ≡ M * ((X % m + m - x % m) * inv) [MOD m] :=
              Nat.ModEq.mul_left _ (Nat.mod_modEq _ _)
          _ = (X % m + m - x % m) * (M * inv) := by ring
          _ ≡ (X % m + m - x % m) * 1 [MOD m] := Nat.ModEq.mul_left _ hi
          _ = X % m + m - x % m := Nat.mul_one _
      have h3 : x + (X % m + m - x % m) ≡ X [MOD m] := by
        have h4 : x % m + (X % m + m - x % m) = X % m + m := by omega
        have h5 : x + (X % m + m - x % m) ≡ x % m + (X % m + m - x % m) [MOD m] :=
          Nat.ModEq.add_right _ (Nat.mod_modEq _ _).symm
        rw [h4] at h5
        have h6 : X % m + m ≡ X [MOD m] := by
          have : X % m + m ≡ X % m [MOD m] := by
            unfold Nat.ModEq; rw [Nat.add_mod_right]
          exact this.trans (Nat.mod_modEq _ _)
        exact h5.trans h6
      exact (Nat.ModEq.add_left _ h2).trans h3
    -- modulo `M`
    have e2 : x + M * t ≡ X [MOD M] := by
      have : x + M * t ≡ x [MOD M] := by
        unfold Nat.ModEq; rw [Nat.add_mul_mod_self_left]
      exact this.trans (Nat.mod_modEq _ _)
    have e3 : x + M * t ≡ X [MOD m * M] :=
      (Nat.modEq_and_modEq_iff_modEq_mul hcop).1 ⟨e1, e2⟩
    have hlt : x + M * t < m * M := by
      have : M * t ≤ M * (m - 1) := Nat.mul_le_mul_left _ (by omega)
      have h7 : M * (m - 1) + M = m * M := by
        have : m = (m - 1) + 1 := by omega
        calc M * (m - 1) + M = M * ((m - 1) + 1) := by ring
          _ = m * M := by rw [← this]; ring
      omega
    calc x + M * t = (x + M * t) % (m * M) := (Nat.mod_eq_of_lt hlt).symm
      _ = X % (m * M) := e3


theorem dvd_prod_of_mem {m : Nat} : ∀ (ms : List Nat), m ∈ ms → m ∣ ms.prod := by
  intro ms hm
  exact List.dvd_prod hm

/-- The residues of an integer determine it modulo the product of distinct primes. -/
theorem crt_int (ms : List Nat) (hpr : ∀ x ∈ ms, x.Prime) (hnd : ms.Nodup) (x : Int) :
    crt ms (ms.map (fun (m : Nat) => (x % (m : Int)).toNat))
      = (x % (ms.prod : Int)).toNat := by
  have hMpos : 0 < ms.prod := prod_pos_of_prime ms hpr
  have hnn : 0 ≤ x % (ms.prod : Int) := Int.emod_nonneg _ (by exact_mod_cast hMpos.ne')
  have hlt : x % (ms.prod : Int) < (ms.prod : Int) :=
    Int.emod_lt_of_pos _ (by exact_mod_cast hMpos)
  have hres : ∀ m ∈ ms, (x % (m : Int)).toNat = (x % (ms.prod : Int)).toNat % m := by
    intro m hm
    have hmpos : 0 < m := (hpr m hm).pos
    have hd : ((m : Nat) : Int) ∣ ((ms.prod : Nat) : Int) := by
      exact_mod_cast dvd_prod_of_mem ms hm
    have h1 : (((x % (ms.prod : Int)).toNat % m : Nat) : Int) = x % (m : Int) := by
      rw [Int.natCast_mod, Int.toNat_of_nonneg hnn, Int.emod_emod_of_dvd _ hd]
    have h2 : 0 ≤ x % (m : Int) := Int.emod_nonneg _ (by exact_mod_cast hmpos.ne')
    have h3 : (((x % (m : Int)).toNat : Nat) : Int) = x % (m : Int) := Int.toNat_of_nonneg h2
    exact_mod_cast h3.trans h1.symm
  rw [List.map_congr_left hres, crt_spec ms hpr hnd]
  apply Nat.mod_eq_of_lt
  have : (((x % (ms.prod : Int)).toNat : Nat) : Int) < (ms.prod : Int) := by
    rw [Int.toNat_of_nonneg hnn]; exact hlt
  exact_mod_cast this

/-- A centered integer is recovered from its residue. -/
theorem centered_spec (z : Int) (M : Nat) (h1 : -(M : Int) < 2 * z) (h2 : 2 * z < (M : Int)) :
    centered ((z % (M : Int)).toNat) M = z := by
  have hM : 0 < (M : Int) := by omega
  have hMn : 0 < M := by exact_mod_cast hM
  by_cases hz : 0 ≤ z
  · have e : z % (M : Int) = z := Int.emod_eq_of_lt hz (by omega)
    rw [e]
    have hlt : z.toNat < M := by
      have : ((z.toNat : Nat) : Int) < (M : Int) := by rw [Int.toNat_of_nonneg hz]; omega
      exact_mod_cast this
    unfold centered
    rw [Nat.mod_eq_of_lt hlt]
    have hc : ¬ M < 2 * z.toNat := by
      have : ((2 * z.toNat : Nat) : Int) < (M : Int) := by
        push_cast; rw [Int.toNat_of_nonneg hz]; exact h2
      have : 2 * z.toNat < M := by exact_mod_cast this
      omega
    rw [if_neg hc]
    exact Int.toNat_of_nonneg hz
  · have hz' : z < 0 := not_le.1 hz
    have e : z % (M : Int) = z + M := by
      have h3 : (z + (M : Int)) % (M : Int) = z % (M : Int) := Int.add_emod_self
      rw [← h3]
      exact Int.emod_eq_of_lt (by omega) (by omega)
    rw [e]
    have hnn : 0 ≤ z + (M : Int) := by omega
    have hlt : (z + (M : Int)).toNat < M := by
      have : (((z + (M : Int)).toNat : Nat) : Int) < (M : Int) := by
        rw [Int.toNat_of_nonneg hnn]; omega
      exact_mod_cast this
    unfold centered
    rw [Nat.mod_eq_of_lt hlt]
    have hc : M < 2 * (z + (M : Int)).toNat := by
      have : (M : Int) < ((2 * (z + (M : Int)).toNat : Nat) : Int) := by
        push_cast; rw [Int.toNat_of_nonneg hnn]; omega
      exact_mod_cast this
    rw [if_pos hc, Int.toNat_of_nonneg hnn]
    ring

/-- The rounded quotient of a centered integer modulo `Q*P` is centered modulo `P`. -/
theorem divRound_bound (x : Int) (Q P : Nat) (hQ : 0 < Q) (hP : P % 2 = 1)
    (h1 : -((Q * P : Nat) : Int) < 2 * x) (h2 : 2 * x < ((Q * P : Nat) : Int)) :
    -(P : Int) < 2 * divRound x Q ∧ 2 * divRound x Q < (P : Int) := by
  unfold divRound
  have hQ' : (0 : Int) < 2 * (Q : Int) := by omega
  set y := (2 * x + (Q : Int)) / (2 * (Q : Int)) with hy
  have hle : y * (2 * (Q : Int)) ≤ 2 * x + (Q : Int) := Int.ediv_mul_le _ (by omega)
  have hgt : 2 * x + (Q : Int) < (y + 1) * (2 * (Q : Int)) :=
    Int.lt_ediv_add_one_mul_self _ hQ'
  push_cast at h1 h2
  have hQi : (0 : Int) < (Q : Int) := by omega
  -- upper bound
  have u1 : (Q : Int) * (2 * y) < (Q : Int) * ((P : Int) + 1) := by nlinarith
  have u2 : 2 * y < (P : Int) + 1 := lt_of_mul_lt_mul_left u1 hQi.le
  have l1 : (Q : Int) * (-(P : Int) - 1) < (Q : Int) * (2 * y) := by nlinarith
  have l2 : -(P : Int) - 1 < 2 * y := lt_of_mul_lt_mul_left l1 hQi.le
  have hPi : ((P : Nat) : Int) % 2 = 1 := by exact_mod_cast hP
  constructor <;> omega

theorem toNat_emod_mul (y : Int) (T q : Nat) (hq : 0 < q) :
    ((y % (q : Int)).toNat * T) % q = (((T : Int) * y) % (q : Int)).toNat := by
  have hq' : ((q : Nat) : Int) ≠ 0 := by exact_mod_cast hq.ne'
  have h1 : 0 ≤ y % (q : Int) := Int.emod_nonneg _ hq'
  have h2 : 0 ≤ ((T : Int) * y) % (q : Int) := Int.emod_nonneg _ hq'
  have e : ((((y % (q : Int)).toNat * T) % q : Nat) : Int)
      = (((((T : Int) * y) % (q : Int)).toNat : Nat) : Int) := by
    rw [Int.toNat_of_nonneg h2]
    push_cast
    rw [Int.toNat_of_nonneg h1]
    conv_lhs => rw [Int.mul_emod, Int.emod_emod_of_dvd _ (dvd_refl _)]
    conv_rhs => rw [Int.mul_emod]
    rw [mul_comm]
  exact_mod_cast e


theorem chain_eq_map (Q : List Nat) (level : Nat) (h : level < Q.length) :
    chain Q level = (List.range (level + 1)).map (fun i => modulusAt Q i) := by
  unfold chain modulusAt
  apply List.ext_getElem
  · simp only [List.length_take, List.length_map, List.length_range]; omega
  · intro n h1 h2
    simp only [List.length_take] at h1
    rw [List.getElem_take, List.getElem_map, List.getElem_range,
      List.getD_eq_getElem _ _ (by omega)]

theorem getD_map_lt {α β : Type} (f : α → β) (xs : List α) (j : Nat) (hj : j < xs.length)
    (d : β) (e : α) : (xs.map f).getD j d = f (xs.getD j e) := by
  rw [List.getD_eq_getElem _ _ (by simpa using hj), List.getD_eq_getElem _ _ hj,
    List.getElem_map]

theorem map_range_getD {α β : Type} (g : α → β) (l : List α) (d : α) :
    (List.range l.length).map (fun j => g (l.getD j d)) = l.map g := by
  apply List.ext_getElem
  · simp
  · intro n h1 h2
    simp only [List.length_map, List.length_range] at h1
    rw [List.getElem_map, List.getElem_range, List.getElem_map, List.getD_eq_getElem _ _ h1]

theorem residuesAt_rows (Q : List Nat) (level : Nat) (hQ : level < Q.length) (a : Poly)
    (xs : List Int) (f : Nat → Int → Nat)
    (hrow : ∀ i, i ≤ level → rowAt a i = xs.map (f (modulusAt Q i))) (j : Nat)
    (hj : j < xs.length) :
    residuesAt a level j = (chain Q level).map (fun m => f m (xs.getD j 0)) := by
  rw [chain_eq_map Q level hQ, List.map_map]
  unfold residuesAt
  apply List.map_congr_left
  intro i hi
  have hi' : i ≤ level := by
    have := List.mem_range.1 hi
    omega
  show coeff a i j = _
  unfold coeff
  rw [hrow i hi', getD_map_lt _ _ _ hj 0 0]
  rfl

theorem modulusAt_mem_chain (Q : List Nat) (level i : Nat) (hQ : level < Q.length)
    (hi : i ≤ level) : modulusAt Q i ∈ chain Q level := by
  rw [chain_eq_map Q level hQ]
  exact List.mem_map.2 ⟨i, List.mem_range.2 (by omega), rfl⟩


theorem prod_odd : ∀ (ms : List Nat), (∀ m ∈ ms, m % 2 = 1) → ms.prod % 2 = 1 := by
  intro ms
  induction ms with
  | nil => intro _; simp
  | cons m ms ih =>
    intro h
    rw [List.prod_cons, Nat.mul_mod, h m (List.mem_cons_self _ _),
      ih (fun y hy => h y (List.mem_cons_of_mem _ hy))]

theorem rowAt_MulScalar (Q : List Nat) (level : Nat) (p1 : Poly) (c : Nat) (p2 : Poly)
    (i : Nat) (hi : i ≤ level) (h2 : i < p2.length) :
    rowAt (MulScalar Q level p1 c p2) i
      = (rowAt p1 i).map (fun x => (x * c) % modulusAt Q i) := by
  unfold rowAt MulScalar
  rw [mapRows_getD _ _ _ _ h2]
  simp [hi]

/-! ## Loops over the polynomials of a ciphertext, and resizing -/

theorem Outcome.bind_ok {α β : Type} (a : α) (f : α → Outcome β) :
    (Outcome.ok a).bind f = f a := rfl

/-- The closed form of a loop over distinct indices that are all in range: the store
changes only at `dst`, whose metadata and number of polynomials are kept; polynomial `k`
of `dst` is `f` of the polynomials `k` before the loop for every visited `k`, and is kept
for every other `k`. -/
theorem polyLoop2_spec (f : Poly → Poly → Poly → Poly) (a b dst : Ref) :
    ∀ (is : List Nat) (h : Heap), is.Nodup →
      (∀ i ∈ is, i < (h a).Value.length ∧ i < (h b).Value.length ∧ i < (h dst).Value.length) →
      ∃ h1, polyLoop2 f a b dst is h = .ok h1 ∧
        (∀ x, x ≠ dst → h1 x = h x) ∧
        (h1 dst).MetaData = (h dst).MetaData ∧
        (h1 dst).Value.length = (h dst).Value.length ∧
        (∀ k ∈ is, getPoly (h1 dst) k
          = f (getPoly (h a) k) (getPoly (h b) k) (getPoly (h dst) k)) ∧
        (∀ k, k ∉ is → getPoly (h1 dst) k = getPoly (h dst) k) := by
  intro is
  induction is with
  | nil =>
    intro h _ _
    exact ⟨h, rfl, fun _ _ => rfl, rfl, rfl, fun k hk => by simp at hk, fun _ _ => rfl⟩
  | cons i rest ih =>
    intro h hnd hin
    have hi := hin i (List.mem_cons_self _ _)
    have hnot : i ∉ rest := (List.nodup_cons.1 hnd).1
    have hnd' : rest.Nodup := (List.nodup_cons.1 hnd).2
    generalize hh1 : setPoly h dst i (f (getPoly (h a) i) (getPoly (h b) i) (getPoly (h dst) i))
      = h1
    have hlen : ∀ x, (h1 x).Value.length = (h x).Value.length := by
      intro x; rw [← hh1]; exact setPoly_length _ _ _ _ _
    have hget : ∀ x k, k ≠ i → getPoly (h1 x) k = getPoly (h x) k := by
      intro x k hk
      rw [← hh1]
      by_cases hx : x = dst
      · subst hx; exact getPoly_setPoly_ne _ _ _ (Ne.symm hk)
      · rw [setPoly_other _ _ _ hx]
    obtain ⟨h2, e2, o2, m2, l2, v2, u2⟩ := ih h1 hnd' (by
      intro k hk
      have := hin k (List.mem_cons_of_mem _ hk)
      rw [hlen, hlen, hlen]; exact this)
    refine ⟨h2, ?_, ?_, ?_, ?_, ?_, ?_⟩
    · simp only [polyLoop2]
      rw [if_pos hi, hh1]; exact e2
    · intro x hx
      rw [o2 x hx, ← hh1, setPoly_other _ _ _ hx]
    · rw [m2, ← hh1, setPoly_metaData]
    · rw [l2, hlen]
    · intro k hk
      rcases List.mem_cons.1 hk with rfl | hk'
      · rw [u2 k hnot, ← hh1, getPoly_setPoly_same _ _ _ hi.2.2]
      · have hne : k ≠ i := fun e => hnot (e ▸ hk')
        rw [v2 k hk', hget a k hne, hget b k hne, hget dst k hne]
    · intro k hk
      have hne : k ≠ i := fun e => hk (e ▸ List.mem_cons_self _ _)
      have hk' : k ∉ rest := fun e => hk (List.mem_cons_of_mem _ e)
      rw [u2 k hk', hget dst k hne]

theorem polyLoop_spec (f : Poly → Poly → Poly) (src dst : Ref) (is : List Nat) (h : Heap)
    (hnd : is.Nodup)
    (hin : ∀ i ∈ is, i < (h src).Value.length ∧ i < (h dst).Value.length) :
    ∃ h1, polyLoop f src dst is h = .ok h1 ∧
      (∀ x, x ≠ dst → h1 x = h x) ∧
      (h1 dst).MetaData = (h dst).MetaData ∧
      (h1 dst).Value.length = (h dst).Value.length ∧
      (∀ k ∈ is, getPoly (h1 dst) k = f (getPoly (h src) k) (getPoly (h dst) k)) ∧
      (∀ k, k ∉ is → getPoly (h1 dst) k = getPoly (h dst) k) :=
  polyLoop2_spec (fun p1 _ p3 => f p1 p3) src src dst is h hnd
    (fun i hi => ⟨(hin i hi).1, (hin i hi).1, (hin i hi).2⟩)


theorem Ciphertext.WF_firstRow {N : Nat} {ct : Ciphertext} (hwf : ct.WF N) :
    ((ct.Value.headD []).headD []).length = N := by
  obtain ⟨hne, hall⟩ := hwf
  rcases hv : ct.Value with _ | ⟨p0, rest⟩
  · exact absurd hv hne
  · have hp := hall p0 (by rw [hv]; simp)
    rcases hp0 : p0 with _ | ⟨r0, rs⟩
    · rw [hp0] at hp; simp at hp
    · simp only [List.headD_cons]
      exact hp.2 r0 (by rw [hp0]; simp)

/-- The polynomials a resize leaves before the degree is adjusted: on a well-formed
ciphertext at or above `level` they are the first `level + 1` rows of each polynomial. -/
theorem Ciphertext.Resize_rows {N level : Nat} {ct : Ciphertext} (hwf : ct.WF N)
    (hl : level ≤ ct.Level) :
    (if ct.Level ≠ level then ct.Value.map (Poly.Resize level) else ct.Value)
      = ct.Value.map (fun pl => pl.take (level + 1)) := by
  by_cases c : ct.Level = level
  · simp only [c, ne_eq, not_true_eq_false, if_false]
    symm
    conv_rhs => rw [← List.map_id ct.Value]
    apply List.map_congr_left
    intro pl hpl
    have := (hwf.2 pl hpl).1
    simp only [id]
    exact List.take_of_length_le (by omega)
  · rw [if_pos c]
    apply List.map_congr_left
    intro pl hpl
    unfold Poly.Resize
    rw [if_pos (by rw [Ciphertext.WF_level hwf hpl]; omega)]

/-- What `Resize(degree, level)` does to a well-formed ciphertext at or above `level`: it
has `degree + 1` polynomials, is well formed at level `level`, keeps the rows up to `level`
of the polynomials it keeps, and the polynomials it adds are zero. -/
theorem Ciphertext.Resize_spec {N level : Nat} (d : Nat) {ct : Ciphertext} (hwf : ct.WF N)
    (hl : level ≤ ct.Level) :
    (ct.Resize d level).Value.length = d + 1 ∧
    (ct.Resize d level).WF N ∧ (ct.Resize d level).Level = level ∧
    (∀ k i, k < ct.Value.length → k ≤ d → i ≤ level →
      rowAt (getPoly (ct.Resize d level) k) i = rowAt (getPoly ct k) i) ∧
    (∀ k, ct.Value.length ≤ k → k ≤ d → getPoly (ct.Resize d level) k = NewPoly N level) := by
  have hrows := Ciphertext.Resize_rows hwf hl
  have hN := Ciphertext.WF_firstRow hwf
  have hlenpos : 0 < ct.Value.length := List.length_pos.2 hwf.1
  -- every polynomial of the result, by its index
  have hval : (ct.Resize d level).Value
      = (List.range (d + 1)).map (fun k =>
          if k < ct.Value.length then (getPoly ct k).take (level + 1)
          else NewPoly N level) := by
    unfold Ciphertext.Resize
    simp only [hrows, hN, List.length_map]
    by_cases c1 : ct.Value.length - 1 > d
    · rw [if_pos c1]
      apply List.ext_getElem
      · simp only [List.length_take, List.length_map, List.length_range]; omega
      · intro n h1 h2
        have hn : n < ct.Value.length := by
          simp only [List.length_take, List.length_map] at h1; omega
        rw [List.getElem_take, List.getElem_map, List.getElem_map, List.getElem_range,
          if_pos hn]
        unfold getPoly
        rw [List.getD_eq_getElem _ _ hn]
    · rw [if_neg c1]
      by_cases c2 : ct.Value.length - 1 < d
      · rw [if_pos c2]
        apply List.ext_getElem
        · simp only [List.length_append, List.length_map, List.length_replicate,
            List.length_range]; omega
        · intro n h1 h2
          rw [List.getElem_map, List.getElem_range]
          by_cases hn : n < ct.Value.length
          · rw [if_pos hn, List.getElem_append_left (by simpa using hn), List.getElem_map]
            unfold getPoly
            rw [List.getD_eq_getElem _ _ hn]
          · rw [if_neg hn, List.getElem_append_right (by simpa using hn)]
            simp
      · rw [if_neg c2]
        apply List.ext_getElem
        · simp only [List.length_map, List.length_range]; omega
        · intro n h1 h2
          have hn : n < ct.Value.length := by
            simp only [List.length_map] at h1; exact h1
          rw [List.getElem_map, List.getElem_map, List.getElem_range, if_pos hn]
          unfold getPoly
          rw [List.getD_eq_getElem _ _ hn]
  have hget : ∀ k, k ≤ d → getPoly (ct.Resize d level) k
      = (if k < ct.Value.length then (getPoly ct k).take (level + 1) else NewPoly N level) := by
    intro k hk
    unfold getPoly
    rw [hval, List.getD_eq_getElem _ _ (by simp; omega), List.getElem_map,
      List.getElem_range]
    rfl
  have hpl : ∀ k, k < ct.Value.length → (getPoly ct k).length = ct.Level + 1 ∧
      ∀ row ∈ getPoly ct k, row.length = N := by
    intro k hk
    unfold getPoly
    rw [List.getD_eq_getElem _ _ hk]
    exact hwf.2 _ (List.getElem_mem _)
  have hlen : (ct.Resize d level).Value.length = d + 1 := by rw [hval]; simp
  have hlev : (ct.Resize d level).Level = level := Ciphertext.Resize_level_eq d hl
  refine ⟨hlen, ⟨?_, ?_⟩, hlev, ?_, ?_⟩
  · intro e; rw [e] at hlen; simp at hlen
  · intro pl hmem
    rw [hlev]
    rw [hval] at hmem
    obtain ⟨k, -, rfl⟩ := List.mem_map.1 hmem
    split_ifs with c
    · obtain ⟨a, b⟩ := hpl k c
      refine ⟨by rw [List.length_take]; omega, ?_⟩
      intro row hrow
      exact b row (List.mem_of_mem_take hrow)
    · refine ⟨by simp [NewPoly], ?_⟩
      intro row hrow
      simp only [NewPoly] at hrow
      rw [(List.mem_replicate.1 hrow).2]
      simp
  · intro k i hk hkd hi
    rw [hget k hkd, if_pos hk]
    exact rowAt_take (by omega)
  · intro k hk hkd
    rw [hget k hkd, if_neg (by omega)]

/-! ## Addition in place -/

theorem CRed_add_reduced {a b q : Nat} (ha : a < q) (hb : b < q) (hq : q < 2 ^ 63) :
    CRed (add64 a b) q = (a + b) % q := by
  have hw : a + b < word := by unfold word; omega
  rw [add64_eq hw]
  unfold CRed
  split_ifs with c
  · rw [sub64_eq hw c]
    have : (a + b) % q = a + b - q := by
      rw [Nat.mod_eq_sub_mod c]; exact Nat.mod_eq_of_lt (by omega)
    rw [this]
  · exact (Nat.mod_eq_of_lt (by omega)).symm

theorem rowAt_RingAdd (Q : List Nat) (level : Nat) (p1 p2 p3 : Poly) (i : Nat)
    (hi : i ≤ level) (h3 : i < p3.length) :
    rowAt (RingAdd Q level p1 p2 p3) i
      = List.zipWith (fun x y => CRed (add64 x y) (modulusAt Q i)) (rowAt p1 i) (rowAt p2 i) :=
  rowAt_writeRows _ hi h3

theorem rowAt_CopyPoly (src dst : Poly) (i : Nat) (h1 : i < dst.length) (h2 : i < src.length) :
    rowAt (CopyPoly src dst) i = rowAt src i := by
  unfold rowAt CopyPoly
  rw [mapRows_getD _ _ _ _ h1]
  simp [h2]

theorem Ciphertext.WF_length {N : Nat} {ct : Ciphertext} (hwf : ct.WF N) :
    ct.Value.length = ct.Degree + 1 := by
  have := List.length_pos.2 hwf.1
  unfold Ciphertext.Degree; omega

theorem Ciphertext.WF_polyLength {N : Nat} {ct : Ciphertext} (hwf : ct.WF N) {k : Nat}
    (hk : k < ct.Value.length) : (getPoly ct k).length = ct.Level + 1 := by
  unfold getPoly
  rw [List.getD_eq_getElem _ _ hk]
  exact (hwf.2 _ (List.getElem_mem _)).1

/-- `evaluateInPlace` with the ring addition, on well-formed operands and an output of
degree at least the larger degree: the output gets `max + 1` polynomials; the first
`min + 1` are the sums, row by row up to `level`; the others are the rows of the operand of
larger degree; the metadata is that of `el0`. -/
theorem evaluateInPlace_add (Q : List Nat) (N level : Nat) (a b o : Ref) (h : Heap)
    (hwa : (h a).WF N) (hwb : (h b).WF N) (hwo : (h o).WF N)
    (hla : level ≤ (h a).Level) (hlb : level ≤ (h b).Level) (hlo : level ≤ (h o).Level)
    (hdo : max (h a).Degree (h b).Degree ≤ (h o).Degree) :
    ∃ hf, evaluateInPlace level a b o (RingAdd Q level) h = .ok hf ∧
      (hf o).Value.length = max (h a).Degree (h b).Degree + 1 ∧
      (∀ k, k ≤ min (h a).Degree (h b).Degree → ∀ i, i ≤ level →
        rowAt (getPoly (hf o) k) i
          = List.zipWith (fun x y => CRed (add64 x y) (modulusAt Q i))
              (rowAt (getPoly (h a) k) i) (rowAt (getPoly (h b) k) i)) ∧
      (∀ k, min (h a).Degree (h b).Degree < k → k ≤ max (h a).Degree (h b).Degree →
        ∀ i, i ≤ level →
          rowAt (getPoly (hf o) k) i
            = rowAt (getPoly (h (if (h a).Degree > (h b).Degree then a else b)) k) i) ∧
      (hf o).MetaData = (h a).MetaData ∧
      (∀ x, x ≠ o → hf x = h x) := by
  have hlena := Ciphertext.WF_length hwa
  have hlenb := Ciphertext.WF_length hwb
  have hleno := Ciphertext.WF_length hwo
  generalize hd0 : (h a).Degree = d0 at *
  generalize hd1 : (h b).Degree = d1 at *
  obtain ⟨R1, R2, R3, R4, -⟩ := Ciphertext.Resize_spec (max d0 d1) hwo hlo
  unfold evaluateInPlace
  simp only [hd0, hd1]
  generalize hh1 : h.set o ((h o).Resize (max d0 d1) level) = h1
  have ho1 : h1 o = (h o).Resize (max d0 d1) level := by rw [← hh1, Heap.set_same]
  have hx1 : ∀ x, x ≠ o → h1 x = h x := by
    intro x hx; rw [← hh1, Heap.set_other _ _ hx]
  rw [← ho1] at R1 R2 R3 R4
  -- an operand that is the output has the larger degree, so the resize keeps its length
  have hlen1 : ∀ x, (x = a ∨ x = b) → (h1 x).Value.length = (h x).Value.length := by
    intro x hx
    by_cases e : x = o
    · subst e
      rw [R1]
      rcases hx with rfl | rfl
      · rw [hd0] at hdo; omega
      · rw [hd1] at hdo; omega
    · rw [hx1 x e]
  have hrow1 : ∀ x, (x = a ∨ x = b) → ∀ k i, k < (h x).Value.length → i ≤ level →
      rowAt (getPoly (h1 x) k) i = rowAt (getPoly (h x) k) i := by
    intro x hx k i hk hi
    by_cases e : x = o
    · subst e
      have hkd : k ≤ max d0 d1 := by
        have := hlen1 x hx; rw [R1] at this; omega
      exact R4 k i hk hkd hi
    · rw [hx1 x e]
  -- the degree of the smaller operand after the resize
  have hdeg1 : ∀ x, (x = a ∨ x = b) → (h1 x).Degree = (h x).Degree := by
    intro x hx; unfold Ciphertext.Degree; rw [hlen1 x hx]
  have hm : (h1 (if d0 > d1 then b else a)).Degree = min d0 d1 := by
    split_ifs with c
    · rw [hdeg1 b (Or.inr rfl), hd1]; omega
    · rw [hdeg1 a (Or.inl rfl), hd0]; omega
  rw [hm]
  -- the first loop
  obtain ⟨h2, e2, o2, m2, l2, v2, u2⟩ := polyLoop2_spec (RingAdd Q level) a b o
    (List.range (min d0 d1 + 1)) h1 (List.nodup_range _) (by
      intro i hi
      have hi' := List.mem_range.1 hi
      rw [hlen1 a (Or.inl rfl), hlen1 b (Or.inr rfl), R1, hlena, hlenb]
      omega)
  rw [e2, Outcome.bind_ok]
  have hlen2 : ∀ x, (h2 x).Value.length = (h1 x).Value.length := by
    intro x
    by_cases e : x = o
    · subst e; exact l2
    · rw [o2 x e]
  have hdeg2 : ∀ x, (h2 x).Degree = (h1 x).Degree := by
    intro x; unfold Ciphertext.Degree; rw [hlen2]
  have hm2 : (h2 (if d0 > d1 then b else a)).Degree = min d0 d1 := by rw [hdeg2]; exact hm
  have hl2 : (h2 (if d0 > d1 then a else b)).Degree = max d0 d1 := by
    rw [hdeg2]
    split_ifs with c
    · rw [hdeg1 a (Or.inl rfl), hd0]; omega
    · rw [hdeg1 b (Or.inr rfl), hd1]; omega
  rw [hm2, hl2]
  -- the copy loop
  obtain ⟨h3, e3, o3, m3, l3, v3, u3⟩ : ∃ h3,
      (if (if d0 > d1 then a else b) ≠ o then
        polyLoop CopyPoly (if d0 > d1 then a else b) o
          (List.range' (min d0 d1 + 1) (max d0 d1 - min d0 d1)) h2
      else .ok h2) = .ok h3 ∧
      (∀ x, x ≠ o → h3 x = h2 x) ∧
      (h3 o).MetaData = (h2 o).MetaData ∧
      (h3 o).Value.length = (h2 o).Value.length ∧
      ((if d0 > d1 then a else b) ≠ o →
        ∀ k ∈ List.range' (min d0 d1 + 1) (max d0 d1 - min d0 d1), getPoly (h3 o) k
          = CopyPoly (getPoly (h2 (if d0 > d1 then a else b)) k) (getPoly (h2 o) k)) ∧
      (∀ k, ((if d0 > d1 then a else b) ≠ o →
          k ∉ List.range' (min d0 d1 + 1) (max d0 d1 - min d0 d1)) →
        getPoly (h3 o) k = getPoly (h2 o) k) := by
    by_cases c : (if d0 > d1 then a else b) ≠ o
    · rw [if_pos c]
      obtain ⟨h3, e3, o3, m3, l3, v3, u3⟩ := polyLoop_spec CopyPoly
        (if d0 > d1 then a else b) o (List.range' (min d0 d1 + 1) (max d0 d1 - min d0 d1)) h2
        (List.nodup_range' _ _) (by
          intro i hi
          have hi' := List.mem_range'_1.1 hi
          rw [hlen2, hlen2, R1]
          have : (h1 (if d0 > d1 then a else b)).Value.length = max d0 d1 + 1 := by
            split_ifs with c2
            · rw [hlen1 a (Or.inl rfl), hlena]; omega
            · rw [hlen1 b (Or.inr rfl), hlenb]; omega
          rw [this]; omega)
      exact ⟨h3, e3, o3, m3, l3, fun _ => v3, fun k hk => u3 k (hk c)⟩
    · rw [if_neg c]
      exact ⟨h2, rfl, fun _ _ => rfl, rfl, rfl, fun hc => absurd hc c, fun _ _ => rfl⟩
  rw [e3, Outcome.bind_ok]
  refine ⟨_, rfl, ?_, ?_, ?_, ?_, ?_⟩
  · rw [Heap.set_same]
    show (h3 o).Value.length = _
    rw [l3, l2, R1]
  · intro k hk i hi
    rw [Heap.set_same]
    show rowAt (getPoly (h3 o) k) i = _
    rw [u3 k (by
      intro _ hmem
      have := List.mem_range'_1.1 hmem
      omega), v2 k (List.mem_range.2 (by omega))]
    have hko : k < (h1 o).Value.length := by rw [R1]; omega
    rw [rowAt_RingAdd Q level _ _ _ i hi (by
        rw [Ciphertext.WF_polyLength R2 hko, R3]; omega),
      hrow1 a (Or.inl rfl) k i (by omega) hi, hrow1 b (Or.inr rfl) k i (by omega) hi]
  · intro k hk1 hk2 i hi
    rw [Heap.set_same]
    show rowAt (getPoly (h3 o) k) i = _
    by_cases c : (if d0 > d1 then a else b) ≠ o
    · rw [v3 c k (List.mem_range'_1.2 (by omega)),
        u2 k (by intro hmem; have := List.mem_range.1 hmem; omega)]
      have hko : k < (h1 o).Value.length := by rw [R1]; omega
      have hsrc : h2 (if d0 > d1 then a else b) = h (if d0 > d1 then a else b) := by
        rw [o2 _ c, hx1 _ c]
      rw [hsrc]
      have hkl : k < (h (if d0 > d1 then a else b)).Value.length := by
        split_ifs with c2
        · rw [hlena]; omega
        · rw [hlenb]; omega
      have hll : level ≤ (h (if d0 > d1 then a else b)).Level := by
        split_ifs <;> assumption
      have hwl : (h (if d0 > d1 then a else b)).WF N := by
        split_ifs <;> assumption
      exact rowAt_CopyPoly _ _ i
        (by rw [Ciphertext.WF_polyLength R2 hko, R3]; omega)
        (by rw [Ciphertext.WF_polyLength hwl hkl]; omega)
    · have c' : (if d0 > d1 then a else b) = o := not_not.1 c
      rw [u3 k (fun hc => absurd hc c),
        u2 k (by intro hmem; have := List.mem_range.1 hmem; omega)]
      rw [c']
      have hko : k < (h o).Value.length := by
        rw [hleno]; omega
      exact R4 k i hko hk2 hi
  · rw [Heap.set_same]
    show (h3 a).MetaData = _
    by_cases e : a = o
    · rw [e, m3, m2, ho1, Ciphertext.Resize_metaData]
    · rw [o3 a e, o2 a e, hx1 a e]
  · intro x hx
    rw [Heap.set_other _ _ hx, o3 x hx, o2 x hx, hx1 x hx]

theorem Ciphertext.Reduced_coeff {Q : List Nat} {level : Nat} {ct : Ciphertext}
    (hr : ct.Reduced Q level) {k i j : Nat} (hk : k < ct.Value.length) (hi : i ≤ level)
    (hj : j < (rowAt (getPoly ct k) i).length) :
    coeff (getPoly ct k) i j < modulusAt Q i := by
  unfold coeff
  rw [List.getD_eq_getElem _ _ hj]
  apply hr (getPoly ct k) _ i hi _ (List.getElem_mem _)
  unfold getPoly
  rw [List.getD_eq_getElem _ _ hk]
  exact List.getElem_mem _

theorem CRed_add_zero (q : Nat) : CRed (add64 0 0) q = 0 := by
  have h0 : add64 0 0 = 0 := rfl
  rw [h0]
  unfold CRed
  by_cases hq : q = 0
  · subst hq
    simp [sub64, word]
  · rw [if_neg (by omega)]

/-! ## Addition of a scalar, and aliased accumulators -/

theorem rowAt_AddScalarBigint (Q : List Nat) (level : Nat) (p1 : Poly) (c : Nat) (p2 : Poly)
    (i : Nat) (hi : i ≤ level) (h2 : i < p2.length) :
    rowAt (AddScalarBigint Q level p1 c p2) i
      = (rowAt p1 i).map (fun x => CRed (add64 x (c % modulusAt Q i)) (modulusAt Q i)) :=
  rowAt_writeRows _ hi h2

theorem scaledScalar (c s T : Nat) :
    (if s ≠ NewScale 1 then BRed c s T else BRedAdd c T) = (c * s) % T := by
  unfold NewScale BRed BRedAdd
  split_ifs with e
  · rfl
  · have : s = 1 := not_not.1 e
    rw [this, Nat.mul_one]

/-- Whatever the kind of tensoring, `mulRelinThenAdd` panics when its output is one of its
operands: the check follows `CheckBinary` and precedes every assignment. -/
theorem mulRelinThenAdd_aliased (ev : Evaluator) (op0 op1 : Ref) (relin : Bool) (op2 : Ref)
    (h : Heap) (hal : op0 = op2 ∨ op1 = op2) :
    ∃ m, mulRelinThenAdd ev op0 op1 relin op2 h = .panic m := by
  unfold mulRelinThenAdd CheckBinary
  by_cases c : (h op2).Degree < max (h op0).Degree (h op1).Degree
  · rw [if_pos c]
    exact ⟨_, rfl⟩
  · rw [if_neg c, Outcome.bind_ok, if_pos hal]
    exact ⟨_, rfl⟩

theorem withPlaintext_panic (pt : Ciphertext) (op0 op2 : Ref) (f : Ref → Heap → Outcome Heap)
    (h : Heap) (hf : ∀ r hh, ∃ m, f r hh = .panic m) :
    ∃ m, withPlaintext pt op0 op2 f h = .panic m := by
  unfold withPlaintext
  obtain ⟨m, hm⟩ := hf (freshRef [op0, op2]) (h.set (freshRef [op0, op2]) pt)
  simp only [hm]
  exact ⟨m, rfl⟩

theorem newPlaintext_bind_panic (ev : Evaluator) (level : Nat) (md : MetaData)
    (values : List Nat) (g : Ciphertext → Outcome Heap) (hg : ∀ pt, ∃ m, g pt = .panic m) :
    ∃ m, (newPlaintextFromBuffer ev level md values).bind g = .panic m := by
  unfold newPlaintextFromBuffer
  split_ifs
  · exact ⟨_, rfl⟩
  · cases ev.backend.Encode values md level (List.take (level + 1) (buffQ ev.parameters)) with
    | none => exact ⟨_, rfl⟩
    | some v => exact hg _

/-! ## Primality certificates and bit lengths -/

/-- The square-and-multiply loop computes the modular power, given one unit of budget per
binary digit of the exponent. -/
theorem powModLoop_eq : ∀ (fuel x e p : Nat), e < 2 ^ fuel →
    powModLoop fuel x e p = x ^ e % p := by
  intro fuel
  induction fuel with
  | zero =>
    intro x e p h
    have : e = 0 := by simpa using h
    subst this; simp [powModLoop]
  | succ n ih =>
    intro x e p h
    unfold powModLoop
    by_cases he : e = 0
    · subst he; simp
    · rw [if_neg he]
      have h2 : e / 2 < 2 ^ n := by
        rw [Nat.div_lt_iff_lt_mul (by norm_num)]; rw [pow_succ] at h; exact h
      simp only [ih _ _ _ h2]
      have hx : ((x * x) % p) ^ (e / 2) % p = (x * x) ^ (e / 2) % p := by
        rw [← Nat.pow_mod]
      rw [hx]
      have hsq : (x * x) ^ (e / 2) = x ^ (2 * (e / 2)) := by
        rw [pow_mul, pow_two]
      rw [hsq]
      split_ifs with hodd
      · have : e = 2 * (e / 2) + 1 := by omega
        conv_rhs => rw [this, pow_succ, mul_comm]
        rw [Nat.mul_mod, Nat.mod_mod, ← Nat.mul_mod]
      · have : e = 2 * (e / 2) := by omega
        conv_rhs => rw [this]

/-- Lucas test: `p` is prime if `a^(p-1) = 1` modulo `p` and `a^((p-1)/q)` is not 1 for
every prime `q` of a factorization of `p - 1`; the powers are evaluated by
`powModLoop`. -/
theorem prime_of_certificate (p a : Nat) (fs : List Nat) (hp : 1 < p) (hsize : p < 2 ^ 64)
    (hfs : ∀ q ∈ fs, q.Prime) (hprod : fs.prod = p - 1)
    (h1 : powModLoop 64 a (p - 1) p = 1)
    (h2 : ∀ q ∈ fs, powModLoop 64 a ((p - 1) / q) p ≠ 1) : p.Prime := by
  have hpow : ∀ e, e < 2 ^ 64 → ((a : ZMod p) ^ e = 1 ↔ powModLoop 64 a e p = 1) := by
    intro e he
    rw [powModLoop_eq _ _ _ _ he]
    have h1p : (1 : ZMod p) = ((1 : Nat) : ZMod p) := by simp
    rw [h1p, ← Nat.cast_pow, ZMod.natCast_eq_natCast_iff, Nat.ModEq, Nat.mod_eq_of_lt hp]
  apply lucas_primality p (a : ZMod p)
  · exact (hpow _ (by omega)).2 h1
  · intro q hq hdvd
    rw [← hprod] at hdvd
    obtain ⟨r, hr, hqr⟩ := (Prime.dvd_prod_iff (Nat.Prime.prime hq)).1 hdvd
    have : q = r := (Nat.prime_dvd_prime_iff_eq hq (hfs r hr)).1 hqr
    subst this
    intro hcontra
    exact h2 q hr ((hpow _ (lt_of_le_of_lt (Nat.div_le_self _ _) (by omega))).1 hcontra)

theorem prime_q47 : Nat.Prime 79164837199873 := by
  apply prime_of_certificate 79164837199873 5 (3 :: 3 :: List.replicate 43 2)
  · norm_num
  · norm_num
  · intro q hq
    simp only [List.mem_cons, List.mem_replicate] at hq
    rcases hq with rfl | rfl | ⟨-, rfl⟩ <;> norm_num
  · decide
  · decide
  · decide


theorem prime_p61a : Nat.Prime 2305843009211596801 := by
  apply prime_of_certificate 2305843009211596801 37
    (3 :: 5 :: 5 :: 11 :: 17 :: 31 :: 41 :: 61681 :: List.replicate 21 2)
  · norm_num
  · norm_num
  · intro q hq
    simp only [List.mem_cons, List.mem_replicate] at hq
    rcases hq with rfl | rfl | rfl | rfl | rfl | rfl | rfl | rfl | ⟨-, rfl⟩ <;> norm_num
  · decide
  · decide
  · decide

set_option maxRecDepth 4096 in
theorem prime_p61b : Nat.Prime 1945555039024054273 := by
  apply prime_of_certificate 1945555039024054273 5 (3 :: 3 :: 3 :: List.replicate 56 2)
  · norm_num
  · norm_num
  · intro q hq
    simp only [List.mem_cons, List.mem_replicate] at hq
    rcases hq with rfl | rfl | rfl | ⟨-, rfl⟩ <;> norm_num
  · decide
  · decide
  · decide

theorem bitLenLoop_spec : ∀ (fuel n : Nat), n ≤ fuel →
    n < 2 ^ bitLenLoop fuel n ∧ (0 < n → 0 < bitLenLoop fuel n ∧ 2 ^ (bitLenLoop fuel n - 1) ≤ n) := by
  intro fuel
  induction fuel with
  | zero =>
    intro n h
    have : n = 0 := by omega
    subst this
    simp [bitLenLoop]
  | succ f ih =>
    intro n h
    unfold bitLenLoop
    by_cases hn : n = 0
    · subst hn; simp
    · rw [if_neg hn]
      obtain ⟨h1, h2⟩ := ih (n / 2) (by omega)
      refine ⟨?_, fun _ => ⟨Nat.succ_pos _, ?_⟩⟩
      · rw [pow_succ]; omega
      · rw [Nat.add_sub_cancel]
        by_cases hh : n / 2 = 0
        · have h0 : bitLenLoop f (n / 2) = 0 := by
            rw [hh]; cases f <;> simp [bitLenLoop]
          rw [h0]; simp; omega
        · obtain ⟨hpos, hle⟩ := h2 (Nat.pos_of_ne_zero hh)
          have : 2 ^ bitLenLoop f (n / 2) = 2 * 2 ^ (bitLenLoop f (n / 2) - 1) := by
            conv_lhs => rw [← Nat.sub_add_cancel hpos, pow_succ, mul_comm]
          rw [this]; omega

/-- The value `BitLen n` is the number of binary digits of `n`. -/
theorem BitLen_spec (n : Nat) :
    n < 2 ^ BitLen n ∧ (0 < n → 0 < BitLen n ∧ 2 ^ (BitLen n - 1) ≤ n) :=
  bitLenLoop_spec n n le_rfl

theorem prod_le_pow (b : Nat) : ∀ (l : List Nat), (∀ m ∈ l, m < b) → l.prod ≤ b ^ l.length := by
  intro l
  induction l with
  | nil => intro _; simp
  | cons x xs ih =>
    intro h
    rw [List.prod_cons, List.length_cons, pow_succ, mul_comm]
    exact Nat.mul_le_mul (ih (fun m hm => h m (List.mem_cons_of_mem _ hm)))
      (le_of_lt (h x (List.mem_cons_self _ _)))

theorem pow_lt_prod (b : Nat) : ∀ (l : List Nat), l ≠ [] → (∀ m ∈ l, b < m) →
    b ^ l.length < l.prod := by
  intro l
  induction l with
  | nil => intro h; exact absurd rfl h
  | cons x xs ih =>
    intro _ h
    have hx := h x (List.mem_cons_self _ _)
    rw [List.prod_cons, List.length_cons, pow_succ, mul_comm]
    by_cases hxs : xs = []
    · subst hxs; simpa using hx
    · have := ih hxs (fun m hm => h m (List.mem_cons_of_mem _ hm))
      calc b * b ^ xs.length ≤ b * xs.prod := Nat.mul_le_mul_left _ (le_of_lt this)
        _ < x * xs.prod := Nat.mul_lt_mul_of_pos_right hx (by omega)

theorem prod_lt_pow (b : Nat) : ∀ (l : List Nat), l ≠ [] → (∀ m ∈ l, m < b) →
    l.prod < b ^ l.length := by
  intro l hne h
  cases l with
  | nil => exact absurd rfl hne
  | cons x xs =>
    have hx := h x (List.mem_cons_self _ _)
    have hxs := prod_le_pow b xs (fun m hm => h m (List.mem_cons_of_mem _ hm))
    rw [List.prod_cons, List.length_cons, pow_succ, mul_comm]
    calc xs.prod * x ≤ b ^ xs.length * x := Nat.mul_le_mul_right _ hxs
      _ < b ^ xs.length * b := Nat.mul_lt_mul_of_pos_left hx (pow_pos (by omega) _)

/-! ## Termination of the scale-matching loop -/

/-- The loop returns with any budget above `A`, whatever the state: `A` is replaced by a
remainder of a division by `A`. -/
theorem matchLoop_returns (t : Nat) :
    ∀ (fuel : Nat) (s : MatchState), s.A < fuel →
      ∃ r, matchLoop t fuel s = some r ∧ r.A = 0 := by
  intro fuel
  induction fuel with
  | zero => intro s h; omega
  | succ n ih =>
    intro s h
    unfold matchLoop
    by_cases hA : s.A = 0
    · exact ⟨s, by simp [hA], hA⟩
    · simp only [hA, if_false]
      apply ih
      rw [matchStep_A]
      have : s.a % s.A < s.A := Nat.mod_lt _ (Nat.pos_of_ne_zero hA)
      omega

/-- For a modulus `T ≥ 2` and a first scale coprime to `T`, `matchScalesBinary` returns. -/
theorem matchScalesBinary_returns (T s0 s1 : Nat) (hT : 2 ≤ T) (hg : Nat.gcd s0 T = 1) :
    ∃ r, matchLoop T (T + 1) (matchInit T s0 s1) = some r ∧
      matchScalesBinary T s0 s1 = .ok (r.r0, r.r1, r.e) := by
  obtain ⟨r, hr, -⟩ := matchLoop_returns T (T + 1) (matchInit T s0 s1)
    (by have := matchInit_A_lt hT s0 s1; omega)
  refine ⟨r, hr, ?_⟩
  unfold matchScalesBinary matchScalesBinaryFuel
  simp [GCD, hg, hr]

/-! ## The rescaled scalar of `MulScalarThenAdd` -/

/-- The case `uint64` of `MulThenAdd` is the same code as `MulScalarThenAdd`. -/
theorem MulThenAdd_scalar_eq (ev : Evaluator) (op0 : Ref) (c : Nat) (op2 : Ref) (h : Heap) :
    MulThenAdd ev op0 (.scalar c) op2 h = ev.MulScalarThenAdd op0 c op2 h := by
  simp only [MulThenAdd, Evaluator.MulScalarThenAdd, rescaledScalar, scaleRatio]

/-- For a prime plaintext modulus the scalar is rescaled by `sOut / sIn`:
`c1 * sIn = c * sOut` modulo `T`. -/
theorem rescaledScalar_prime {T : Nat} (hp : T.Prime) (hw : T < word) (sIn sOut c : Nat)
    (hg : Nat.gcd sIn T = 1) :
    rescaledScalar T sIn sOut c * sIn ≡ c * sOut [MOD T] := by
  unfold rescaledScalar
  split_ifs with hne
  · have h := matchInit_ratio hp hw sIn sOut hg
    have hA : (matchInit T sIn sOut).A = BRed (ModExp sIn (sub64 T 2) T) sOut T := rfl
    rw [hA] at h
    have h1 : BRed (BRed (ModExp sIn (sub64 T 2) T) sOut T) c T
        ≡ BRed (ModExp sIn (sub64 T 2) T) sOut T * c [MOD T] := Nat.mod_modEq _ _
    calc BRed (BRed (ModExp sIn (sub64 T 2) T) sOut T) c T * sIn
        ≡ BRed (ModExp sIn (sub64 T 2) T) sOut T * c * sIn [MOD T] := Nat.ModEq.mul_right _ h1
      _ = c * (sIn * BRed (ModExp sIn (sub64 T 2) T) sOut T) := by ring
      _ ≡ c * sOut [MOD T] := Nat.ModEq.mul_left _ h
  · rw [not_not] at hne; rw [hne]

/-! ## Dropping levels -/

theorem DropLevel_same (ctIn : Ref) (levels : Nat) (h : Heap) :
    DropLevel ctIn levels h ctIn
      = (h ctIn).Resize (h ctIn).Degree ((h ctIn).Level - levels) := by
  simp [DropLevel, Heap.set]

theorem DropLevel_other (ctIn : Ref) (levels : Nat) (h : Heap) {r : Ref} (hr : r ≠ ctIn) :
    DropLevel ctIn levels h r = h r := by
  simp [DropLevel, Heap.set, hr]

/-- What `Resize(ct.Degree(), ct.Level() - k)` does to a well-formed ciphertext. -/
theorem Ciphertext.dropLevels_spec {N : Nat} {ct : Ciphertext} (hwf : ct.WF N) (k : Nat)
    (hk : k ≤ ct.Level) :
    (ct.Resize ct.Degree (ct.Level - k)).Level + k = ct.Level ∧
    (ct.Resize ct.Degree (ct.Level - k)).Degree = ct.Degree ∧
    (ct.Resize ct.Degree (ct.Level - k)).MetaData = ct.MetaData ∧
    (ct.Resize ct.Degree (ct.Level - k)).WF N ∧
    (∀ j i, j ≤ ct.Degree → i ≤ ct.Level - k →
      rowAt (getPoly (ct.Resize ct.Degree (ct.Level - k)) j) i = rowAt (getPoly ct j) i) := by
  obtain ⟨R1, R2, R3, R4, -⟩ :=
    Ciphertext.Resize_spec ct.Degree hwf (Nat.sub_le ct.Level k)
  have hlen := Ciphertext.WF_length hwf
  refine ⟨by rw [R3]; omega, ?_, rfl, R2, ?_⟩
  · unfold Ciphertext.Degree at R1 ⊢; rw [R1]; rfl
  · intro j i hj hi
    exact R4 j i (by unfold Ciphertext.Degree at hj; have := List.length_pos.2 hwf.1; omega) hj hi

/-! ## Serialization -/

theorem set_append_length {bytes l : List Nat} {i x : Nat} :
    (bytes ++ l).set (bytes.length + i) x = bytes ++ l.set i x := by
  rw [List.set_append_right _ _ (by omega)]
  simp

theorem set_append_length_zero {bytes l : List Nat} {x : Nat} :
    (bytes ++ l).set bytes.length x = bytes ++ l.set 0 x :=
  set_append_length (i := 0)

theorem getD_append_length {bytes l : List Nat} {i : Nat} :
    (bytes ++ l).getD (bytes.length + i) 0 = l.getD i 0 := by
  simp [List.getD_eq_getElem?_getD, List.getElem?_append_right]

/-- The bytes `MetaData.MarshalBinaryInPlace` leaves in a buffer that is long enough: those
of the scale, then the two flag bytes, each set to 1 or left as it was. -/
theorem MetaData.MarshalBinaryInPlace_ok (sc : Codec Nat) (m : MetaData) (bytes : List Nat)
    (hlen : bytes.length = sc.MarshalBinarySize m.PlaintextScale)
    (hwrite : ∀ data, sc.MarshalBinarySize m.PlaintextScale ≤ data.length →
      sc.MarshalBinaryInPlace m.PlaintextScale data
        = ((sc.MarshalBinarySize m.PlaintextScale, none),
            bytes ++ data.drop (sc.MarshalBinarySize m.PlaintextScale)))
    (buf : List Nat) (hbuf : m.MarshalBinarySize sc ≤ buf.length) :
    m.MarshalBinaryInPlace sc buf
      = .ok ((m.MarshalBinarySize sc, none),
          bytes ++ (if m.IsMontgomery then
            (if m.IsNTT then (buf.drop bytes.length).set 0 1 else buf.drop bytes.length).set 1 1
            else (if m.IsNTT then (buf.drop bytes.length).set 0 1
              else buf.drop bytes.length))) := by
  unfold MetaData.MarshalBinaryInPlace
  rw [if_neg (not_lt.2 hbuf)]
  unfold MetaData.MarshalBinarySize at hbuf ⊢
  simp only [hwrite buf (by omega)]
  rw [← hlen] at hbuf ⊢
  have hd : 2 ≤ (buf.drop bytes.length).length := by rw [List.length_drop]; omega
  generalize buf.drop bytes.length = tl at hd
  cases hN : m.IsNTT <;> cases hM : m.IsMontgomery
  · simp only [Bool.false_eq_true, if_false, Outcome.bind]
    rw [show bytes.length + 1 + 1 = 2 + bytes.length by omega]
  · simp only [Bool.false_eq_true, if_false, if_true, Outcome.bind, writeByte]
    rw [if_pos (by rw [List.length_append]; omega), set_append_length]
    simp only
    rw [show bytes.length + 1 + 1 = 2 + bytes.length by omega]
  · simp only [Bool.false_eq_true, if_false, if_true, Outcome.bind, writeByte]
    rw [if_pos (by rw [List.length_append]; omega), set_append_length_zero]
    simp only
    rw [show bytes.length + 1 + 1 = 2 + bytes.length by omega]
  · simp only [if_true, Outcome.bind, writeByte]
    rw [if_pos (by rw [List.length_append]; omega), set_append_length_zero]
    simp only
    rw [if_pos (by rw [List.length_append, List.length_set]; omega), set_append_length]
    simp only
    rw [show bytes.length + 1 + 1 = 2 + bytes.length by omega]

/-- Whatever the embedded key's codec: into a buffer of at least 16 bytes,
`MarshalBinaryInPlace` returns the count and error that the call on the embedded
`EvaluationKey` returns, without the 16 bytes of the two words. -/
theorem GaloisKey.MarshalBinaryInPlace_count {K : Type} (c : Codec K) (gk : GaloisKey K)
    (data : List Nat) (h16 : 16 ≤ data.length) :
    (gk.MarshalBinaryInPlace c data).1
      = (c.MarshalBinaryInPlace gk.EvaluationKey
          ((PutUint64 (PutUint64 data 0 gk.GaloisElement) 8 gk.NthRoot).drop 16)).1 := by
  unfold GaloisKey.MarshalBinaryInPlace
  rw [if_neg (not_lt.2 h16)]

/-! ## Diagonals of a permutation -/

theorem diagIndex_eq (n From To : Nat) :
    diagIndex (2 ^ n) From To = (2 ^ n + From - To) % 2 ^ n := by
  unfold diagIndex
  exact Nat.and_pow_two_sub_one_eq_mod _ _

theorem diagIndex_int (slots From To : Nat) (hT : To < slots) :
    (((From : Int) - (To : Int)) % (slots : Int)).toNat = (slots + From - To) % slots := by
  have h1 : ((slots + From - To : Nat) : Int) = (From : Int) - To + slots := by
    rw [Nat.cast_sub (by omega)]; push_cast; ring
  have h2 : (((slots + From - To) % slots : Nat) : Int) = ((From : Int) - To) % slots := by
    rw [Int.natCast_mod, h1, Int.add_emod_self]
  rw [← h2, Int.toNat_ofNat]


theorem getD_set_same {α : Type} (l : List α) {i : Nat} (x z : α) (h : i < l.length) :
    (l.set i x).getD i z = x := by
  simp [List.getD_eq_getElem?_getD, List.getElem?_set, h]

theorem getD_set_ne {α : Type} (l : List α) {i j : Nat} (x z : α) (h : i ≠ j) :
    (l.set i x).getD j z = l.getD j z := by
  simp [List.getD_eq_getElem?_getD, List.getElem?_set, h]

/-- The loop of `GetDiagonals` from any map whose slices have `slots` entries. -/
theorem getDiagonalsLoop_spec {α : Type} (slots : Nat) (zero : α) :
    ∀ (p : List (PermutationMapping α)) (d : Diagonals α),
      (∀ k r, d k = some r → r.length = slots) →
      (∀ pm ∈ p, pm.To < slots) →
      p.Pairwise (fun a b => a.To ≠ b.To) →
      ∃ d1, getDiagonalsLoop slots zero p d = .ok d1 ∧
        (∀ k r, d1 k = some r → r.length = slots) ∧
        (∀ k, (d1 k).isSome ↔
          ((d k).isSome ∨ ∃ pm ∈ p, diagIndex slots pm.From pm.To = k)) ∧
        (∀ pm ∈ p, ∃ r, d1 (diagIndex slots pm.From pm.To) = some r ∧
          r.getD pm.To zero = pm.Scaling) ∧
        (∀ k r j, d1 k = some r →
          (∀ pm ∈ p, ¬ (diagIndex slots pm.From pm.To = k ∧ pm.To = j)) →
          r.getD j zero = ((d k).getD (List.replicate slots zero)).getD j zero) := by
  intro p
  induction p with
  | nil =>
    intro d hd _ _
    refine ⟨d, rfl, hd, ?_, ?_, ?_⟩
    · intro k; simp
    · intro pm hpm; simp at hpm
    · intro k r j hk _; rw [hk]; rfl
  | cons pm rest ih =>
    intro d hd hto hpw
    have hpmTo := hto pm (List.mem_cons_self _ _)
    obtain ⟨hfirst, hrest⟩ := List.pairwise_cons.1 hpw
    generalize hk0 : diagIndex slots pm.From pm.To = k0
    generalize hrow : (d k0).getD (List.replicate slots zero) = row
    have hrowlen : row.length = slots := by
      rw [← hrow]
      cases hdk : d k0 with
      | none => simp
      | some r => simpa using hd k0 r hdk
    have hstep : getDiagonalsStep slots zero d pm
        = .ok (fun x => if x = k0 then some (row.set pm.To pm.Scaling) else d x) := by
      unfold getDiagonalsStep
      simp only [hk0, hrow]
      rw [if_pos (by rw [hrowlen]; exact hpmTo)]
    generalize hd1 : (fun x => if x = k0 then some (row.set pm.To pm.Scaling) else d x) = d1
      at hstep
    have hd1k0 : d1 k0 = some (row.set pm.To pm.Scaling) := by rw [← hd1]; simp
    have hd1ne : ∀ k, k ≠ k0 → d1 k = d k := by
      intro k hk; rw [← hd1]; simp [hk]
    have hd1len : ∀ k r, d1 k = some r → r.length = slots := by
      intro k r hkr
      by_cases hk : k = k0
      · rw [hk, hd1k0] at hkr
        simp only [Option.some.injEq] at hkr
        rw [← hkr, List.length_set, hrowlen]
      · rw [hd1ne k hk] at hkr; exact hd k r hkr
    obtain ⟨d2, e2, L2, S2, V2, Z2⟩ := ih d1 hd1len
      (fun q hq => hto q (List.mem_cons_of_mem _ hq)) hrest
    refine ⟨d2, ?_, L2, ?_, ?_, ?_⟩
    · show (getDiagonalsStep slots zero d pm).bind (getDiagonalsLoop slots zero rest) = _
      rw [hstep]; exact e2
    · intro k
      rw [S2 k]
      by_cases hk : k = k0
      · subst hk
        rw [hd1k0]
        simp only [Option.isSome_some, true_or, List.mem_cons, exists_eq_or_imp, hk0, true_iff]
        right; trivial
      · rw [hd1ne k hk]
        simp only [List.mem_cons, exists_eq_or_imp, hk0]
        constructor
        · rintro (h | h)
          · exact Or.inl h
          · exact Or.inr (Or.inr h)
        · rintro (h | h | h)
          · exact Or.inl h
          · exact absurd h.symm hk
          · exact Or.inr h
    · intro q hq
      rcases List.mem_cons.1 hq with rfl | hq
      · rw [hk0]
        have hsome : (d2 k0).isSome := by rw [S2 k0, hd1k0]; simp
        obtain ⟨r, hr⟩ := Option.isSome_iff_exists.1 hsome
        refine ⟨r, hr, ?_⟩
        rw [Z2 k0 r q.To hr (fun q1 hq1 hc => hfirst q1 hq1 hc.2.symm), hd1k0]
        simp only [Option.getD_some]
        exact getD_set_same _ _ _ (by rw [hrowlen]; exact hpmTo)
      · exact V2 q hq
    · intro k r j hkr hno
      rw [Z2 k r j hkr (fun q hq => hno q (List.mem_cons_of_mem _ hq))]
      by_cases hk : k = k0
      · subst hk
        have hj : pm.To ≠ j := fun hc => hno pm (List.mem_cons_self _ _) ⟨hk0, hc⟩
        rw [hd1k0, hrow]
        simp only [Option.getD_some]
        exact getD_set_ne _ _ _ hj
      · rw [hd1ne k hk]

/-! ## Goldschmidt division -/

/-- The invariant of the loop: `x * a = 1 - b^2`, and `b` is squared at every pass. -/
theorem goldschmidtLoop_inv (x : ℚ) : ∀ (k : Nat) (a b : ℚ), x * a = 1 - b ^ 2 →
    x * (goldschmidtLoop k (a, b)).1 = 1 - (goldschmidtLoop k (a, b)).2 ^ 2 ∧
    (goldschmidtLoop k (a, b)).2 = b ^ (2 ^ k) := by
  intro k
  induction k with
  | zero => intro a b h; simpa [goldschmidtLoop] using h
  | succ n ih =>
    intro a b h
    have h1 : x * (a + a * (b * b)) = 1 - (b * b) ^ 2 := by
      have : x * (a + a * (b * b)) = (x * a) * (1 + b ^ 2) := by ring
      rw [this, h]; ring
    obtain ⟨i1, i2⟩ := ih (a + a * (b * b)) (b * b) h1
    simp only [goldschmidtLoop, goldschmidtStep]
    refine ⟨i1, ?_⟩
    rw [i2, pow_succ, pow_mul', ← pow_two]
    
/-- After `k` passes of the loop the result `a` satisfies `x * a = 1 - (1 - x)^(2^(k+1))`. -/
theorem GoldschmidtDivisionNew_closed (x : ℚ) (k : Nat) :
    x * GoldschmidtDivisionNew x (k + 1) = 1 - (1 - x) ^ (2 ^ (k + 1)) := by
  unfold GoldschmidtDivisionNew
  obtain ⟨i1, i2⟩ := goldschmidtLoop_inv x k (x * (-1) + 2) (x * (-1) + 1) (by ring)
  simp only [Nat.add_sub_cancel]
  rw [i1, i2, ← pow_mul, ← pow_succ]
  congr 2
  ring

/-! ## Centering -/

/-- For a modulus `T` that fits a word, `center(x, T/2, T)` is `min(x, T - x)` except at
the single point `x = (T-1)/2` of an odd modulus. -/
theorem center_eq_min_iff (T x : Nat) (hT : 2 ≤ T) (hw : T < word) (hx : x < T) :
    center x (T / 2) T = min x (T - x) ↔ ¬ (T % 2 = 1 ∧ x = T / 2) := by
  unfold center
  have hxw : x < word := by omega
  split_ifs with hc
  · rw [sub64_eq hw (Nat.le_of_lt hx)]
    omega
  · omega

/-- The error of `GoldschmidtDivisionNew` after `k` passes of the loop, for every `x > 0`:
it is `(1 - x)^(2^(k+1)) / x`, which exceeds `|1 - x|^(2^(k+1))` for every `x < 1` and is within
it for every `x ≥ 1`. -/
theorem GoldschmidtDivisionNew_error (x : ℚ) (k : Nat) (h0 : 0 < x) :
    1 / x - GoldschmidtDivisionNew x (k + 1) = (1 - x) ^ (2 ^ (k + 1)) / x ∧
    (x < 1 → |1 - x| ^ (2 ^ (k + 1)) < |1 / x - GoldschmidtDivisionNew x (k + 1)|) ∧
    (1 ≤ x → |1 / x - GoldschmidtDivisionNew x (k + 1)| ≤ |1 - x| ^ (2 ^ (k + 1))) := by
  have hx : x ≠ 0 := ne_of_gt h0
  have hc := GoldschmidtDivisionNew_closed x k
  have he : 1 / x - GoldschmidtDivisionNew x (k + 1) = (1 - x) ^ (2 ^ (k + 1)) / x := by
    field_simp
    rw [hc]; ring
  refine ⟨he, ?_, ?_⟩
  · intro h1
    rw [he, abs_div, abs_pow, abs_of_pos h0]
    have hy : 0 < |1 - x| := abs_pos.mpr (by linarith)
    have hp : 0 < |1 - x| ^ (2 ^ (k + 1)) := pow_pos hy _
    rw [lt_div_iff₀ h0]
    nlinarith
  · intro h1
    rw [he, abs_div, abs_pow, abs_of_pos h0]
    have hp : 0 ≤ |1 - x| ^ (2 ^ (k + 1)) := pow_nonneg (abs_nonneg _) _
    rw [div_le_iff₀ h0]
    nlinarith

/-! ## The squaring shortcut of the tensoring functions -/

theorem mapRows_congr (f g : Nat → List Nat → List Nat) : ∀ (p : Poly) (s : Nat),
    (∀ i, i < p.length → f (s + i) (p.getD i []) = g (s + i) (p.getD i [])) →
    mapRows f s p = mapRows g s p := by
  intro p
  induction p with
  | nil => intro s _; rfl
  | cons row rest ih =>
    intro s h
    simp only [mapRows]
    have h0 := h 0 (by simp)
    simp only [Nat.add_zero, List.getD_cons_zero] at h0
    rw [h0, ih (s + 1)]
    intro i hi
    have := h (i + 1) (by simpa using hi)
    simp only [List.getD_cons_succ] at this
    rw [show s + 1 + i = s + (i + 1) by omega]
    exact this

/-- Two level-scoped writes agree when their rows agree up to the level, on the rows the
destination has. -/
theorem writeRows_congr {level : Nat} (f g : Nat → List Nat) (dest : Poly)
    (h : ∀ i, i ≤ level → i < dest.length → f i = g i) :
    writeRows level f dest = writeRows level g dest := by
  unfold writeRows
  apply mapRows_congr
  intro i hi
  simp only [Nat.zero_add]
  split_ifs with hl
  · exact h i hl hi
  · rfl

theorem rowAt_of_length_le {p : Poly} {i : Nat} (h : p.length ≤ i) : rowAt p i = [] := by
  unfold rowAt
  exact List.getD_eq_default _ _ h

/-- A symmetric product of two rows, one of them mapped first, may map the other instead. -/
theorem zipWith_map_swap (m : Nat → Nat → Nat) (f : Nat → Nat)
    (hf : ∀ a b, m (f a) b = m (f b) a) : ∀ (l1 l2 : List Nat),
    List.zipWith m (l1.map f) l2 = List.zipWith m (l2.map f) l1 := by
  intro l1
  induction l1 with
  | nil => intro l2; cases l2 <;> simp
  | cons x xs ih =>
    intro l2
    cases l2 with
    | nil => simp
    | cons y ys => simp [hf x y, ih ys]

theorem mulmod_swap (a b t c q : Nat) :
    (a * t % q * b * c) % q = (b * t % q * a * c) % q := by
  have h1 : a * t % q * b * c ≡ a * t * b * c [MOD q] :=
    Nat.ModEq.mul_right _ (Nat.ModEq.mul_right _ (Nat.mod_modEq _ _))
  have h2 : b * t % q * a * c ≡ b * t * a * c [MOD q] :=
    Nat.ModEq.mul_right _ (Nat.ModEq.mul_right _ (Nat.mod_modEq _ _))
  have h3 : a * t * b * c = b * t * a * c := by ring
  exact h1.trans (h3 ▸ h2.symm)

theorem MRed_MRed_swap (a b t q : Nat) : MRed (MRed a t q) b q = MRed (MRed b t q) a q := by
  unfold MRed
  generalize invWord q = c
  have h := mulmod_swap a b (t * c) c q
  rw [← Nat.mul_assoc, ← Nat.mul_assoc] at h
  exact h

theorem MRed_MForm_swap (a b q : Nat) : MRed (MForm a q) b q = MRed (MForm b q) a q := by
  unfold MRed MForm
  generalize word = w
  exact mulmod_swap a b w _ q

theorem setPoly_of_length_le (h : Heap) (r : Ref) {k : Nat} (v : Poly)
    (hk : (h r).Value.length ≤ k) : setPoly h r k v = h := by
  funext x
  unfold setPoly Heap.set
  split_ifs with hx
  · subst hx
    rw [List.set_eq_of_length_le hk]
  · rfl

/-- Row `i` of a polynomial after `MulRNSScalarMontgomery` into a buffer: the mapped row
when the buffer has it, no row otherwise. -/
theorem rowAt_mulScalar_buf (Q : List Nat) {level i : Nat} (x : Poly) (s : List Nat)
    (buf : Poly) (hi : i ≤ level) :
    rowAt (MulRNSScalarMontgomery Q level x s buf) i
      = if i < buf.length then (rowAt x i).map (fun v => MRed v (s.getD i 0) (modulusAt Q i))
        else [] := by
  unfold MulRNSScalarMontgomery
  split_ifs with hb
  · rw [rowAt_writeRows _ hi hb]
  · exact rowAt_of_length_le (by rw [writeRows_length]; omega)

/-- The cross term of a square: doubling `c00 * a1` is adding `c01 * a0` to it. -/
theorem square_cross_term (Q : List Nat) (level : Nat) (a0 a1 : Poly) (s : List Nat)
    (buf d : Poly) :
    RingAdd Q level
      (MulCoeffsMontgomery Q level (MulRNSScalarMontgomery Q level a0 s buf) a1 d)
      (MulCoeffsMontgomery Q level (MulRNSScalarMontgomery Q level a0 s buf) a1 d)
      (MulCoeffsMontgomery Q level (MulRNSScalarMontgomery Q level a0 s buf) a1 d)
    = MulCoeffsMontgomeryThenAdd Q level (MulRNSScalarMontgomery Q level a1 s buf) a0
      (MulCoeffsMontgomery Q level (MulRNSScalarMontgomery Q level a0 s buf) a1 d) := by
  unfold RingAdd MulCoeffsMontgomeryThenAdd
  apply writeRows_congr
  intro i hi hd
  have hd2 : i < d.length := by
    unfold MulCoeffsMontgomery at hd; rw [writeRows_length] at hd; exact hd
  congr 1
  have hrow : rowAt (MulCoeffsMontgomery Q level (MulRNSScalarMontgomery Q level a0 s buf) a1 d) i
      = List.zipWith (fun x y => MRed x y (modulusAt Q i))
          (rowAt (MulRNSScalarMontgomery Q level a0 s buf) i) (rowAt a1 i) := by
    unfold MulCoeffsMontgomery
    rw [rowAt_writeRows _ hi hd2]
  rw [hrow, rowAt_mulScalar_buf Q a0 s buf hi, rowAt_mulScalar_buf Q a1 s buf hi]
  split_ifs
  · exact zipWith_map_swap _ _ (fun a b => MRed_MRed_swap a b _ _) _ _
  · simp

/-- The last write of the products: on the store where `op2.Value[1]` holds `c00 * a1`,
doubling it and adding `c01 * a0` to it leave the same store. -/
theorem square_last_step (Q : List Nat) (level : Nat) (a0 a1 : Poly) (s : List Nat)
    (buf d : Poly) (hh : Heap) (op2 : Ref) :
    setPoly
      (setPoly hh op2 1
        (MulCoeffsMontgomery Q level (MulRNSScalarMontgomery Q level a0 s buf) a1 d)) op2 1
      (RingAdd Q level
        (getPoly ((setPoly hh op2 1
          (MulCoeffsMontgomery Q level (MulRNSScalarMontgomery Q level a0 s buf) a1 d)) op2) 1)
        (getPoly ((setPoly hh op2 1
          (MulCoeffsMontgomery Q level (MulRNSScalarMontgomery Q level a0 s buf) a1 d)) op2) 1)
        (getPoly ((setPoly hh op2 1
          (MulCoeffsMontgomery Q level (MulRNSScalarMontgomery Q level a0 s buf) a1 d)) op2) 1))
    = setPoly
      (setPoly hh op2 1
        (MulCoeffsMontgomery Q level (MulRNSScalarMontgomery Q level a0 s buf) a1 d)) op2 1
      (MulCoeffsMontgomeryThenAdd Q level (MulRNSScalarMontgomery Q level a1 s buf) a0
        (getPoly ((setPoly hh op2 1
          (MulCoeffsMontgomery Q level (MulRNSScalarMontgomery Q level a0 s buf) a1 d)) op2)
          1)) := by
  by_cases hl : 1 < (hh op2).Value.length
  · rw [getPoly_setPoly_same _ _ _ hl, square_cross_term]
  · have e : ∀ v, setPoly hh op2 1 v = hh :=
      fun v => setPoly_of_length_le _ _ v (by omega)
    simp only [e]

/-- The products of `tensorStandard` on one operand used twice are those on two distinct
operands with the same content. -/
theorem tensorStandardProducts_square (ev : Evaluator) (level : Nat) (op0 op1 : Ref)
    (relin : Bool) (op2 : Ref) (h1 : Heap) (hne : op0 ≠ op1) (h02 : op0 ≠ op2)
    (h12 : op1 ≠ op2) (heq : h1 op1 = h1 op0) :
    tensorStandardProducts ev level op0 op0 relin op2 h1
      = tensorStandardProducts ev level op0 op1 relin op2 h1 := by
  unfold tensorStandardProducts
  simp only [if_neg h02, if_neg h12, if_neg hne, if_true]
  cases relin
  · simp only [Bool.false_eq_true, if_false, setPoly_other _ _ _ h02, setPoly_other _ _ _ h12,
      heq]
    rw [square_last_step]
  · simp only [if_true, setPoly_other _ _ _ h02, setPoly_other _ _ _ h12, heq]
    rw [square_last_step]

/-- The whole of `tensorStandard` on one operand used twice and on two distinct operands
with the same content, the output being a third ciphertext. -/
theorem tensorStandard_square (ev : Evaluator) (op0 op1 : Ref) (relin : Bool) (op2 : Ref)
    (h : Heap) (hne : op0 ≠ op1) (h02 : op0 ≠ op2) (h12 : op1 ≠ op2) (heq : h op1 = h op0) :
    tensorStandard ev op0 op0 relin op2 h = tensorStandard ev op0 op1 relin op2 h := by
  unfold tensorStandard
  rw [heq]
  cases hc : CheckBinary (h op0) (h op0) (h op2) (max (h op0).Degree (h op0).Degree) with
  | panic m => rfl
  | outOfFuel => rfl
  | ok dl =>
    obtain ⟨d, level⟩ := dl
    simp only []
    have e1 : dropToLevel level op2 h op1 = dropToLevel level op2 h op0 := by
      rw [dropToLevel_other _ _ h12, dropToLevel_other _ _ h02, heq]
    have eM : setOutputMetaData ev.parameters.T op0 op0 op2 (dropToLevel level op2 h)
        = setOutputMetaData ev.parameters.T op0 op1 op2 (dropToLevel level op2 h) := by
      unfold setOutputMetaData
      simp only [Heap.set_other _ _ h02, Heap.set_other _ _ h12, e1]
    have eH : setOutputMetaData ev.parameters.T op0 op1 op2 (dropToLevel level op2 h) op1
        = setOutputMetaData ev.parameters.T op0 op1 op2 (dropToLevel level op2 h) op0 := by
      rw [setOutputMetaData_other _ _ _ _ h12, setOutputMetaData_other _ _ _ _ h02, e1]
    rw [e1, eM]
    generalize setOutputMetaData ev.parameters.T op0 op1 op2 (dropToLevel level op2 h) = H
      at eH
    rw [eH]
    split_ifs with c1 c2
    · rfl
    · unfold tensorStandardCt
      exact tensorStandardProducts_square ev level op0 op1 relin op2 _ hne h02 h12
        (by rw [resizeToDegree2_other _ _ h12, resizeToDegree2_other _ _ h02, eH])
    · unfold tensorStandardPt
      have e2 : ((if (H op2).Degree < (H op0).Degree then
          H.set op2 ((H op2).Resize (H op0).Degree level) else H) op1)
          = ((if (H op2).Degree < (H op0).Degree then
          H.set op2 ((H op2).Resize (H op0).Degree level) else H) op0) := by
        split_ifs
        · rw [Heap.set_other _ _ h12, Heap.set_other _ _ h02, eH]
        · exact eH
      simp only [e2]

/-- Row `i` of a polynomial after `MForm` into a buffer. -/
theorem rowAt_MForm_buf (Q : List Nat) {level i : Nat} (x buf : Poly) (hi : i ≤ level) :
    rowAt (RingMForm Q level x buf) i
      = if i < buf.length then (rowAt x i).map (fun v => MForm v (modulusAt Q i))
        else [] := by
  unfold RingMForm
  split_ifs with hb
  · rw [rowAt_writeRows _ hi hb]
  · exact rowAt_of_length_le (by rw [writeRows_length]; omega)

/-- The cross term of a square in `tensoreLowDeg`: doubling `c00 * a1` is adding
`c01 * a0` to it. -/
theorem square_cross_term_lazy (Q : List Nat) (level : Nat) (a0 a1 buf d : Poly) :
    RingAddLazy level
      (MulCoeffsMontgomery Q level (RingMForm Q level a0 buf) a1 d)
      (MulCoeffsMontgomery Q level (RingMForm Q level a0 buf) a1 d)
      (MulCoeffsMontgomery Q level (RingMForm Q level a0 buf) a1 d)
    = MulCoeffsMontgomeryThenAddLazy Q level (RingMForm Q level a1 buf) a0
      (MulCoeffsMontgomery Q level (RingMForm Q level a0 buf) a1 d) := by
  unfold RingAddLazy MulCoeffsMontgomeryThenAddLazy
  apply writeRows_congr
  intro i hi hd
  have hd2 : i < d.length := by
    unfold MulCoeffsMontgomery at hd; rw [writeRows_length] at hd; exact hd
  congr 1
  have hrow : rowAt (MulCoeffsMontgomery Q level (RingMForm Q level a0 buf) a1 d) i
      = List.zipWith (fun x y => MRed x y (modulusAt Q i))
          (rowAt (RingMForm Q level a0 buf) i) (rowAt a1 i) := by
    unfold MulCoeffsMontgomery
    rw [rowAt_writeRows _ hi hd2]
  rw [hrow, rowAt_MForm_buf Q a0 buf hi, rowAt_MForm_buf Q a1 buf hi]
  split_ifs
  · exact zipWith_map_swap _ _ (fun a b => MRed_MForm_swap a b _) _ _
  · simp

theorem square_last_step_lazy (Q : List Nat) (level : Nat) (a0 a1 buf d : Poly)
    (hh : Heap) (op2 : Ref) :
    setPoly
      (setPoly hh op2 1 (MulCoeffsMontgomery Q level (RingMForm Q level a0 buf) a1 d)) op2 1
      (RingAddLazy level
        (getPoly ((setPoly hh op2 1
          (MulCoeffsMontgomery Q level (RingMForm Q level a0 buf) a1 d)) op2) 1)
        (getPoly ((setPoly hh op2 1
          (MulCoeffsMontgomery Q level (RingMForm Q level a0 buf) a1 d)) op2) 1)
        (getPoly ((setPoly hh op2 1
          (MulCoeffsMontgomery Q level (RingMForm Q level a0 buf) a1 d)) op2) 1))
    = setPoly
      (setPoly hh op2 1 (MulCoeffsMontgomery Q level (RingMForm Q level a0 buf) a1 d)) op2 1
      (MulCoeffsMontgomeryThenAddLazy Q level (RingMForm Q level a1 buf) a0
        (getPoly ((setPoly hh op2 1
          (MulCoeffsMontgomery Q level (RingMForm Q level a0 buf) a1 d)) op2) 1)) := by
  by_cases hl : 1 < (hh op2).Value.length
  · rw [getPoly_setPoly_same _ _ _ hl, square_cross_term_lazy]
  · have e : ∀ v, setPoly hh op2 1 v = hh :=
      fun v => setPoly_of_length_le _ _ v (by omega)
    simp only [e]

/-- The products of `tensoreLowDeg` on one operand used twice are those on two distinct
operands with the same content, in the chain `Q` and in the auxiliary chain. -/
theorem tensoreLowDeg_square (ev : Evaluator) (level lQMul : Nat) (ct0 ct1 : Ref)
    (relin : Bool) (ctOut : Ref) (ct0Q1 ct1Q1 unused : List Poly) (h : Heap)
    (hne : ct0 ≠ ct1) (h02 : ct0 ≠ ctOut) (h12 : ct1 ≠ ctOut) (heq : h ct1 = h ct0)
    (hq0 : ct1Q1.getD 0 [] = ct0Q1.getD 0 []) (hq1 : ct1Q1.getD 1 [] = ct0Q1.getD 1 []) :
    tensoreLowDeg ev level lQMul ct0 ct0 relin ctOut ct0Q1 unused h
      = tensoreLowDeg ev level lQMul ct0 ct1 relin ctOut ct0Q1 ct1Q1 h := by
  unfold tensoreLowDeg
  simp only [if_neg hne, if_true]
  have g1 : ∀ (m : Poly), (ct0Q1.set 0 m).getD 1 [] = ct0Q1.getD 1 [] :=
    fun m => getD_set_ne _ _ _ (by decide)
  have g2 : ∀ (m m2 : Poly), ((ct0Q1.set 0 m).set 2 m2).getD 1 [] = ct0Q1.getD 1 [] :=
    fun m m2 => by rw [getD_set_ne _ _ _ (by decide), g1]
  cases relin
  · simp only [Bool.false_eq_true, if_false, setPoly_other _ _ _ h02, setPoly_other _ _ _ h12,
      heq, hq0, hq1, g1, g2]
    rw [square_last_step_lazy, square_cross_term_lazy]
  · simp only [if_true, setPoly_other _ _ _ h02, setPoly_other _ _ _ h12, heq, hq0, hq1,
      g1, g2]
    rw [square_last_step_lazy, square_cross_term_lazy]

/-! ## Accumulating a product on a zero accumulator -/

theorem modulusAt_pos_le {Q : List Nat} (hQ : ∀ q ∈ Q, 0 < q ∧ q ≤ word) (i : Nat) :
    0 < modulusAt Q i ∧ modulusAt Q i ≤ word := by
  unfold modulusAt
  by_cases hi : i < Q.length
  · rw [List.getD_eq_getElem _ _ hi]
    exact hQ _ (List.getElem_mem _)
  · rw [List.getD_eq_default _ _ (by omega)]
    exact ⟨by decide, by decide⟩

/-- Adding a row of Montgomery products to a row of zeros that is at least as long leaves
the products. -/
theorem zipWith_zero_add {q : Nat} (hq : 0 < q) (hw : q ≤ word) :
    ∀ (cr br : List Nat) (N : Nat), br.length ≤ N →
      List.zipWith (fun z m => CRed (add64 z m) q) (List.replicate N 0)
        (List.zipWith (fun x y => MRed x y q) cr br)
      = List.zipWith (fun x y => MRed x y q) cr br := by
  intro cr
  induction cr with
  | nil => intro br N _; simp
  | cons c cs ih =>
    intro br N hN
    cases br with
    | nil => simp
    | cons b bs =>
      cases N with
      | zero => simp at hN
      | succ n =>
        simp only [List.replicate_succ, List.zipWith_cons_cons]
        rw [ih bs n (by simpa using hN)]
        congr 1
        have hlt : MRed c b q < q := MRed_lt hq _ _
        unfold add64 CRed
        rw [Nat.zero_add, Nat.mod_eq_of_lt (by omega), if_neg (by omega)]

/-- On a destination whose rows up to the level are zero, adding a product to it is
writing the product. -/
theorem MulCoeffsMontgomeryThenAdd_zero {Q : List Nat} (hQ : ∀ q ∈ Q, 0 < q ∧ q ≤ word)
    (level N : Nat) (c b d : Poly)
    (hz : ∀ i, i ≤ level → i < d.length → rowAt d i = List.replicate N 0)
    (hb : ∀ i, i ≤ level → (rowAt b i).length ≤ N) :
    MulCoeffsMontgomeryThenAdd Q level c b d = MulCoeffsMontgomery Q level c b d := by
  unfold MulCoeffsMontgomeryThenAdd MulCoeffsMontgomery
  apply writeRows_congr
  intro i hi hd
  rw [hz i hi hd]
  exact zipWith_zero_add (modulusAt_pos_le hQ i).1 (modulusAt_pos_le hQ i).2 _ _ N (hb i hi)

/-- On an output of degree 2 the preparation of `tensorStandard` is a resize to the working
level. -/
theorem prepareOutput_degree_two {level : Nat} {ct : Ciphertext} (hd : ct.Degree = 2)
    (hl : level ≤ ct.Level) : prepareOutput level ct = ct.Resize 2 level := by
  unfold prepareOutput
  by_cases c : ct.Level > level
  · have hsub : ct.Level - (ct.Level - level) = level := by omega
    have hdeg : (ct.Resize ct.Degree level).Degree = 2 := by
      rw [Ciphertext.Resize_degree_self, hd]
    simp only [if_pos c, hsub]
    rw [if_neg (by rw [hdeg]; decide), hd]
  · have hlev : ct.Level = level := by omega
    simp only [if_neg c]
    rw [if_neg (by rw [hd]; decide)]
    unfold Ciphertext.Resize
    unfold Ciphertext.Degree at hd
    simp only [hlev, ne_eq, not_true_eq_false, if_false, hd, gt_iff_lt, lt_self_iff_false]

theorem value_ext_three {l1 l2 : List Poly} (h1 : l1.length = 3) (h2 : l2.length = 3)
    (e0 : l1.getD 0 [] = l2.getD 0 []) (e1 : l1.getD 1 [] = l2.getD 1 [])
    (e2 : l1.getD 2 [] = l2.getD 2 []) : l1 = l2 := by
  match l1, l2, h1, h2 with
  | [a, b, c], [x, y, z], _, _ =>
    simp only [List.getD_cons_zero, List.getD_cons_succ] at e0 e1 e2
    rw [e0, e1, e2]

/-- Without relinearization, on an operand given twice and a distinct output, the products
leave in `op2.Value[0..2]` the polynomials `c00 * a0`, `c01 * a0 + c00 * a1` and
`c01 * a1`, the cross term being the doubled `c00 * a1`. -/
theorem tensorStandardProducts_noRelin_same (ev : Evaluator) (level : Nat) (op0 op2 : Ref)
    (h1 : Heap) (h02 : op0 ≠ op2) (hlen : 3 ≤ (h1 op2).Value.length) :
    ∃ h5, tensorStandardProducts ev level op0 op0 false op2 h1 = .ok h5 ∧
      (h5 op2).MetaData = (h1 op2).MetaData ∧
      (h5 op2).Value.length = (h1 op2).Value.length ∧
      getPoly (h5 op2) 0 = MulCoeffsMontgomery ev.parameters.Q level
        (MulRNSScalarMontgomery ev.parameters.Q level (getPoly (h1 op0) 0)
          (tMontgomery ev.parameters) (buffQ ev.parameters))
        (getPoly (h1 op0) 0) (getPoly (h1 op2) 0) ∧
      getPoly (h5 op2) 1 = MulCoeffsMontgomeryThenAdd ev.parameters.Q level
        (MulRNSScalarMontgomery ev.parameters.Q level (getPoly (h1 op0) 1)
          (tMontgomery ev.parameters) (buffQ ev.parameters))
        (getPoly (h1 op0) 0)
        (MulCoeffsMontgomery ev.parameters.Q level
          (MulRNSScalarMontgomery ev.parameters.Q level (getPoly (h1 op0) 0)
            (tMontgomery ev.parameters) (buffQ ev.parameters))
          (getPoly (h1 op0) 1) (getPoly (h1 op2) 1)) ∧
      getPoly (h5 op2) 2 = MulCoeffsMontgomery ev.parameters.Q level
        (MulRNSScalarMontgomery ev.parameters.Q level (getPoly (h1 op0) 1)
          (tMontgomery ev.parameters) (buffQ ev.parameters))
        (getPoly (h1 op0) 1) (getPoly (h1 op2) 2) := by
  unfold tensorStandardProducts
  simp only [if_neg h02, if_true, if_false, Bool.false_eq_true]
  refine ⟨_, rfl, ?_, ?_, ?_, ?_, ?_⟩
  · simp only [setPoly_metaData]
  · simp only [setPoly_length]
  · rw [getPoly_setPoly_ne _ _ _ (by decide), getPoly_setPoly_ne _ _ _ (by decide),
      getPoly_setPoly_ne _ _ _ (by decide), getPoly_setPoly_same _ _ _ (by omega)]
  · rw [getPoly_setPoly_same _ _ _ (by simp only [setPoly_length]; omega)]
    rw [getPoly_setPoly_same _ _ _ (by simp only [setPoly_length]; omega)]
    simp only [setPoly_other _ _ _ h02]
    rw [getPoly_setPoly_ne _ _ _ (by decide), getPoly_setPoly_ne _ _ _ (by decide)]
    exact square_cross_term _ _ _ _ _ _ _
  · rw [getPoly_setPoly_ne _ _ _ (by decide), getPoly_setPoly_ne _ _ _ (by decide),
      getPoly_setPoly_same _ _ _ (by simp only [setPoly_length]; omega)]
    rw [getPoly_setPoly_ne _ _ _ (by decide)]
    simp only [setPoly_other _ _ _ h02]

/-- The accumulation of a product of two degree-1 ciphertexts, without relinearization, on
an accumulator at the scale of the product: no rescaling takes place, and the three
products are added to the polynomials of the accumulator resized to degree 2 at the
working level. -/
theorem mulRelinThenAddCt_noRelin (ev : Evaluator) (level : Nat) (op0 op1 op2 : Ref)
    (h : Heap) (h02 : op0 ≠ op2) (h12 : op1 ≠ op2)
    (hs : (h op2).MetaData.PlaintextScale
      = BRed (h op0).MetaData.PlaintextScale (h op1).MetaData.PlaintextScale ev.parameters.T)
    (hlen : ((h op2).Resize 2 level).Value.length = 3) :
    ∃ hA, mulRelinThenAddCt ev level op0 op1 false op2 h = .ok hA ∧
      (hA op2).MetaData = (h op2).MetaData ∧
      (hA op2).Value.length = 3 ∧
      getPoly (hA op2) 0 = MulCoeffsMontgomeryThenAdd ev.parameters.Q level
        (MulRNSScalarMontgomery ev.parameters.Q level (getPoly (h op0) 0)
          (tMontgomery ev.parameters) (buffQ ev.parameters))
        (getPoly (h op1) 0) (getPoly ((h op2).Resize 2 level) 0) ∧
      getPoly (hA op2) 1 = MulCoeffsMontgomeryThenAdd ev.parameters.Q level
        (MulRNSScalarMontgomery ev.parameters.Q level (getPoly (h op0) 1)
          (tMontgomery ev.parameters) (buffQ ev.parameters))
        (getPoly (h op1) 0)
        (MulCoeffsMontgomeryThenAdd ev.parameters.Q level
          (MulRNSScalarMontgomery ev.parameters.Q level (getPoly (h op0) 0)
            (tMontgomery ev.parameters) (buffQ ev.parameters))
          (getPoly (h op1) 1) (getPoly ((h op2).Resize 2 level) 1)) ∧
      getPoly (hA op2) 2 = MulCoeffsMontgomeryThenAdd ev.parameters.Q level
        (MulRNSScalarMontgomery ev.parameters.Q level (getPoly (h op0) 1)
          (tMontgomery ev.parameters) (buffQ ev.parameters))
        (getPoly (h op1) 1) (getPoly ((h op2).Resize 2 level) 2) := by
  have hacc : matchAccumulator ev level op0 op1 op2
      (h.set op2 ((h op2).Resize 2 level)) = .ok (1, h.set op2 ((h op2).Resize 2 level)) := by
    unfold matchAccumulator
    simp only [Heap.set_same, Heap.set_other _ _ h02, Heap.set_other _ _ h12,
      Ciphertext.Resize_metaData, NewScale]
    rw [if_neg (by rw [hs]; simp)]
  unfold mulRelinThenAddCt
  simp only [Bool.false_eq_true, if_false, hacc, Outcome.bind_ok]
  simp only [ne_eq, not_true_eq_false, if_false]
  have hl1 : ((h.set op2 ((h op2).Resize 2 level)) op2).Value.length = 3 := by
    rw [Heap.set_same]; exact hlen
  refine ⟨_, rfl, ?_, ?_, ?_, ?_, ?_⟩
  · simp only [setPoly_metaData, Heap.set_same, Ciphertext.Resize_metaData]
  · simp only [setPoly_length]; exact hl1
  · rw [getPoly_setPoly_ne (k := 2) (m := 0) _ _ _ (by decide),
      getPoly_setPoly_ne (k := 1) (m := 0) _ _ _ (by decide),
      getPoly_setPoly_ne (k := 1) (m := 0) _ _ _ (by decide),
      getPoly_setPoly_same _ _ _ (by omega)]
    simp only [Heap.set_same, Heap.set_other _ _ h02, Heap.set_other _ _ h12]
  · rw [getPoly_setPoly_ne (k := 2) (m := 1) _ _ _ (by decide),
      getPoly_setPoly_same _ _ _ (by simp only [setPoly_length]; omega)]
    rw [getPoly_setPoly_same _ _ _ (by simp only [setPoly_length]; omega)]
    simp only [setPoly_other _ _ _ h02, setPoly_other _ _ _ h12]
    rw [getPoly_setPoly_ne (k := 0) (m := 1) _ _ _ (by decide)]
    simp only [Heap.set_same, Heap.set_other _ _ h02, Heap.set_other _ _ h12]
  · rw [getPoly_setPoly_same _ _ _ (by simp only [setPoly_length]; omega)]
    rw [getPoly_setPoly_ne (k := 1) (m := 2) _ _ _ (by decide),
      getPoly_setPoly_ne (k := 1) (m := 2) _ _ _ (by decide),
      getPoly_setPoly_ne (k := 0) (m := 2) _ _ _ (by decide)]
    simp only [setPoly_other _ _ _ h02, setPoly_other _ _ _ h12]
    simp only [Heap.set_same, Heap.set_other _ _ h02, Heap.set_other _ _ h12]

/-- A row of a well-formed ciphertext whose coefficients are all zero. -/
theorem Ciphertext.zero_row {N : Nat} {ct : Ciphertext} (hwf : ct.WF N)
    (hzero : ∀ pl ∈ ct.Value, ∀ row ∈ pl, ∀ x ∈ row, x = 0) {k i : Nat}
    (hk : k < ct.Value.length) (hi : i ≤ ct.Level) :
    rowAt (getPoly ct k) i = List.replicate N 0 := by
  have hlen := Ciphertext.WF_row hwf hk hi
  have hpl := Ciphertext.WF_polyLength hwf hk
  rw [List.eq_replicate_iff]
  refine ⟨hlen, ?_⟩
  intro x hx
  have hmem : getPoly ct k ∈ ct.Value := by
    unfold getPoly; rw [List.getD_eq_getElem _ _ hk]; exact List.getElem_mem _
  have hrow : rowAt (getPoly ct k) i ∈ getPoly ct k := by
    unfold rowAt; rw [List.getD_eq_getElem _ _ (by omega)]; exact List.getElem_mem _
  exact hzero _ hmem _ hrow x hx

/-! ## Evaluation of a linear transformation in the clear -/

/-- For a power of two `n`, the expression `-j & (n - 1)` of a non-negative `j` is `-j`
modulo `n`. -/
theorem land_neg_pow_two (p j : Nat) :
    Int.land (-(j : Int)) (((2 ^ p : Nat) : Int) - 1) = (-(j : Int)) % ((2 ^ p : Nat) : Int) := by
  have hpos : 0 < 2 ^ p := Nat.pow_pos (by decide)
  have hk : (((2 ^ p : Nat) : Int) - 1) = ((2 ^ p - 1 : Nat) : Int) := by
    rw [Int.ofNat_sub hpos]; rfl
  rw [hk]
  cases j with
  | zero =>
    show ((0 &&& (2 ^ p - 1) : Nat) : Int) = _
    simp
  | succ k =>
    show ((Nat.ldiff (2 ^ p - 1) k : Nat) : Int) = Int.negSucc k % ((2 ^ p : Nat) : Int)
    rw [Int.negSucc_emod k (by exact_mod_cast hpos)]
    have hmod : k % 2 ^ p < 2 ^ p := Nat.mod_lt _ hpos
    have hl : Nat.ldiff (2 ^ p - 1) k = 2 ^ p - (k % 2 ^ p + 1) := by
      apply Nat.eq_of_testBit_eq
      intro i
      rw [Nat.testBit_ldiff, Nat.testBit_two_pow_sub_one, Nat.testBit_two_pow_sub_succ hmod,
        Nat.testBit_mod_two_pow]
      by_cases hi : i < p <;> simp [hi]
    rw [hl, ← Int.natCast_mod]
    omega

theorem RotateSlice_length {α : Type} (s : List α) (k : Int) :
    (RotateSlice s k).length = s.length := List.length_rotate _ _

/-- Entry `x` of a rotated slice is entry `(x + k) mod n` of the slice. -/
theorem RotateSlice_getD {α : Type} (s : List α) (k : Int) (z : α) {n x : Nat}
    (hs : s.length = n) (hx : x < n) :
    (RotateSlice s k).getD x z = s.getD ((((x : Nat) : Int) + k) % (n : Int)).toNat z := by
  have hn : (0 : Int) < n := by exact_mod_cast (Nat.lt_of_le_of_lt (Nat.zero_le _) hx)
  have hr : 0 ≤ k % (n : Int) := Int.emod_nonneg _ (ne_of_gt hn)
  have hidx : (x + (k % (n : Int)).toNat) % n = ((((x : Nat) : Int) + k) % (n : Int)).toNat := by
    apply Int.ofNat.inj
    show (((x + (k % (n : Int)).toNat) % n : Nat) : Int)
      = (((((x : Nat) : Int) + k) % (n : Int)).toNat : Int)
    rw [Int.toNat_of_nonneg (Int.emod_nonneg _ (ne_of_gt hn)), Int.natCast_mod]
    push_cast
    rw [Int.toNat_of_nonneg hr, Int.add_emod_emod]
  unfold RotateSlice
  rw [List.getD_eq_getElem _ _ (by rw [List.length_rotate, hs]; exact hx),
    List.getElem_rotate]
  simp only [hs]
  rw [List.getD_eq_getElem _ _ (by rw [hs, ← hidx]; exact Nat.mod_lt _ (by omega))]
  congr 1

theorem getD_zipWith_same {α : Type} (f : α → α → α) (z : α) (l1 l2 : List α) {x : Nat}
    (h1 : x < l1.length) (h2 : x < l2.length) :
    (List.zipWith f l1 l2).getD x z = f (l1.getD x z) (l2.getD x z) := by
  rw [List.getD_eq_getElem _ _ (by simp; omega), List.getD_eq_getElem _ _ h1,
    List.getD_eq_getElem _ _ h2, List.getElem_zipWith]

theorem addVec_spec {α : Type} [Semiring α] (a b c : List α) {n : Nat}
    (ha : a.length = n) (hb : b.length = n) :
    (addVec a b c).length = n ∧
    ∀ x, x < n → (addVec a b c).getD x 0 = a.getD x 0 + b.getD x 0 := by
  unfold addVec
  refine ⟨by simp [ha, hb], ?_⟩
  intro x hx
  exact getD_zipWith_same _ _ _ _ (by omega) (by omega)

theorem muladdVec_spec {α : Type} [Semiring α] (a b c : List α) {n : Nat}
    (ha : a.length = n) (hb : b.length = n) (hc : c.length = n) :
    (muladdVec a b c).length = n ∧
    ∀ x, x < n → (muladdVec a b c).getD x 0 = c.getD x 0 + a.getD x 0 * b.getD x 0 := by
  unfold muladdVec
  refine ⟨by simp [ha, hb, hc], ?_⟩
  intro x hx
  rw [getD_zipWith_same _ _ _ _ (by omega) (by simp; omega),
    getD_zipWith_same _ _ _ _ (by omega) (by omega)]

/-- The loop over the baby steps of one giant step adds to every slot `y` of `tmp` the
products of the rotated vector and the rotated diagonals. -/
theorem evaluateBabySteps_spec {α : Type} [CommSemiring α] (m : DiagonalEntries α)
    (v : List α) (n j : Nat) (rot : Int) (hv : v.length = n) :
    ∀ (babySteps : List Nat) (tmp : List α), tmp.length = n →
      (∀ (i : Nat), i ∈ babySteps → (diagonalAt m n ((j : Int) + (i : Int))).length = n) →
      (evaluateBabySteps m v muladdVec n j rot babySteps tmp).length = n ∧
      ∀ y, y < n → (evaluateBabySteps m v muladdVec n j rot babySteps tmp).getD y 0
        = tmp.getD y 0 + (babySteps.map (fun (i : Nat) =>
            v.getD ((((y : Nat) : Int) + (i : Int)) % (n : Int)).toNat 0
              * (diagonalAt m n ((j : Int) + (i : Int))).getD
                  ((((y : Nat) : Int) + rot) % (n : Int)).toNat 0)).sum := by
  intro babySteps
  induction babySteps with
  | nil =>
    intro tmp ht _
    exact ⟨ht, fun y _ => by simp [evaluateBabySteps]⟩
  | cons i rest ih =>
    intro tmp ht hd
    have hdi := hd i (List.mem_cons_self _ _)
    obtain ⟨l1, g1⟩ := muladdVec_spec (RotateSlice v (i : Int))
      (RotateSlice (diagonalAt m n ((j : Int) + (i : Int))) rot) tmp
      (by rw [RotateSlice_length, hv]) (by rw [RotateSlice_length, hdi]) ht
    obtain ⟨l2, g2⟩ := ih _ l1 (fun i' hi' => hd i' (List.mem_cons_of_mem _ hi'))
    simp only [evaluateBabySteps]
    refine ⟨l2, ?_⟩
    intro y hy
    rw [g2 y hy, g1 y hy, RotateSlice_getD v _ 0 hv hy, RotateSlice_getD _ rot 0 hdi hy]
    simp only [List.map_cons, List.sum_cons]
    rw [add_assoc]

theorem indexSums_cons (j : Nat) (babySteps : List Nat) (rest : List (Nat × List Nat)) :
    indexSums ((j, babySteps) :: rest) = babySteps.map (fun i => j + i) ++ indexSums rest := by
  simp [indexSums, List.flatMap_cons]

/-- The loop over the giant steps adds to every slot `x` of `res`, for every pair of a
giant step `j` and a baby step `i`, the product of entry `x` of the diagonal found for
`j + i` and entry `(x + j + i) mod n` of the vector. -/
theorem evaluateGiantSteps_spec {α : Type} [CommSemiring α] (m : DiagonalEntries α)
    (v : List α) (n p : Nat) (hn : n = 2 ^ p) (hv : v.length = n) :
    ∀ (index : List (Nat × List Nat)) (res : List α), res.length = n →
      (∀ r ∈ indexSums index, (diagonalAt m n ((r : Nat) : Int)).length = n) →
      (evaluateGiantSteps m v newVec addVec muladdVec n index res).length = n ∧
      ∀ x, x < n → (evaluateGiantSteps m v newVec addVec muladdVec n index res).getD x 0
        = res.getD x 0 + ((indexSums index).map (fun r =>
            (diagonalAt m n ((r : Nat) : Int)).getD x 0
              * v.getD ((((x : Nat) : Int) + ((r : Nat) : Int)) % (n : Int)).toNat 0)).sum := by
  intro index
  induction index with
  | nil =>
    intro res hr _
    exact ⟨hr, fun x _ => by simp [evaluateGiantSteps, indexSums]⟩
  | cons ji rest ih =>
    obtain ⟨j, babySteps⟩ := ji
    intro res hr hd
    rw [indexSums_cons] at hd
    have hnpos : 0 < n := by rw [hn]; exact Nat.pow_pos (by decide)
    have hnI : (0 : Int) < (n : Int) := by exact_mod_cast hnpos
    have hrot : Int.land (-(j : Int)) ((n : Int) - 1) = (-(j : Int)) % (n : Int) := by
      rw [hn]; exact land_neg_pow_two p j
    obtain ⟨lt, gt⟩ := evaluateBabySteps_spec m v n j ((-(j : Int)) % (n : Int)) hv babySteps
      (newVec n) (by simp [newVec])
      (fun i hi => by
        have := hd (j + i) (List.mem_append_left _ (List.mem_map.mpr ⟨i, hi, rfl⟩))
        rw [Nat.cast_add] at this
        exact this)
    obtain ⟨l1, g1⟩ := addVec_spec res
      (RotateSlice (evaluateBabySteps m v muladdVec n j ((-(j : Int)) % (n : Int)) babySteps
        (newVec n)) (j : Int)) res hr (by rw [RotateSlice_length, lt])
    obtain ⟨l2, g2⟩ := ih _ l1 (fun r hr => hd r (List.mem_append_right _ hr))
    simp only [evaluateGiantSteps, hrot]
    refine ⟨l2, ?_⟩
    intro x hx
    rw [g2 x hx, g1 x hx, RotateSlice_getD _ _ 0 lt hx, indexSums_cons]
    have hy0 : 0 ≤ (((x : Nat) : Int) + (j : Int)) % (n : Int) := Int.emod_nonneg _ (ne_of_gt hnI)
    have hy : ((((x : Nat) : Int) + (j : Int)) % (n : Int)).toNat < n := by
      rw [Int.toNat_lt hy0]; exact Int.emod_lt_of_pos _ hnI
    rw [gt _ hy]
    simp only [Int.toNat_of_nonneg hy0, List.map_append, List.sum_append, List.map_map]
    have hx0 : (newVec n : List α).getD ((((x : Nat) : Int) + (j : Int)) % (n : Int)).toNat 0 = 0 := by
      unfold newVec
      rw [List.getD_eq_getElem _ _ (by simpa using hy)]
      simp
    rw [hx0, zero_add, add_assoc]
    congr 2
    apply congrArg
    apply List.map_congr_left
    intro i _
    simp only [Function.comp]
    have e1 : ((((x : Nat) : Int) + (j : Int)) % (n : Int) + (i : Int)) % (n : Int)
        = (((x : Nat) : Int) + ((j + i : Nat) : Int)) % (n : Int) := by
      rw [Int.emod_add_emod]; push_cast; ring_nf
    have e2 : (((((x : Nat) : Int) + (j : Int)) % (n : Int) + (-(j : Int)) % (n : Int))
        % (n : Int)).toNat = x := by
      rw [Int.add_emod_emod, Int.emod_add_emod]
      have : ((x : Nat) : Int) + (j : Int) + -(j : Int) = ((x : Nat) : Int) := by ring
      rw [this, Int.emod_eq_of_lt (by omega) (by exact_mod_cast hx)]
      exact Int.toNat_natCast x
    rw [e1, e2, Nat.cast_add, mul_comm]

/-- The result of `Evaluate` for any index map whose pairs find diagonals of `n` entries:
slot `x` holds the sum, over the pairs `(j, i)`, of entry `x` of the diagonal found for
`j + i` times entry `(x + j + i) mod n` of the vector. -/
theorem Evaluate_formula {α : Type} [CommSemiring α] (m : DiagonalEntries α) (v : List α)
    (index : List (Nat × List Nat)) (n p : Nat) (hn : n = 2 ^ p) (hv : v.length = n)
    (hd : ∀ r ∈ indexSums index, (diagonalAt m n ((r : Nat) : Int)).length = n) :
    Diagonals.Evaluate m v newVec addVec muladdVec index
      = (List.range n).map (fun x => ((indexSums index).map (fun r =>
          (diagonalAt m n ((r : Nat) : Int)).getD x 0
            * v.getD ((((x : Nat) : Int) + ((r : Nat) : Int)) % (n : Int)).toNat 0)).sum) := by
  obtain ⟨l, g⟩ := evaluateGiantSteps_spec m v n p hn hv index (newVec n)
    (by simp [newVec]) hd
  unfold Diagonals.Evaluate
  simp only [hv]
  apply List.ext_getElem
  · rw [l]; simp
  · intro x h1 h2
    have hx : x < n := by rw [l] at h1; exact h1
    rw [← List.getD_eq_getElem _ 0 h1, g x hx, List.getElem_map, List.getElem_range]
    have hx0 : (newVec n : List α).getD x 0 = 0 := by
      unfold newVec
      rw [List.getD_eq_getElem _ _ (by simpa using hx)]
      simp
    rw [hx0, zero_add]

/-- A key of a map without repeated keys is found with its slice. -/
theorem lookup_of_mem {α : Type} : ∀ (m : DiagonalEntries α), (m.map Prod.fst).Nodup →
    ∀ e ∈ m, m.get e.1 = some e.2 := by
  intro m
  induction m with
  | nil => intro _ e he; simp at he
  | cons a rest ih =>
    intro hnd e he
    obtain ⟨k, d⟩ := a
    simp only [List.map_cons, List.nodup_cons] at hnd
    unfold DiagonalEntries.get
    rw [List.lookup_cons]
    rcases List.mem_cons.mp he with h | h
    · subst h; simp
    · have hne : e.1 ≠ k := by
        intro hk
        exact hnd.1 (hk ▸ List.mem_map_of_mem Prod.fst h)
      have hb : (e.1 == k) = false := by simpa using hne
      rw [hb]
      exact ih hnd.2 e h

/-- A key that no entry has is not found. -/
theorem lookup_none {α : Type} (k : Int) : ∀ (m : DiagonalEntries α), (∀ e ∈ m, e.1 ≠ k) →
    m.get k = none := by
  intro m
  induction m with
  | nil => intro _; rfl
  | cons a rest ih =>
    intro h
    obtain ⟨k', d⟩ := a
    unfold DiagonalEntries.get
    rw [List.lookup_cons]
    have hne : k ≠ k' := fun hk => h (k', d) (List.mem_cons_self _ _) hk.symm
    have hb : (k == k') = false := by simpa using hne
    rw [hb]
    exact ih (fun e he => h e (List.mem_cons_of_mem _ he))

/-- In a map whose keys lie in `(-n, n)` and are pairwise distinct modulo `n`, the diagonal
found for a key reduced modulo `n` is the slice of that key. -/
theorem diagonalAt_of_mem {α : Type} (m : DiagonalEntries α) (n : Nat)
    (hrange : ∀ e ∈ m, -(n : Int) < e.1 ∧ e.1 < (n : Int))
    (hdist : (m.map (fun e => e.1 % (n : Int))).Nodup) (e : Int × List α) (he : e ∈ m) :
    diagonalAt m n (((e.1 % (n : Int)).toNat : Nat) : Int) = e.2 := by
  have hnd : (m.map Prod.fst).Nodup := by
    have : m.map (fun e => e.1 % (n : Int)) = (m.map Prod.fst).map (fun k => k % (n : Int)) := by
      simp [List.map_map, Function.comp]
    rw [this] at hdist
    exact List.Nodup.of_map _ hdist
  obtain ⟨h1, h2⟩ := hrange e he
  have hn : (0 : Int) < n := by omega
  have hfound := lookup_of_mem m hnd e he
  rw [Int.toNat_of_nonneg (Int.emod_nonneg _ (ne_of_gt hn))]
  unfold diagonalAt
  by_cases hpos : 0 ≤ e.1
  · rw [Int.emod_eq_of_lt hpos h2, hfound]
  · have hmod : e.1 % (n : Int) = e.1 + n := by
      rw [← Int.add_emod_self, Int.emod_eq_of_lt (by omega) (by omega)]
    have hnone : m.get (e.1 + n) = none := by
      apply lookup_none
      intro e' he' hk
      have hsame : e'.1 % (n : Int) = e.1 % (n : Int) := by
        rw [hk, Int.add_emod_self]
      have := List.inj_on_of_nodup_map hdist he' he hsame
      rw [this] at hk
      omega
    rw [hmod, hnone]
    simp only [add_sub_cancel_right, hfound, Option.getD_some]

/-- The diagonal matrix-vector product, for a map whose keys lie in `(-n, n)` and are
pairwise distinct modulo `n`, and an index map that holds one pair for every key. -/
theorem Evaluate_distinct_keys {α : Type} [CommSemiring α] (m : DiagonalEntries α)
    (v : List α) (index : List (Nat × List Nat)) (n p : Nat) (hn : n = 2 ^ p)
    (hv : v.length = n)
    (hrange : ∀ e ∈ m, -(n : Int) < e.1 ∧ e.1 < (n : Int))
    (hlen : ∀ e ∈ m, e.2.length = n)
    (hdist : (m.map (fun e => e.1 % (n : Int))).Nodup)
    (hindex : (indexSums index).Perm (m.map (fun e => (e.1 % (n : Int)).toNat))) :
    Diagonals.Evaluate m v newVec addVec muladdVec index
      = (List.range n).map (fun x => (m.map (fun e =>
          e.2.getD x 0 * v.getD ((((x : Nat) : Int) + e.1) % (n : Int)).toNat 0)).sum) := by
  have hnpos : (0 : Int) < n := by
    have : 0 < n := by rw [hn]; exact Nat.pow_pos (by decide)
    exact_mod_cast this
  have hd : ∀ r ∈ indexSums index, (diagonalAt m n ((r : Nat) : Int)).length = n := by
    intro r hr
    obtain ⟨e, he, rfl⟩ := List.mem_map.mp ((hindex.mem_iff).mp hr)
    rw [diagonalAt_of_mem m n hrange hdist e he]
    exact hlen e he
  rw [Evaluate_formula m v index n p hn hv hd]
  apply List.map_congr_left
  intro x _
  rw [(hindex.map _).sum_eq, List.map_map]
  congr 1
  apply List.map_congr_left
  intro e he
  simp only [Function.comp]
  rw [diagonalAt_of_mem m n hrange hdist e he,
    Int.toNat_of_nonneg (Int.emod_nonneg _ (ne_of_gt hnpos)), Int.add_emod_emod]

/-- A sum in which a single term may differ from zero. -/
theorem sum_map_eq_single {α β : Type} [CommSemiring α] (f : β → α) (a : β) :
    ∀ (l : List β), a ∈ l → l.Nodup → (∀ b ∈ l, b ≠ a → f b = 0) → (l.map f).sum = f a := by
  intro l
  induction l with
  | nil => intro h; simp at h
  | cons h t ih =>
    intro ha hnd hz
    rw [List.nodup_cons] at hnd
    rw [List.map_cons, List.sum_cons]
    by_cases e : h = a
    · subst e
      have : (t.map f).sum = 0 := by
        apply List.sum_eq_zero
        intro x hx
        obtain ⟨b, hb, rfl⟩ := List.mem_map.mp hx
        exact hz b (List.mem_cons_of_mem _ hb) (fun hba => hnd.1 (hba ▸ hb))
      rw [this, add_zero]
    · have hat : a ∈ t := by
        rcases List.mem_cons.mp ha with h1 | h1
        · exact absurd h1.symm e
        · exact h1
      rw [hz h (List.mem_cons_self _ _) e, zero_add]
      exact ih hat hnd.2 (fun b hb => hz b (List.mem_cons_of_mem _ hb))

theorem Diagonals.mem_entries {α : Type} (d : Diagonals α) (slots : Nat) (e : Int × List α) :
    e ∈ d.entries slots ↔ ∃ k, k < slots ∧ d k = some e.2 ∧ e.1 = ((k : Nat) : Int) := by
  unfold Diagonals.entries
  rw [List.mem_filterMap]
  constructor
  · rintro ⟨k, hk, hf⟩
    rcases hdk : d k with _ | r
    · rw [hdk] at hf; simp at hf
    · rw [hdk] at hf
      simp only [Option.map_some', Option.some.injEq] at hf
      subst hf
      exact ⟨k, List.mem_range.mp hk, hdk, rfl⟩
  · rintro ⟨k, hk, hdk, he⟩
    refine ⟨k, List.mem_range.mpr hk, ?_⟩
    rw [hdk]
    simp only [Option.map_some', Option.some.injEq]
    exact Prod.ext he.symm rfl

/-- The entries of a map with keys below `slots`: no two of them have the same key modulo
`slots`. -/
theorem Diagonals.entries_nodup {α : Type} (d : Diagonals α) (slots : Nat) :
    (d.entries slots).Nodup ∧
    ((d.entries slots).map (fun e => e.1 % (slots : Int))).Nodup := by
  have hnd : (d.entries slots).Nodup := by
    unfold Diagonals.entries
    apply List.Nodup.filterMap _ (List.nodup_range slots)
    intro a a' b hb hb'
    rcases hda : d a with _ | r
    · rw [hda] at hb; simp at hb
    · rcases hda' : d a' with _ | r'
      · rw [hda'] at hb'; simp at hb'
      · rw [hda] at hb; rw [hda'] at hb'
        simp only [Option.map_some', Option.mem_def, Option.some.injEq] at hb hb'
        have := congrArg Prod.fst (hb.trans hb'.symm)
        simpa using this
  refine ⟨hnd, List.Nodup.map_on ?_ hnd⟩
  intro x hx y hy hxy
  obtain ⟨k, hk, hdk, hk1⟩ := (d.mem_entries slots x).mp hx
  obtain ⟨k', hk', hdk', hk1'⟩ := (d.mem_entries slots y).mp hy
  rw [hk1, hk1', Int.emod_eq_of_lt (by omega) (by exact_mod_cast hk),
    Int.emod_eq_of_lt (by omega) (by exact_mod_cast hk')] at hxy
  have hkk : k = k' := by exact_mod_cast hxy
  subst hkk
  rw [hdk] at hdk'
  exact Prod.ext (by rw [hk1, hk1']) (Option.some.inj hdk')

/-- On the diagonals built by `GetDiagonals` from mappings with indices below the number
of slots and pairwise distinct `To`, `Evaluate` leaves `Scaling * v[From]` in slot `To`
for every mapping. -/
theorem Evaluate_GetDiagonals {α : Type} [CommSemiring α] (perm : List (PermutationMapping α))
    (logSlots : Nat) (v : List α) (index : List (Nat × List Nat)) (d : Diagonals α)
    (hlog : logSlots < 63) (hv : v.length = 2 ^ logSlots)
    (hTo : ∀ pm ∈ perm, pm.To < 2 ^ logSlots) (hFrom : ∀ pm ∈ perm, pm.From < 2 ^ logSlots)
    (hdist : perm.Pairwise (fun a b => a.To ≠ b.To))
    (hd : GetDiagonals perm logSlots 0 = .ok d)
    (hindex : (indexSums index).Perm ((d.entries (2 ^ logSlots)).map
      (fun e => (e.1 % ((2 ^ logSlots : Nat) : Int)).toNat))) :
    ∀ pm ∈ perm,
      (Diagonals.Evaluate (d.entries (2 ^ logSlots)) v newVec addVec muladdVec index).getD pm.To 0
        = pm.Scaling * v.getD pm.From 0 := by
  intro pm hpm
  generalize hn : 2 ^ logSlots = n at *
  have hnpos : 0 < n := by rw [← hn]; exact Nat.pow_pos (by decide)
  have hnI : (0 : Int) < (n : Int) := by exact_mod_cast hnpos
  -- what the loop of `GetDiagonals` has built
  obtain ⟨d1, e, L, -, V, Z⟩ := getDiagonalsLoop_spec n (0 : α) perm (fun _ => none)
    (fun k r h => by simp at h) hTo hdist
  have hd1 : d1 = d := by
    unfold GetDiagonals at hd
    cases perm with
    | nil => simp at hpm
    | cons a l =>
      simp only [if_neg (not_le.2 hlog), hn] at hd
      rw [e] at hd
      exact Outcome.ok.inj hd
  subst hd1
  obtain ⟨hnd, hndmod⟩ := d1.entries_nodup n
  -- the product
  rw [Evaluate_distinct_keys (d1.entries n) v index n logSlots hn.symm hv
    (fun e he => by
      obtain ⟨k, hk, -, hk1⟩ := (d1.mem_entries n e).mp he
      rw [hk1]; constructor <;> omega)
    (fun e he => by
      obtain ⟨k, -, hdk, -⟩ := (d1.mem_entries n e).mp he
      exact L k e.2 hdk)
    hndmod hindex]
  have hTolt := hTo pm hpm
  rw [List.getD_eq_getElem _ _ (by simpa using hTolt), List.getElem_map, List.getElem_range]
  -- the diagonal of the mapping
  obtain ⟨r0, hr0, hs0⟩ := V pm hpm
  have hk0 : diagIndex n pm.From pm.To = (n + pm.From - pm.To) % n := by
    rw [← hn]; exact diagIndex_eq _ _ _
  have hk0lt : diagIndex n pm.From pm.To < n := by rw [hk0]; exact Nat.mod_lt _ hnpos
  have hmem : (((diagIndex n pm.From pm.To : Nat) : Int), r0) ∈ d1.entries n :=
    (d1.mem_entries n _).mpr ⟨_, hk0lt, hr0, rfl⟩
  have hinj : ∀ pm' ∈ perm, pm'.To = pm.To → pm' = pm := by
    intro pm' hpm' hto
    have hndTo : (perm.map (fun a => a.To)).Nodup := List.pairwise_map.mpr hdist
    exact List.inj_on_of_nodup_map hndTo hpm' hpm hto
  rw [sum_map_eq_single _ _ _ hmem hnd]
  · simp only
    rw [hs0]
    congr 2
    have hcast : ((diagIndex n pm.From pm.To : Nat) : Int)
        = ((pm.From : Int) - (pm.To : Int)) % (n : Int) := by
      rw [hk0, ← diagIndex_int n pm.From pm.To hTolt,
        Int.toNat_of_nonneg (Int.emod_nonneg _ (ne_of_gt hnI))]
    rw [hcast, Int.add_emod_emod]
    have : ((pm.To : Nat) : Int) + ((pm.From : Int) - (pm.To : Int)) = ((pm.From : Nat) : Int) := by
      ring
    rw [this, Int.emod_eq_of_lt (by omega) (by exact_mod_cast hFrom pm hpm)]
    exact Int.toNat_natCast _
  · intro b hb hne
    obtain ⟨k, hk, hdk, hk1⟩ := (d1.mem_entries n b).mp hb
    have hkne : k ≠ diagIndex n pm.From pm.To := by
      intro hkk
      apply hne
      rw [hkk, hr0] at hdk
      exact Prod.ext (by rw [hk1, hkk]) (Option.some.inj hdk).symm
    have hz := Z k b.2 pm.To hdk (fun pm' hpm' hc => by
      have := hinj pm' hpm' hc.2
      rw [this] at hc
      exact hkne hc.1.symm)
    simp only [Option.getD_none] at hz
    rw [hz, List.getD_eq_getElem _ _ (by simpa using hTolt)]
    simp

/-- The permutation of the doc comment of `Permutation` on the vector `[5, 6, 7, 8]`: its
diagonals are the single diagonal 1, `[1, 2, 3, 4]`, and `Evaluate` returns
`[1*6, 2*7, 3*8, 4*5]`. -/
theorem Evaluate_GetDiagonals_example :
    ∃ d, GetDiagonals exPermutation 2 0 = .ok d ∧
      d.entries 4 = [(1, [1, 2, 3, 4])] ∧
      Diagonals.Evaluate (d.entries 4) [5, 6, 7, 8] newVec addVec muladdVec [(0, [1])]
        = [6, 14, 24, 20] ∧
      ∀ pm ∈ exPermutation,
        (Diagonals.Evaluate (d.entries (2 ^ 2)) [5, 6, 7, 8] newVec addVec muladdVec [(0, [1])]).getD
            pm.To 0
          = pm.Scaling * ([5, 6, 7, 8] : List Nat).getD pm.From 0 :=
  ⟨_, rfl, by decide, by decide,
    Evaluate_GetDiagonals exPermutation 2 [5, 6, 7, 8] [(0, [1])] _ (by decide) rfl
      (by decide) (by decide) (by decide) rfl (by decide)⟩

/-! ## The merge schedule of the homomorphic DFT -/

theorem ceilDiv_le (a b : Nat) (hb : 1 ≤ b) : ceilDiv a b ≤ a := by
  unfold ceilDiv
  rw [Nat.div_le_iff_le_mul_add_pred (by omega)]
  have : a * 1 ≤ b * a := by rw [Nat.mul_comm]; exact Nat.mul_le_mul_right a hb
  omega

theorem ceilDiv_one (a : Nat) : ceilDiv a 1 = a := by
  unfold ceilDiv; simp

theorem sum_set_zero : ∀ (l : List Nat) (i d : Nat), i < l.length → l.getD i 0 = 0 →
    (l.set i d).sum = l.sum + d := by
  intro l
  induction l with
  | nil => intro i d h; simp at h
  | cons x xs ih =>
    intro i d h h0
    cases i with
    | zero =>
      simp only [List.getD_cons_zero] at h0
      subst h0
      simp [List.set]
      omega
    | succ k =>
      simp only [List.getD_cons_succ] at h0
      simp only [List.set_cons_succ, List.sum_cons]
      rw [ih k d (by simpa using h) h0]
      omega

/-- The loop from iteration `i` on, when the entries it still has to write are zero: it
ends with `level = 0`, keeps the length of `merge`, and adds `level` to its sum. -/
theorem mergeLoop_spec (encode : Bool) (m : Nat) :
    ∀ (n i level : Nat) (merge : List Nat), i + n = m → 1 ≤ n →
      merge.length = m →
      (∀ j, i ≤ j → j < m →
        merge.getD (if encode then j else m - j - 1) 0 = 0) →
      (mergeLoop encode m (List.range' i n) level merge).1 = 0 ∧
      (mergeLoop encode m (List.range' i n) level merge).2.length = m ∧
      (mergeLoop encode m (List.range' i n) level merge).2.sum = merge.sum + level := by
  intro n
  induction n with
  | zero => intro i level merge _ h; omega
  | succ k ih =>
    intro i level merge him _ hlen hzero
    rw [List.range'_succ]
    unfold mergeLoop
    simp only
    have hdepth : ceilDiv level (m - i) ≤ level := ceilDiv_le _ _ (by omega)
    generalize hpos : (if encode then i else m - i - 1) = pos
    have hposlt : pos < m := by
      rw [← hpos]; split_ifs <;> omega
    have hmerge1 : (if encode = true then merge.set i (ceilDiv level (m - i))
        else merge.set (merge.length - i - 1) (ceilDiv level (m - i)))
        = merge.set pos (ceilDiv level (m - i)) := by
      rw [← hpos, hlen]; split_ifs <;> rfl
    rw [hmerge1]
    have hz : merge.getD pos 0 = 0 := by
      rw [← hpos]; exact hzero i le_rfl (by omega)
    have hsum := sum_set_zero merge pos (ceilDiv level (m - i)) (by rw [hlen]; exact hposlt) hz
    by_cases hk : k = 0
    · subst hk
      have hmi : m - i = 1 := by omega
      simp only [List.range'_zero, mergeLoop, List.length_set]
      rw [hmi, ceilDiv_one] at hsum ⊢
      exact ⟨Nat.sub_self _, hlen, hsum⟩
    · obtain ⟨r1, r2, r3⟩ := ih (i + 1) (level - ceilDiv level (m - i))
        (merge.set pos (ceilDiv level (m - i))) (by omega) (by omega)
        (by rw [List.length_set]; exact hlen)
        (by
          intro j hj hjm
          have hne : pos ≠ (if encode then j else m - j - 1) := by
            rw [← hpos]; split_ifs <;> omega
          rw [getD_set_ne _ _ _ hne]
          exact hzero j (by omega) hjm)
      refine ⟨r1, r2, ?_⟩
      rw [r3, hsum]; omega

theorem foldl_sub_sum : ∀ (l : List Nat) (a : Int),
    l.foldl (fun (level : Int) (d : Nat) => level - (d : Int)) a = a - ((l.sum : Nat) : Int) := by
  intro l
  induction l with
  | nil => intro a; simp
  | cons x xs ih =>
    intro a
    simp only [List.foldl_cons, List.sum_cons, ih]
    push_cast; ring

/-- The loop run for `Encode` and for `Decode` from mirrored slices ends with the same
`level` and with mirrored slices. -/
theorem mergeLoop_mirror (m : Nat) :
    ∀ (n i level : Nat) (me md : List Nat), i + n = m →
      me.length = m → md.length = m →
      (∀ j, j < m → me.getD j 0 = md.getD (m - j - 1) 0) →
      (mergeLoop true m (List.range' i n) level me).1
        = (mergeLoop false m (List.range' i n) level md).1 ∧
      (mergeLoop true m (List.range' i n) level me).2.length = m ∧
      (mergeLoop false m (List.range' i n) level md).2.length = m ∧
      (∀ j, j < m → (mergeLoop true m (List.range' i n) level me).2.getD j 0
        = (mergeLoop false m (List.range' i n) level md).2.getD (m - j - 1) 0) := by
  intro n
  induction n with
  | zero =>
    intro i level me md _ hle hld hrel
    simp only [List.range'_zero, mergeLoop]
    exact ⟨trivial, hle, hld, hrel⟩
  | succ k ih =>
    intro i level me md him hle hld hrel
    rw [List.range'_succ]
    unfold mergeLoop
    simp only [if_true, Bool.false_eq_true, if_false]
    apply ih (i + 1) _ _ _ (by omega) (by rw [List.length_set]; exact hle)
      (by rw [List.length_set]; exact hld)
    intro j hj
    by_cases hji : j = i
    · subst hji
      rw [getD_set_same _ _ _ (by omega), hld, getD_set_same _ _ _ (by omega)]
    · rw [getD_set_ne _ _ _ (Ne.symm hji), hld, getD_set_ne _ _ _ (by omega)]
      exact hrel j hj

/-! ## The claims -/

/-- C1 (failing input): at the prime modulus `T = 97` with `s0 = s1 = 1` (and with
`s0 = 1`, `s1 = 2`) the call returns the zero pair, which is not coprime to 97: the named
results `r0`, `r1` are only set by a strict improvement over the cost of the start pair,
which is never recorded. Separately, at the composite modulus `T = 15` with `s0 = 2`,
`s1 = 4`, both coprime to 15, the call returns `(1, 2, 3)` and `2*1` is not `4*2` modulo
15: the start value `ModExp(s0, T-2, T)` is the inverse of `s0` only in a prime field. -/
theorem matchScalesBinary_failing_inputs :
    (Nat.gcd 1 97 = 1 ∧ matchScalesBinary 97 1 1 = .ok (0, 0, 2) ∧ Nat.gcd 0 97 ≠ 1) ∧
    (Nat.gcd 2 97 = 1 ∧ matchScalesBinary 97 1 2 = .ok (0, 0, 3)) ∧
    (Nat.gcd 2 15 = 1 ∧ Nat.gcd 4 15 = 1 ∧ matchScalesBinary 15 2 4 = .ok (1, 2, 3) ∧
      (2 * 1) % 15 ≠ (4 * 2) % 15) := by
  decide

/-- What `matchScalesBinary` does keep of its contract: for every prime plaintext modulus
`T < 2^63`, every scale `s0` in `[1, T)` and every `s1`, it returns `(r0, r1, e)` with
`s0*r0 = s1*r1` modulo `T`; and whenever the returned pair is not the zero pair, `r0` and
`r1` are both coprime to `T`. -/
theorem matchScalesBinary_prime_units (T s0 s1 : Nat) (hp : T.Prime) (hw : T < 2 ^ 63)
    (h0 : 1 ≤ s0 ∧ s0 < T) :
    ∃ r0 r1 e, matchScalesBinary T s0 s1 = .ok (r0, r1, e) ∧
      (s0 * r0) % T = (s1 * r1) % T ∧
      (¬ (r0 = 0 ∧ r1 = 0) → Nat.gcd r0 T = 1 ∧ Nat.gcd r1 T = 1) := by
  obtain ⟨r0, r1, e, hres, hmod, hcase⟩ :=
    matchScalesBinary_prime_spec hp hw s0 s1 (coprime_of_pos_lt_prime hp h0.1 h0.2)
  refine ⟨r0, r1, e, hres, hmod, ?_⟩
  intro hnz
  rcases hcase with h | ⟨-, h2, h3⟩
  · exact absurd h hnz
  · exact ⟨h2, h3⟩

/-- The previous statement at `T = 97`, `s0 = 3`, `s1 = 5`. -/
theorem matchScalesBinary_prime_units_example :
    Nat.Prime 97 ∧ 97 < 2 ^ 63 ∧ (1 ≤ 3 ∧ 3 < 97) ∧
    ∃ r0 r1 e, matchScalesBinary 97 3 5 = .ok (r0, r1, e) ∧
      (3 * r0) % 97 = (5 * r1) % 97 ∧
      (¬ (r0 = 0 ∧ r1 = 0) → Nat.gcd r0 97 = 1 ∧ Nat.gcd r1 97 = 1) :=
  ⟨by norm_num, by norm_num, by decide,
    matchScalesBinary_prime_units 97 3 5 (by norm_num) (by norm_num) (by decide)⟩

/-- C2 (failing input): at `T = 97`, `s0 = s1 = 1` the call returns the zero pair, which
is not one of the pairs coprime to `T`, while the coprime pair `(1, 1)` equalizes the
scales at cost `center(1) + center(1) = 2`. At the composite modulus `T = 9`,
`s0 = s1 = 2`, it returns `(1, 7)`, which does not equalize the scales and costs 3, more
than the pair `(1, 1)`. -/
theorem matchScalesBinary_not_a_coprime_pair :
    (matchScalesBinary 97 1 1 = .ok (0, 0, 2) ∧
      ¬ (Nat.gcd 0 97 = 1 ∧ Nat.gcd 0 97 = 1) ∧
      ((1 * 1) % 97 = (1 * 1) % 97 ∧ Nat.gcd 1 97 = 1 ∧
        center 1 (97 / 2) 97 + center 1 (97 / 2) 97 = 2)) ∧
    (Nat.gcd 2 9 = 1 ∧ matchScalesBinary 9 2 2 = .ok (1, 7, 3) ∧
      (2 * 1) % 9 ≠ (2 * 7) % 9 ∧
      center 1 (9 / 2) 9 + center 7 (9 / 2) 9 = 3 ∧
      ((2 * 1) % 9 = (2 * 1) % 9 ∧ Nat.gcd 1 9 = 1 ∧
        center 1 (9 / 2) 9 + center 1 (9 / 2) 9 = 2)) := by
  decide

/-- C3 (failing input): at the composite modulus `T = 15`, two ciphertexts of scales 2 and
4, both coprime to 15, leave `MatchScalesAndLevel` with the scales 2 and 8, which differ:
`matchScalesBinary` returns `(1, 2)` because it starts from `4 * ModExp(2, 13, 15) = 8`
instead of the ratio `4 / 2 = 2`. -/
theorem MatchScalesAndLevel_composite_modulus :
    Nat.gcd 2 15 = 1 ∧ Nat.gcd 4 15 = 1 ∧
    ∃ h1, MatchScalesAndLevel (exParams 15) 0 1 (exHeap 2 4) = .ok h1 ∧
      (h1 0).MetaData.PlaintextScale = 2 ∧ (h1 1).MetaData.PlaintextScale = 8 :=
  ⟨by decide, by decide, _, rfl, by decide, by decide⟩

/-- What `MatchScalesAndLevel` does keep of its contract: for every prime plaintext
modulus `T < 2^63` and all ciphertexts `ct0`, `ct1` (aliased or not) with the scale of
`ct0` coprime to `T`, it returns, the two scales are then equal, both ciphertexts are at
level `min(level(ct0), level(ct1))`, and their degrees are unchanged. -/
theorem MatchScalesAndLevel_prime (p : Parameters) (ct0 ct1 : Ref) (h : Heap)
    (hp : p.T.Prime) (hw : p.T < 2 ^ 63)
    (hg : Nat.gcd (h ct0).MetaData.PlaintextScale p.T = 1) :
    ∃ h1, MatchScalesAndLevel p ct0 ct1 h = .ok h1 ∧
      (h1 ct0).MetaData.PlaintextScale = (h1 ct1).MetaData.PlaintextScale ∧
      (h1 ct0).Level = min (h ct0).Level (h ct1).Level ∧
      (h1 ct1).Level = min (h ct0).Level (h ct1).Level ∧
      (h1 ct0).Degree = (h ct0).Degree ∧ (h1 ct1).Degree = (h ct1).Degree := by
  obtain ⟨r0, r1, e, hres, hmod, -⟩ := matchScalesBinary_prime_spec hp hw
    (h ct0).MetaData.PlaintextScale (h ct1).MetaData.PlaintextScale hg
  unfold MatchScalesAndLevel
  rw [hres]
  refine ⟨_, rfl, ?_⟩
  by_cases hne : ct0 = ct1
  · subst hne
    simp only [Heap.set, if_true, min_self]
    refine ⟨trivial, ?_, ?_, ?_, ?_⟩
    · exact scaleAndResize_level p r1 (le_of_eq (scaleAndResize_level p r0 le_rfl).symm)
    · exact scaleAndResize_level p r1 (le_of_eq (scaleAndResize_level p r0 le_rfl).symm)
    · rw [scaleAndResize_degree, scaleAndResize_degree]
    · rw [scaleAndResize_degree, scaleAndResize_degree]
  · have hne2 : ¬ ct1 = ct0 := fun h => hne h.symm
    simp only [Heap.set, hne, hne2, if_true, if_false]
    refine ⟨?_, ?_, ?_, ?_, ?_⟩
    · rw [scaleAndResize_scale, scaleAndResize_scale]; exact hmod
    · exact scaleAndResize_level p r0 (min_le_left _ _)
    · exact scaleAndResize_level p r1 (min_le_right _ _)
    · exact scaleAndResize_degree _ _ _ _
    · exact scaleAndResize_degree _ _ _ _

/-- The previous statement at `T = 97` for ciphertexts of scales 3 and 5. -/
theorem MatchScalesAndLevel_prime_example :
    Nat.Prime 97 ∧ 97 < 2 ^ 63 ∧ Nat.gcd 3 97 = 1 ∧
    ∃ h1, MatchScalesAndLevel (exParams 97) 0 1 (exHeap 3 5) = .ok h1 ∧
      (h1 0).MetaData.PlaintextScale = (h1 1).MetaData.PlaintextScale ∧
      (h1 0).Level = min (exHeap 3 5 0).Level (exHeap 3 5 1).Level ∧
      (h1 1).Level = min (exHeap 3 5 0).Level (exHeap 3 5 1).Level ∧
      (h1 0).Degree = (exHeap 3 5 0).Degree ∧ (h1 1).Degree = (exHeap 3 5 1).Degree :=
  ⟨by norm_num, by norm_num, by decide,
    MatchScalesAndLevel_prime (exParams 97) 0 1 (exHeap 3 5) (by norm_num [exParams])
      (by norm_num [exParams]) (by decide)⟩

/-- C4 (failing input): at `T = 97`, two ciphertexts of equal scale 3 are both
multiplied by 0 (`matchScalesBinary` returns the zero pair), so both scales become 0,
which is not invertible modulo 97; the same happens for the different scales 1 and 2. -/
theorem MatchScalesAndLevel_zero_multipliers :
    matchScalesBinary 97 3 3 = .ok (0, 0, 2) ∧
    matchScalesBinary 97 1 2 = .ok (0, 0, 3) ∧
    (∃ h1, MatchScalesAndLevel (exParams 97) 0 1 (exHeap 3 3) = .ok h1 ∧
      (h1 0).MetaData.PlaintextScale = 0 ∧ (h1 1).MetaData.PlaintextScale = 0) ∧
    Nat.gcd 0 97 ≠ 1 :=
  ⟨by decide, by decide, ⟨_, rfl, by decide, by decide⟩, by decide⟩

/-- C5: `Rescale(ctIn, ctOut)` returns an error if and only if `ctIn.Level() == 0` or
`ctOut.Level() < ctIn.Level() - 1`. -/
theorem Rescale_error_iff (be : Backend) (p : Parameters) (ctIn ctOut : Ref) (h : Heap) :
    (∃ h1 m, Rescale be p ctIn ctOut h = .ok (h1, some m)) ↔
      ((h ctIn).Level = 0 ∨ (h ctOut).Level < (h ctIn).Level - 1) := by
  unfold Rescale
  constructor
  · rintro ⟨h1, m, hres⟩
    by_cases c1 : (h ctIn).Level = 0
    · exact Or.inl c1
    · by_cases c2 : (h ctOut).Level < (h ctIn).Level - 1
      · exact Or.inr c2
      · exfalso
        simp only [c1, c2, if_false] at hres
        split at hres
        · exact Outcome.noConfusion hres
        · split at hres
          · exact Outcome.noConfusion hres
          · simp at hres
  · rintro (c1 | c2)
    · exact ⟨h, _, by rw [if_pos c1]⟩
    · by_cases c1 : (h ctIn).Level = 0
      · exact ⟨h, _, by rw [if_pos c1]⟩
      · exact ⟨h, _, by rw [if_neg c1, if_pos c2]⟩

/-- C6: a successful `Rescale(ctIn, ctOut)` (with a division primitive that keeps the
number of residue rows of its output) has `ctIn` at a level `L ≥ 1` and `ctOut` at a level
`≥ L - 1`, and leaves `ctOut` at level exactly `L - 1`, with the NTT and Montgomery flags
of `ctIn` and with a scale `s < T` such that `s * q_L = ctIn.scale` modulo `T`. -/
theorem Rescale_ok_spec (be : Backend) (p : Parameters) (ctIn ctOut : Ref) (h h1 : Heap)
    (hbe : ∀ Q l p1 p2, (be.DivRoundByLastModulusNTT Q l p1 p2).length = p2.length)
    (hok : Rescale be p ctIn ctOut h = .ok (h1, none)) :
    1 ≤ (h ctIn).Level ∧ (h ctIn).Level - 1 ≤ (h ctOut).Level ∧
    (h1 ctOut).Level = (h ctIn).Level - 1 ∧
    (h1 ctOut).MetaData.IsNTT = (h ctIn).MetaData.IsNTT ∧
    (h1 ctOut).MetaData.IsMontgomery = (h ctIn).MetaData.IsMontgomery ∧
    (h1 ctOut).MetaData.PlaintextScale < p.T ∧
    (h1 ctOut).MetaData.PlaintextScale * modulusAt p.Q (h ctIn).Level
      ≡ (h ctIn).MetaData.PlaintextScale [MOD p.T] := by
  unfold Rescale at hok
  by_cases c1 : (h ctIn).Level = 0
  · simp [c1] at hok
  by_cases c2 : (h ctOut).Level < (h ctIn).Level - 1
  · simp [c1, c2] at hok
  simp only [c1, c2, if_false] at hok
  split at hok
  · exact Outcome.noConfusion hok
  rename_i vals hvals
  split at hok
  · exact Outcome.noConfusion hok
  rename_i s hs
  simp only [Outcome.ok.injEq, Prod.mk.injEq, and_true] at hok
  subst hok
  obtain ⟨-, hhead⟩ := rescaleLoop_head be p.Q _ hbe _ _ _ hvals
  obtain ⟨hmetaOut, hvalOut⟩ := rescaleStore_out vals (h ctIn).Level ctIn ctOut h
  -- the scale read for the division is the scale of ctIn before the call
  rw [rescaleStore_metaData_in] at hs
  unfold ScaleDiv at hs
  split at hs
  · exact Option.noConfusion hs
  simp only [Option.map_eq_some'] at hs
  obtain ⟨i, hi, rfl⟩ := hs
  obtain ⟨hiT, hinv⟩ := modInverse_spec hi
  have hTpos : 0 < p.T := by omega
  refine ⟨Nat.pos_of_ne_zero c1, Nat.le_of_not_lt c2, ?_, ?_, ?_, ?_, ?_⟩
  · rw [Heap.set_same]
    show Poly.Level (List.headD (rescaleStore vals (h ctIn).Level ctIn ctOut h ctOut).Value [])
      = _
    rw [hvalOut]
    have hle : (h ctIn).Level - 1 ≤ (Ciphertext.Level { h ctOut with Value := vals }) := by
      have : (Ciphertext.Level { h ctOut with Value := vals }) = (h ctOut).Level := by
        simp only [Ciphertext.Level, Poly.Level, hhead]
      rw [this]; exact Nat.le_of_not_lt c2
    exact Ciphertext.Resize_level_eq _ hle
  · rw [Heap.set_same]; simp only [hmetaOut]
  · rw [Heap.set_same]; simp only [hmetaOut]
  · rw [Heap.set_same]
    exact Nat.mod_lt _ hTpos
  · rw [Heap.set_same]
    have hq : modulusAt p.Q (h ctIn).Level * i ≡ 1 [MOD p.T] := hinv
    calc (h ctIn).MetaData.PlaintextScale * i % p.T * modulusAt p.Q (h ctIn).Level
        ≡ (h ctIn).MetaData.PlaintextScale * i * modulusAt p.Q (h ctIn).Level [MOD p.T] :=
          Nat.ModEq.mul_right _ (Nat.mod_modEq _ _)
      _ = (h ctIn).MetaData.PlaintextScale * (modulusAt p.Q (h ctIn).Level * i) := by ring
      _ ≡ (h ctIn).MetaData.PlaintextScale * 1 [MOD p.T] := Nat.ModEq.mul_left _ hq
      _ = (h ctIn).MetaData.PlaintextScale := Nat.mul_one _

/-- C6 (witness): rescaling the level-1 ciphertext at address 0 into the one at address 1,
for `T = 97` and the chain `[193, 257]`. -/
theorem Rescale_ok_spec_witness :
    ∃ h1, Rescale exBackend (exParams 97) 0 1 (exHeap 3 5) = .ok (h1, none) ∧
      (1 ≤ (exHeap 3 5 0).Level ∧ (exHeap 3 5 0).Level - 1 ≤ (exHeap 3 5 1).Level ∧
      (h1 1).Level = (exHeap 3 5 0).Level - 1 ∧
      (h1 1).MetaData.IsNTT = (exHeap 3 5 0).MetaData.IsNTT ∧
      (h1 1).MetaData.IsMontgomery = (exHeap 3 5 0).MetaData.IsMontgomery ∧
      (h1 1).MetaData.PlaintextScale < (exParams 97).T ∧
      (h1 1).MetaData.PlaintextScale * modulusAt (exParams 97).Q (exHeap 3 5 0).Level
        ≡ (exHeap 3 5 0).MetaData.PlaintextScale [MOD (exParams 97).T]) := by
  refine ⟨_, rfl, ?_⟩
  exact Rescale_ok_spec exBackend (exParams 97) 0 1 (exHeap 3 5) _
    (fun _ _ _ _ => mapRows_length _ _ _) rfl

/-- C7: when `Rescale(ctIn, ctOut)` returns an error, the store at the return is the store
at the call: no polynomial, level, degree or metadata of `ctOut` (or of any other
ciphertext) has been modified. -/
theorem Rescale_error_unchanged (be : Backend) (p : Parameters) (ctIn ctOut : Ref)
    (h h1 : Heap) (m : String) (herr : Rescale be p ctIn ctOut h = .ok (h1, some m)) :
    h1 = h ∧ h1 ctOut = h ctOut := by
  unfold Rescale at herr
  have key : h1 = h := by
    by_cases c1 : (h ctIn).Level = 0
    · rw [if_pos c1] at herr
      simp only [Outcome.ok.injEq, Prod.mk.injEq] at herr
      exact herr.1.symm
    · rw [if_neg c1] at herr
      by_cases c2 : (h ctOut).Level < (h ctIn).Level - 1
      · rw [if_pos c2] at herr
        simp only [Outcome.ok.injEq, Prod.mk.injEq] at herr
        exact herr.1.symm
      · rw [if_neg c2] at herr
        exfalso
        simp only at herr
        split at herr
        · exact Outcome.noConfusion herr
        · split at herr
          · exact Outcome.noConfusion herr
          · simp at herr
  exact ⟨key, by rw [key]⟩

/-- C7 (witness): a ciphertext at level 0 passed to `Rescale`. -/
theorem Rescale_error_unchanged_witness :
    Rescale exBackend (exParams 97) 0 1 (fun _ => exCt0 3)
      = .ok (fun _ => exCt0 3, some "cannot rescale: ctIn already at level 0") ∧
    ((fun _ => exCt0 3 : Heap) = (fun _ => exCt0 3) ∧
      (fun _ => exCt0 3 : Heap) 1 = (fun _ => exCt0 3 : Heap) 1) :=
  ⟨rfl, Rescale_error_unchanged exBackend (exParams 97) 0 1 (fun _ => exCt0 3)
    (fun _ => exCt0 3) "cannot rescale: ctIn already at level 0" rfl⟩

/-- C8: standard tensoring of two distinct degree-1 operands `op0 = (a0, a1)`,
`op1 = (b0, b1)` (well formed, over odd primes below `2^63`, with an output of degree at
least 1 that may be one of the operands): `Mul` returns, and for every prime `q_i` of the
working level it has written `c0 = T*a0*b0`, `c1 = T*(a0*b1 + a1*b0)` and `c2 = T*a1*b1`
modulo `q_i`, coefficient by coefficient. -/
theorem Mul_tensor_coeffs (ev : Evaluator) (op0 op1 op2 : Ref) (h : Heap)
    (hne : op0 ≠ op1)
    (hwf0 : (h op0).WF ev.parameters.N) (hwf1 : (h op1).WF ev.parameters.N)
    (hwf2 : (h op2).WF ev.parameters.N)
    (hd0 : (h op0).Degree = 1) (hd1 : (h op1).Degree = 1) (hd2 : 1 ≤ (h op2).Degree)
    (hQ : min (min (h op0).Level (h op1).Level) (h op2).Level < ev.parameters.Q.length)
    (hodd : ∀ i, i ≤ min (min (h op0).Level (h op1).Level) (h op2).Level →
      modulusAt ev.parameters.Q i % 2 = 1)
    (h63 : ∀ i, i ≤ min (min (h op0).Level (h op1).Level) (h op2).Level →
      modulusAt ev.parameters.Q i < 2 ^ 63) :
    ∃ h1, Mul ev op0 op1 op2 h = .ok h1 ∧
      ∀ i j, i ≤ min (min (h op0).Level (h op1).Level) (h op2).Level →
        coeff (getPoly (h1 op2) 0) i j
          ≡ ev.parameters.T * coeff (getPoly (h op0) 0) i j * coeff (getPoly (h op1) 0) i j
            [MOD modulusAt ev.parameters.Q i] ∧
        coeff (getPoly (h1 op2) 1) i j
          ≡ ev.parameters.T * (coeff (getPoly (h op0) 0) i j * coeff (getPoly (h op1) 1) i j
              + coeff (getPoly (h op0) 1) i j * coeff (getPoly (h op1) 0) i j)
            [MOD modulusAt ev.parameters.Q i] ∧
        coeff (getPoly (h1 op2) 2) i j
          ≡ ev.parameters.T * coeff (getPoly (h op0) 1) i j * coeff (getPoly (h op1) 1) i j
            [MOD modulusAt ev.parameters.Q i] := by
  obtain ⟨hD, heq, hother, hval, -⟩ := tensorStandard_noRelin_eq ev op0 op1 op2 h hd0 hd1 hd2
  have hlen0 : (h op0).Value.length = 2 := by unfold Ciphertext.Degree at hd0; omega
  have hlen1 : (h op1).Value.length = 2 := by unfold Ciphertext.Degree at hd1; omega
  have hlen2 : 2 ≤ (h op2).Value.length := by unfold Ciphertext.Degree at hd2; omega
  obtain ⟨hp3, hprows, hpkeep⟩ := prepareOutput_spec hwf2 (min_le_right _ _) hlen2
  generalize hlv : min (min (h op0).Level (h op1).Level) (h op2).Level = level at *
  have hl0 : level ≤ (h op0).Level := by rw [← hlv]; exact le_trans (min_le_left _ _) (min_le_left _ _)
  have hl1 : level ≤ (h op1).Level := by rw [← hlv]; exact le_trans (min_le_left _ _) (min_le_right _ _)
  have hDlen : 3 ≤ (hD op2).Value.length := by rw [hval]; exact hp3
  have hDpoly : ∀ k, getPoly (hD op2) k = getPoly (prepareOutput level (h op2)) k := by
    intro k; unfold getPoly; rw [hval]
  -- rows of the operands as the products read them
  have hrow : ∀ (r : Ref), (h r).Value.length = 2 → ∀ k i, k < 2 → i ≤ level →
      rowAt (getPoly (hD r) k) i = rowAt (getPoly (h r) k) i := by
    intro r hr k i hk hi
    by_cases e : r = op2
    · subst e
      rw [hDpoly]
      exact hpkeep k i (by omega) hi
    · rw [hother r e]
  have hdest : ∀ k i, k < 3 → i ≤ level → i < (getPoly (hD op2) k).length := by
    intro k i hk hi
    rw [hDpoly]
    have := hprows k hk
    omega
  obtain ⟨h5, hres, -, -, e0, e1, e2⟩ := tensorStandardProducts_noRelin ev level op0 op1 op2
    hD hne hDlen _ _ rfl rfl
  refine ⟨h5, ?_, ?_⟩
  · unfold Mul; rw [heq]; exact hres
  intro i j hi
  have hQi : i < ev.parameters.Q.length := by omega
  have ha0 := Ciphertext.WF_row hwf0 (k := 0) (i := i) (by omega) (by omega)
  have ha1 := Ciphertext.WF_row hwf0 (k := 1) (i := i) (by omega) (by omega)
  have hb0 := Ciphertext.WF_row hwf1 (k := 0) (i := i) (by omega) (by omega)
  have hb1 := Ciphertext.WF_row hwf1 (k := 1) (i := i) (by omega) (by omega)
  have ra0 := hrow op0 hlen0 0 i (by omega) hi
  have ra1 := hrow op0 hlen0 1 i (by omega) hi
  have rb0 := hrow op1 hlen1 0 i (by omega) hi
  have rb1 := hrow op1 hlen1 1 i (by omega) hi
  rw [e0, e1, e2]
  by_cases e : op1 = op2
  · simp only [e, if_true]
    rw [← e]
    obtain ⟨t0, t1, t2⟩ := tensor_coeffs ev.parameters level ev.parameters.N
      (getPoly (hD op1) 0) (getPoly (hD op1) 1) (getPoly (hD op0) 0) (getPoly (hD op0) 1)
      (getPoly (hD op1) 0) (getPoly (hD op1) 1) (getPoly (hD op1) 2) i j hi hQi
      (by rw [e]; exact hdest 0 i (by omega) hi) (by rw [e]; exact hdest 1 i (by omega) hi)
      (by rw [e]; exact hdest 2 i (by omega) hi)
      (hodd i hi) (h63 i hi) (by rw [rb0]; exact hb0) (by rw [rb1]; exact hb1)
      (by rw [ra0]; exact ha0) (by rw [ra1]; exact ha1)
    simp only [coeff_congr ra0 j, coeff_congr ra1 j, coeff_congr rb0 j, coeff_congr rb1 j]
      at t0 t1 t2
    refine ⟨?_, ?_, ?_⟩
    · rw [show ev.parameters.T * coeff (getPoly (h op0) 0) i j * coeff (getPoly (h op1) 0) i j
        = ev.parameters.T * coeff (getPoly (h op1) 0) i j * coeff (getPoly (h op0) 0) i j
        by ring]
      exact t0
    · rw [show ev.parameters.T * (coeff (getPoly (h op0) 0) i j * coeff (getPoly (h op1) 1) i j
          + coeff (getPoly (h op0) 1) i j * coeff (getPoly (h op1) 0) i j)
        = ev.parameters.T * (coeff (getPoly (h op1) 0) i j * coeff (getPoly (h op0) 1) i j
          + coeff (getPoly (h op1) 1) i j * coeff (getPoly (h op0) 0) i j) by ring]
      exact t1
    · rw [show ev.parameters.T * coeff (getPoly (h op0) 1) i j * coeff (getPoly (h op1) 1) i j
        = ev.parameters.T * coeff (getPoly (h op1) 1) i j * coeff (getPoly (h op0) 1) i j
        by ring]
      exact t2
  · simp only [e, if_false]
    obtain ⟨t0, t1, t2⟩ := tensor_coeffs ev.parameters level ev.parameters.N
      (getPoly (hD op0) 0) (getPoly (hD op0) 1) (getPoly (hD op1) 0) (getPoly (hD op1) 1)
      (getPoly (hD op2) 0) (getPoly (hD op2) 1) (getPoly (hD op2) 2) i j hi hQi
      (hdest 0 i (by omega) hi) (hdest 1 i (by omega) hi) (hdest 2 i (by omega) hi)
      (hodd i hi) (h63 i hi) (by rw [ra0]; exact ha0) (by rw [ra1]; exact ha1)
      (by rw [rb0]; exact hb0) (by rw [rb1]; exact hb1)
    simp only [coeff_congr ra0 j, coeff_congr ra1 j, coeff_congr rb0 j, coeff_congr rb1 j]
      at t0 t1 t2
    exact ⟨t0, t1, t2⟩

/-- C8 (witness): `Mul` of the two degree-1 ciphertexts at addresses 0 and 1 into the
degree-2 ciphertext at address 2, for `T = 97` over the chain `[193, 257]`. -/
theorem Mul_tensor_coeffs_witness :
    (0 : Ref) ≠ 1 ∧ (exHeap2 3 5 0).WF (exEval 97).parameters.N ∧
    (exHeap2 3 5 0).Degree = 1 ∧ (exHeap2 3 5 1).Degree = 1 ∧
    ∃ h1, Mul (exEval 97) 0 1 2 (exHeap2 3 5) = .ok h1 ∧
      ∀ i j, i ≤ min (min (exHeap2 3 5 0).Level (exHeap2 3 5 1).Level) (exHeap2 3 5 2).Level →
        coeff (getPoly (h1 2) 0) i j
          ≡ (exEval 97).parameters.T * coeff (getPoly (exHeap2 3 5 0) 0) i j
              * coeff (getPoly (exHeap2 3 5 1) 0) i j
            [MOD modulusAt (exEval 97).parameters.Q i] ∧
        coeff (getPoly (h1 2) 1) i j
          ≡ (exEval 97).parameters.T * (coeff (getPoly (exHeap2 3 5 0) 0) i j
                * coeff (getPoly (exHeap2 3 5 1) 1) i j
              + coeff (getPoly (exHeap2 3 5 0) 1) i j * coeff (getPoly (exHeap2 3 5 1) 0) i j)
            [MOD modulusAt (exEval 97).parameters.Q i] ∧
        coeff (getPoly (h1 2) 2) i j
          ≡ (exEval 97).parameters.T * coeff (getPoly (exHeap2 3 5 0) 1) i j
              * coeff (getPoly (exHeap2 3 5 1) 1) i j
            [MOD modulusAt (exEval 97).parameters.Q i] :=
  ⟨by decide, by decide, by decide, by decide,
    Mul_tensor_coeffs (exEval 97) 0 1 2 (exHeap2 3 5) (by decide) (by decide) (by decide)
      (by decide) (by decide) (by decide) (by decide) (by decide)
      (fun i hi => by
        have hi1 : i ≤ 1 := hi
        interval_cases i <;> decide)
      (fun i hi => by
        have hi1 : i ≤ 1 := hi
        interval_cases i <;> decide)⟩

/-- The scale `Mul` gives the product of two distinct degree-1 operands: the product of
the two scales, except when the output is the second operand, where it is the square of
the scale of the first. -/
theorem Mul_scale (ev : Evaluator) (op0 op1 op2 : Ref) (h : Heap) (hne : op0 ≠ op1)
    (hwf2 : (h op2).WF ev.parameters.N)
    (hd0 : (h op0).Degree = 1) (hd1 : (h op1).Degree = 1) (hd2 : 1 ≤ (h op2).Degree) :
    ∃ h1, Mul ev op0 op1 op2 h = .ok h1 ∧
      (h1 op2).MetaData.PlaintextScale = ScaleMul ev.parameters.T
        (h op0).MetaData.PlaintextScale
        (if op1 = op2 then (h op0).MetaData.PlaintextScale
          else (h op1).MetaData.PlaintextScale) := by
  obtain ⟨hD, heq, -, hval, hscale⟩ := tensorStandard_noRelin_eq ev op0 op1 op2 h hd0 hd1 hd2
  have hlen2 : 2 ≤ (h op2).Value.length := by unfold Ciphertext.Degree at hd2; omega
  obtain ⟨hp3, -, -⟩ := prepareOutput_spec hwf2 (min_le_right _ _) hlen2
  obtain ⟨h5, hres, hmeta, -⟩ := tensorStandardProducts_noRelin ev _ op0 op1 op2
    hD hne (by rw [hval]; exact hp3) _ _ rfl rfl
  refine ⟨h5, ?_, ?_⟩
  · unfold Mul; rw [heq]; exact hres
  · rw [hmeta]; exact hscale

/-- C9 (failing input): for `T = 97`, `op0` of scale 3 and `op1` of scale 5 with the output
being `op1` itself, `Mul` and `MulRelin` leave the scale `3*3 = 9`, not `3*5 = 15`:
`op2.MetaData = op0.MetaData` overwrites the scale of `op1` before it is read. With a
separate output, or with the output being `op0`, the scale is 15. -/
theorem Mul_scale_when_output_is_op1 :
    (∃ h1, Mul (exEval 97) 0 1 1 (exHeap2 3 5) = .ok h1 ∧
      (h1 1).MetaData.PlaintextScale = 9) ∧
    (∃ h1, MulRelin (exEval 97) 0 1 1 (exHeap2 3 5) = .ok h1 ∧
      (h1 1).MetaData.PlaintextScale = 9) ∧
    (∃ h1, Mul (exEval 97) 0 1 2 (exHeap2 3 5) = .ok h1 ∧
      (h1 2).MetaData.PlaintextScale = 15) ∧
    (∃ h1, Mul (exEval 97) 0 1 0 (exHeap2 3 5) = .ok h1 ∧
      (h1 0).MetaData.PlaintextScale = 15) ∧
    (3 * 5) % 97 = 15 :=
  ⟨⟨_, rfl, by decide⟩, ⟨_, rfl, by decide⟩, ⟨_, rfl, by decide⟩, ⟨_, rfl, by decide⟩,
    by decide⟩

/-- C10 (failing input): `MulRelin` of two degree-1 ciphertexts into an output of degree 2
returns and leaves the output with three polynomials, the third being the one it had
before the call: with relinearization `tensorStandard` never resizes its output. -/
theorem MulRelin_output_keeps_degree_two :
    (exHeap2 3 5 0).Degree = 1 ∧ (exHeap2 3 5 1).Degree = 1 ∧ (exHeap2 3 5 2).Degree = 2 ∧
    ∃ h1, MulRelin (exEval 97) 0 1 2 (exHeap2 3 5) = .ok h1 ∧
      (h1 2).Degree = 2 ∧ getPoly (h1 2) 2 = getPoly (exHeap2 3 5 2) 2 :=
  ⟨by decide, by decide, by decide, _, rfl, by decide, by decide⟩

/-- C11: for all degree-1 ciphertexts `c0`, `c1` at levels within the chain,
`MulInvariantNew(c0, c1)` returns a ciphertext at level `min(level(c0), level(c1))`, so
does `MulRelinInvariantNew(c0, c1)` when the evaluator has a relinearization key, and
`MulInvariant` with a preallocated output (which may be one of the operands) returns and
leaves the output at level `min(level(c0), level(c1), level(out))`. -/
theorem MulInvariant_keeps_level (ev : Evaluator) (op0 op1 op2 : Ref) (h : Heap)
    (hd0 : (h op0).Degree = 1) (hd1 : (h op1).Degree = 1)
    (hQ : min (h op0).Level (h op1).Level < ev.parameters.Q.length) :
    (∃ c, MulInvariantNew ev op0 (.operand op1) h = .ok c ∧
      c.Level = min (h op0).Level (h op1).Level) ∧
    (ev.hasRelinearizationKey = true →
      ∃ c, MulRelinInvariantNew ev op0 (.operand op1) h = .ok c ∧
        c.Level = min (h op0).Level (h op1).Level) ∧
    (∃ h1, MulInvariant ev op0 (.operand op1) op2 h = .ok h1 ∧
      (h1 op2).Level = min (min (h op0).Level (h op1).Level) (h op2).Level) := by
  obtain ⟨f0, f1⟩ := freshRef_ne op0 op1
  have hnew : ∀ (d : Nat) (relin : Bool), (relin = true → 1 ≤ d) →
      (relin = true → ev.hasRelinearizationKey = true) →
      ∃ h1, tensorInvariant ev op0 op1 relin (freshRef [op0, op1])
          (h.set (freshRef [op0, op1])
            (NewCiphertext ev.parameters d (min (h op0).Level (h op1).Level))) = .ok h1 ∧
        (h1 (freshRef [op0, op1])).Level = min (h op0).Level (h op1).Level := by
    intro d relin hd hkey
    have e0 := Heap.set_other h (NewCiphertext ev.parameters d
      (min (h op0).Level (h op1).Level)) (Ne.symm f0)
    have e1 := Heap.set_other h (NewCiphertext ev.parameters d
      (min (h op0).Level (h op1).Level)) (Ne.symm f1)
    obtain ⟨h1, r1, r2⟩ := tensorInvariant_level ev op0 op1 relin (freshRef [op0, op1])
      (h.set (freshRef [op0, op1])
        (NewCiphertext ev.parameters d (min (h op0).Level (h op1).Level)))
      (by rw [e0]; exact hd0) (by rw [e1]; exact hd1)
      (by intro hr; rw [Heap.set_same, NewCiphertext_degree]; exact hd hr) hkey
      (by rw [e0, e1, Heap.set_same, NewCiphertext_level, min_self]; exact hQ)
    refine ⟨h1, r1, ?_⟩
    rw [r2, e0, e1, Heap.set_same, NewCiphertext_level, min_self]
  refine ⟨?_, ?_, ?_⟩
  · obtain ⟨h1, r1, r2⟩ := hnew ((h op0).Degree + (h op1).Degree) false (by simp) (by simp)
    refine ⟨h1 (freshRef [op0, op1]), ?_, r2⟩
    simp only [MulInvariantNew, MulInvariant, MulInvariantOperand]
    rw [Heap.set_other _ _ (Ne.symm f1), if_neg (by omega), r1]
    rfl
  · intro hkey
    obtain ⟨h1, r1, r2⟩ := hnew 1 true (by simp) (fun _ => hkey)
    refine ⟨h1 (freshRef [op0, op1]), ?_, r2⟩
    simp only [MulRelinInvariantNew, MulRelinInvariant, MulRelinInvariantOperand]
    rw [Heap.set_other _ _ (Ne.symm f1), if_neg (by omega), r1]
    rfl
  · obtain ⟨h1, r1, r2⟩ := tensorInvariant_level ev op0 op1 false op2 h hd0 hd1 (by simp)
      (by simp) (lt_of_le_of_lt (min_le_left _ _) hQ)
    refine ⟨h1, ?_, r2⟩
    simp only [MulInvariant, MulInvariantOperand]
    rw [if_neg (by omega), r1]

/-- C11 (witness): the two degree-1 ciphertexts at addresses 0 and 1, at level 1 of the
chain `[193, 257]`, with the output at address 2. -/
theorem MulInvariant_keeps_level_witness :
    (exHeap2 3 5 0).Degree = 1 ∧ (exHeap2 3 5 1).Degree = 1 ∧
    min (exHeap2 3 5 0).Level (exHeap2 3 5 1).Level < (exEval 97).parameters.Q.length ∧
    ((∃ c, MulInvariantNew (exEval 97) 0 (.operand 1) (exHeap2 3 5) = .ok c ∧
      c.Level = min (exHeap2 3 5 0).Level (exHeap2 3 5 1).Level) ∧
    ((exEval 97).hasRelinearizationKey = true →
      ∃ c, MulRelinInvariantNew (exEval 97) 0 (.operand 1) (exHeap2 3 5) = .ok c ∧
        c.Level = min (exHeap2 3 5 0).Level (exHeap2 3 5 1).Level) ∧
    (∃ h1, MulInvariant (exEval 97) 0 (.operand 1) 2 (exHeap2 3 5) = .ok h1 ∧
      (h1 2).Level = min (min (exHeap2 3 5 0).Level (exHeap2 3 5 1).Level)
        (exHeap2 3 5 2).Level)) :=
  ⟨by decide, by decide, by decide,
    MulInvariant_keeps_level (exEval 97) 0 1 2 (exHeap2 3 5) (by decide) (by decide)
      (by decide)⟩

/-- C12 (counterexample): at level 0 of the chain `[193, 257]` with the auxiliary prime 241
and `T = 97`, for the coefficients `x = 2` and `x = 100` of a tensor product, `quantize`
leaves `97 * round(2/193) = 0` and `97 * round(100/193) = 97`, while
`round(2*97/193) = 1` and `round(100*97/193) = 50`. -/
theorem quantize_not_rounded_product :
    levelQMul (exEval 97).parameters 0 = 0 ∧
    quantize (exEval 97) 0 0 [[2, 100]] [[2, 100]] = ([[0, 97]], [[0, 1]]) ∧
    [(2 : Int), 100].map (fun x => (divRound (97 * x) 193 % 193).toNat) = [1, 50] ∧
    ¬ (rowAt (quantize (exEval 97) 0 0 [[2, 100]] [[2, 100]]).1 0
        = (exEval 97).backend.NTT 193
            ([(2 : Int), 100].map (fun x => (divRound (97 * x) 193 % 193).toNat))) := by
  decide

/-- C12 (amended): with `ModDownQPtoP` the exact rounded division by `Q` and `ModUpPtoQ` the
exact centered lifting, over chains of distinct odd primes, `quantize` outputs
`T * round(x / Q)` modulo `Q`: when the coefficients of the tensor product are the centered
integers `xs` (`|2x| < Q * QMul`), known by their residues in the two chains after the
inverse transforms, every row `i` of `c2Q1` is left as the transform of the residues of
`T * round(x / Q)` modulo `q_i`. -/
theorem quantize_scaled_rounding (ev : Evaluator) (level lQMul : Nat) (c2Q1 c2Q2 : Poly) (xs : List Int)
    (hQ : level < ev.parameters.Q.length) (hP : lQMul < ev.parameters.QMul.length)
    (h1 : level < c2Q1.length) (h2 : lQMul < c2Q2.length)
    (hpr : ∀ m ∈ chain ev.parameters.Q level ++ chain ev.parameters.QMul lQMul,
      m.Prime ∧ m % 2 = 1)
    (hnd : (chain ev.parameters.Q level ++ chain ev.parameters.QMul lQMul).Nodup)
    (hx : ∀ x ∈ xs,
      -(((chain ev.parameters.Q level).prod * (chain ev.parameters.QMul lQMul).prod : Nat) : Int)
        < 2 * x ∧
      2 * x
        < (((chain ev.parameters.Q level).prod * (chain ev.parameters.QMul lQMul).prod : Nat) : Int))
    (hrowQ : ∀ i, i ≤ level →
      ev.backend.INTT (modulusAt ev.parameters.Q i) (rowAt c2Q1 i)
        = xs.map (fun x => (x % ((modulusAt ev.parameters.Q i : Nat) : Int)).toNat))
    (hrowP : ∀ k, k ≤ lQMul →
      ev.backend.INTT (modulusAt ev.parameters.QMul k) (rowAt c2Q2 k)
        = xs.map (fun x => (x % ((modulusAt ev.parameters.QMul k : Nat) : Int)).toNat)) :
    ∀ i, i ≤ level →
      rowAt (quantize ev level lQMul c2Q1 c2Q2).1 i
        = ev.backend.NTT (modulusAt ev.parameters.Q i)
            (xs.map (fun x => (((ev.parameters.T : Int)
              * divRound x (chain ev.parameters.Q level).prod)
                % ((modulusAt ev.parameters.Q i : Nat) : Int)).toNat)) := by
  intro i hi
  generalize hmQ : chain ev.parameters.Q level = mQ at *
  generalize hmP : chain ev.parameters.QMul lQMul = mP at *
  have hprQ : ∀ m ∈ mQ, m.Prime := fun m hm => (hpr m (List.mem_append_left _ hm)).1
  have hprP : ∀ m ∈ mP, m.Prime := fun m hm => (hpr m (List.mem_append_right _ hm)).1
  have hprA : ∀ m ∈ mQ ++ mP, m.Prime := fun m hm => (hpr m hm).1
  have hQpos : 0 < mQ.prod := prod_pos_of_prime mQ hprQ
  have hPodd : mP.prod % 2 = 1 :=
    prod_odd mP (fun m hm => (hpr m (List.mem_append_right _ hm)).2)
  have hndP : mP.Nodup := (List.nodup_append.1 hnd).2.1
  -- the rows after the inverse transforms
  generalize ha1 : RingINTT ev.backend ev.parameters.Q level c2Q1 c2Q1 = a1
  generalize ha2 : RingINTT ev.backend ev.parameters.QMul lQMul c2Q2 c2Q2 = a2
  have la1 : a1.length = c2Q1.length := by rw [← ha1]; exact writeRows_length _ _ _
  have la2 : a2.length = c2Q2.length := by rw [← ha2]; exact writeRows_length _ _ _
  have ra1 : ∀ r, r ≤ level →
      rowAt a1 r = xs.map ((fun (m : Nat) (x : Int) => (x % (m : Int)).toNat)
        (modulusAt ev.parameters.Q r)) := by
    intro r hr
    rw [← ha1]
    unfold RingINTT
    rw [rowAt_writeRows _ hr (by omega), hrowQ r hr]
  have ra2 : ∀ k, k ≤ lQMul →
      rowAt a2 k = xs.map ((fun (m : Nat) (x : Int) => (x % (m : Int)).toNat)
        (modulusAt ev.parameters.QMul k)) := by
    intro k hk
    rw [← ha2]
    unfold RingINTT
    rw [rowAt_writeRows _ hk (by omega), hrowP k hk]
  -- the division by Q
  generalize hb2 : ModDownQPtoP ev.parameters.Q ev.parameters.QMul level lQMul a1 a2 a2 = b2
  have rb2 : ∀ k, k ≤ lQMul →
      rowAt b2 k = xs.map ((fun (m : Nat) (x : Int) => (divRound x mQ.prod % (m : Int)).toNat)
        (modulusAt ev.parameters.QMul k)) := by
    intro k hk
    rw [← hb2]
    unfold ModDownQPtoP
    simp only
    rw [rowAt_writeRows _ hk (by omega), ra2 k hk, List.length_map, hmQ, hmP]
    rw [← map_range_getD _ xs 0]
    apply List.map_congr_left
    intro j hj
    have hj' : j < xs.length := List.mem_range.1 hj
    have hmem : xs.getD j 0 ∈ xs := by
      rw [List.getD_eq_getElem _ _ hj']; exact List.getElem_mem _
    rw [residuesAt_rows ev.parameters.Q level hQ a1 xs
        (fun (m : Nat) (x : Int) => (x % (m : Int)).toNat) ra1 j hj',
      residuesAt_rows ev.parameters.QMul lQMul hP a2 xs
        (fun (m : Nat) (x : Int) => (x % (m : Int)).toNat) ra2 j hj', hmQ, hmP,
      ← List.map_append, crt_int (mQ ++ mP) hprA hnd, List.prod_append]
    have hb := hx _ hmem
    rw [show ((mQ.prod * mP.prod : Nat) : Int) = ((mQ.prod : Nat) : Int) * ((mP.prod : Nat) : Int)
      by push_cast; rfl]
    rw [← Nat.cast_mul, centered_spec _ _ hb.1 hb.2]
  have lb2 : b2.length = c2Q2.length := by
    rw [← hb2]; unfold ModDownQPtoP; simp only; rw [writeRows_length, la2]
  -- the lift to the basis Q
  generalize hb1 : ModUpPtoQ ev.parameters.Q ev.parameters.QMul lQMul level b2 a1 = b1
  have rb1 : ∀ r, r ≤ level →
      rowAt b1 r = xs.map (fun x =>
        (divRound x mQ.prod % ((modulusAt ev.parameters.Q r : Nat) : Int)).toNat) := by
    intro r hr
    rw [← hb1]
    unfold ModUpPtoQ
    simp only
    rw [rowAt_writeRows _ hr (by omega), ra1 r hr, List.length_map, hmP]
    rw [← map_range_getD _ xs 0]
    apply List.map_congr_left
    intro j hj
    have hj' : j < xs.length := List.mem_range.1 hj
    have hmem : xs.getD j 0 ∈ xs := by
      rw [List.getD_eq_getElem _ _ hj']; exact List.getElem_mem _
    rw [residuesAt_rows ev.parameters.QMul lQMul hP b2 xs
        (fun (m : Nat) (x : Int) => (divRound x mQ.prod % (m : Int)).toNat) rb2 j hj', hmP,
      crt_int mP hprP hndP]
    have hb := hx _ hmem
    have hbd := divRound_bound (xs.getD j 0) mQ.prod mP.prod hQpos hPodd hb.1 hb.2
    rw [centered_spec _ _ hbd.1 hbd.2]
  have lb1 : b1.length = c2Q1.length := by
    rw [← hb1]; unfold ModUpPtoQ; simp only; rw [writeRows_length, la1]
  -- the multiplication by T and the transform
  have hqpos : 0 < modulusAt ev.parameters.Q i := by
    have := modulusAt_mem_chain ev.parameters.Q level i hQ hi
    rw [hmQ] at this
    exact (hprQ _ this).pos
  show rowAt (RingNTT ev.backend ev.parameters.Q level
    (MulScalar ev.parameters.Q level
      (ModUpPtoQ ev.parameters.Q ev.parameters.QMul lQMul level
        (ModDownQPtoP ev.parameters.Q ev.parameters.QMul level lQMul
          (RingINTT ev.backend ev.parameters.Q level c2Q1 c2Q1)
          (RingINTT ev.backend ev.parameters.QMul lQMul c2Q2 c2Q2)
          (RingINTT ev.backend ev.parameters.QMul lQMul c2Q2 c2Q2))
        (RingINTT ev.backend ev.parameters.Q level c2Q1 c2Q1)) ev.parameters.T _) _) i = _
  rw [ha1, ha2, hb2, hb1]
  unfold RingNTT
  rw [rowAt_writeRows _ hi (by rw [MulScalar_length]; omega),
    rowAt_MulScalar _ _ _ _ _ _ hi (by omega), rb1 i hi, List.map_map]
  congr 1
  apply List.map_congr_left
  intro x _
  exact toNat_emod_mul _ _ _ hqpos

/-- C12 (witness): the coefficients 2 and 100 at level 0 of the chain `[193, 257]` with the
auxiliary prime 241 and `T = 97`. -/
theorem quantize_scaled_rounding_witness :
    (∀ m ∈ chain (exEval 97).parameters.Q 0 ++ chain (exEval 97).parameters.QMul 0,
      m.Prime ∧ m % 2 = 1) ∧
    (chain (exEval 97).parameters.Q 0 ++ chain (exEval 97).parameters.QMul 0).Nodup ∧
    (∀ i, i ≤ 0 →
      rowAt (quantize (exEval 97) 0 0 [[2, 100]] [[2, 100]]).1 i
        = (exEval 97).backend.NTT (modulusAt (exEval 97).parameters.Q i)
            ([(2 : Int), 100].map (fun x => ((((exEval 97).parameters.T : Int)
              * divRound x (chain (exEval 97).parameters.Q 0).prod)
                % ((modulusAt (exEval 97).parameters.Q i : Nat) : Int)).toNat))) := by
  have hpr : ∀ m ∈ chain (exEval 97).parameters.Q 0 ++ chain (exEval 97).parameters.QMul 0,
      m.Prime ∧ m % 2 = 1 := by
    intro m hm
    have hm' : m = 193 ∨ m = 241 := by
      simpa [chain, exEval, exParams] using hm
    rcases hm' with rfl | rfl <;> constructor <;> norm_num
  refine ⟨hpr, by decide, ?_⟩
  exact quantize_scaled_rounding (exEval 97) 0 0 [[2, 100]] [[2, 100]] [2, 100] (by decide) (by decide)
    (by decide) (by decide) hpr (by decide) (by decide)
    (fun i hi => by
      have : i = 0 := by omega
      subst this
      decide)
    (fun k hk => by
      have : k = 0 := by omega
      subst this
      decide)

/-- C13: a degree-0 multiplicand is routed through standard tensoring. For every degree-0
operand `p` (a plaintext), `MulInvariant(op0, p, op2)` and `MulRelinInvariant(op0, p, op2)`
end exactly as `Mul(op0, p, op2)` does, with the same store or the same panic; and for
every `uint64` scalar `c`, `MulInvariant(op0, c, op2)` and `MulRelinInvariant(op0, c, op2)`
end exactly as `Mul(op0, c, op2)` does. -/
theorem MulInvariant_degree_zero_operand (ev : Evaluator) (op0 p op2 : Ref) (c : Nat)
    (h : Heap) (hd : (h p).Degree = 0) :
    MulInvariant ev op0 (.operand p) op2 h = MulAny ev op0 (.operand p) op2 h ∧
    MulRelinInvariant ev op0 (.operand p) op2 h = MulAny ev op0 (.operand p) op2 h ∧
    MulInvariant ev op0 (.scalar c) op2 h = MulAny ev op0 (.scalar c) op2 h ∧
    MulRelinInvariant ev op0 (.scalar c) op2 h = MulAny ev op0 (.scalar c) op2 h := by
  refine ⟨?_, ?_, rfl, rfl⟩
  · simp only [MulInvariant, MulInvariantOperand, MulAny, Mul, hd, if_true]
  · simp only [MulRelinInvariant, MulRelinInvariantOperand, MulAny, Mul, hd, if_true]
    exact tensorStandard_degree_zero_relin ev op0 p op2 h hd

/-- C13 (witness): the plaintext at address 1 multiplied into the ciphertext at address 0,
and the scalar 7. -/
theorem MulInvariant_degree_zero_operand_witness :
    (exHeapPt 3 5 1).Degree = 0 ∧
    (MulInvariant (exEval 97) 0 (.operand 1) 2 (exHeapPt 3 5)
      = MulAny (exEval 97) 0 (.operand 1) 2 (exHeapPt 3 5) ∧
    MulRelinInvariant (exEval 97) 0 (.operand 1) 2 (exHeapPt 3 5)
      = MulAny (exEval 97) 0 (.operand 1) 2 (exHeapPt 3 5) ∧
    MulInvariant (exEval 97) 0 (.scalar 7) 2 (exHeapPt 3 5)
      = MulAny (exEval 97) 0 (.scalar 7) 2 (exHeapPt 3 5) ∧
    MulRelinInvariant (exEval 97) 0 (.scalar 7) 2 (exHeapPt 3 5)
      = MulAny (exEval 97) 0 (.scalar 7) 2 (exHeapPt 3 5)) :=
  ⟨by decide, MulInvariant_degree_zero_operand (exEval 97) 0 1 2 7 (exHeapPt 3 5) (by decide)⟩

/-- C14: `Add` of two operands with equal scales (well formed, with reduced coefficients,
over primes below `2^63`, into an output of degree at least the larger degree, which may
be one of the operands): `Add` returns; the output has degree exactly
`max(deg op0, deg op1)`; for every `k ≤ min(deg op0, deg op1)` its polynomial `k` is
`op0[k] + op1[k]` modulo `q_i` in every row `i` of the working level; for every larger
`k ≤ max` its polynomial `k` has the rows of polynomial `k` of the operand of larger
degree; and its metadata is that of `op0`. -/
theorem Add_equal_scales (ev : Evaluator) (op0 op1 op2 : Ref) (h : Heap)
    (hwf0 : (h op0).WF ev.parameters.N) (hwf1 : (h op1).WF ev.parameters.N)
    (hwf2 : (h op2).WF ev.parameters.N)
    (hs : (h op0).MetaData.PlaintextScale = (h op1).MetaData.PlaintextScale)
    (hd2 : max (h op0).Degree (h op1).Degree ≤ (h op2).Degree)
    (h63 : ∀ i, i ≤ min (min (h op0).Level (h op1).Level) (h op2).Level →
      modulusAt ev.parameters.Q i < 2 ^ 63)
    (hr0 : (h op0).Reduced ev.parameters.Q (min (min (h op0).Level (h op1).Level) (h op2).Level))
    (hr1 : (h op1).Reduced ev.parameters.Q
      (min (min (h op0).Level (h op1).Level) (h op2).Level)) :
    ∃ h1, Add ev op0 (.operand op1) op2 h = .ok h1 ∧
      (h1 op2).Degree = max (h op0).Degree (h op1).Degree ∧
      (∀ k, k ≤ min (h op0).Degree (h op1).Degree →
        ∀ i, i ≤ min (min (h op0).Level (h op1).Level) (h op2).Level → ∀ j,
          coeff (getPoly (h1 op2) k) i j
            = (coeff (getPoly (h op0) k) i j + coeff (getPoly (h op1) k) i j)
                % modulusAt ev.parameters.Q i) ∧
      (∀ k, min (h op0).Degree (h op1).Degree < k → k ≤ max (h op0).Degree (h op1).Degree →
        ∀ i, i ≤ min (min (h op0).Level (h op1).Level) (h op2).Level →
          rowAt (getPoly (h1 op2) k) i
            = rowAt (getPoly (h (if (h op0).Degree > (h op1).Degree then op0 else op1)) k) i) ∧
      (h1 op2).MetaData = (h op0).MetaData := by
  generalize hlv : min (min (h op0).Level (h op1).Level) (h op2).Level = level at *
  have hl0 : level ≤ (h op0).Level := by
    rw [← hlv]; exact le_trans (min_le_left _ _) (min_le_left _ _)
  have hl1 : level ≤ (h op1).Level := by
    rw [← hlv]; exact le_trans (min_le_left _ _) (min_le_right _ _)
  have hl2 : level ≤ (h op2).Level := by rw [← hlv]; exact min_le_right _ _
  obtain ⟨hf, e, len, sums, copies, meta, -⟩ := evaluateInPlace_add ev.parameters.Q
    ev.parameters.N level op0 op1 op2 h hwf0 hwf1 hwf2 hl0 hl1 hl2 hd2
  refine ⟨hf, ?_, ?_, ?_, copies, meta⟩
  · simp only [Add, CheckBinary]
    rw [if_neg (not_lt.2 hd2), Outcome.bind_ok]
    simp only [hlv]
    rw [if_pos hs]
    exact e
  · unfold Ciphertext.Degree; rw [len]; rfl
  · intro k hk i hi j
    have hlen0 := Ciphertext.WF_length hwf0
    have hlen1 := Ciphertext.WF_length hwf1
    have hrow0 := Ciphertext.WF_row hwf0 (k := k) (i := i) (by omega) (by omega)
    have hrow1 := Ciphertext.WF_row hwf1 (k := k) (i := i) (by omega) (by omega)
    unfold coeff
    rw [sums k hk i hi]
    rw [getD_zipWith_zero (fun x y => CRed (add64 x y) (modulusAt ev.parameters.Q i))
      (CRed_add_zero _) _ _ (by rw [hrow0, hrow1]) j]
    by_cases hj : j < ev.parameters.N
    · exact CRed_add_reduced
        (Ciphertext.Reduced_coeff hr0 (by omega) hi (by rw [hrow0]; exact hj))
        (Ciphertext.Reduced_coeff hr1 (by omega) hi (by rw [hrow1]; exact hj)) (h63 i hi)
    · rw [List.getD_eq_default _ _ (by rw [hrow0]; omega),
        List.getD_eq_default _ _ (by rw [hrow1]; omega)]
      rw [CRed_add_zero]
      simp

/-- C14 (witness): the degree-1 ciphertext at address 0 added to the degree-2 ciphertext at
address 1, both of scale 3, into the degree-2 ciphertext at address 2. -/
theorem Add_equal_scales_witness :
    (exHeapAdd 3 3 0).WF (exEval 97).parameters.N ∧
    (exHeapAdd 3 3 1).WF (exEval 97).parameters.N ∧
    (exHeapAdd 3 3 0).MetaData.PlaintextScale = (exHeapAdd 3 3 1).MetaData.PlaintextScale ∧
    (exHeapAdd 3 3 0).Degree = 1 ∧ (exHeapAdd 3 3 1).Degree = 2 ∧
    ∃ h1, Add (exEval 97) 0 (.operand 1) 2 (exHeapAdd 3 3) = .ok h1 ∧
      (h1 2).Degree = max (exHeapAdd 3 3 0).Degree (exHeapAdd 3 3 1).Degree ∧
      (∀ k, k ≤ min (exHeapAdd 3 3 0).Degree (exHeapAdd 3 3 1).Degree →
        ∀ i, i ≤ min (min (exHeapAdd 3 3 0).Level (exHeapAdd 3 3 1).Level)
            (exHeapAdd 3 3 2).Level → ∀ j,
          coeff (getPoly (h1 2) k) i j
            = (coeff (getPoly (exHeapAdd 3 3 0) k) i j + coeff (getPoly (exHeapAdd 3 3 1) k) i j)
                % modulusAt (exEval 97).parameters.Q i) ∧
      (∀ k, min (exHeapAdd 3 3 0).Degree (exHeapAdd 3 3 1).Degree < k →
        k ≤ max (exHeapAdd 3 3 0).Degree (exHeapAdd 3 3 1).Degree →
        ∀ i, i ≤ min (min (exHeapAdd 3 3 0).Level (exHeapAdd 3 3 1).Level)
            (exHeapAdd 3 3 2).Level →
          rowAt (getPoly (h1 2) k) i
            = rowAt (getPoly (exHeapAdd 3 3
                (if (exHeapAdd 3 3 0).Degree > (exHeapAdd 3 3 1).Degree then 0 else 1)) k) i) ∧
      (h1 2).MetaData = (exHeapAdd 3 3 0).MetaData :=
  ⟨by decide, by decide, by decide, by decide, by decide,
    Add_equal_scales (exEval 97) 0 1 2 (exHeapAdd 3 3) (by decide) (by decide) (by decide)
      (by decide) (by decide)
      (fun i hi => by
        have hi1 : i ≤ 1 := hi
        interval_cases i <;> decide)
      (by decide) (by decide)⟩

/-- C15 (failing input): for `T = 97`, `op0` of degree 1 and scale 3 added to `op1` of
degree 2 and scale 5 into a separate output, where `matchScalesBinary` gives
`(r0, r1) = (5, 3)`: polynomial 1 of the output is `3*op1[1]` and not
`5*op0[1] + 3*op1[1]` (first coefficient 150, not 175), and polynomial 2 is what the
output held before plus `3*op1[2]` (86, not 77), because the loop that clears the
polynomials absent from `op0` runs over `deg(op0) ..< deg(out)` instead of
`deg(op0)+1 ..= deg(out)`. `Sub` loses `5*op0[1]` in the same way (43, not 68). And when
the output is `op1` itself, its polynomials are overwritten by `5*op0` before they are
read (first coefficient 20, not 8). -/
theorem Add_different_scales_loses_terms :
    (exHeapAdd 3 5 0).Degree = 1 ∧ (exHeapAdd 3 5 1).Degree = 2 ∧
    matchScalesBinary 97 3 5 = .ok (5, 3, 8) ∧
    (∃ h1, Add (exEval 97) 0 (.operand 1) 2 (exHeapAdd 3 5) = .ok h1 ∧
      coeff (getPoly (h1 2) 1) 0 0 = 150 ∧
      (5 * coeff (getPoly (exHeapAdd 3 5 0) 1) 0 0
        + 3 * coeff (getPoly (exHeapAdd 3 5 1) 1) 0 0) % 193 = 175 ∧
      coeff (getPoly (h1 2) 2) 0 0 = 86 ∧
      (3 * coeff (getPoly (exHeapAdd 3 5 1) 2) 0 0) % 193 = 77) ∧
    (∃ h1, Sub (exEval 97) 0 (.operand 1) 2 (exHeapAdd 3 5) = .ok h1 ∧
      coeff (getPoly (h1 2) 1) 0 0 = 43 ∧
      (5 * coeff (getPoly (exHeapAdd 3 5 0) 1) 0 0 + 193
        - (3 * coeff (getPoly (exHeapAdd 3 5 1) 1) 0 0) % 193) % 193 = 68) ∧
    (∃ h1, Add (exEval 97) 0 (.operand 1) 1 (exHeap2 3 5) = .ok h1 ∧
      coeff (getPoly (h1 1) 0) 0 0 = 20 ∧
      (5 * coeff (getPoly (exHeap2 3 5 0) 0) 0 0
        + 3 * coeff (getPoly (exHeap2 3 5 1) 0) 0 0) % 193 = 8) :=
  ⟨by decide, by decide, by decide, ⟨_, rfl, by decide, by decide, by decide, by decide⟩,
    ⟨_, rfl, by decide, by decide⟩, ⟨_, rfl, by decide, by decide⟩⟩

/-- C16: `Add` of a ciphertext `op0` (well formed, with reduced coefficients, over primes
below `2^63`) and a `uint64` scalar `c`, into a well-formed output that may be `op0` itself,
at a level `level = min(level op0, level op2)` for which the table `tInvModQ` has an
entry: `Add` returns; in every row `i` of the working level the constant term is
`op0[0] + ((c * op0.scale) mod T) * tInvModQ[level]` modulo `q_i`, coefficient by
coefficient; every polynomial `k ≥ 1` has the rows of `op0[k]`; and the output has the
degree and the metadata of `op0`. -/
theorem Add_scalar_constant_term (ev : Evaluator) (op0 : Ref) (c : Nat) (op2 : Ref) (h : Heap)
    (hwf0 : (h op0).WF ev.parameters.N) (hwf2 : (h op2).WF ev.parameters.N)
    (htab : min (h op0).Level (h op2).Level < ev.backend.tInvModQ.length)
    (h63 : ∀ i, i ≤ min (h op0).Level (h op2).Level → modulusAt ev.parameters.Q i < 2 ^ 63)
    (hr0 : (h op0).Reduced ev.parameters.Q (min (h op0).Level (h op2).Level)) :
    ∃ h1, Add ev op0 (.scalar c) op2 h = .ok h1 ∧
      (h1 op2).Degree = (h op0).Degree ∧
      (∀ i, i ≤ min (h op0).Level (h op2).Level → ∀ j, j < ev.parameters.N →
        coeff (getPoly (h1 op2) 0) i j
          = (coeff (getPoly (h op0) 0) i j
              + ((c * (h op0).MetaData.PlaintextScale) % ev.parameters.T)
                * ev.backend.tInvModQ.getD (min (h op0).Level (h op2).Level) 0)
            % modulusAt ev.parameters.Q i) ∧
      (∀ k, 1 ≤ k → k ≤ (h op0).Degree →
        ∀ i, i ≤ min (h op0).Level (h op2).Level →
          rowAt (getPoly (h1 op2) k) i = rowAt (getPoly (h op0) k) i) ∧
      (h1 op2).MetaData = (h op0).MetaData := by
  generalize hlv : min (h op0).Level (h op2).Level = level at *
  have hl0 : level ≤ (h op0).Level := by rw [← hlv]; exact min_le_left _ _
  have hl2 : level ≤ (h op2).Level := by rw [← hlv]; exact min_le_right _ _
  have hlen0 := Ciphertext.WF_length hwf0
  generalize hd0 : (h op0).Degree = d0 at *
  obtain ⟨R1, R2, R3, R4, -⟩ := Ciphertext.Resize_spec d0 hwf2 hl2
  simp only [Add, AddUint64, CheckUnary, hlv, hd0]
  generalize hh1 : h.set op2 ((h op2).Resize d0 level) = h1
  have ho1 : h1 op2 = (h op2).Resize d0 level := by rw [← hh1, Heap.set_same]
  have hx1 : ∀ x, x ≠ op2 → h1 x = h x := by
    intro x hx; rw [← hh1, Heap.set_other _ _ hx]
  rw [← ho1] at R1 R2 R3 R4
  have hmeta1 : ∀ x, (h1 x).MetaData = (h x).MetaData := by
    intro x
    by_cases e : x = op2
    · rw [e, ho1, Ciphertext.Resize_metaData]
    · rw [hx1 x e]
  have hrow1 : ∀ k i, k ≤ d0 → i ≤ level →
      rowAt (getPoly (h1 op0) k) i = rowAt (getPoly (h op0) k) i := by
    intro k i hk hi
    by_cases e : op0 = op2
    · rw [e]
      exact R4 k i (by rw [← e, hlen0]; omega) hk hi
    · rw [hx1 op0 e]
  have hlen1 : (h1 op0).Value.length = d0 + 1 := by
    by_cases e : op0 = op2
    · rw [e]; exact R1
    · rw [hx1 op0 e]; exact hlen0
  rw [if_neg (not_le.2 htab), hmeta1 op0, scaledScalar]
  generalize hS : c * (h op0).MetaData.PlaintextScale % ev.parameters.T
    * ev.backend.tInvModQ.getD level 0 = S
  generalize hh2 : setPoly h1 op2 0
    (AddScalarBigint ev.parameters.Q level (getPoly (h1 op0) 0) S (getPoly (h1 op2) 0)) = h2
  have hlen2 : ∀ x, (h2 x).Value.length = (h1 x).Value.length := by
    intro x; rw [← hh2]; exact setPoly_length _ _ _ _ _
  have hx2 : ∀ x, x ≠ op2 → h2 x = h1 x := by
    intro x hx; rw [← hh2]; exact setPoly_other _ _ _ hx
  have hget2 : ∀ k, k ≠ 0 → getPoly (h2 op2) k = getPoly (h1 op2) k := by
    intro k hk; rw [← hh2]; exact getPoly_setPoly_ne _ _ _ (Ne.symm hk)
  have hzero2 : getPoly (h2 op2) 0
      = AddScalarBigint ev.parameters.Q level (getPoly (h1 op0) 0) S (getPoly (h1 op2) 0) := by
    rw [← hh2]; exact getPoly_setPoly_same _ _ _ (by rw [R1]; omega)
  have hmeta2 : (h2 op2).MetaData = (h1 op2).MetaData := by
    rw [← hh2]; exact setPoly_metaData _ _ _ _ _
  -- the constant term, whatever follows
  have hconst : ∀ i, i ≤ level → ∀ j, j < ev.parameters.N →
      coeff (getPoly (h2 op2) 0) i j
        = (coeff (getPoly (h op0) 0) i j + S) % modulusAt ev.parameters.Q i := by
    intro i hi j hj
    have hrow := Ciphertext.WF_row hwf0 (k := 0) (i := i) (by omega) (by omega)
    have hx := Ciphertext.Reduced_coeff hr0 (k := 0) (i := i) (j := j) (by omega) hi
      (by rw [hrow]; exact hj)
    have hq : 0 < modulusAt ev.parameters.Q i := by omega
    unfold coeff at hx ⊢
    rw [hzero2, rowAt_AddScalarBigint _ _ _ _ _ i hi (by
        rw [Ciphertext.WF_polyLength R2 (by rw [R1]; omega), R3]; omega),
      hrow1 0 i (by omega) hi, getD_map_lt _ _ _ (by rw [hrow]; exact hj) 0 0,
      CRed_add_reduced hx (Nat.mod_lt _ hq) (h63 i hi), Nat.add_mod_mod]
  by_cases e : op0 = op2
  · rw [if_neg (not_not.2 e)]
    refine ⟨h2, rfl, ?_, hconst, ?_, ?_⟩
    · unfold Ciphertext.Degree; rw [hlen2, R1]; rfl
    · intro k hk1 hk2 i hi
      rw [hget2 k (by omega), e]
      exact R4 k i (by rw [← e, hlen0]; omega) hk2 hi
    · rw [hmeta2, hmeta1, e]
  · rw [if_pos e]
    have hdeg2 : (h2 op0).Degree = d0 := by
      unfold Ciphertext.Degree; rw [hlen2, hlen1]; rfl
    rw [hdeg2]
    obtain ⟨h3, e3, o3, m3, l3, v3, u3⟩ := polyLoop_spec CopyPoly op0 op2 (List.range' 1 d0) h2
      (List.nodup_range' _ _) (by
        intro i hi
        have := List.mem_range'_1.1 hi
        rw [hlen2, hlen2, hlen1, R1]; omega)
    rw [e3, Outcome.bind_ok]
    refine ⟨_, rfl, ?_, ?_, ?_, ?_⟩
    · rw [Heap.set_same]
      show (List.length (h3 op2).Value) - 1 = d0
      rw [l3, hlen2, R1]; rfl
    · intro i hi j hj
      rw [Heap.set_same]
      show coeff (getPoly (h3 op2) 0) i j = _
      rw [u3 0 (by intro hmem; have := List.mem_range'_1.1 hmem; omega)]
      exact hconst i hi j hj
    · intro k hk1 hk2 i hi
      rw [Heap.set_same]
      show rowAt (getPoly (h3 op2) k) i = _
      rw [v3 k (List.mem_range'_1.2 (by omega)), hx2 op0 e, hx1 op0 e, hget2 k (by omega)]
      exact rowAt_CopyPoly _ _ i
        (by rw [Ciphertext.WF_polyLength R2 (by rw [R1]; omega), R3]; omega)
        (by rw [Ciphertext.WF_polyLength hwf0 (by omega)]; omega)
    · rw [Heap.set_same]
      show (h3 op0).MetaData = _
      rw [o3 op0 e, hx2 op0 e, hx1 op0 e]

/-- C16 (witness): the scalar 7 added to the degree-1 ciphertext of scale 3 at address 0,
into the ciphertext at address 2, for `T = 97`. -/
theorem Add_scalar_constant_term_witness :
    (exHeapAdd 3 5 0).WF (exEval 97).parameters.N ∧
    (exHeapAdd 3 5 2).WF (exEval 97).parameters.N ∧
    ∃ h1, Add (exEval 97) 0 (.scalar 7) 2 (exHeapAdd 3 5) = .ok h1 ∧
      (h1 2).Degree = (exHeapAdd 3 5 0).Degree ∧
      (∀ i, i ≤ min (exHeapAdd 3 5 0).Level (exHeapAdd 3 5 2).Level → ∀ j,
        j < (exEval 97).parameters.N →
        coeff (getPoly (h1 2) 0) i j
          = (coeff (getPoly (exHeapAdd 3 5 0) 0) i j
              + ((7 * (exHeapAdd 3 5 0).MetaData.PlaintextScale) % (exEval 97).parameters.T)
                * (exEval 97).backend.tInvModQ.getD
                    (min (exHeapAdd 3 5 0).Level (exHeapAdd 3 5 2).Level) 0)
            % modulusAt (exEval 97).parameters.Q i) ∧
      (∀ k, 1 ≤ k → k ≤ (exHeapAdd 3 5 0).Degree →
        ∀ i, i ≤ min (exHeapAdd 3 5 0).Level (exHeapAdd 3 5 2).Level →
          rowAt (getPoly (h1 2) k) i = rowAt (getPoly (exHeapAdd 3 5 0) k) i) ∧
      (h1 2).MetaData = (exHeapAdd 3 5 0).MetaData :=
  ⟨by decide, by decide,
    Add_scalar_constant_term (exEval 97) 0 7 2 (exHeapAdd 3 5) (by decide) (by decide)
      (by decide)
      (fun i hi => by
        have hi1 : i ≤ 1 := hi
        interval_cases i <;> decide)
      (by decide)⟩

/-- C17 (failing input): `MulThenAdd(op0, uint64(2), op0)` returns normally and has
modified `op0` (to `op0 + 2*op0`): the case `uint64` has no check that the output differs
from `op0`. -/
theorem MulThenAdd_scalar_accepts_aliased_output :
    ∃ h1, MulThenAdd (exEval 97) 0 (.scalar 2) 0 (exHeap2 3 5) = .ok h1 ∧
      getPoly (exHeap2 3 5 0) 0 = [[1, 2], [3, 4]] ∧
      getPoly (h1 0) 0 = [[3, 6], [9, 12]] :=
  ⟨_, rfl, by decide, by decide⟩

/-- Where `MulThenAdd` and `MulRelinThenAdd` do reject an output that is one of the
operands: for an operand `op1` (a ciphertext or a plaintext) and for a vector `op1`, the
call panics, and no store is returned. -/
theorem MulThenAdd_aliased (ev : Evaluator) (op0 op1 op2 : Ref) (values : List Nat)
    (h : Heap) :
    ((op0 = op2 ∨ op1 = op2) → ∃ m, MulThenAdd ev op0 (.operand op1) op2 h = .panic m) ∧
    ((op0 = op2 ∨ op1 = op2) → ∃ m, MulRelinThenAdd ev op0 op1 op2 h = .panic m) ∧
    (∃ m, MulThenAdd ev op0 (.vector values) op0 h = .panic m) := by
  refine ⟨fun hal => mulRelinThenAdd_aliased ev op0 op1 false op2 h hal,
    fun hal => mulRelinThenAdd_aliased ev op0 op1 true op2 h hal, ?_⟩
  simp only [MulThenAdd]
  apply newPlaintext_bind_panic
  intro pt
  apply withPlaintext_panic
  intro r hh
  exact mulRelinThenAdd_aliased ev op0 r false op0 hh (Or.inl rfl)

/-- C18 (failing input): at the composite modulus `T = 15`, for `op0` of scale 1, `op1` of
scale 2 (so `s = 2`) and an accumulator of scale 4, all coprime to 15,
`matchScalesBinary(2, 4)` gives `(r0, r1) = (1, 2)` and `MulThenAdd` leaves the accumulator
with the scale `4*2 = 8`, while the product it adds is at scale `s*r0 = 2`. -/
theorem MulThenAdd_composite_modulus :
    Nat.gcd 2 15 = 1 ∧ Nat.gcd 4 15 = 1 ∧
    BRed (exHeap3 1 2 4 0).MetaData.PlaintextScale (exHeap3 1 2 4 1).MetaData.PlaintextScale 15
      = 2 ∧
    matchScalesBinary 15 2 4 = .ok (1, 2, 3) ∧
    ∃ h1, MulThenAdd (exEval 15) 0 (.operand 1) 2 (exHeap3 1 2 4) = .ok h1 ∧
      (h1 2).MetaData.PlaintextScale = 8 ∧ (2 * 1) % 15 ≠ 8 % 15 :=
  ⟨by decide, by decide, by decide, by decide, _, rfl, by decide, by decide⟩

/-- C19 (failing input): `Mul` of two degree-1 ciphertexts into an output of degree 1
(which is not `1 + 1`) returns normally, with the output resized to degree 2. -/
theorem Mul_resizes_degree_one_output :
    (exHeap 3 5 0).Degree = 1 ∧ (exHeap 3 5 1).Degree = 1 ∧ (exHeap 3 5 2).Degree = 1 ∧
    (exHeap 3 5 2).Degree ≠ (exHeap 3 5 0).Degree + (exHeap 3 5 1).Degree ∧
    ∃ h1, Mul (exEval 97) 0 1 2 (exHeap 3 5) = .ok h1 ∧ (h1 2).Degree = 2 :=
  ⟨by decide, by decide, by decide, by decide, _, rfl, by decide⟩

/-- C20 (failing input): `Mul` and `MulRelin` of a degree-2 ciphertext `op0` by a degree-0
plaintext, into a degree-2 output, return normally, with the three polynomials of `op0`
each multiplied by the plaintext: the check is on `op0.Degree() + op1.Degree() > 2`. -/
theorem Mul_accepts_degree_two_operand :
    (exHeapPt 3 5 0).Degree = 2 ∧ (exHeapPt 3 5 1).Degree = 0 ∧
    (∃ h1, Mul (exEval 97) 0 1 2 (exHeapPt 3 5) = .ok h1 ∧
      (h1 2).Value = [[[1, 3], [136, 141]], [[5, 9], [146, 25]], [[9, 15], [156, 166]]]) ∧
    (∃ h1, MulRelin (exEval 97) 0 1 2 (exHeapPt 3 5) = .ok h1 ∧
      (h1 2).Value = [[[1, 3], [136, 141]], [[5, 9], [146, 25]], [[9, 15], [156, 166]]]) :=
  ⟨by decide, by decide, ⟨_, rfl, by decide⟩, ⟨_, rfl, by decide⟩⟩

/-- C21 (counterexample): for the chain `Q` made of the 47-bit prime `9*2^43 + 1`, ring
degree `2^14` and the chain `QMul` of the 61-bit primes `2^61 - 2^21 + 1`, `27*2^56 + 1`,
the bit count is `47 + 14 = 61` and `levelQMul[0] + 1 = 1`, but the first prime of `QMul`
does not exceed `2^61` (no 61-bit number does): the least number of leading primes whose
product exceeds `2^61` is 2. -/
theorem levelQMul_one_prime_short :
    (∀ q ∈ exParams61.Q, Nat.Prime q) ∧
    (∀ m ∈ exParams61.QMul, Nat.Prime m ∧ 2 ^ 60 < m ∧ m < 2 ^ 61) ∧
    precompBits exParams61 0 = 61 ∧ levelQMul exParams61 0 + 1 = 1 ∧
    ¬ (2 ^ precompBits exParams61 0
        < (exParams61.QMul.take (levelQMul exParams61 0 + 1)).prod) ∧
    2 ^ precompBits exParams61 0 < (exParams61.QMul.take 2).prod := by
  refine ⟨?_, ?_, by decide, by decide, by decide, by decide⟩
  · intro q hq
    simp only [exParams61, List.mem_singleton] at hq
    subst hq; exact prime_q47
  · intro m hm
    simp only [exParams61, List.mem_cons, List.mem_singleton, List.not_mem_nil, or_false] at hm
    rcases hm with rfl | rfl
    · exact ⟨prime_p61a, by norm_num, by norm_num⟩
    · exact ⟨prime_p61b, by norm_num, by norm_num⟩

/-- C21: for every level `l` of a chain `Q` of positive moduli and every chain `QMul` of
61-bit primes (numbers strictly between `2^60` and `2^61`), with
`B = bitlength(q_0...q_l) + logN` and `k = levelQMul[l] + 1`: `k` is `B / 61` rounded up,
so `61*(k-1) < B ≤ 61*k`; the product of fewer than `k` leading primes of `QMul` is below
`2^B`; the product of the first `k` lies strictly between `2^(60k)` and `2^(61k)`; hence
it exceeds `2^B` whenever `B ≤ 60*k`, and it is below `2^B` when `B = 61*k`. -/
theorem levelQMul_count (p : Parameters) (l : Nat)
    (hQ : ∀ q ∈ p.Q, 0 < q)
    (hM : ∀ m ∈ p.QMul, 2 ^ 60 < m ∧ m < 2 ^ 61) :
    levelQMul p l + 1 = (precompBits p l + 60) / 61 ∧
    61 * levelQMul p l < precompBits p l ∧
    precompBits p l ≤ 61 * (levelQMul p l + 1) ∧
    (∀ j, j < levelQMul p l + 1 → (p.QMul.take j).prod < 2 ^ precompBits p l) ∧
    (levelQMul p l + 1 ≤ p.QMul.length →
      2 ^ (60 * (levelQMul p l + 1)) < (p.QMul.take (levelQMul p l + 1)).prod ∧
      (p.QMul.take (levelQMul p l + 1)).prod < 2 ^ (61 * (levelQMul p l + 1))) ∧
    (levelQMul p l + 1 ≤ p.QMul.length → precompBits p l ≤ 60 * (levelQMul p l + 1) →
      2 ^ precompBits p l < (p.QMul.take (levelQMul p l + 1)).prod) ∧
    (precompBits p l = 61 * (levelQMul p l + 1) →
      (p.QMul.take (levelQMul p l + 1)).prod < 2 ^ precompBits p l) := by
  have hprod : 0 < (p.Q.take (l + 1)).prod :=
    List.prod_pos (fun q hq => hQ q (List.mem_of_mem_take hq))
  have hB : 0 < precompBits p l := by
    have := ((BitLen_spec _).2 hprod).1
    unfold precompBits; omega
  have hk : levelQMul p l = (precompBits p l + 60) / 61 - 1 := rfl
  generalize precompBits p l = B at *
  generalize levelQMul p l = k0 at *
  have hk1 : k0 + 1 = (B + 60) / 61 := by omega
  have hlow : 61 * k0 < B := by omega
  have hup : B ≤ 61 * (k0 + 1) := by omega
  have hle : ∀ j, (p.QMul.take j).prod ≤ 2 ^ (61 * j) := by
    intro j
    have h1 := prod_le_pow (2 ^ 61) (p.QMul.take j)
      (fun m hm => (hM m (List.mem_of_mem_take hm)).2)
    have h2 : (2 ^ 61) ^ (p.QMul.take j).length ≤ (2 ^ 61) ^ j :=
      Nat.pow_le_pow_right (by norm_num) (by rw [List.length_take]; exact min_le_left _ _)
    rw [pow_mul]
    exact le_trans h1 h2
  have hfull : k0 + 1 ≤ p.QMul.length →
      2 ^ (60 * (k0 + 1)) < (p.QMul.take (k0 + 1)).prod ∧
      (p.QMul.take (k0 + 1)).prod < 2 ^ (61 * (k0 + 1)) := by
    intro hlen
    have hl : (p.QMul.take (k0 + 1)).length = k0 + 1 := by
      rw [List.length_take]; exact min_eq_left hlen
    have hne : p.QMul.take (k0 + 1) ≠ [] := by
      intro h0; rw [h0] at hl; simp at hl
    constructor
    · have := pow_lt_prod (2 ^ 60) _ hne (fun m hm => (hM m (List.mem_of_mem_take hm)).1)
      rwa [hl, ← pow_mul] at this
    · have := prod_lt_pow (2 ^ 61) _ hne (fun m hm => (hM m (List.mem_of_mem_take hm)).2)
      rwa [hl, ← pow_mul] at this
  refine ⟨hk1, hlow, hup, ?_, hfull, ?_, ?_⟩
  · intro j hj
    calc (p.QMul.take j).prod ≤ 2 ^ (61 * j) := hle j
      _ ≤ 2 ^ (61 * k0) := Nat.pow_le_pow_right (by norm_num) (by omega)
      _ < 2 ^ B := Nat.pow_lt_pow_right (by norm_num) hlow
  · intro hlen hB60
    exact lt_of_le_of_lt (Nat.pow_le_pow_right (by norm_num) hB60) (hfull hlen).1
  · intro hB61
    rw [hB61]
    by_cases hne : p.QMul.take (k0 + 1) = []
    · rw [hne]; simp
    · have := prod_lt_pow (2 ^ 61) _ hne (fun m hm => (hM m (List.mem_of_mem_take hm)).2)
      refine lt_of_lt_of_le this ?_
      rw [pow_mul]
      exact Nat.pow_le_pow_right (by norm_num) (by rw [List.length_take]; exact min_le_left _ _)

/-- C21 (witness): the parameter set of the counterexample, at level 0. -/
theorem levelQMul_count_witness :
    (∀ q ∈ exParams61.Q, 0 < q) ∧ (∀ m ∈ exParams61.QMul, 2 ^ 60 < m ∧ m < 2 ^ 61) ∧
    (levelQMul exParams61 0 + 1 = (precompBits exParams61 0 + 60) / 61 ∧
    61 * levelQMul exParams61 0 < precompBits exParams61 0 ∧
    precompBits exParams61 0 ≤ 61 * (levelQMul exParams61 0 + 1) ∧
    (∀ j, j < levelQMul exParams61 0 + 1 →
      (exParams61.QMul.take j).prod < 2 ^ precompBits exParams61 0) ∧
    (levelQMul exParams61 0 + 1 ≤ exParams61.QMul.length →
      2 ^ (60 * (levelQMul exParams61 0 + 1))
        < (exParams61.QMul.take (levelQMul exParams61 0 + 1)).prod ∧
      (exParams61.QMul.take (levelQMul exParams61 0 + 1)).prod
        < 2 ^ (61 * (levelQMul exParams61 0 + 1))) ∧
    (levelQMul exParams61 0 + 1 ≤ exParams61.QMul.length →
      precompBits exParams61 0 ≤ 60 * (levelQMul exParams61 0 + 1) →
      2 ^ precompBits exParams61 0
        < (exParams61.QMul.take (levelQMul exParams61 0 + 1)).prod) ∧
    (precompBits exParams61 0 = 61 * (levelQMul exParams61 0 + 1) →
      (exParams61.QMul.take (levelQMul exParams61 0 + 1)).prod
        < 2 ^ precompBits exParams61 0)) :=
  ⟨by decide, by decide, levelQMul_count exParams61 0 (by decide) (by decide)⟩

/-- C22 (counterexample): for the evaluator `NewEvaluator` builds at the addresses 0 to 3
(buffer pool at 1, encoder at 3), the evaluator returned by `WithKey` has the buffer pool
of the receiver, not a fresh one; the evaluators returned by `WithKey` and by
`ShallowCopy` have no encoder, and `Add` with a `[]uint64` operand, which returns on the
receiver, is a nil pointer dereference on either of them. -/
theorem WithKey_shares_buffer_pool :
    exEvaluatorFields.evaluatorBuffers = some 1 ∧ exEvaluatorFields.Encoder = some 3 ∧
    (WithKey exEvaluatorFields 9 4).1.evaluatorBuffers = exEvaluatorFields.evaluatorBuffers ∧
    (WithKey exEvaluatorFields 9 4).1.Encoder = none ∧
    (ShallowCopy exEvaluatorFields 4).1.Encoder = none ∧
    (∃ h1, throughEncoder exEvaluatorFields
      (Add (exEval 97) 0 (.vector [1, 2]) 0 (exHeap 3 5)) = .ok h1) ∧
    throughEncoder (ShallowCopy exEvaluatorFields 4).1
      (Add (exEval 97) 0 (.vector [1, 2]) 0 (exHeap 3 5))
      = .panic "invalid memory address or nil pointer dereference" ∧
    throughEncoder (WithKey exEvaluatorFields 9 4).1
      (Add (exEval 97) 0 (.vector [1, 2]) 0 (exHeap 3 5))
      = .panic "invalid memory address or nil pointer dereference" :=
  ⟨rfl, rfl, rfl, rfl, rfl, ⟨_, rfl⟩, rfl, rfl⟩

/-- C22: for every evaluator whose buffer pool lies below the first free address `next`:
the evaluator returned by `ShallowCopy` shares the precomputation `evaluatorBase` of the
receiver, owns a buffer pool at a newly allocated address, different from the pool of the
receiver, and refers to the same keys; the evaluator returned by `WithKey` shares the
precomputation and the buffer pool of the receiver, and its key set is the supplied
one. -/
theorem ShallowCopy_WithKey_components (eval : EvaluatorFields) (evk next : Nat)
    (halloc : ∀ a, eval.evaluatorBuffers = some a → a < next) :
    ((ShallowCopy eval next).1.evaluatorBase = eval.evaluatorBase ∧
      (ShallowCopy eval next).1.evaluatorBuffers = some (next + 1) ∧
      (ShallowCopy eval next).1.evaluatorBuffers ≠ eval.evaluatorBuffers ∧
      next + 1 < (ShallowCopy eval next).2 ∧
      (ShallowCopy eval next).1.Evaluator.map (fun e => e.evk)
        = eval.Evaluator.map (fun e => e.evk)) ∧
    ((WithKey eval evk next).1.evaluatorBase = eval.evaluatorBase ∧
      (WithKey eval evk next).1.evaluatorBuffers = eval.evaluatorBuffers ∧
      (∀ e, (WithKey eval evk next).1.Evaluator = some e → e.evk = evk)) := by
  refine ⟨⟨rfl, rfl, ?_, Nat.lt_succ_self _, ?_⟩, rfl, rfl, ?_⟩
  · intro hc
    have := halloc (next + 1) hc.symm
    omega
  · show Option.map _ (Option.map _ eval.Evaluator) = _
    rw [Option.map_map]; rfl
  · intro e he
    have he1 : Option.map (fun e => e.WithKey evk next) eval.Evaluator = some e := he
    cases hx : eval.Evaluator with
    | none => rw [hx] at he1; simp at he1
    | some x =>
      rw [hx] at he1
      simp only [Option.map_some', Option.some.injEq] at he1
      rw [← he1]; rfl

/-- C22 (witness): the evaluator `NewEvaluator` builds at the addresses 0 to 3, copied
when 4 is the first free address, with the key set 9 for `WithKey`. -/
theorem ShallowCopy_WithKey_components_witness :
    (∀ a, exEvaluatorFields.evaluatorBuffers = some a → a < 4) ∧
    ((ShallowCopy exEvaluatorFields 4).1.evaluatorBase = exEvaluatorFields.evaluatorBase ∧
      (ShallowCopy exEvaluatorFields 4).1.evaluatorBuffers = some (4 + 1) ∧
      (ShallowCopy exEvaluatorFields 4).1.evaluatorBuffers
        ≠ exEvaluatorFields.evaluatorBuffers ∧
      4 + 1 < (ShallowCopy exEvaluatorFields 4).2 ∧
      (ShallowCopy exEvaluatorFields 4).1.Evaluator.map (fun e => e.evk)
        = exEvaluatorFields.Evaluator.map (fun e => e.evk)) ∧
    ((WithKey exEvaluatorFields 9 4).1.evaluatorBase = exEvaluatorFields.evaluatorBase ∧
      (WithKey exEvaluatorFields 9 4).1.evaluatorBuffers
        = exEvaluatorFields.evaluatorBuffers ∧
      (∀ e, (WithKey exEvaluatorFields 9 4).1.Evaluator = some e → e.evk = 9)) :=
  ⟨fun a ha => by
      have h1 : some 1 = some a := ha
      simp only [Option.some.injEq] at h1
      omega,
    ShallowCopy_WithKey_components exEvaluatorFields 9 4 (fun a ha => by
      have h1 : some 1 = some a := ha
      simp only [Option.some.injEq] at h1
      omega)⟩

/-- C23: for every modulus `T ≥ 2` and all scales `s0`, `s1` with `gcd(s0, T) = 1`,
`matchScalesBinary` returns; at every iteration of its loop the variable `A`, which is not
zero there, is replaced by the remainder `a mod A`, which is below `A`; and a larger loop
budget than `T + 1` gives the same result. -/
theorem matchScalesBinary_terminates (T s0 s1 : Nat) (hT : 2 ≤ T)
    (hg : Nat.gcd s0 T = 1) :
    (∃ r0 r1 e, matchScalesBinary T s0 s1 = .ok (r0, r1, e)) ∧
    (∀ s : MatchState, s.A ≠ 0 →
      (matchStep T s).A = s.a % s.A ∧ (matchStep T s).A < s.A) ∧
    (∀ fuel, T < fuel → matchScalesBinaryFuel fuel T s0 s1 = matchScalesBinary T s0 s1) := by
  obtain ⟨r, hr, hres⟩ := matchScalesBinary_returns T s0 s1 hT hg
  refine ⟨⟨r.r0, r.r1, r.e, hres⟩, ?_, ?_⟩
  · intro s hs
    rw [matchStep_A]
    exact ⟨rfl, Nat.mod_lt _ (Nat.pos_of_ne_zero hs)⟩
  · intro fuel hf
    unfold matchScalesBinary matchScalesBinaryFuel
    rw [hr, matchLoop_mono T (T + 1) fuel _ _ hr (by omega)]

/-- C23 (witness): the composite modulus `T = 15` with the scales 2 and 4. -/
theorem matchScalesBinary_terminates_witness :
    2 ≤ 15 ∧ Nat.gcd 2 15 = 1 ∧
    ((∃ r0 r1 e, matchScalesBinary 15 2 4 = .ok (r0, r1, e)) ∧
    (∀ s : MatchState, s.A ≠ 0 →
      (matchStep 15 s).A = s.a % s.A ∧ (matchStep 15 s).A < s.A) ∧
    (∀ fuel, 15 < fuel → matchScalesBinaryFuel fuel 15 2 4 = matchScalesBinary 15 2 4)) :=
  ⟨by decide, by decide, matchScalesBinary_terminates 15 2 4 (by decide) (by decide)⟩

/-- C24 (counterexample): at `T = 15` the scales `s0 = 2`, `s1 = 3`, of which `s1` is not
coprime to 15, and at the prime `T = 97` the scales `s0 = 1`, `s1 = 0`: the call returns
normally (with the zero pair), it does not fail. -/
theorem matchScalesBinary_second_scale_unchecked :
    Nat.gcd 2 15 = 1 ∧ Nat.gcd 3 15 ≠ 1 ∧ matchScalesBinary 15 2 3 = .ok (0, 0, 7) ∧
    Nat.gcd 1 97 = 1 ∧ Nat.gcd 0 97 ≠ 1 ∧ matchScalesBinary 97 1 0 = .ok (0, 0, 1) := by
  decide

/-- C24: for every modulus `T ≥ 2` and all scales `s0`, `s1`: `matchScalesBinary(s0, s1)`
fails, with the invalid-scale panic, if and only if `gcd(s0, T) ≠ 1`; when `s0` is coprime
to `T` it returns, whatever `s1` is. -/
theorem matchScalesBinary_fails_iff (T s0 s1 : Nat) (hT : 2 ≤ T) :
    (matchScalesBinary T s0 s1
        = .panic "cannot matchScalesBinary: invalid ciphertext scale: gcd(scale, t) != 1"
      ↔ Nat.gcd s0 T ≠ 1) ∧
    ((∃ m, matchScalesBinary T s0 s1 = .panic m) ↔ Nat.gcd s0 T ≠ 1) ∧
    (Nat.gcd s0 T = 1 → ∃ r0 r1 e, matchScalesBinary T s0 s1 = .ok (r0, r1, e)) ∧
    matchScalesBinary T s0 s1 ≠ .outOfFuel := by
  by_cases hg : Nat.gcd s0 T = 1
  · obtain ⟨r, -, hr⟩ := matchScalesBinary_returns T s0 s1 hT hg
    refine ⟨⟨?_, fun h => absurd hg h⟩, ⟨?_, fun h => absurd hg h⟩,
      fun _ => ⟨r.r0, r.r1, r.e, hr⟩, ?_⟩
    · intro hm
      rw [hr] at hm
      exact Outcome.noConfusion hm
    · rintro ⟨m, hm⟩
      rw [hr] at hm
      exact Outcome.noConfusion hm
    · rw [hr]; exact fun h => Outcome.noConfusion h
  · have hp : matchScalesBinary T s0 s1
        = .panic "cannot matchScalesBinary: invalid ciphertext scale: gcd(scale, t) != 1" := by
      unfold matchScalesBinary matchScalesBinaryFuel
      simp [GCD, hg]
    refine ⟨⟨fun _ => hg, fun _ => hp⟩, ⟨fun _ => hg, fun _ => ⟨_, hp⟩⟩,
      fun h => absurd h hg, ?_⟩
    rw [hp]; exact fun h => Outcome.noConfusion h

/-- C24 (witness): the modulus `T = 15` with `s0 = 3`, which is not coprime to it. -/
theorem matchScalesBinary_fails_iff_witness :
    2 ≤ 15 ∧
    ((matchScalesBinary 15 3 2
        = .panic "cannot matchScalesBinary: invalid ciphertext scale: gcd(scale, t) != 1"
      ↔ Nat.gcd 3 15 ≠ 1) ∧
    ((∃ m, matchScalesBinary 15 3 2 = .panic m) ↔ Nat.gcd 3 15 ≠ 1) ∧
    (Nat.gcd 3 15 = 1 → ∃ r0 r1 e, matchScalesBinary 15 3 2 = .ok (r0, r1, e)) ∧
    matchScalesBinary 15 3 2 ≠ .outOfFuel) :=
  ⟨by decide, matchScalesBinary_fails_iff 15 3 2 (by decide)⟩

/-- C25 (failing input): at the composite modulus `T = 15` with `s0 = 2`, coprime to 15,
and `s1 = 4`, the iteration starts from `A = 4 * ModExp(2, 13, 15) mod 15 = 8`, and
`s0 * A = 16 = 1` modulo 15, which is not `s1 = 4`: `ModExp(2, 13, 15) = 2` is not the
inverse of 2 modulo 15 (`2 * 2 = 4`). -/
theorem matchInit_composite_modulus :
    2 ≤ 15 ∧ Nat.gcd 2 15 = 1 ∧
    (matchInit 15 2 4).A = BRed (ModExp 2 (15 - 2) 15) 4 15 ∧
    (matchInit 15 2 4).A = 8 ∧ (2 * (matchInit 15 2 4).A) % 15 = 1 ∧ 4 % 15 = 4 ∧
    ModExp 2 (15 - 2) 15 = 2 ∧ (2 * 2) % 15 ≠ 1 % 15 := by
  decide

/-- C26 (failing input): at the composite modulus `T = 15`, `MulScalarThenAdd(ctIn, 1, ctOut)`
for `ctIn` of scale 2 and `ctOut` of scale 4, both coprime to 15: the scalar multiplied
into `ctIn` is `c1 = 8`, and `c1 * 2 = 1` modulo 15 is not `1 * 4` (the scalar 2 would
satisfy it); `ctOut[0]` becomes `ctOut[0] + 8*ctIn[0]`, with the scale 4 unchanged. The
case `uint64` of `MulThenAdd` is the same computation. -/
theorem MulScalarThenAdd_composite_modulus :
    Nat.gcd 2 15 = 1 ∧ Nat.gcd 4 15 = 1 ∧
    rescaledScalar 15 2 4 1 = 8 ∧ (8 * 2) % 15 ≠ (1 * 4) % 15 ∧
    (2 * 2) % 15 = (1 * 4) % 15 ∧
    (∃ h1, (exEval 15).MulScalarThenAdd 0 1 1 (exHeap 2 4) = .ok h1 ∧
      getPoly (exHeap 2 4 0) 0 = [[1, 2], [3, 4]] ∧
      getPoly (exHeap 2 4 1) 0 = [[1, 2], [3, 4]] ∧
      getPoly (h1 1) 0 = [[9, 18], [27, 36]] ∧
      (h1 1).MetaData.PlaintextScale = 4) ∧
    MulThenAdd (exEval 15) 0 (.scalar 1) 1 (exHeap 2 4)
      = (exEval 15).MulScalarThenAdd 0 1 1 (exHeap 2 4) :=
  ⟨by decide, by decide, by decide, by decide, by decide,
    ⟨_, rfl, by decide, by decide, by decide, by decide⟩, rfl⟩

/-- C27: for a well-formed ciphertext `ct` and `0 ≤ k ≤ level(ct)`: after
`DropLevel(ct, k)` the level of `ct` is lower by exactly `k`; its degree and its metadata
(scale and flags) are unchanged; the residue rows that remain, those up to the new level,
are unchanged in every polynomial; and no other ciphertext is changed. `DropLevelNew(ct, k)`
returns a new ciphertext with these properties and leaves `ct`, like every other
ciphertext, unchanged. -/
theorem DropLevel_spec (N : Nat) (ct : Ref) (k : Nat) (h : Heap)
    (hwf : (h ct).WF N) (hk : k ≤ (h ct).Level) :
    ((DropLevel ct k h ct).Level + k = (h ct).Level ∧
      (DropLevel ct k h ct).Degree = (h ct).Degree ∧
      (DropLevel ct k h ct).MetaData = (h ct).MetaData ∧
      (∀ j i, j ≤ (h ct).Degree → i ≤ (h ct).Level - k →
        rowAt (getPoly (DropLevel ct k h ct) j) i = rowAt (getPoly (h ct) j) i) ∧
      (∀ r, r ≠ ct → DropLevel ct k h r = h r)) ∧
    ((DropLevelNew ct k h).1 ≠ ct ∧
      (DropLevelNew ct k h).2 ct = h ct ∧
      ((DropLevelNew ct k h).2 (DropLevelNew ct k h).1).Level + k = (h ct).Level ∧
      ((DropLevelNew ct k h).2 (DropLevelNew ct k h).1).Degree = (h ct).Degree ∧
      ((DropLevelNew ct k h).2 (DropLevelNew ct k h).1).MetaData = (h ct).MetaData ∧
      (∀ j i, j ≤ (h ct).Degree → i ≤ (h ct).Level - k →
        rowAt (getPoly ((DropLevelNew ct k h).2 (DropLevelNew ct k h).1) j) i
          = rowAt (getPoly (h ct) j) i) ∧
      (∀ r, r ≠ (DropLevelNew ct k h).1 → (DropLevelNew ct k h).2 r = h r)) := by
  obtain ⟨S1, S2, S3, -, S5⟩ := Ciphertext.dropLevels_spec hwf k hk
  constructor
  · rw [DropLevel_same]
    exact ⟨S1, S2, S3, S5, fun r hr => DropLevel_other ct k h hr⟩
  · have hne : freshRef [ct] ≠ ct := by
      have e : freshRef [ct] = max ct 0 + 1 := rfl
      rw [e]
      exact Nat.ne_of_gt (Nat.lt_succ_of_le (le_max_left ct 0))
    have e1 : (DropLevelNew ct k h).1 = freshRef [ct] := rfl
    have e2 : (DropLevelNew ct k h).2
        = DropLevel (freshRef [ct]) k (h.set (freshRef [ct]) (h ct).CopyNew) := rfl
    rw [e1, e2]
    generalize freshRef [ct] = out at hne
    have hout : DropLevel out k (h.set out (h ct).CopyNew) out
        = (h ct).Resize (h ct).Degree ((h ct).Level - k) := by
      rw [DropLevel_same, Heap.set_same]; rfl
    rw [hout]
    refine ⟨hne, ?_, S1, S2, S3, S5, ?_⟩
    · rw [DropLevel_other _ _ _ (Ne.symm hne), Heap.set_other _ _ (Ne.symm hne)]
    · intro r hr
      rw [DropLevel_other _ _ _ hr, Heap.set_other _ _ hr]

/-- C27 (witness): one level dropped from the level-1 ciphertext at address 0. -/
theorem DropLevel_spec_witness :
    (exHeap 3 5 0).WF 2 ∧ 1 ≤ (exHeap 3 5 0).Level ∧
    ((DropLevel 0 1 (exHeap 3 5) 0).Level + 1 = (exHeap 3 5 0).Level ∧
      (DropLevel 0 1 (exHeap 3 5) 0).Degree = (exHeap 3 5 0).Degree ∧
      (DropLevel 0 1 (exHeap 3 5) 0).MetaData = (exHeap 3 5 0).MetaData ∧
      (∀ j i, j ≤ (exHeap 3 5 0).Degree → i ≤ (exHeap 3 5 0).Level - 1 →
        rowAt (getPoly (DropLevel 0 1 (exHeap 3 5) 0) j) i
          = rowAt (getPoly (exHeap 3 5 0) j) i) ∧
      (∀ r, r ≠ 0 → DropLevel 0 1 (exHeap 3 5) r = exHeap 3 5 r)) ∧
    ((DropLevelNew 0 1 (exHeap 3 5)).1 ≠ 0 ∧
      (DropLevelNew 0 1 (exHeap 3 5)).2 0 = exHeap 3 5 0 ∧
      ((DropLevelNew 0 1 (exHeap 3 5)).2 (DropLevelNew 0 1 (exHeap 3 5)).1).Level + 1
        = (exHeap 3 5 0).Level ∧
      ((DropLevelNew 0 1 (exHeap 3 5)).2 (DropLevelNew 0 1 (exHeap 3 5)).1).Degree
        = (exHeap 3 5 0).Degree ∧
      ((DropLevelNew 0 1 (exHeap 3 5)).2 (DropLevelNew 0 1 (exHeap 3 5)).1).MetaData
        = (exHeap 3 5 0).MetaData ∧
      (∀ j i, j ≤ (exHeap 3 5 0).Degree → i ≤ (exHeap 3 5 0).Level - 1 →
        rowAt (getPoly ((DropLevelNew 0 1 (exHeap 3 5)).2 (DropLevelNew 0 1 (exHeap 3 5)).1) j) i
          = rowAt (getPoly (exHeap 3 5 0) j) i) ∧
      (∀ r, r ≠ (DropLevelNew 0 1 (exHeap 3 5)).1 →
        (DropLevelNew 0 1 (exHeap 3 5)).2 r = exHeap 3 5 r)) :=
  ⟨by decide, by decide, DropLevel_spec 2 0 1 (exHeap 3 5) (by decide) (by decide)⟩

/-- C28: for every `MetaData` `m` whose scale the scale codec writes as `bytes` (into the
front of any buffer that is long enough, returning their number) and reads back from
`bytes` (returning their number and the scale), and for every receiver whose scale has an
encoding no longer than that of `m`: `MarshalBinarySize()` is 2 plus the size of the scale;
`MarshalBinaryInPlace` into any buffer of at least that length returns that length without
error; `MarshalBinary` returns an encoding of that length without error;
`UnmarshalBinaryInPlace` of it returns that length and leaves the receiver equal to `m`;
`UnmarshalBinary` of it leaves the receiver equal to `m`; and `Equal` holds. -/
theorem MetaData_roundtrip (sc : Codec Nat) (m m0 : MetaData) (bytes : List Nat)
    (hlen : bytes.length = sc.MarshalBinarySize m.PlaintextScale)
    (hwrite : ∀ data, sc.MarshalBinarySize m.PlaintextScale ≤ data.length →
      sc.MarshalBinaryInPlace m.PlaintextScale data
        = ((sc.MarshalBinarySize m.PlaintextScale, none),
            bytes ++ data.drop (sc.MarshalBinarySize m.PlaintextScale)))
    (hread : ∀ s0 rest, sc.UnmarshalBinaryInPlace s0 (bytes ++ rest)
        = ((sc.MarshalBinarySize m.PlaintextScale, none), m.PlaintextScale))
    (hrecv : sc.MarshalBinarySize m0.PlaintextScale ≤ sc.MarshalBinarySize m.PlaintextScale) :
    m.MarshalBinarySize sc = 2 + sc.MarshalBinarySize m.PlaintextScale ∧
    (∀ buf, m.MarshalBinarySize sc ≤ buf.length →
      ∃ buf1, m.MarshalBinaryInPlace sc buf = .ok ((m.MarshalBinarySize sc, none), buf1)) ∧
    ∃ data, m.MarshalBinary sc = .ok (data, none) ∧
      data.length = m.MarshalBinarySize sc ∧
      m0.UnmarshalBinaryInPlace sc data = .ok ((m.MarshalBinarySize sc, none), m) ∧
      m0.UnmarshalBinary sc data = .ok (none, m) ∧
      m.Equal m = true := by
  have hmar := MetaData.MarshalBinaryInPlace_ok sc m bytes hlen hwrite
  refine ⟨rfl, fun buf hbuf => ⟨_, hmar buf hbuf⟩, ?_⟩
  have hzero : (List.replicate (m.MarshalBinarySize sc) 0).drop bytes.length = [0, 0] := by
    unfold MetaData.MarshalBinarySize
    rw [hlen, List.drop_replicate, Nat.add_sub_cancel]
    rfl
  have hdata := hmar (List.replicate (m.MarshalBinarySize sc) 0) (by rw [List.length_replicate])
  rw [hzero] at hdata
  have hflags : (if m.IsMontgomery then
        (if m.IsNTT then ([0, 0] : List Nat).set 0 1 else [0, 0]).set 1 1
        else (if m.IsNTT then ([0, 0] : List Nat).set 0 1 else [0, 0]))
      = [if m.IsNTT then 1 else 0, if m.IsMontgomery then 1 else 0] := by
    cases m.IsNTT <;> cases m.IsMontgomery <;> rfl
  rw [hflags] at hdata
  generalize hb1 : (if m.IsNTT then 1 else 0 : Nat) = b1 at hdata
  generalize hb2 : (if m.IsMontgomery then 1 else 0 : Nat) = b2 at hdata
  have hsize : m.MarshalBinarySize sc = 2 + bytes.length := by
    rw [hlen]; rfl
  have hun : m0.UnmarshalBinaryInPlace sc (bytes ++ [b1, b2])
      = .ok ((m.MarshalBinarySize sc, none), m) := by
    unfold MetaData.UnmarshalBinaryInPlace
    rw [if_neg (by
      unfold MetaData.MarshalBinarySize
      rw [List.length_append]; simp only [List.length_cons, List.length_nil]; omega)]
    simp only [hread]
    rw [← hlen]
    have r1 : readByte (bytes ++ [b1, b2]) bytes.length = .ok b1 := by
      unfold readByte
      rw [if_pos (by rw [List.length_append]; simp)]
      have := @getD_append_length bytes [b1, b2] 0
      rw [Nat.add_zero] at this
      rw [this]; rfl
    have r2 : readByte (bytes ++ [b1, b2]) (bytes.length + 1) = .ok b2 := by
      unfold readByte
      rw [if_pos (by rw [List.length_append]; simp)]
      rw [getD_append_length]; rfl
    rw [r1, r2]
    simp only [Outcome.bind]
    rw [hsize, show bytes.length + 1 + 1 = 2 + bytes.length by omega]
    congr 2
    have e1 : decide (b1 = 1) = m.IsNTT := by
      rw [← hb1]; cases m.IsNTT <;> rfl
    have e2 : decide (b2 = 1) = m.IsMontgomery := by
      rw [← hb2]; cases m.IsMontgomery <;> rfl
    rw [e1, e2]
  refine ⟨bytes ++ [b1, b2], ?_, ?_, hun, ?_, ?_⟩
  · unfold MetaData.MarshalBinary
    rw [hdata]; rfl
  · rw [hsize, List.length_append]; simp only [List.length_cons, List.length_nil]; omega
  · unfold MetaData.UnmarshalBinary
    rw [hun]; rfl
  · unfold MetaData.Equal
    simp

/-- C28 (witness): metadata of scale 3 in NTT form, with the eight-byte codec for the
scale, decoded into a zero-valued receiver. -/
theorem MetaData_roundtrip_witness :
    exMeta.MarshalBinarySize exScaleCodec = 2 + exScaleCodec.MarshalBinarySize exMeta.PlaintextScale ∧
    (∀ buf, exMeta.MarshalBinarySize exScaleCodec ≤ buf.length →
      ∃ buf1, exMeta.MarshalBinaryInPlace exScaleCodec buf
        = .ok ((exMeta.MarshalBinarySize exScaleCodec, none), buf1)) ∧
    ∃ data, exMeta.MarshalBinary exScaleCodec = .ok (data, none) ∧
      data.length = exMeta.MarshalBinarySize exScaleCodec ∧
      (NewMetaData).UnmarshalBinaryInPlace exScaleCodec data
        = .ok ((exMeta.MarshalBinarySize exScaleCodec, none), exMeta) ∧
      (NewMetaData).UnmarshalBinary exScaleCodec data = .ok (none, exMeta) ∧
      exMeta.Equal exMeta = true :=
  MetaData_roundtrip exScaleCodec exMeta NewMetaData (leBytes 3) (by decide)
    (fun data hd => by
      have h8 : ¬ data.length < 8 := not_lt.2 hd
      simp only [exScaleCodec, exMeta, if_neg h8, PutUint64, List.take_zero, List.nil_append])
    (fun s0 rest => by
      have h8 : ¬ (leBytes 3 ++ rest).length < 8 := by
        rw [List.length_append]; simp [leBytes]
      have ht : ((leBytes 3 ++ rest).drop 0).take 8 = leBytes 3 := by
        rw [List.drop_zero]; exact List.take_left' (by decide)
      simp only [exScaleCodec, exMeta, if_neg h8, Uint64, ht]
      decide)
    (by decide)

/-- C29 (failing input): a Galois key with a three-byte evaluation key, written into a
buffer of `MarshalBinarySize() = 19` bytes: all 19 bytes are written, but
`MarshalBinaryInPlace` returns 3, the count of the embedded key alone, while
`UnmarshalBinaryInPlace` on the same bytes returns 19. -/
theorem GaloisKey_marshal_count_short :
    exGaloisKey.MarshalBinarySize exKeyCodec = 19 ∧
    exGaloisKey.MarshalBinaryInPlace exKeyCodec (List.replicate 19 0)
      = ((3, none), [5, 0, 0, 0, 0, 0, 0, 0, 16, 0, 0, 0, 0, 0, 0, 0, 7, 8, 9]) ∧
    (GaloisKey.UnmarshalBinaryInPlace exKeyCodec
      { GaloisElement := 0, NthRoot := 0, EvaluationKey := [] }
      [5, 0, 0, 0, 0, 0, 0, 0, 16, 0, 0, 0, 0, 0, 0, 0, 7, 8, 9]).1 = (19, none) ∧
    (3 : Nat) ≠ 19 := by
  decide

/-- C30: for `logSlots < 63` (so that `1 << logSlots` is a positive `int`) and every list
of mappings with `To < 2^logSlots` and pairwise distinct `To`, `GetDiagonals` returns a map
`d` such that every mapping `(From, To, Scaling)` has
`d[(From - To) mod slots][To] = Scaling`; every slice of `d` has `slots` entries, and an
entry `j` of the slice under key `k` that no mapping hits is zero; and the keys of `d` are
exactly the indices `(From - To) mod slots` of the mappings. -/
theorem GetDiagonals_spec {α : Type} (p : List (PermutationMapping α)) (logSlots : Nat)
    (zero : α) (hlog : logSlots < 63)
    (hrange : ∀ pm ∈ p, pm.To < 2 ^ logSlots)
    (hdist : p.Pairwise (fun a b => a.To ≠ b.To)) :
    ∃ d, GetDiagonals p logSlots zero = .ok d ∧
      (∀ pm ∈ p, ∃ r,
        d (((pm.From : Int) - (pm.To : Int)) % ((2 ^ logSlots : Nat) : Int)).toNat = some r ∧
        r.getD pm.To zero = pm.Scaling) ∧
      (∀ k r, d k = some r → r.length = 2 ^ logSlots ∧
        ∀ j, (∀ pm ∈ p,
            ¬ ((((pm.From : Int) - (pm.To : Int)) % ((2 ^ logSlots : Nat) : Int)).toNat = k
              ∧ pm.To = j)) →
          r.getD j zero = zero) ∧
      (∀ k, (d k).isSome ↔ ∃ pm ∈ p,
        (((pm.From : Int) - (pm.To : Int)) % ((2 ^ logSlots : Nat) : Int)).toNat = k) := by
  have hidx : ∀ pm ∈ p,
      (((pm.From : Int) - (pm.To : Int)) % ((2 ^ logSlots : Nat) : Int)).toNat
        = diagIndex (2 ^ logSlots) pm.From pm.To := by
    intro pm hpm
    rw [diagIndex_eq, diagIndex_int _ _ _ (hrange pm hpm)]
  obtain ⟨d, e, L, S, V, Z⟩ := getDiagonalsLoop_spec (2 ^ logSlots) zero p (fun _ => none)
    (fun k r h => by simp at h) hrange hdist
  have hrun : GetDiagonals p logSlots zero = .ok d := by
    unfold GetDiagonals
    cases p with
    | nil => simpa [getDiagonalsLoop] using e
    | cons a l => rw [← e]; simp only [if_neg (not_le.2 hlog)]
  refine ⟨d, hrun, ?_, ?_, ?_⟩
  · intro pm hpm
    rw [hidx pm hpm]
    exact V pm hpm
  · intro k r hkr
    refine ⟨L k r hkr, fun j hno => ?_⟩
    rw [Z k r j hkr (fun pm hpm hc => hno pm hpm ⟨by rw [hidx pm hpm]; exact hc.1, hc.2⟩)]
    simp only [Option.getD_none]
    by_cases hj : j < 2 ^ logSlots
    · simp [List.getD_eq_getElem?_getD, List.getElem?_replicate, hj]
    · simp [List.getD_eq_getElem?_getD, List.getElem?_replicate, hj]
  · intro k
    rw [S k]
    simp only [Option.isSome_none, Bool.false_eq_true, false_or]
    constructor
    · rintro ⟨pm, hpm, h⟩; exact ⟨pm, hpm, by rw [hidx pm hpm]; exact h⟩
    · rintro ⟨pm, hpm, h⟩; exact ⟨pm, hpm, by rw [← hidx pm hpm]; exact h⟩

/-- C30 (witness): the permutation of the doc comment of `Permutation`, on 4 slots: its
only diagonal is the one of index 1, `[1, 2, 3, 4]`. -/
theorem GetDiagonals_spec_witness :
    (∃ d, GetDiagonals exPermutation 2 0 = .ok d ∧
      (List.range 4).map d = [none, some [1, 2, 3, 4], none, none]) ∧
    ∃ d, GetDiagonals exPermutation 2 0 = .ok d ∧
      (∀ pm ∈ exPermutation, ∃ r,
        d (((pm.From : Int) - (pm.To : Int)) % ((2 ^ 2 : Nat) : Int)).toNat = some r ∧
        r.getD pm.To 0 = pm.Scaling) ∧
      (∀ k r, d k = some r → r.length = 2 ^ 2 ∧
        ∀ j, (∀ pm ∈ exPermutation,
            ¬ ((((pm.From : Int) - (pm.To : Int)) % ((2 ^ 2 : Nat) : Int)).toNat = k
              ∧ pm.To = j)) →
          r.getD j 0 = 0) ∧
      (∀ k, (d k).isSome ↔ ∃ pm ∈ exPermutation,
        (((pm.From : Int) - (pm.To : Int)) % ((2 ^ 2 : Nat) : Int)).toNat = k) :=
  ⟨⟨_, rfl, by decide⟩,
    GetDiagonals_spec exPermutation 2 0 (by decide) (by decide) (by decide)⟩

/-- C31: `GoldschmidtDivisionNew` in exact rational arithmetic at `x = 1/2`, in the
interval `(0, 2)`. With no pass of the loop it returns `3/2`, and the error `1/2` exceeds the
bound `|1 - x|^2 = 1/4`; with one pass it returns `15/8`, and the error `1/8` exceeds the
bound `|1 - x|^4 = 1/16`. -/
theorem GoldschmidtDivisionNew_exceeds_bound :
    GoldschmidtDivisionNew (1 / 2) 1 = 3 / 2 ∧
    |1 - (1 / 2 : ℚ)| ^ (2 ^ (0 + 1)) < |1 / (1 / 2 : ℚ) - GoldschmidtDivisionNew (1 / 2) 1| ∧
    GoldschmidtDivisionNew (1 / 2) 2 = 15 / 8 ∧
    |1 - (1 / 2 : ℚ)| ^ (2 ^ (1 + 1)) < |1 / (1 / 2 : ℚ) - GoldschmidtDivisionNew (1 / 2) 2| := by
  have e1 : GoldschmidtDivisionNew (1 / 2) 1 = 3 / 2 := by
    norm_num [GoldschmidtDivisionNew, goldschmidtLoop, goldschmidtStep]
  have e2 : GoldschmidtDivisionNew (1 / 2) 2 = 15 / 8 := by
    norm_num [GoldschmidtDivisionNew, goldschmidtLoop, goldschmidtStep]
  refine ⟨e1, ?_, e2, ?_⟩
  · rw [e1, abs_of_pos (by norm_num), abs_of_pos (by norm_num)]; norm_num
  · rw [e2, abs_of_pos (by norm_num), abs_of_pos (by norm_num)]; norm_num

/-- C32: `center(x, T>>1, T)` at the point `x = (T-1)/2` of an odd modulus. For `T = 97`
and `x = 48` it is `49` while `min(x, T - x) = 48`; for `T = 65537` and `x = 32768` it is
`32769` while `min(x, T - x) = 32768`. -/
theorem center_at_half_odd_modulus :
    center 48 (97 >>> 1) 97 = 49 ∧ min 48 (97 - 48) = 48 ∧
    center 32768 (65537 >>> 1) 65537 = 32769 ∧ min 32768 (65537 - 32768) = 32768 := by
  decide

/-- C33: the squaring shortcut. With `op0` given twice, `tensorStandard` and
`tensoreLowDeg` compute what their general branch computes on `op0` and a distinct
ciphertext `op1` with the same content (and, for `tensoreLowDeg`, the same first two
polynomials in the auxiliary chain), the output being a third ciphertext: the same store,
hence the same `c0`, `c1` and `c2`, the same `c2` buffer and the same auxiliary
polynomials. -/
theorem squaring_shortcut_agrees (ev : Evaluator) (level lQMul : Nat) (op0 op1 : Ref)
    (relin : Bool) (op2 : Ref) (ct0Q1 ct1Q1 unused : List Poly) (h : Heap)
    (hne : op0 ≠ op1) (h02 : op0 ≠ op2) (h12 : op1 ≠ op2) (heq : h op1 = h op0)
    (hq0 : ct1Q1.getD 0 [] = ct0Q1.getD 0 []) (hq1 : ct1Q1.getD 1 [] = ct0Q1.getD 1 []) :
    tensorStandard ev op0 op0 relin op2 h = tensorStandard ev op0 op1 relin op2 h ∧
    tensoreLowDeg ev level lQMul op0 op0 relin op2 ct0Q1 unused h
      = tensoreLowDeg ev level lQMul op0 op1 relin op2 ct0Q1 ct1Q1 h :=
  ⟨tensorStandard_square ev op0 op1 relin op2 h hne h02 h12 heq,
    tensoreLowDeg_square ev level lQMul op0 op1 relin op2 ct0Q1 ct1Q1 unused h hne h02 h12
      heq hq0 hq1⟩

/-- C33 (witness): the ciphertext at address 0 squared into address 2, against the
product of the ciphertexts at addresses 0 and 1, which have the same content. -/
theorem squaring_shortcut_agrees_witness :
    (0 : Ref) ≠ 1 ∧ (0 : Ref) ≠ 2 ∧ (1 : Ref) ≠ 2 ∧ exHeap 3 3 1 = exHeap 3 3 0 ∧
    (∃ h1, tensorStandard (exEval 97) 0 0 false 2 (exHeap 3 3) = .ok h1 ∧
      (h1 2).Value = [[[97, 2], [102, 10]], [[5, 12], [219, 40]], [[109, 18], [127, 40]]]) ∧
    (tensorStandard (exEval 97) 0 0 false 2 (exHeap 3 3)
      = tensorStandard (exEval 97) 0 1 false 2 (exHeap 3 3) ∧
    tensoreLowDeg (exEval 97) 1 0 0 0 false 2 [[[1, 2]], [[3, 4]], [[0, 0]]] [] (exHeap 3 3)
      = tensoreLowDeg (exEval 97) 1 0 0 1 false 2 [[[1, 2]], [[3, 4]], [[0, 0]]]
          [[[1, 2]], [[3, 4]]] (exHeap 3 3)) :=
  ⟨by decide, by decide, by decide, rfl, ⟨_, rfl, by decide⟩,
    squaring_shortcut_agrees (exEval 97) 1 0 0 1 false 2 [[[1, 2]], [[3, 4]], [[0, 0]]]
      [[[1, 2]], [[3, 4]]] [] (exHeap 3 3) (by decide) (by decide) (by decide) rfl rfl rfl⟩

/-- C34: `Sub(op0, op1, out)` on an `op0` of degree 1 and an `op1` of degree 2 with equal
scales (`T = 97`, chain `[193, 257]`). The call returns with `out[2] = op1[2]`, the
polynomial of `op1` copied as it is, while `0 - op1[2]` is its negation. -/
theorem Sub_copies_higher_polynomial :
    (exHeapAdd 3 3 0).Degree = 1 ∧ (exHeapAdd 3 3 1).Degree = 2 ∧
    (exHeapAdd 3 3 0).MetaData.PlaintextScale = (exHeapAdd 3 3 1).MetaData.PlaintextScale ∧
    getPoly (exHeapAdd 3 3 1) 2 = [[90, 100], [110, 120]] ∧
    (∃ h1, Sub (exEval 97) 0 (.operand 1) 2 (exHeapAdd 3 3) = .ok h1 ∧
      getPoly (h1 2) 2 = [[90, 100], [110, 120]]) ∧
    RingSub (exParams 97).Q 1 (NewPoly 2 1) (getPoly (exHeapAdd 3 3 1) 2) (NewPoly 2 1)
      = [[103, 93], [147, 137]] := by
  refine ⟨by decide, by decide, by decide, by decide, ⟨_, rfl, by decide⟩, by decide⟩

/-- C35: `Rescale(ctIn, ctOut)` on ciphertexts of different degrees, both at level 1
(`T = 97`, chain `[193, 257]`). With `ctIn` of degree 1 and `ctOut` of degree 2 the call
stops on an index out of range; with `ctIn` of degree 2 and `ctOut` of degree 1 it returns
no error and an output of degree 1, the third polynomial of `ctIn` not being rescaled. -/
theorem Rescale_follows_output_degree :
    (exHeapAdd 3 5 0).Degree = 1 ∧ (exHeapAdd 3 5 1).Degree = 2 ∧
    (exHeapAdd 3 5 0).Level = 1 ∧ (exHeapAdd 3 5 1).Level = 1 ∧
    Rescale exBackend (exParams 97) 0 1 (exHeapAdd 3 5) = .panic "index out of range" ∧
    (∃ h1, Rescale exBackend (exParams 97) 1 0 (exHeapAdd 3 5) = .ok (h1, none) ∧
      (h1 0).Degree = 1) := by
  refine ⟨by decide, by decide, by decide, by decide, rfl, ⟨_, rfl, by decide⟩⟩

/-- C36: `MulThenAdd` refines `Mul` on a zero accumulator. For `op0`, `op1` of degree 1
(one ciphertext given twice, or two), `op1` well formed, and a well-formed accumulator
`op2` of degree 2, distinct from both, all of whose coefficients are zero and whose scale
is `op0.scale * op1.scale mod T`, over a chain of non-zero moduli that fit a word:
`MulThenAdd(op0, op1, op2)` and `Mul(op0, op1, op2)` both return, and they leave `op2`
with the same polynomials and the same scale. -/
theorem MulThenAdd_refines_Mul (ev : Evaluator) (op0 op1 op2 : Ref) (h : Heap)
    (h02 : op0 ≠ op2) (h12 : op1 ≠ op2)
    (hwf1 : (h op1).WF ev.parameters.N) (hwf2 : (h op2).WF ev.parameters.N)
    (hd0 : (h op0).Degree = 1) (hd1 : (h op1).Degree = 1) (hd2 : (h op2).Degree = 2)
    (hzero : ∀ pl ∈ (h op2).Value, ∀ row ∈ pl, ∀ x ∈ row, x = 0)
    (hs : (h op2).MetaData.PlaintextScale
      = ((h op0).MetaData.PlaintextScale * (h op1).MetaData.PlaintextScale) % ev.parameters.T)
    (hQ : ∀ q ∈ ev.parameters.Q, 0 < q ∧ q < word) :
    ∃ hA hM, MulThenAdd ev op0 (.operand op1) op2 h = .ok hA ∧
      Mul ev op0 op1 op2 h = .ok hM ∧
      (hA op2).Value = (hM op2).Value ∧
      (hA op2).MetaData.PlaintextScale = (hM op2).MetaData.PlaintextScale := by
  have hQ2 : ∀ q ∈ ev.parameters.Q, 0 < q ∧ q ≤ word := fun q hq =>
    ⟨(hQ q hq).1, Nat.le_of_lt (hQ q hq).2⟩
  have hlen1 : (h op1).Value.length = 2 := by unfold Ciphertext.Degree at hd1; omega
  have hlen2 : (h op2).Value.length = 3 := by unfold Ciphertext.Degree at hd2; omega
  obtain ⟨hD, heq, hother, hval, hscale⟩ :=
    tensorStandard_noRelin_eq ev op0 op1 op2 h hd0 hd1 (by omega)
  rw [if_neg h12] at hscale
  generalize hlv : min (min (h op0).Level (h op1).Level) (h op2).Level = level at *
  have hl1 : level ≤ (h op1).Level := by
    rw [← hlv]; exact le_trans (min_le_left _ _) (min_le_right _ _)
  have hl2 : level ≤ (h op2).Level := by rw [← hlv]; exact min_le_right _ _
  obtain ⟨hRlen, -, -, hRrows, -⟩ := Ciphertext.Resize_spec 2 hwf2 hl2
  rw [prepareOutput_degree_two hd2 hl2] at hval
  -- the destination polynomials: zero rows up to the level
  have hz : ∀ k, k < 3 → ∀ i, i ≤ level →
      i < (getPoly ((h op2).Resize 2 level) k).length →
      rowAt (getPoly ((h op2).Resize 2 level) k) i = List.replicate ev.parameters.N 0 := by
    intro k hk i hi _
    rw [hRrows k i (by omega) (by omega) hi]
    exact Ciphertext.zero_row hwf2 hzero (by omega) (by omega)
  have hb : ∀ k, k < 2 → ∀ i, i ≤ level →
      (rowAt (getPoly (h op1) k) i).length ≤ ev.parameters.N := by
    intro k hk i hi
    exact Nat.le_of_eq (Ciphertext.WF_row hwf1 (by omega) (by omega))
  have hDpoly : ∀ k, getPoly (hD op2) k = getPoly ((h op2).Resize 2 level) k := by
    intro k; unfold getPoly; rw [hval]
  -- the accumulation
  have hcheck : CheckBinary (h op0) (h op1) (h op2) (max (h op0).Degree (h op1).Degree)
      = .ok (max (max (h op0).Degree (h op1).Degree) (h op2).Degree, level) := by
    unfold CheckBinary
    rw [if_neg (by rw [hd0, hd1, hd2]; decide), hlv]
  obtain ⟨hA, hAres, hAmeta, hAlen, a0, a1, a2⟩ :=
    mulRelinThenAddCt_noRelin ev level op0 op1 op2 h h02 h12 hs hRlen
  have hAeq : MulThenAdd ev op0 (.operand op1) op2 h = .ok hA := by
    unfold MulThenAdd mulRelinThenAdd
    simp only [hcheck, Outcome.bind_ok]
    rw [if_neg (by simp [h02, h12]), if_pos ⟨hd0, hd1⟩]
    exact hAres
  -- the product
  have hDlen : 3 ≤ (hD op2).Value.length := by rw [hval, hRlen]
  have hprod : ∃ hM, tensorStandardProducts ev level op0 op1 false op2 hD = .ok hM ∧
      (hM op2).MetaData = (hD op2).MetaData ∧
      (hM op2).Value.length = (hD op2).Value.length ∧
      getPoly (hM op2) 0 = MulCoeffsMontgomery ev.parameters.Q level
        (MulRNSScalarMontgomery ev.parameters.Q level (getPoly (hD op0) 0)
          (tMontgomery ev.parameters) (buffQ ev.parameters))
        (getPoly (hD op1) 0) (getPoly (hD op2) 0) ∧
      getPoly (hM op2) 1 = MulCoeffsMontgomeryThenAdd ev.parameters.Q level
        (MulRNSScalarMontgomery ev.parameters.Q level (getPoly (hD op0) 1)
          (tMontgomery ev.parameters) (buffQ ev.parameters))
        (getPoly (hD op1) 0)
        (MulCoeffsMontgomery ev.parameters.Q level
          (MulRNSScalarMontgomery ev.parameters.Q level (getPoly (hD op0) 0)
            (tMontgomery ev.parameters) (buffQ ev.parameters))
          (getPoly (hD op1) 1) (getPoly (hD op2) 1)) ∧
      getPoly (hM op2) 2 = MulCoeffsMontgomery ev.parameters.Q level
        (MulRNSScalarMontgomery ev.parameters.Q level (getPoly (hD op0) 1)
          (tMontgomery ev.parameters) (buffQ ev.parameters))
        (getPoly (hD op1) 1) (getPoly (hD op2) 2) := by
    by_cases e : op0 = op1
    · subst e
      exact tensorStandardProducts_noRelin_same ev level op0 op2 hD h02 hDlen
    · have := tensorStandardProducts_noRelin ev level op0 op1 op2 hD e hDlen op0 op1
        (by rw [if_neg h12]) (by rw [if_neg h12])
      exact this
  obtain ⟨hM, hMres, hMmeta, hMlen, m0, m1, m2⟩ := hprod
  rw [hother op0 h02, hother op1 h12, hDpoly] at m0 m1 m2
  refine ⟨hA, hM, hAeq, ?_, ?_, ?_⟩
  · unfold Mul; rw [heq]; exact hMres
  · apply value_ext_three hAlen (by rw [hMlen, hval, hRlen])
    · show getPoly (hA op2) 0 = getPoly (hM op2) 0
      rw [a0, m0]
      exact MulCoeffsMontgomeryThenAdd_zero hQ2 level _ _ _ _ (hz 0 (by decide)) (hb 0 (by decide))
    · show getPoly (hA op2) 1 = getPoly (hM op2) 1
      rw [a1, m1]
      rw [MulCoeffsMontgomeryThenAdd_zero hQ2 level _ _ (getPoly (h op1) 1) _
        (hz 1 (by decide)) (hb 1 (by decide))]
    · show getPoly (hA op2) 2 = getPoly (hM op2) 2
      rw [a2, m2]
      exact MulCoeffsMontgomeryThenAdd_zero hQ2 level _ _ _ _ (hz 2 (by decide)) (hb 1 (by decide))
  · rw [hAmeta, hMmeta, hscale, hs]
    rfl

/-- C36 (witness): the product of the ciphertexts at addresses 0 and 1 (`T = 97`, chain
`[193, 257]`, scales 3 and 5) accumulated on the zero ciphertext of scale 15 at address
2, and written over it by `Mul`. -/
theorem MulThenAdd_refines_Mul_witness :
    (∃ hM, Mul (exEval 97) 0 1 2 exHeapAcc = .ok hM ∧
      (hM 2).Value
        = [[[5, 20], [249, 100]], [[50, 120], [134, 143]], [[125, 180], [242, 143]]] ∧
      (hM 2).MetaData.PlaintextScale = 15) ∧
    (∃ hA hM, MulThenAdd (exEval 97) 0 (.operand 1) 2 exHeapAcc = .ok hA ∧
      Mul (exEval 97) 0 1 2 exHeapAcc = .ok hM ∧
      (hA 2).Value = (hM 2).Value ∧
      (hA 2).MetaData.PlaintextScale = (hM 2).MetaData.PlaintextScale) :=
  ⟨⟨_, rfl, by decide, by decide⟩,
    MulThenAdd_refines_Mul (exEval 97) 0 1 2 exHeapAcc (by decide) (by decide) (by decide)
      (by decide) (by decide) (by decide) (by decide) (by decide) (by decide) (by decide)⟩

/-- C37: `MarshalBinaryInPlace` of a metadata with both flags false into a buffer of
`MarshalBinarySize() = 10` bytes that holds ones: the two flag bytes are left as they were,
and `UnmarshalBinaryInPlace` on the buffer recovers both flags as true. -/
theorem MetaData_marshal_keeps_stale_flags :
    exMetaPlain.MarshalBinarySize exScaleCodec = 10 ∧
    exMetaPlain.MarshalBinaryInPlace exScaleCodec (List.replicate 10 1)
      = .ok ((10, none), [3, 0, 0, 0, 0, 0, 0, 0, 1, 1]) ∧
    NewMetaData.UnmarshalBinaryInPlace exScaleCodec [3, 0, 0, 0, 0, 0, 0, 0, 1, 1]
      = .ok ((10, none), { PlaintextScale := 3, IsNTT := true, IsMontgomery := true }) ∧
    exMetaPlain.IsNTT = false ∧ exMetaPlain.IsMontgomery = false := by
  refine ⟨by decide, by decide, by decide, rfl, rfl⟩

/-- C38 (counterexample): on 4 slots, a map with the keys 1 and -3 and the vector
`[5, 6, 7, 8]`. The sum over the keys has `1*6 + 10*6 = 66` in slot 0; `Evaluate` returns
12 there when the index map holds one pair for each key, both being `(0, 1)`, and 6 when
it holds the pair once: the slice under the key -3 is never read. -/
theorem Evaluate_colliding_keys :
    (List.range 4).map (fun x => (exCollidingDiagonals.map (fun e =>
        e.2.getD x 0 * ([5, 6, 7, 8] : List Int).getD
          ((((x : Nat) : Int) + e.1) % ((4 : Nat) : Int)).toNat 0)).sum) = [66, 0, 0, 0] ∧
    Diagonals.Evaluate exCollidingDiagonals [5, 6, 7, 8] newVec addVec muladdVec [(0, [1, 1])]
      = [12, 0, 0, 0] ∧
    Diagonals.Evaluate exCollidingDiagonals [5, 6, 7, 8] newVec addVec muladdVec [(0, [1])]
      = [6, 0, 0, 0] := by
  decide

/-- C38: `Diagonals.Evaluate` computes the diagonal matrix-vector product when no two
keys of the map name the same diagonal. For a vector `v` of length `n = 2^p`, a map `m`
whose keys lie in `(-n, n)` and are pairwise distinct modulo `n`, with slices of `n`
entries, component-wise `add` and `muladd`, and an index map that holds one pair
`(j, i)` with `j + i = k mod n` for every key `k`: `res[x]` is the sum over the keys `k`
of `m[k][x] * v[(x + k) mod n]`; and when `m` is the map built by `GetDiagonals` from
mappings with `From, To < n` and pairwise distinct `To`, `res[To] = Scaling * v[From]`
for every mapping. -/
theorem Diagonals_Evaluate_spec {α : Type} [CommSemiring α] (m : DiagonalEntries α)
    (v : List α) (index : List (Nat × List Nat)) (n p : Nat) (hn : n = 2 ^ p)
    (hv : v.length = n)
    (hrange : ∀ e ∈ m, -(n : Int) < e.1 ∧ e.1 < (n : Int))
    (hlen : ∀ e ∈ m, e.2.length = n)
    (hdist : (m.map (fun e => e.1 % (n : Int))).Nodup)
    (hindex : (indexSums index).Perm (m.map (fun e => (e.1 % (n : Int)).toNat))) :
    Diagonals.Evaluate m v newVec addVec muladdVec index
      = (List.range n).map (fun x => (m.map (fun e =>
          e.2.getD x 0 * v.getD ((((x : Nat) : Int) + e.1) % (n : Int)).toNat 0)).sum) ∧
    ∀ (perm : List (PermutationMapping α)) (d : Diagonals α), p < 63 →
      (∀ pm ∈ perm, pm.To < n) → (∀ pm ∈ perm, pm.From < n) →
      perm.Pairwise (fun a b => a.To ≠ b.To) →
      GetDiagonals perm p 0 = .ok d → m = d.entries n →
      ∀ pm ∈ perm, (Diagonals.Evaluate m v newVec addVec muladdVec index).getD pm.To 0
        = pm.Scaling * v.getD pm.From 0 := by
  refine ⟨Evaluate_distinct_keys m v index n p hn hv hrange hlen hdist hindex, ?_⟩
  intro perm d hp hTo hFrom hpw hd hm
  subst hn
  subst hm
  exact Evaluate_GetDiagonals perm p v index d hp hv hTo hFrom hpw hd
    (by simpa using hindex)

/-- C38 (witness): the diagonals 1, -1 and 2 on 4 slots, the vector `[5, 6, 7, 8]`, and
the index map with the giant steps 0 and 2: slot `x` holds
`v[x+1] + 10*v[x-1] + 100*v[x+2]`. -/
theorem Diagonals_Evaluate_spec_witness :
    (List.range 4).map (fun x => (exDiagonals.map (fun e =>
        e.2.getD x 0 * ([5, 6, 7, 8] : List Int).getD
          ((((x : Nat) : Int) + e.1) % ((4 : Nat) : Int)).toNat 0)).sum)
      = [786, 857, 568, 675] ∧
    (Diagonals.Evaluate exDiagonals [5, 6, 7, 8] newVec addVec muladdVec [(0, [1]), (2, [0, 1])]
      = (List.range 4).map (fun x => (exDiagonals.map (fun e =>
          e.2.getD x 0 * ([5, 6, 7, 8] : List Int).getD
            ((((x : Nat) : Int) + e.1) % ((4 : Nat) : Int)).toNat 0)).sum) ∧
    ∀ (perm : List (PermutationMapping Int)) (d : Diagonals Int), 2 < 63 →
      (∀ pm ∈ perm, pm.To < 4) → (∀ pm ∈ perm, pm.From < 4) →
      perm.Pairwise (fun a b => a.To ≠ b.To) →
      GetDiagonals perm 2 0 = .ok d → exDiagonals = d.entries 4 →
      ∀ pm ∈ perm, (Diagonals.Evaluate exDiagonals [5, 6, 7, 8] newVec addVec muladdVec
          [(0, [1]), (2, [0, 1])]).getD pm.To 0
        = pm.Scaling * ([5, 6, 7, 8] : List Int).getD pm.From 0) :=
  ⟨by decide,
    Diagonals_Evaluate_spec exDiagonals [5, 6, 7, 8] [(0, [1]), (2, [0, 1])] 4 2 (by decide)
      rfl (by decide) (by decide) (by decide) (by decide)⟩

/-- C39: the merge schedule of the homomorphic DFT. For every `logSlots` and every
factorization depth `maxDepth ≥ 1`, for `Encode` and for `Decode`, the slice `merge` filled
with `ceil(level / (maxDepth - i))` has `maxDepth` entries that sum to `logSlots`, the
loop that fills it ends with `level = 0`, and so does the loop that subtracts `merge[i]`
from `logSlots`; the slice of `Decode` is the slice of `Encode` reversed. -/
theorem merge_schedule_sum (encode : Bool) (logSlots maxDepth : Nat) (hd : 1 ≤ maxDepth) :
    (computeMerge encode logSlots maxDepth).2.length = maxDepth ∧
    (computeMerge encode logSlots maxDepth).2.sum = logSlots ∧
    (computeMerge encode logSlots maxDepth).1 = 0 ∧
    runningLevel logSlots (computeMerge encode logSlots maxDepth).2 = 0 ∧
    (computeMerge false logSlots maxDepth).2
      = (computeMerge true logSlots maxDepth).2.reverse := by
  have hrange : List.range maxDepth = List.range' 0 maxDepth := List.range_eq_range' maxDepth
  obtain ⟨r1, r2, r3⟩ := mergeLoop_spec encode maxDepth maxDepth 0 logSlots
    (List.replicate maxDepth 0) (by omega) hd (by simp)
    (by
      intro j _ hj
      simp only [List.getD_eq_getElem?_getD, List.getElem?_replicate]
      split_ifs <;> simp)
  have hsum0 : (List.replicate maxDepth 0).sum = 0 := by simp
  rw [hsum0, Nat.zero_add] at r3
  unfold computeMerge
  rw [hrange]
  refine ⟨r2, r3, r1, ?_, ?_⟩
  · unfold runningLevel
    rw [foldl_sub_sum, r3]; simp
  · obtain ⟨-, l1, l2, hrel⟩ := mergeLoop_mirror maxDepth maxDepth 0 logSlots
      (List.replicate maxDepth 0) (List.replicate maxDepth 0) (by omega) (by simp) (by simp)
      (by
        intro j hj
        simp only [List.getD_eq_getElem?_getD, List.getElem?_replicate]
        have h1 : maxDepth - j - 1 < maxDepth := by omega
        simp [hj, h1])
    apply List.ext_getElem
    · rw [List.length_reverse, l1, l2]
    · intro n h1 h2
      rw [List.getElem_reverse]
      have hn : n < maxDepth := by rw [l2] at h1; exact h1
      have := hrel (maxDepth - n - 1) (by omega)
      rw [show maxDepth - (maxDepth - n - 1) - 1 = n by omega] at this
      rw [List.getD_eq_getElem _ _ (by rw [l1]; omega), List.getD_eq_getElem _ _ h1] at this
      rw [← this]
      congr 1
      rw [l1]
      omega

/-- C39 (witness): 13 layers over the depth 4 of the levels `[2, 2]`: `[4, 3, 3, 3]` for
`Encode`, `[3, 3, 3, 4]` for `Decode`. -/
theorem merge_schedule_sum_witness :
    1 ≤ Depth [2, 2] false ∧
    computeMerge true 13 (Depth [2, 2] false) = (0, [4, 3, 3, 3]) ∧
    computeMerge false 13 (Depth [2, 2] false) = (0, [3, 3, 3, 4]) ∧
    ((computeMerge false 13 (Depth [2, 2] false)).2.length = Depth [2, 2] false ∧
    (computeMerge false 13 (Depth [2, 2] false)).2.sum = 13 ∧
    (computeMerge false 13 (Depth [2, 2] false)).1 = 0 ∧
    runningLevel 13 (computeMerge false 13 (Depth [2, 2] false)).2 = 0 ∧
    (computeMerge false 13 (Depth [2, 2] false)).2
      = (computeMerge true 13 (Depth [2, 2] false)).2.reverse) :=
  ⟨by decide, by decide, by decide,
    merge_schedule_sum false 13 (Depth [2, 2] false) (by decide)⟩

end Bgv
